import Mathlib

/-!
# rl_json: the JSON document engine of `generic/rl_json.c`

A shallow embedding of the value model, the serializer, the path resolver
(`resolve_path`, `JSON_Set`, `unset_path`), the pretty printer, the template
compiler and executor and the parser driver `set_from_any`, followed by the
properties established about them.

Conventions of the embedding

* A Tcl string is a `List Char` (a sequence of Unicode characters).  Where the
  C code measures a string in bytes the embedding computes the UTF-8 byte
  length of the characters.
* A JSON value is the pair `(type, val)` held in `internalRep.ptrAndLongRep`;
  it is the inductive type `Jval`, one constructor per `json_types` tag.
* Reference counts are not part of a value.  The C code duplicates every
  shared node before it writes to it, and the duplicate has the structure of
  the node, so a write is the functional update of the document along the
  path that was followed.  Where `JSON_Set` asks `Tcl_IsShared`, the answers
  are a parameter of the function, since duplicating a JSON null stops the
  process.
* A C function that returns `TCL_ERROR` returns `Except.error` with the text
  left in the interpreter result.
* Memory is not bounded: an allocation never fails.  The length of a Tcl list
  is bounded by the constant `LIST_MAX` of the Tcl library, which is a
  parameter where a list can grow by an amount the caller names.
* A function the source calls and does not contain is modelled from the
  specification; the doc comment of such a definition says so.
-/

namespace RlJson

/-- A Tcl string value. -/
abbrev Str := List Char

/-- The `enum json_types` of `parser.h`. -/
inductive json_types where
  | JSON_UNDEF
  | JSON_OBJECT
  | JSON_ARRAY
  | JSON_STRING
  | JSON_NUMBER
  | JSON_BOOL
  | JSON_NULL
  | JSON_DYN_STRING
  | JSON_DYN_NUMBER
  | JSON_DYN_BOOL
  | JSON_DYN_JSON
  | JSON_DYN_TEMPLATE
  | JSON_DYN_LITERAL
  deriving DecidableEq, Repr

open json_types

/-- The six dynamic (placeholder) tags `JSON_DYN_STRING` .. `JSON_DYN_LITERAL`. -/
inductive dyn_type where
  | DYN_STRING
  | DYN_NUMBER
  | DYN_BOOL
  | DYN_JSON
  | DYN_TEMPLATE
  | DYN_LITERAL
  deriving DecidableEq, Repr

open dyn_type

/-- The `json_types` tag of a dynamic tag. -/
def dyn_type.toType : dyn_type → json_types
  | DYN_STRING => JSON_DYN_STRING
  | DYN_NUMBER => JSON_DYN_NUMBER
  | DYN_BOOL => JSON_DYN_BOOL
  | DYN_JSON => JSON_DYN_JSON
  | DYN_TEMPLATE => JSON_DYN_TEMPLATE
  | DYN_LITERAL => JSON_DYN_LITERAL

/-- The letter `X` of the `~X:` convention for a dynamic tag. -/
def dyn_letter : dyn_type → Char
  | DYN_STRING => 'S'
  | DYN_NUMBER => 'N'
  | DYN_BOOL => 'B'
  | DYN_JSON => 'J'
  | DYN_TEMPLATE => 'T'
  | DYN_LITERAL => 'L'

/-- The table `dyn_prefix[]`: the three characters `~X:`. -/
def dyn_prefix (t : dyn_type) : Str := ['~', dyn_letter t, ':']

/-- A JSON value: the `(type, val)` pair of the internal representation.
An object is a Tcl dict (insertion ordered), an array a Tcl list, a number
keeps its text, a dynamic value keeps the name that follows the `~X:`. -/
inductive Jval where
  | object (val : List (Str × Jval))
  | array (val : List Jval)
  | string (val : Str)
  | number (val : Str)
  | bool (val : Bool)
  | null
  | dyn (type : dyn_type) (val : Str)
  deriving Repr, Inhabited

/-- The tag of a value (`internalRep.ptrAndLongRep.value`). -/
def Jval.type : Jval → json_types
  | .object _ => JSON_OBJECT
  | .array _ => JSON_ARRAY
  | .string _ => JSON_STRING
  | .number _ => JSON_NUMBER
  | .bool _ => JSON_BOOL
  | .null => JSON_NULL
  | .dyn t _ => t.toType

/-- The table `type_names[]`. -/
def type_names : json_types → Str
  | JSON_UNDEF => "undefined".toList
  | JSON_OBJECT => "object".toList
  | JSON_ARRAY => "array".toList
  | JSON_STRING => "string".toList
  | JSON_NUMBER => "number".toList
  | JSON_BOOL => "boolean".toList
  | JSON_NULL => "null".toList
  | JSON_DYN_STRING => "string".toList
  | JSON_DYN_NUMBER => "string".toList
  | JSON_DYN_BOOL => "string".toList
  | JSON_DYN_JSON => "string".toList
  | JSON_DYN_TEMPLATE => "string".toList
  | JSON_DYN_LITERAL => "string".toList

/-- A failure (`TCL_ERROR`): the text left in the interpreter result and the
words given to `Tcl_SetErrorCode`, if any. -/
structure TclError where
  msg : Str
  code : List Str
  deriving DecidableEq, Repr

/-- The C idiom `THROW_ERROR(part, ...)`: the parts are concatenated. -/
def THROW_ERROR {α : Type} (parts : List Str) : Except TclError α :=
  .error ⟨parts.flatten, []⟩

/-- Abnormal termination of the C code (a `Tcl_Panic`, or an access outside an
allocated array or through a null pointer), which the embedding reports as an
error of its own. -/
def crash {α : Type} (why : Str) : Except TclError α :=
  .error ⟨why, ["CRASH".toList]⟩

/-! ## The Tcl dict and list primitives the engine calls -/

/-- `Tcl_DictObjGet`: the value stored under `k`, if any. -/
def Tcl_DictObjGet {α : Type} : List (Str × α) → Str → Option α
  | [], _ => none
  | (k', v) :: rest, k => if k' = k then some v else Tcl_DictObjGet rest k

/-- `Tcl_DictObjPut`: an existing key keeps its position and takes the new
value, a new key is added after the last one. -/
def Tcl_DictObjPut {α : Type} : List (Str × α) → Str → α → List (Str × α)
  | [], k, v => [(k, v)]
  | (k', v') :: rest, k, v =>
    if k' = k then (k', v) :: rest else (k', v') :: Tcl_DictObjPut rest k v

/-- `Tcl_DictObjRemove`: the dict without the key `k`. -/
def Tcl_DictObjRemove {α : Type} : List (Str × α) → Str → List (Str × α)
  | [], _ => []
  | (k', v') :: rest, k =>
    if k' = k then Tcl_DictObjRemove rest k else (k', v') :: Tcl_DictObjRemove rest k

/-- `Tcl_ListObjReplace list first count objc objv`: `count` elements from
`first` on are replaced by `objv`; a negative `first` refers to the front. -/
def Tcl_ListObjReplace {α : Type} (l : List α) (first : Int) (count : Nat) (objv : List α) :
    List α :=
  l.take first.toNat ++ objv ++ l.drop (first.toNat + count)

/-- The keys of a dict are pairwise different, here and in every value below. -/
def Jval.wf : Jval → Bool
  | .object d => wfMembers d && (d.map Prod.fst).Nodup
  | .array l => wfElems l
  | _ => true
where
  /-- Every member value is well formed. -/
  wfMembers : List (Str × Jval) → Bool
    | [] => true
    | (_, v) :: rest => v.wf && wfMembers rest
  /-- Every element is well formed. -/
  wfElems : List Jval → Bool
    | [] => true
    | v :: rest => v.wf && wfElems rest

/-! ## Decidable equality of JSON values -/

/-- Structural comparison of two JSON values. -/
def Jval.beq : Jval → Jval → Bool
  | .object a, .object b => beqMembers a b
  | .array a, .array b => beqElems a b
  | .string a, .string b => a == b
  | .number a, .number b => a == b
  | .bool a, .bool b => a == b
  | .null, .null => true
  | .dyn s a, .dyn t b => s == t && a == b
  | _, _ => false
where
  /-- Comparison of two dicts, member by member. -/
  beqMembers : List (Str × Jval) → List (Str × Jval) → Bool
    | [], [] => true
    | (k, v) :: a, (k', v') :: b => k == k' && v.beq v' && beqMembers a b
    | _, _ => false
  /-- Comparison of two lists, element by element. -/
  beqElems : List Jval → List Jval → Bool
    | [], [] => true
    | v :: a, v' :: b => v.beq v' && beqElems a b
    | _, _ => false

mutual
theorem Jval.beq_sound : ∀ a b : Jval, a.beq b = true → a = b
  | .object a, b => by
    cases b <;> simp [Jval.beq]
    exact Jval.beqMembers_sound a _
  | .array a, b => by
    cases b <;> simp [Jval.beq]
    exact Jval.beqElems_sound a _
  | .string a, b => by cases b <;> simp [Jval.beq]
  | .number a, b => by cases b <;> simp [Jval.beq]
  | .bool a, b => by cases b <;> simp [Jval.beq]
  | .null, b => by cases b <;> simp [Jval.beq]
  | .dyn s a, b => by cases b <;> simp [Jval.beq]
theorem Jval.beqMembers_sound :
    ∀ a b : List (Str × Jval), Jval.beq.beqMembers a b = true → a = b
  | [], b => by cases b <;> simp [Jval.beq.beqMembers]
  | (k, v) :: a, b => by
    cases b with
    | nil => simp [Jval.beq.beqMembers]
    | cons p b =>
      obtain ⟨k', v'⟩ := p
      simp only [Jval.beq.beqMembers, Bool.and_eq_true, beq_iff_eq, List.cons.injEq,
        Prod.mk.injEq]
      rintro ⟨⟨h1, h2⟩, h3⟩
      exact ⟨⟨h1, Jval.beq_sound v v' h2⟩, Jval.beqMembers_sound a b h3⟩
theorem Jval.beqElems_sound : ∀ a b : List Jval, Jval.beq.beqElems a b = true → a = b
  | [], b => by cases b <;> simp [Jval.beq.beqElems]
  | v :: a, b => by
    cases b with
    | nil => simp [Jval.beq.beqElems]
    | cons v' b =>
      simp only [Jval.beq.beqElems, Bool.and_eq_true, List.cons.injEq]
      rintro ⟨h2, h3⟩
      exact ⟨Jval.beq_sound v v' h2, Jval.beqElems_sound a b h3⟩
end

mutual
theorem Jval.beq_refl : ∀ a : Jval, a.beq a = true
  | .object a => by simp only [Jval.beq]; exact Jval.beqMembers_refl a
  | .array a => by simp only [Jval.beq]; exact Jval.beqElems_refl a
  | .string a => by simp [Jval.beq]
  | .number a => by simp [Jval.beq]
  | .bool a => by simp [Jval.beq]
  | .null => by simp [Jval.beq]
  | .dyn s a => by simp [Jval.beq]
theorem Jval.beqMembers_refl : ∀ a : List (Str × Jval), Jval.beq.beqMembers a a = true
  | [] => by simp [Jval.beq.beqMembers]
  | (k, v) :: a => by
    simp only [Jval.beq.beqMembers, Bool.and_eq_true, beq_self_eq_true, true_and]
    exact ⟨Jval.beq_refl v, Jval.beqMembers_refl a⟩
theorem Jval.beqElems_refl : ∀ a : List Jval, Jval.beq.beqElems a a = true
  | [] => by simp [Jval.beq.beqElems]
  | v :: a => by
    simp only [Jval.beq.beqElems, Bool.and_eq_true]
    exact ⟨Jval.beq_refl v, Jval.beqElems_refl a⟩
end

instance : DecidableEq Jval := fun a b =>
  if h : a.beq b = true then isTrue (Jval.beq_sound a b h)
  else isFalse (fun e => h (e ▸ Jval.beq_refl a))

/-! ## A substitution value -/

/-- A Tcl value offered as a substitution: its string representation and what
the conversions the engine applies to it return.  `jval` is the result of
`JSON_GetJvalFromObj`, `number` the result of `[::tcl::mathop::+ 0 value]`
(absent when that command fails), `boolean` the result of
`Tcl_GetBooleanFromObj` (absent when it fails). -/
structure Tcl_Obj where
  bytes : Str
  jval : Except TclError Jval
  number : Option Str
  boolean : Option Bool

/-- The substitution source of a template: `fromdict` is the dict handed to the
command, when there is one; `vars` stands for `Tcl_ObjGetVar2`, the variables
of the calling interpreter. -/
structure subst_source where
  fromdict : Option (List (Str × Tcl_Obj))
  vars : Str → Option Tcl_Obj

/-- The lookup of a name: `Tcl_DictObjGet` in the dict when one was given,
otherwise `Tcl_ObjGetVar2`. -/
def subst_source.fetch (src : subst_source) (name : Str) : Option Tcl_Obj :=
  match src.fromdict with
  | some d => Tcl_DictObjGet d name
  | none => src.vars name

/-- The function `force_json_number`: the value passed through
`::tcl::mathop::+ 0`. -/
def force_json_number (obj : Tcl_Obj) : Option Str := obj.number

/-! ## Serializer -/

/-- The upper case hexadecimal digit of `n < 16`. -/
def hexDigit (n : Nat) : Char :=
  if n < 10 then Char.ofNat (48 + n) else Char.ofNat (55 + n)

/-- What `append_json_string` writes for one character. -/
def escape_char (c : Char) : Str :=
  if c.toNat ≤ 0x1f ∨ c = '\\' ∨ c = '"' then
    if c = '"' then ['\\', '"']
    else if c = '\\' then ['\\', '\\']
    else if c.toNat = 0x8 then ['\\', 'b']
    else if c.toNat = 0xC then ['\\', 'f']
    else if c.toNat = 0xA then ['\\', 'n']
    else if c.toNat = 0xD then ['\\', 'r']
    else if c.toNat = 0x9 then ['\\', 't']
    else ['\\', 'u', '0', '0', hexDigit (c.toNat / 16), hexDigit (c.toNat % 16)]
  else [c]

/-- The function `append_json_string`: the text appended to the buffer. -/
def append_json_string (obj : Str) : Str :=
  '"' :: (obj.flatMap escape_char ++ ['"'])

/-- The `enum serialize_modes`. -/
inductive serialize_modes where
  | SERIALIZE_NORMAL
  | SERIALIZE_TEMPLATE
  deriving DecidableEq, Repr

open serialize_modes

/-- The message of a failed number substitution. -/
def not_a_number_msg (name subst : Str) : Str :=
  "Error substituting value from \"".toList ++ name ++
    "\" into template, not a number: \"".toList ++ subst ++ "\"".toList

/-- The table `from_dyn[]`. -/
def from_dyn : dyn_type → json_types
  | DYN_STRING => JSON_STRING
  | DYN_NUMBER => JSON_NUMBER
  | DYN_BOOL => JSON_BOOL
  | DYN_JSON => JSON_DYN_JSON
  | DYN_TEMPLATE => JSON_DYN_TEMPLATE
  | DYN_LITERAL => JSON_STRING

/-- What the test `l >= 3 && s[0] == '~' && s[2] == ':'` followed by the
`switch (s[1])` makes of an object key, in `serialize_json_val` and in
`template_actions`. -/
inductive key_subst where
  | plain
  | subst (stype : dyn_type) (name : Str)
  | not_allowed
  deriving DecidableEq, Repr

/-- The classification of an object key: `~S:` and `~L:` are substituted,
`~N:`, `~B:`, `~J:` and `~T:` are refused, everything else is an ordinary key. -/
def key_subst_of : Str → key_subst
  | '~' :: c :: ':' :: name =>
    if c = 'S' then .subst DYN_STRING name
    else if c = 'L' then .subst DYN_LITERAL name
    else if c = 'N' ∨ c = 'B' ∨ c = 'J' ∨ c = 'T' then .not_allowed
    else .plain
  | _ => .plain

/-- The function `serialize_json_val` in the mode `SERIALIZE_NORMAL`: the text
appended to the buffer.  In this mode no step of the C function can fail. -/
def serialize_json_val_normal : Jval → Str
  | .string val => append_json_string val
  | .object val => '{' :: (members val true ++ ['}'])
  | .array val => '[' :: (elems val true ++ [']'])
  | .number val => val
  | .bool val => if val then "true".toList else "false".toList
  | .null => "null".toList
  | .dyn type val => append_json_string ( dyn_prefix type ++ val)
where
  /-- The loop over the members of an object; `first` is the C flag. -/
  members : List (Str × Jval) → Bool → Str
    | [], _ => []
    | (k, v) :: rest, first =>
      (if first then [] else [',']) ++ append_json_string k ++ ':' ::
        (serialize_json_val_normal v ++ members rest false)
  /-- The loop over the elements of an array. -/
  elems : List Jval → Bool → Str
    | [], _ => []
    | v :: rest, first =>
      (if first then [] else [',']) ++ serialize_json_val_normal v ++ elems rest false

/-- The function `update_string_rep`: the string representation of a JSON
value is its serialization in the normal mode. -/
def update_string_rep (obj : Jval) : Str := serialize_json_val_normal obj

/-- The branch of `serialize_json_val` for a dynamic tag in the mode
`SERIALIZE_TEMPLATE`.  `sub` is the recursive call on a fetched `~T:` value. -/
def serialize_dyn_template (src : subst_source) (sub : Jval → Except TclError Str)
    (type : dyn_type) (val : Str) : Except TclError Str :=
  if type = DYN_LITERAL then .ok (append_json_string val)
  else
    match src.fetch val with
    | none => .ok "null".toList
    | some subst_val =>
      match type with
      | DYN_JSON =>
        match subst_val.jval with
        | .error e => .error e
        | .ok j => .ok (serialize_json_val_normal j)
      | DYN_TEMPLATE =>
        match subst_val.jval with
        | .error e => .error e
        | .ok j => sub j
      | DYN_NUMBER =>
        match force_json_number subst_val with
        | none => .error ⟨not_a_number_msg val subst_val.bytes, []⟩
        | some forced => .ok forced
      | DYN_BOOL =>
        match subst_val.boolean with
        | none => .error ⟨[], []⟩
        | some b => .ok (if b then "true".toList else "false".toList)
      | _ => .ok (append_json_string subst_val.bytes)

/-- The function `serialize_json_val` in the mode `SERIALIZE_TEMPLATE`. -/
def serialize_json_val_template (src : subst_source) (sub : Jval → Except TclError Str) :
    Jval → Except TclError Str
  | .string val => .ok (append_json_string val)
  | .object val => do
    let body ← members val true
    .ok ('{' :: (body ++ ['}']))
  | .array val => do
    let body ← elems val true
    .ok ('[' :: (body ++ [']']))
  | .number val => .ok val
  | .bool val => .ok (if val then "true".toList else "false".toList)
  | .null => .ok "null".toList
  | .dyn type val => serialize_dyn_template src sub type val
where
  /-- The loop over the members of an object, with the substitution of keys. -/
  members : List (Str × Jval) → Bool → Except TclError Str
    | [], _ => .ok []
    | (k, v) :: rest, first => do
      let key ← (match key_subst_of k with
        | .not_allowed => THROW_ERROR ["Only strings allowed as object keys".toList]
        | .subst stype name => serialize_dyn_template src sub stype name
        | .plain => .ok (append_json_string k))
      let value ← serialize_json_val_template src sub v
      let tail ← members rest false
      .ok ((if first then [] else [',']) ++ key ++ ':' :: (value ++ tail))
  /-- The loop over the elements of an array. -/
  elems : List Jval → Bool → Except TclError Str
    | [], _ => .ok []
    | v :: rest, first => do
      let value ← serialize_json_val_template src sub v
      let tail ← elems rest false
      .ok ((if first then [] else [',']) ++ value ++ tail)

/-- The `template` method: `serialize` in the mode `SERIALIZE_TEMPLATE`.  The
C recursion re-enters the serializer on the value fetched for a `~T:`
placeholder; `fuel` bounds the number of nested re-entries. -/
def serialize_template : Nat → subst_source → Jval → Except TclError Str
  | 0, _, _ => THROW_ERROR ["too many nested evaluations".toList]
  | fuel + 1, src, obj =>
    serialize_json_val_template src (serialize_template fuel src) obj

/-! ## The serializer with its context

The C function `serialize_json_val` is one function for both modes: it appends
to the buffer `scx->ds` and reads, and for a `~J:` placeholder writes, the field
`scx->serialize_mode`.  The definitions below thread that context; the two
functions above are what it computes in each mode (`serialize_json_val_normal_eq`
and `serialize_json_val_template_eq`). -/

/-- The fields of `struct serialize_context` that `serialize_json_val` uses: the
buffer and the mode.  (The dict `fromdict` is part of the `subst_source`.) -/
structure serialize_context where
  ds : Str
  serialize_mode : serialize_modes
  deriving DecidableEq, Repr

/-- The function `Tcl_DStringAppend` on the buffer of the context. -/
def Tcl_DStringAppend (scx : serialize_context) (bytes : Str) : serialize_context :=
  { scx with ds := scx.ds ++ bytes }

/-- The branch of `serialize_json_val` for the six dynamic tags.  `sub` is the
recursive call `serialize_json_val(interp, scx, subst_type, subst_val)` on the
document fetched for a `~J:` or a `~T:` placeholder; the calls with the types
`JSON_STRING`, `JSON_NUMBER`, `JSON_BOOL` and `JSON_NULL` are written out. -/
def serialize_dyn (src : subst_source)
    (sub : serialize_context → Jval → Except TclError serialize_context)
    (scx : serialize_context) (type : dyn_type) (val : Str) :
    Except TclError serialize_context :=
  match scx.serialize_mode with
  | SERIALIZE_NORMAL => .ok (Tcl_DStringAppend scx (append_json_string ( dyn_prefix type ++ val)))
  | SERIALIZE_TEMPLATE =>
    if type = DYN_LITERAL then .ok (Tcl_DStringAppend scx (append_json_string val))
    else
      match src.fetch val with
      | none => .ok (Tcl_DStringAppend scx "null".toList)
      | some subst_val =>
        match type with
        | DYN_JSON =>
          match subst_val.jval with
          | .error e => .error e
          | .ok j =>
            match sub { scx with serialize_mode := SERIALIZE_NORMAL } j with
            | .error e => .error e
            | .ok scx1 => .ok { scx1 with serialize_mode := SERIALIZE_TEMPLATE }
        | DYN_TEMPLATE =>
          match subst_val.jval with
          | .error e => .error e
          | .ok j => sub scx j
        | DYN_NUMBER =>
          match force_json_number subst_val with
          | none => .error ⟨not_a_number_msg val subst_val.bytes, []⟩
          | some forced => .ok (Tcl_DStringAppend scx forced)
        | DYN_BOOL =>
          match subst_val.boolean with
          | none => .error ⟨[], []⟩
          | some b => .ok (Tcl_DStringAppend scx (if b then "true".toList else "false".toList))
        | _ => .ok (Tcl_DStringAppend scx (append_json_string subst_val.bytes))

/-- The function `serialize_json_val`, with the context passed along: the
context after the value was written, or the error. -/
def serialize_json_val_with (src : subst_source)
    (sub : serialize_context → Jval → Except TclError serialize_context) :
    serialize_context → Jval → Except TclError serialize_context
  | scx, .string val => .ok (Tcl_DStringAppend scx (append_json_string val))
  | scx, .object val =>
    match members (Tcl_DStringAppend scx ['{']) val true with
    | .error e => .error e
    | .ok scx1 => .ok (Tcl_DStringAppend scx1 ['}'])
  | scx, .array val =>
    match elems (Tcl_DStringAppend scx ['[']) val true with
    | .error e => .error e
    | .ok scx1 => .ok (Tcl_DStringAppend scx1 [']'])
  | scx, .number val => .ok (Tcl_DStringAppend scx val)
  | scx, .bool val => .ok (Tcl_DStringAppend scx (if val then "true".toList else "false".toList))
  | scx, .null => .ok (Tcl_DStringAppend scx "null".toList)
  | scx, .dyn type val => serialize_dyn src sub scx type val
where
  /-- The loop over the members of an object; `first` is the C flag. -/
  members : serialize_context → List (Str × Jval) → Bool → Except TclError serialize_context
    | scx, [], _ => .ok scx
    | scx, (k, v) :: rest, first =>
      let scx0 := if first then scx else Tcl_DStringAppend scx [',']
      match (match scx0.serialize_mode with
        | SERIALIZE_TEMPLATE =>
          match key_subst_of k with
          | .not_allowed => THROW_ERROR ["Only strings allowed as object keys".toList]
          | .subst stype name => serialize_dyn src sub scx0 stype name
          | .plain => .ok (Tcl_DStringAppend scx0 (append_json_string k))
        | SERIALIZE_NORMAL => .ok (Tcl_DStringAppend scx0 (append_json_string k))) with
      | .error e => .error e
      | .ok scx1 =>
        match serialize_json_val_with src sub (Tcl_DStringAppend scx1 [':']) v with
        | .error e => .error e
        | .ok scx2 => members scx2 rest false
  /-- The loop over the elements of an array. -/
  elems : serialize_context → List Jval → Bool → Except TclError serialize_context
    | scx, [], _ => .ok scx
    | scx, v :: rest, first =>
      match serialize_json_val_with src sub
        (if first then scx else Tcl_DStringAppend scx [',']) v with
      | .error e => .error e
      | .ok scx1 => elems scx1 rest false

/-- The function `serialize_json_val` with its recursion on fetched documents.
A `~T:` placeholder re-enters the serializer in the template mode on the
fetched document, which can hold further `~T:` placeholders: `fuel` bounds the
number of nested re-entries in that mode.  In the normal mode nothing is
fetched, so nothing re-enters. -/
def serialize_json_val : Nat → subst_source → serialize_context → Jval →
    Except TclError serialize_context
  | 0, src, scx, obj =>
    match scx.serialize_mode with
    | SERIALIZE_NORMAL =>
      serialize_json_val_with src
        (fun _ _ => THROW_ERROR ["too many nested evaluations".toList]) scx obj
    | SERIALIZE_TEMPLATE => THROW_ERROR ["too many nested evaluations".toList]
  | fuel + 1, src, scx, obj =>
    serialize_json_val_with src (serialize_json_val fuel src) scx obj

/-- The function `serialize`: the buffer after `serialize_json_val` ran on an
empty buffer in the given mode. -/
def serialize (fuel : Nat) (src : subst_source) (mode : serialize_modes) (obj : Jval) :
    Except TclError Str :=
  match serialize_json_val fuel src ⟨[], mode⟩ obj with
  | .error e => .error e
  | .ok scx => .ok scx.ds

/-! ## Path steps that name an array element -/

/-- The value of a decimal digit. -/
def digit_val (c : Char) : Option Nat :=
  if '0' ≤ c ∧ c ≤ '9' then some (c.toNat - 48) else none

/-- The longest run of decimal digits at the front of a text: their value
(started from `acc`), how many there are, and what follows them. -/
def read_digits : Str → Nat → Nat × Nat × Str
  | [], acc => (acc, 0, [])
  | c :: rest, acc =>
    match digit_val c with
    | some d =>
      let r := read_digits rest (acc * 10 + d)
      (r.1, r.2.1 + 1, r.2.2)
    | none => (acc, 0, c :: rest)

/-- The largest `long` (LP64). -/
def LONG_MAX : Int := 2 ^ 63 - 1

/-- The smallest `long` (LP64). -/
def LONG_MIN : Int := -(2 ^ 63)

/-- The C library `strtol(nptr, &end, 10)` on a text that starts with a sign,
which is how the engine calls it: the value, the text at `end`, and whether
`errno` was set (value out of the range of `long`).  Without a digit after the
sign nothing is converted and `end` is `nptr`. -/
def strtol (nptr : Str) : Int × Str × Bool :=
  match nptr with
  | '-' :: rest =>
    let r := read_digits rest 0
    if r.2.1 = 0 then (0, nptr, false)
    else if -(r.1 : Int) < LONG_MIN then (LONG_MIN, r.2.2, true)
    else (-(r.1 : Int), r.2.2, false)
  | '+' :: rest =>
    let r := read_digits rest 0
    if r.2.1 = 0 then (0, nptr, false)
    else if LONG_MAX < (r.1 : Int) then (LONG_MAX, r.2.2, true)
    else ((r.1 : Int), r.2.2, false)
  | _ =>
    let r := read_digits nptr 0
    if r.2.1 = 0 then (0, nptr, false)
    else if LONG_MAX < (r.1 : Int) then (LONG_MAX, r.2.2, true)
    else ((r.1 : Int), r.2.2, false)

/-- The Tcl library `Tcl_GetLongFromObj` on decimal text: an optional sign and
one or more decimal digits, within the range of `long`.  The other spellings
Tcl reads as an integer (radix prefixes, surrounding blanks) are outside the
model; a text that is no integer at all gives `none`. -/
def Tcl_GetLongFromObj (obj : Str) : Option Int :=
  let body : Str := match obj with
    | '-' :: rest => rest
    | '+' :: rest => rest
    | _ => obj
  let r := read_digits body 0
  if r.2.1 = 0 ∨ r.2.2 ≠ [] then none
  else
    let v : Int := match obj with
      | '-' :: _ => -(r.1 : Int)
      | _ => (r.1 : Int)
    if v < LONG_MIN ∨ LONG_MAX < v then none else some v

/-- The error of an array step that is no index: `resolve_path` names
`end(-integer)?`, the three other readers also name the sign `+`. -/
def index_error (plus : Bool) (step : Str) : TclError :=
  ⟨(if plus then "Expected an integer index or end(+/-integer)?, got ".toList
    else "Expected an integer index or end(-integer)?, got ".toList) ++ step, []⟩

/-- What may follow `end` in a step: nothing, or a sign and an offset read by
`strtol` up to the end of the text without `errno`.  `resolve_path` accepts
only the sign `-` (`plus = false`). -/
def end_offset (plus : Bool) (tail : Str) : Option Int :=
  match tail with
  | [] => some 0
  | c :: _ =>
    if c ≠ '-' ∧ ¬ (plus = true ∧ c = '+') then none
    else if (strtol tail).2.2 = true ∨ (strtol tail).2.1 ≠ [] then none
    else some (strtol tail).1

/-- The value a C `long` (64 bits, two's complement) holds for the integer
`x`: `x` itself within the range of `long`, and `x` wrapped around by `2^64`
outside of it, which is what the addition of the machine leaves. -/
def wrap_long (x : Int) : Int := (x + 2 ^ 63) % 2 ^ 64 - 2 ^ 63

/-- The index an array step names, as computed at the four places that read
one (`resolve_path`, `JSON_Set`, `unset_path` twice): an integer, or `end`
optionally followed by a signed offset.  `resolve_path` accepts only `-` after
`end` (`plus = false`), the other three accept `-` and `+`.  The sum
`index = ac-1; index += strtol(..)` is an addition of two C `long`s. -/
def array_index (plus : Bool) (ac : Nat) (step : Str) : Except TclError Int :=
  match Tcl_GetLongFromObj step with
  | some index => .ok index
  | none =>
    match step with
    | 'e' :: 'n' :: 'd' :: tail =>
      match end_offset plus tail with
      | some offset => .ok (wrap_long ((ac : Int) - 1 + offset))
      | none => .error (index_error plus step)
    | _ => .error (index_error plus step)

/-! ## resolve_path -/

/-- What `resolve_path` hands back: the JSON value reached (`*target`), the
Tcl value computed by a modifier, or, in the `exists` mode, the boolean left
in the interpreter result. -/
inductive Resolved where
  | jval (target : Jval)
  | int (n : Nat)
  | name (s : Str)
  | list (keys : List Str)
  | boolean (b : Bool)
  deriving Repr

/-- The `enum modifiers`. -/
inductive modifiers where
  | MODIFIER_NONE
  | MODIFIER_LENGTH
  | MODIFIER_SIZE
  | MODIFIER_TYPE
  | MODIFIER_KEYS
  deriving DecidableEq, Repr

open modifiers

/-- The error `Tcl_GetIndexFromObj` leaves for a text that is not in the table
of modifier names: the message lists the entries of the table, the empty first
entry left out, and the error code is `TCL LOOKUP INDEX modifier` followed by
the text. -/
def bad_modifier_error (step : Str) : TclError :=
  ⟨"bad modifier \"".toList ++ step ++
    "\": must be ?length, ?size, ?type, or ?keys".toList,
    ["TCL".toList, "LOOKUP".toList, "INDEX".toList, "modifier".toList, step]⟩

/-- The function `get_modifier`: `Tcl_GetIndexFromObj` with `TCL_EXACT` on the
table of modifier names. -/
def get_modifier (modobj : Str) : Except TclError modifiers :=
  if modobj = [] then .ok MODIFIER_NONE
  else if modobj = "?length".toList then .ok MODIFIER_LENGTH
  else if modobj = "?size".toList then .ok MODIFIER_SIZE
  else if modobj = "?type".toList then .ok MODIFIER_TYPE
  else if modobj = "?keys".toList then .ok MODIFIER_KEYS
  else .error (bad_modifier_error modobj)

/-- The character of a decimal digit. -/
def digit_char (d : Nat) : Char := Char.ofNat (48 + d)

/-- The decimal digits of `n` put in front of `acc`; `fuel` bounds the number
of digits. -/
def decimal_aux : Nat → Nat → Str → Str
  | 0, _, acc => acc
  | fuel + 1, n, acc =>
    if n < 10 then digit_char n :: acc
    else decimal_aux fuel (n / 10) (digit_char (n % 10) :: acc)

/-- The decimal text of a natural number (`Tcl_GetString(Tcl_NewIntObj(n))`). -/
def int_string (n : Nat) : Str := decimal_aux (n + 1) n []

/-- The count `Tcl_GetCharLength` of Tcl 8.6 gives for a value: the number of
`Tcl_UniChar`s of its text.  A `Tcl_UniChar` is 16 bits wide, so a character
above U+FFFF is held as a surrogate pair and counts as two. -/
def Tcl_GetCharLength : Str → Nat
  | [] => 0
  | c :: rest => (if c.toNat < 65536 then 1 else 2) + Tcl_GetCharLength rest

/-- The `switch (modifier)` of `resolve_path`, applied to the node the walk
has reached. -/
def apply_modifier (exists_ : Bool) (step : Str) (target : Jval) (modifier : modifiers) :
    Except TclError Resolved :=
  let unsupported : Except TclError Resolved :=
    if exists_ then .ok (.boolean false)
    else THROW_ERROR [step, " modifier is not supported for type ".toList,
      type_names target.type]
  match modifier with
  | MODIFIER_LENGTH =>
    match target with
    | .array val => if exists_ then .ok (.boolean true) else .ok (.int val.length)
    | .string val =>
      if exists_ then .ok (.boolean true) else .ok (.int (Tcl_GetCharLength val))
    | .dyn _ val =>
      if exists_ then .ok (.boolean true) else .ok (.int (Tcl_GetCharLength val + 3))
    | _ => unsupported
  | MODIFIER_SIZE =>
    match target with
    | .object val => if exists_ then .ok (.boolean true) else .ok (.int val.length)
    | _ => unsupported
  | MODIFIER_TYPE =>
    if exists_ then .ok (.boolean true) else .ok (.name (type_names target.type))
  | MODIFIER_KEYS =>
    match target with
    | .object val =>
      if exists_ then .ok (.boolean true) else .ok (.list (val.map Prod.fst))
    | _ => unsupported
  | MODIFIER_NONE => THROW_ERROR ["Unhandled modifier type: ".toList, int_string 0]

/-- One descent of `resolve_path` (the `switch (type)` of the loop body): the
node under `step`, or in the `exists` mode possibly the final answer. -/
def resolve_step (pathc : Nat) (exists_ : Bool) (target : Jval) (step : Str) :
    Except TclError (Jval ⊕ Bool) :=
  match target with
  | .object val =>
    match Tcl_DictObjGet val step with
    | none =>
      if exists_ then .ok (.inr false)
      else THROW_ERROR ["Path element ".toList, int_string (pathc + 1), ": \"".toList, step,
        "\" not found".toList]
    | some t => .ok (.inl t)
  | .array val =>
    match array_index false val.length step with
    | .error e => .error e
    | .ok index =>
      if index < 0 ∨ (val.length : Int) ≤ index then
        if exists_ then .ok (.inr false) else .ok (.inl .null)
      else .ok (.inl (val.getD index.toNat .null))
  | _ =>
    if exists_ then .ok (.inr false)
    else THROW_ERROR ["Cannot descend into atomic type \"".toList, type_names target.type,
      "\" with path element ".toList, int_string pathc, ": \"".toList, step, "\"".toList]

/-- The function `resolve_path`, started at the node `src` with the steps that
remain; `pathc` is the length of the whole path (it appears in messages). -/
def resolve_path (pathc : Nat) (exists_ : Bool) : Jval → List Str → Except TclError Resolved
  | target, [] =>
    if exists_ then .ok (.boolean (target.type ≠ JSON_NULL)) else .ok (.jval target)
  | target, [step] =>
    match step with
    | '?' :: '?' :: tail =>
      match resolve_step pathc exists_ target ('?' :: tail) with
      | .error e => .error e
      | .ok (.inr b) => .ok (.boolean b)
      | .ok (.inl t) => resolve_path pathc exists_ t []
    | '?' :: _ =>
      match get_modifier step with
      | .error e => .error e
      | .ok modifier => apply_modifier exists_ step target modifier
    | _ =>
      match resolve_step pathc exists_ target step with
      | .error e => .error e
      | .ok (.inr b) => .ok (.boolean b)
      | .ok (.inl t) => resolve_path pathc exists_ t []
  | target, step :: rest =>
    match resolve_step pathc exists_ target step with
    | .error e => .error e
    | .ok (.inr b) => .ok (.boolean b)
    | .ok (.inl t) => resolve_path pathc exists_ t rest

/-- The `get`/`extract` reading of a path: `resolve_path` with `exists` off. -/
def json_get (doc : Jval) (path : List Str) : Except TclError Resolved :=
  resolve_path path.length false doc path

/-- The `exists` method: true without a path, otherwise `resolve_path` with
`exists` on. -/
def json_exists (doc : Jval) (path : List Str) : Except TclError Resolved :=
  if path = [] then .ok (.boolean true) else resolve_path path.length true doc path

/-! ## JSON_Set and unset_path -/

/-- The message of `JSON_Set` and `unset_path` for a step into an atomic value. -/
def atomic_index_error {α : Type} (type : json_types) (step : Str) : Except TclError α :=
  THROW_ERROR ["Attempt to index into atomic type ".toList, type_names type,
    " at path key \"".toList, step, "\"".toList]

/-- The limit of the length of a Tcl list.  `LIST_MAX` is a constant of the Tcl
library, and `too_long` is the error `Tcl_ListObjAppendElement` and
`Tcl_ListObjReplace` leave when a list would grow beyond it; neither is in the
source, both are parameters.  The length of a list is a C `int`, so the limit
is below `2^31`. -/
structure list_limit where
  LIST_MAX : Nat
  too_long : TclError
  int_range : LIST_MAX < 2 ^ 31

/-- The limit of Tcl 8.6 where a pointer has 8 bytes:
`1 + (UINT_MAX - sizeof(List)) / sizeof(Tcl_Obj*)`, with the error Tcl words
for it. -/
def tcl86_lists : list_limit :=
  ⟨536870909,
    ⟨"max length of a Tcl list (536870909 elements) exceeded".toList,
      ["TCL".toList, "MEMORY".toList]⟩,
    by decide⟩

/-- The abnormal termination in `dup_internal_rep`. -/
def null_crash : TclError :=
  ⟨"dup_internal_rep reads the inner value of a JSON null".toList, ["CRASH".toList]⟩

/-- The function `dup_internal_rep`, which `Tcl_DuplicateObj` calls for a JSON
value: the duplicate has the structure of the value.  The function hands the
inner value `src->internalRep.ptrAndLongRep.ptr` to `Tcl_DuplicateObj` and
reads its `typePtr`; for a JSON null the inner value is `NULL`, and the
process stops there. -/
def dup_internal_rep (src : Jval) : Except TclError Jval :=
  match src with
  | .null => .error null_crash
  | _ => .ok src

/-- The statement `if (Tcl_IsShared(target)) target = Tcl_DuplicateObj(target)`
of `JSON_Set`; `shared` is the answer of `Tcl_IsShared`. -/
def unshare (shared : Bool) (target : Jval) : Except TclError Jval :=
  if shared = true then dup_internal_rep target else .ok target

/-- The function `JSON_Set`.  `srcvar` is the value of the variable, if it is
set; the result is the value the variable holds afterwards (also the
interpreter result).  `walk` is the first loop together with the label
`set_val`, `create` the loop after the label `followed_path`; the first
argument of `walk` is the loop variable `i`, the number of steps taken.  The
reference counts are not part of a value: `shared i` is what `Tcl_IsShared`
answers for the value reached after `i` steps (`shared 0` for the value of
the variable).  `lim` is the limit of the length of a Tcl list. -/
def JSON_Set (lim : list_limit) (shared : Nat → Bool) (srcvar : Option Jval)
    (pathv : List Str) (replacement : Jval) : Except TclError Jval :=
  match unshare (shared 0) (srcvar.getD (.object [])) with
  | .error e => .error e
  | .ok src => walk 0 src pathv
where
  /-- The remaining path elements become nested object keys; the innermost
  value takes the replacement. -/
  create : List Str → Jval
    | [] => replacement
    | step :: rest => .object (Tcl_DictObjPut [] step (create rest))
  /-- The walk along the part of the path that exists. -/
  walk : Nat → Jval → List Str → Except TclError Jval
    | _, _, [] => .ok replacement
    | i, .object val, step :: rest =>
      match Tcl_DictObjGet val step with
      | none => .ok (.object (Tcl_DictObjPut val step (create rest)))
      | some target =>
        match unshare (shared (i + 1)) target with
        | .error e => .error e
        | .ok target =>
          match walk (i + 1) target rest with
          | .error e => .error e
          | .ok t => .ok (.object (Tcl_DictObjPut val step t))
    | i, .array val, step :: rest =>
      match array_index true val.length step with
      | .error e => .error e
      | .ok index =>
        if index < 0 then
          if val.length < lim.LIST_MAX then
            .ok (.array (Tcl_ListObjReplace val (-1) 0 [create rest]))
          else .error lim.too_long
        else if (val.length : Int) ≤ index then
          if index < (lim.LIST_MAX : Int) then
            .ok (.array (val ++ List.replicate (index.toNat - val.length) .null ++ [create rest]))
          else .error lim.too_long
        else
          match unshare (shared (i + 1)) (val.getD index.toNat .null) with
          | .error e => .error e
          | .ok target =>
            match walk (i + 1) target rest with
            | .error e => .error e
            | .ok t => .ok (.array (Tcl_ListObjReplace val index 1 [t]))
    | _, target, step :: _ => atomic_index_error target.type step

/-- The text of a Tcl list of path elements (`Tcl_GetString(Tcl_NewListObj(..))`)
for elements that need no quoting: the elements separated by one blank. -/
def list_string (objv : List Str) : Str :=
  (objv.intersperse [' ']).flatten

/-- The label `bad_path` of `unset_path`: the error code carries the path up
to and including the step that failed. -/
def bad_path {α : Type} (failed : List Str) : Except TclError α :=
  .error ⟨"Path element \"".toList ++ list_string failed ++ "\" doesn't exist".toList,
    ["RL".toList, "JSON".toList, "BAD_PATH".toList, list_string failed]⟩

/-- The function `unset_path`.  `srcvar` is the value of the variable, if it is
set.  `done` holds the steps already followed, for the error code. -/
def unset_path (srcvar : Option Jval) (pathv : List Str) : Except TclError Jval :=
  match srcvar with
  | none => THROW_ERROR ["can't read variable: no such variable".toList]
  | some src => if pathv = [] then .ok src else walk src pathv []
where
  /-- The loop over `pathv[0 .. pathc-2]`, then the removal named by the last step. -/
  walk : Jval → List Str → List Str → Except TclError Jval
    | target, [], _ => .ok target
    | .object val, [step], _ => .ok (.object (Tcl_DictObjRemove val step))
    | .array val, [step], _ =>
      match array_index true val.length step with
      | .error e => .error e
      | .ok index =>
        if index < 0 then .ok (.array val)
        else if (val.length : Int) ≤ index then .ok (.array val)
        else .ok (.array (Tcl_ListObjReplace val index 1 []))
    | target, [step], done =>
      .error ⟨"Attempt to index into atomic type ".toList ++ type_names target.type ++
          " at path \"".toList ++ list_string (done ++ [step]) ++ "\"".toList,
        ["RL".toList, "JSON".toList, "BAD_PATH".toList, list_string (done ++ [step])]⟩
    | .object val, step :: rest, done =>
      match Tcl_DictObjGet val step with
      | none => bad_path (done ++ [step])
      | some target =>
        match walk target rest (done ++ [step]) with
        | .error e => .error e
        | .ok t => .ok (.object (Tcl_DictObjPut val step t))
    | .array val, step :: rest, done =>
      match array_index true val.length step with
      | .error e => .error e
      | .ok index =>
        if index < 0 then bad_path (done ++ [step])
        else if (val.length : Int) ≤ index then bad_path (done ++ [step])
        else
          match walk (val.getD index.toNat .null) rest (done ++ [step]) with
          | .error e => .error e
          | .ok t => .ok (.array (Tcl_ListObjReplace val index 1 [t]))
    | target, step :: _, _ => atomic_index_error target.type step

/-- The function `unset_path` as it acts on the value of the variable.  The C
code works in place on that value, so the variable holds afterwards whatever
the walk has written, whether the call returns `TCL_OK` or `TCL_ERROR`: the
result is that value together with the error, if any.  On the way down the
walk stores the child it descends into back where it was (an unshared
duplicate of it), and what is done below happens inside that child. -/
def unset_path_var (src : Jval) (pathv : List Str) : Jval × Option TclError :=
  walk src pathv []
where
  /-- The loop over `pathv[0 .. pathc-2]`, then the removal named by the last step. -/
  walk : Jval → List Str → List Str → Jval × Option TclError
    | target, [], _ => (target, none)
    | .object val, [step], _ => (.object (Tcl_DictObjRemove val step), none)
    | .array val, [step], _ =>
      match array_index true val.length step with
      | .error e => (.array val, some e)
      | .ok index =>
        if index < 0 then (.array val, none)
        else if (val.length : Int) ≤ index then (.array val, none)
        else (.array (Tcl_ListObjReplace val index 1 []), none)
    | target, [step], done =>
      (target, some ⟨"Attempt to index into atomic type ".toList ++ type_names target.type ++
          " at path \"".toList ++ list_string (done ++ [step]) ++ "\"".toList,
        ["RL".toList, "JSON".toList, "BAD_PATH".toList, list_string (done ++ [step])]⟩)
    | .object val, step :: rest, done =>
      match Tcl_DictObjGet val step with
      | none =>
        (.object val,
          some ⟨"Path element \"".toList ++ list_string (done ++ [step]) ++
              "\" doesn't exist".toList,
            ["RL".toList, "JSON".toList, "BAD_PATH".toList, list_string (done ++ [step])]⟩)
      | some target =>
        let below := walk target rest (done ++ [step])
        (.object (Tcl_DictObjPut val step below.1), below.2)
    | .array val, step :: rest, done =>
      match array_index true val.length step with
      | .error e => (.array val, some e)
      | .ok index =>
        if index < 0 ∨ (val.length : Int) ≤ index then
          (.array val,
            some ⟨"Path element \"".toList ++ list_string (done ++ [step]) ++
                "\" doesn't exist".toList,
              ["RL".toList, "JSON".toList, "BAD_PATH".toList, list_string (done ++ [step])]⟩)
        else
          let below := walk (val.getD index.toNat .null) rest (done ++ [step])
          (.array (Tcl_ListObjReplace val index 1 [below.1]), below.2)
    | target, step :: _, _ =>
      (target, some ⟨"Attempt to index into atomic type ".toList ++ type_names target.type ++
        " at path key \"".toList ++ step ++ "\"".toList, []⟩)

instance : DecidableEq Resolved := fun a b =>
  match a, b with
  | .jval x, .jval y => if h : x = y then isTrue (by rw [h]) else isFalse (by simpa using h)
  | .int x, .int y => if h : x = y then isTrue (by rw [h]) else isFalse (by simpa using h)
  | .name x, .name y => if h : x = y then isTrue (by rw [h]) else isFalse (by simpa using h)
  | .list x, .list y => if h : x = y then isTrue (by rw [h]) else isFalse (by simpa using h)
  | .boolean x, .boolean y => if h : x = y then isTrue (by rw [h]) else isFalse (by simpa using h)
  | .jval _, .int _ | .jval _, .name _ | .jval _, .list _ | .jval _, .boolean _
  | .int _, .jval _ | .int _, .name _ | .int _, .list _ | .int _, .boolean _
  | .name _, .jval _ | .name _, .int _ | .name _, .list _ | .name _, .boolean _
  | .list _, .jval _ | .list _, .int _ | .list _, .name _ | .list _, .boolean _
  | .boolean _, .jval _ | .boolean _, .int _ | .boolean _, .name _ | .boolean _, .list _ =>
    isFalse (by simp)

instance {ε α : Type} [DecidableEq ε] [DecidableEq α] : DecidableEq (Except ε α) := fun a b =>
  match a, b with
  | .ok x, .ok y => if h : x = y then isTrue (by rw [h]) else isFalse (by simpa using h)
  | .error x, .error y => if h : x = y then isTrue (by rw [h]) else isFalse (by simpa using h)
  | .ok _, .error _ => isFalse (by simp)
  | .error _, .ok _ => isFalse (by simp)

/-! ## Side conditions of the path round trips -/

/-- The last step of a path does not begin with `?` (`resolve_path` reads such
a last step as a modifier or as an escaped step, `JSON_Set` and `unset_path`
read it as it stands). -/
def last_step_plain : List Str → Bool
  | [] => true
  | [step] => step.head? ≠ some '?'
  | _ :: rest => last_step_plain rest

/-- Along the part of the path that exists in `src`, every step that addresses
an array is an index that `resolve_path` reads (an integer, `end` or `end-N`)
and is not negative. -/
def index_steps_readable : Jval → List Str → Bool
  | .object val, step :: rest =>
    match Tcl_DictObjGet val step with
    | none => true
    | some target => index_steps_readable target rest
  | .array val, step :: rest =>
    match array_index false val.length step with
    | .error _ => false
    | .ok index =>
      decide (0 ≤ index) &&
        (if index < (val.length : Int) then
          index_steps_readable (val.getD index.toNat .null) rest
        else true)
  | _, _ => true

/-- The node that holds the last step of the path is an object (the path is
followed as `resolve_path` follows it). -/
def last_step_in_object : Jval → List Str → Bool
  | _, [] => false
  | .object _, [_] => true
  | _, [_] => false
  | target, step :: rest =>
    match resolve_step 0 true target step with
    | .ok (.inl t) => last_step_in_object t rest
    | _ => false

/-! ## Pretty printer -/

/-- The number of bytes Tcl stores for a character: UTF-8, with the null
character stored in two bytes. -/
def utf_size (c : Char) : Nat := if c.toNat = 0 then 2 else c.utf8Size

/-- The length in bytes of a Tcl string (the `length` that
`Tcl_GetStringFromObj` reports). -/
def byte_length (s : Str) : Nat := (s.map utf_size).sum

/-- The first loop of `json_pretty` over the keys of an object: the greatest
key length (in bytes) among the keys of at most 20 bytes. -/
def key_max (val : List (Str × Jval)) : Nat :=
  val.foldl (fun max kv =>
    if byte_length kv.1 ≤ 20 ∧ byte_length kv.1 > max then byte_length kv.1 else max) 0

/-- The function `json_pretty`: the text appended to the buffer for the value
`json`, with the indent unit `indent` and the accumulated indent `pad`. -/
def json_pretty (indent pad : Str) : Jval → Str
  | .object val =>
    if val.length = 0 then ['{', '}']
    else
      let max := if key_max val > 20 then 20 else key_max val
      '{' :: '\n' :: (members (pad ++ indent) max val ++ pad ++ ['}'])
  | .array val =>
    if val.length = 0 then ['[', ']']
    else '[' :: '\n' :: (elems (pad ++ indent) val ++ pad ++ [']'])
  | json => serialize_json_val_normal json
where
  /-- The second loop over the members of an object. -/
  members (next_pad : Str) (max : Nat) : List (Str × Jval) → Str
    | [] => []
    | (k, v) :: rest =>
      next_pad ++ append_json_string k ++ [':', ' '] ++
        (if byte_length k < max then List.replicate (max - byte_length k) ' ' else []) ++
        json_pretty indent next_pad v ++
        (if rest.length ≠ 0 then [',', '\n'] else ['\n']) ++ members next_pad max rest
  /-- The loop over the elements of an array. -/
  elems (next_pad : Str) : List Jval → Str
    | [] => []
    | v :: rest =>
      next_pad ++ json_pretty indent next_pad v ++
        (if rest.length ≠ 0 then [',', '\n'] else ['\n']) ++ elems next_pad rest

/-- The length in bytes of the longest key of an object. -/
def longest_key (val : List (Str × Jval)) : Nat :=
  (val.map fun kv => byte_length kv.1).foldr Nat.max 0

/-- A character that `append_json_string` copies as it is. -/
def plain_char (c : Char) : Prop := ¬ (c.toNat ≤ 0x1f ∨ c = '\\' ∨ c = '"')

/-! ## Template compiler -/

/-- The `enum action_opcode` (the names are those of `action_opcode_str`). -/
inductive action_opcode where
  | NOP
  | ALLOCATE_SLOTS
  | ALLOCATE_STACK
  | FETCH_VALUE
  | JVAL_LITERAL
  | JVAL_STRING
  | JVAL_NUMBER
  | JVAL_BOOLEAN
  | JVAL_JSON
  | FILL_SLOT
  | EVALUATE_TEMPLATE
  | CX_OBJ_KEY
  | CX_ARR_IDX
  | POP_CX
  | REPLACE_VAL
  | REPLACE_KEY
  deriving DecidableEq, Repr

open action_opcode

/-- The operand that follows an opcode in the action list: the empty value
(`l->tcl_empty`, written for a C `NULL`), a text (a key or a name) or an
integer (a slot, an array index, a number of levels). -/
inductive operand where
  | empty
  | text (s : Str)
  | int (n : Nat)
  deriving DecidableEq, Repr

/-- `Tcl_GetIntFromObj` on an operand. -/
def operand.toInt : operand → Option Nat
  | .int n => some n
  | .text s =>
    match Tcl_GetLongFromObj s with
    | some i => if 0 ≤ i then some i.toNat else none
    | none => none
  | .empty => none

/-- The string value of an operand, as a dict key. -/
def operand.toStr : operand → Str
  | .int n => int_string n
  | .text s => s
  | .empty => []

/-- One instruction of the tape: two consecutive elements of the action list. -/
abbrev action := action_opcode × operand

/-- The `struct template_cx`.  `map` is the dict of dicts from a name and a type
to the slot allocated for them. -/
structure template_cx where
  map : List ((Str × dyn_type) × Nat)
  actions : List action
  slots_used : Nat
  deriving Repr

/-- The function `prev_opcode`: the opcode of the last instruction, `NOP` for an
empty list. -/
def prev_opcode (cx : template_cx) : action_opcode :=
  match cx.actions.getLast? with
  | none => NOP
  | some a => a.1

/-- The function `emit_action`.  A `POP_CX` right after a `CX_OBJ_KEY` or a
`CX_ARR_IDX` removes that instruction instead, and right after a `POP_CX` it
adds one to the count of that instruction. -/
def emit_action (cx : template_cx) (opcode : action_opcode) (value : operand) :
    Except TclError template_cx :=
  if opcode = POP_CX ∧ (prev_opcode cx = CX_OBJ_KEY ∨ prev_opcode cx = CX_ARR_IDX) then
    .ok { cx with actions := cx.actions.dropLast }
  else if opcode = POP_CX ∧ prev_opcode cx = POP_CX then
    match cx.actions.getLast? with
    | some (_, depthobj) =>
      match depthobj.toInt with
      | some depth => .ok { cx with actions := cx.actions.dropLast ++ [(POP_CX, .int (depth + 1))] }
      | none => THROW_ERROR ["expected integer but got \"".toList, depthobj.toStr, "\"".toList]
    | none => .ok cx
  else .ok { cx with actions := cx.actions ++ [(opcode, value)] }

/-- Lookup of a name and a type in the slot map. -/
def map_get : List ((Str × dyn_type) × Nat) → Str → dyn_type → Option Nat
  | [], _, _ => none
  | ((n, t), slot) :: rest, elem, type =>
    if n = elem ∧ t = type then some slot else map_get rest elem type

/-- The instructions that fill a slot: fetch the value and coerce it according
to the type of the placeholder. -/
def slot_population (elem : Str) (subst_type : dyn_type) (slot : Nat) : List action :=
  match subst_type with
  | DYN_LITERAL => [(JVAL_LITERAL, .text elem), (FILL_SLOT, .int slot)]
  | DYN_STRING => [(FETCH_VALUE, .text elem), (JVAL_STRING, .empty), (FILL_SLOT, .int slot)]
  | DYN_JSON => [(FETCH_VALUE, .text elem), (JVAL_JSON, .empty), (FILL_SLOT, .int slot)]
  | DYN_TEMPLATE =>
    [(FETCH_VALUE, .text elem), (EVALUATE_TEMPLATE, .empty), (JVAL_JSON, .empty),
      (FILL_SLOT, .int slot)]
  | DYN_NUMBER => [(FETCH_VALUE, .text elem), (JVAL_NUMBER, .empty), (FILL_SLOT, .int slot)]
  | DYN_BOOL => [(FETCH_VALUE, .text elem), (JVAL_BOOLEAN, .empty), (FILL_SLOT, .int slot)]

/-- The loop `emit_action` over a list of instructions none of which is a
`POP_CX`. -/
def emit_actions (cx : template_cx) : List action → Except TclError template_cx
  | [] => .ok cx
  | a :: rest =>
    match emit_action cx a.1 a.2 with
    | .error e => .error e
    | .ok cx' => emit_actions cx' rest

/-- The function `get_subst_slot`: the slot of the pair (name, type).  A pair
met for the first time takes the next slot and the instructions that fill it
are emitted. -/
def get_subst_slot (cx : template_cx) (elem : Str) (subst_type : dyn_type) :
    Except TclError (template_cx × Nat) :=
  match map_get cx.map elem subst_type with
  | some slot => .ok (cx, slot)
  | none =>
    let slot := cx.slots_used
    let cx1 : template_cx :=
      { cx with map := cx.map ++ [((elem, subst_type), slot)], slots_used := cx.slots_used + 1 }
    match emit_actions cx1 (slot_population elem subst_type slot) with
    | .error e => .error e
    | .ok cx2 => .ok (cx2, slot)

/-- The function `template_actions`: the walk over the template that emits the
instructions.  (The arguments `path`, `parent` and `elem` of the C function
only feed commented-out code.) -/
def template_actions (cx : template_cx) : Jval → Except TclError template_cx
  | .string _ => .ok cx
  | .number _ => .ok cx
  | .bool _ => .ok cx
  | .null => .ok cx
  | .object val => members cx val
  | .array val => elems cx 0 val
  | .dyn type val =>
    match get_subst_slot cx val type with
    | .error e => .error e
    | .ok (cx1, slot) => emit_action cx1 REPLACE_VAL (.int slot)
where
  /-- The loop over the members of an object. -/
  members (cx : template_cx) : List (Str × Jval) → Except TclError template_cx
    | [] => .ok cx
    | (k, v) :: rest =>
      match emit_action cx CX_OBJ_KEY (.text k) with
      | .error e => .error e
      | .ok cx1 =>
        match template_actions cx1 v with
        | .error e => .error e
        | .ok cx2 =>
          match (match key_subst_of k with
            | .not_allowed => THROW_ERROR ["Only strings allowed as object keys".toList]
            | .plain => .ok cx2
            | .subst stype name =>
              match get_subst_slot cx2 name stype with
              | .error e => .error e
              | .ok (cx3, slot) => emit_action cx3 REPLACE_KEY (.int slot)) with
          | .error e => .error e
          | .ok cx4 =>
            match emit_action cx4 POP_CX (.int 1) with
            | .error e => .error e
            | .ok cx5 => members cx5 rest
  /-- The loop over the elements of an array; `i` is the index of the first. -/
  elems (cx : template_cx) (i : Nat) : List Jval → Except TclError template_cx
    | [] => .ok cx
    | v :: rest =>
      match emit_action cx CX_ARR_IDX (.int i) with
      | .error e => .error e
      | .ok cx1 =>
        match template_actions cx1 v with
        | .error e => .error e
        | .ok cx2 =>
          match emit_action cx2 POP_CX (.int 1) with
          | .error e => .error e
          | .ok cx3 => elems cx3 (i + 1) rest

/-- The replay of `build_template_actions` that finds the greatest depth of the
container stack: `(depth, maxdepth)` after the instructions. -/
def max_depth : List action → Nat × Nat → Nat × Nat
  | [], s => s
  | (opcode, value) :: rest, (depth, maxdepth) =>
    if opcode = CX_OBJ_KEY ∨ opcode = CX_ARR_IDX then
      max_depth rest (depth + 1, if depth + 1 > maxdepth then depth + 1 else maxdepth)
    else if opcode = POP_CX then
      max_depth rest (depth - (value.toInt.getD 0), maxdepth)
    else max_depth rest (depth, maxdepth)

/-- The function `build_template_actions`: the tape of a template. -/
def build_template_actions (template : Jval) : Except TclError (List action) :=
  match template_actions ⟨[], [], 0⟩ template with
  | .error e => .error e
  | .ok cx =>
    let trimmed : List action :=
      if prev_opcode cx = POP_CX then cx.actions.dropLast else cx.actions
    if cx.slots_used ≠ 0 then
      let with_slots : List action := (ALLOCATE_SLOTS, .int cx.slots_used) :: trimmed
      .ok ((ALLOCATE_STACK, .int (max_depth with_slots (1, 1)).2) :: with_slots)
    else .ok trimmed

/-! ## Template executor -/

/-- The JSON value built from a text where a string is expected (the opcode
`JVAL_STRING`, as the `string` constructor of `new_json_value_from_list`): a
text that begins with `~X:` for one of the six letters is the dynamic value of
that type, any other text is a string. -/
def string_jval (str : Str) : Jval :=
  match str with
  | '~' :: c :: ':' :: name =>
    if c = 'S' then .dyn DYN_STRING name
    else if c = 'N' then .dyn DYN_NUMBER name
    else if c = 'B' then .dyn DYN_BOOL name
    else if c = 'J' then .dyn DYN_JSON name
    else if c = 'T' then .dyn DYN_TEMPLATE name
    else if c = 'L' then .dyn DYN_LITERAL name
    else .string str
  | _ => .string str

/-- The Tcl value that holds a JSON value (the result of a nested template).
Its views as a number and as a boolean are not consulted by the instructions
the compiler emits after `EVALUATE_TEMPLATE` and are left absent. -/
def Tcl_Obj.ofJval (v : Jval) : Tcl_Obj :=
  { bytes := update_string_rep v, jval := .ok v, number := none, boolean := none }

/-- The `struct cx_stack`: a container and the key or index followed in it
(`none` for the `NULL` of the top level). -/
structure cx_stack where
  target : Jval
  elem : Option operand
  deriving Repr

/-- The local state of `apply_template_actions`.  An entry of `slots` or of
`containers` that was never written is `none`. -/
structure apply_state where
  slots : List (Option Jval)
  containers : List (Option cx_stack)
  stacklevel : Nat
  stacklevels : Nat
  subst_val : Option Tcl_Obj
  jval : Option Jval
  key : Option Str
  target : Option Jval

/-- The value stored into the container of a frame under the element of that
frame: `Tcl_DictObjPut` for an object, `Tcl_ListObjReplace` of one element for
an array. -/
def store_elem (container : Jval) (elem : operand) (replacement : Jval) :
    Except TclError Jval :=
  match container with
  | .object val => .ok (.object (Tcl_DictObjPut val elem.toStr replacement))
  | .array val =>
    match elem.toInt with
    | none => THROW_ERROR ["expected integer but got \"".toList, elem.toStr, "\"".toList]
    | some idx => .ok (.array (Tcl_ListObjReplace val idx 1 [replacement]))
  | _ => crash "replace in a value that is no container".toList

/-- The function `replace`: the element of the frame `stacklevel` takes the
value `replacement`; at the top level the result itself is replaced.  The C
function writes into the container object in place.  That object is also what
the frame below holds under its own element (and what frame 0 holds as the
result), so the embedding, which has values and no pointers, repeats the write
in the frames below. -/
def replace (containers : List (Option cx_stack)) :
    Nat → Jval → Except TclError (List (Option cx_stack))
  | stacklevel, replacement =>
    match containers.getD stacklevel none with
    | none => crash "frame not initialised".toList
    | some frame =>
      match frame.elem with
      | none => .ok (containers.set stacklevel (some { frame with target := replacement }))
      | some elem =>
        match store_elem frame.target elem replacement with
        | .error e => .error e
        | .ok container =>
          let written := containers.set stacklevel (some { frame with target := container })
          match stacklevel with
          | 0 => .ok written
          | below + 1 => replace written below container

/-- The entry into a container (`CX_OBJ_KEY`, `CX_ARR_IDX`): a frame is pushed
for the current target and the element, and the element becomes the target.
(A shared target is first duplicated and the duplicate stored back where the
target was; this writes an equal value and is not modelled.) -/
def enter (st : apply_state) (value : operand) (child : Jval → Except TclError (Option Jval)) :
    Except TclError apply_state :=
  match st.target with
  | none => crash "null target".toList
  | some target =>
    if st.stacklevels ≤ st.stacklevel + 1 then
      crash "Template container stack overflowed".toList
    else
      match child target with
      | .error e => .error e
      | .ok t =>
        .ok { st with
          stacklevel := st.stacklevel + 1
          containers := st.containers.set (st.stacklevel + 1) (some ⟨target, some value⟩)
          target := t }

/-- The inner value of a slot that `REPLACE_KEY` uses as the new key: the text
of a string or a number, the name of a dynamic value.  A null has no inner
value (the C code would pass a null key to `Tcl_DictObjPut`). -/
def key_text : Jval → Option Str
  | .string s => some s
  | .number s => some s
  | .dyn _ s => some s
  | _ => none

/-- One instruction of `apply_template_actions` (the body of the `switch`).
`nested` is the recursive call of `EVALUATE_TEMPLATE`: the compilation and the
application of the fetched value as a template. -/
def apply_action (nested : Jval → Except TclError Jval) (template : Jval) (dict : subst_source)
    (st : apply_state) (a : action) : Except TclError apply_state :=
  match a.1 with
  | ALLOCATE_SLOTS =>
    match a.2.toInt with
    | none => THROW_ERROR ["expected integer but got \"".toList, a.2.toStr, "\"".toList]
    | some slotslen => .ok { st with slots := List.replicate slotslen none }
  | ALLOCATE_STACK =>
    match a.2.toInt with
    | none => THROW_ERROR ["expected integer but got \"".toList, a.2.toStr, "\"".toList]
    | some stacklevels =>
      if stacklevels ≤ st.stacklevel then crash "container stack too small".toList
      else .ok { st with
        stacklevels := stacklevels
        containers := (List.replicate stacklevels none).set st.stacklevel
          (some ⟨template, none⟩)
        target := some template }
  | FETCH_VALUE =>
    .ok { st with key := some a.2.toStr, subst_val := dict.fetch a.2.toStr }
  | JVAL_LITERAL => .ok { st with jval := some (.string a.2.toStr) }
  | JVAL_STRING =>
    match st.subst_val with
    | none => .ok { st with jval := some .null }
    | some subst_val => .ok { st with jval := some (string_jval subst_val.bytes) }
  | JVAL_NUMBER =>
    match st.subst_val with
    | none => .ok { st with jval := some .null }
    | some subst_val =>
      match force_json_number subst_val with
      | none => .error ⟨not_a_number_msg (st.key.getD []) subst_val.bytes, []⟩
      | some _ => .ok { st with jval := some (.number subst_val.bytes) }
  | JVAL_BOOLEAN =>
    match st.subst_val with
    | none => .ok { st with jval := some .null }
    | some subst_val =>
      match subst_val.boolean with
      | none => THROW_ERROR ["expected boolean value but got \"".toList, subst_val.bytes,
          "\"".toList]
      | some is_true => .ok { st with jval := some (.bool is_true) }
  | JVAL_JSON =>
    match st.subst_val with
    | none => .ok { st with jval := some .null }
    | some subst_val =>
      match subst_val.jval with
      | .error e => .error e
      | .ok j => .ok { st with jval := some j }
  | FILL_SLOT =>
    match a.2.toInt with
    | none => THROW_ERROR ["expected integer but got \"".toList, a.2.toStr, "\"".toList]
    | some slot =>
      if st.slots.length ≤ slot then crash "slot out of range".toList
      else .ok { st with slots := st.slots.set slot st.jval }
  | EVALUATE_TEMPLATE =>
    match st.subst_val with
    | none => .ok st
    | some subst_val =>
      match subst_val.jval with
      | .error e => .error e
      | .ok j =>
        match nested j with
        | .error e => .error e
        | .ok res => .ok { st with subst_val := some (Tcl_Obj.ofJval res) }
  | CX_OBJ_KEY =>
    enter st a.2 fun target =>
      match target with
      | .object container => .ok (Tcl_DictObjGet container a.2.toStr)
      | _ => THROW_ERROR ["missing value to go with key".toList]
  | CX_ARR_IDX =>
    enter st a.2 fun target =>
      match target with
      | .array container =>
        match a.2.toInt with
        | none => THROW_ERROR ["expected integer but got \"".toList, a.2.toStr, "\"".toList]
        | some idx => .ok (container.get? idx)
      | _ => crash "index in a value that is no list".toList
  | POP_CX =>
    match a.2.toInt with
    | none => THROW_ERROR ["expected integer but got \"".toList, a.2.toStr, "\"".toList]
    | some levels =>
      if st.stacklevel < levels then crash "container stack underflow".toList
      else
        match st.containers.getD (st.stacklevel - levels + 1) none with
        | none => crash "frame not initialised".toList
        | some frame =>
          .ok { st with stacklevel := st.stacklevel - levels, target := some frame.target }
  | REPLACE_VAL =>
    match a.2.toInt with
    | none => THROW_ERROR ["expected integer but got \"".toList, a.2.toStr, "\"".toList]
    | some slot =>
      match st.slots.getD slot none with
      | none => crash "empty slot".toList
      | some replacement =>
        match replace st.containers st.stacklevel replacement with
        | .error e => .error e
        | .ok containers => .ok { st with containers := containers }
  | REPLACE_KEY =>
    match a.2.toInt with
    | none => THROW_ERROR ["expected integer but got \"".toList, a.2.toStr, "\"".toList]
    | some slot =>
      match st.containers.getD st.stacklevel none, (st.slots.getD slot none).bind key_text with
      | some ⟨.object container, some elem⟩, some tclval =>
        match Tcl_DictObjGet container elem.toStr with
        | none => crash "no value under the key".toList
        | some hold =>
          let renamed := Jval.object
            (Tcl_DictObjPut (Tcl_DictObjRemove container elem.toStr) tclval hold)
          let written := st.containers.set st.stacklevel (some ⟨renamed, some elem⟩)
          match st.stacklevel with
          | 0 => .ok { st with containers := written }
          | below + 1 =>
            match replace written below renamed with
            | .error e => .error e
            | .ok containers => .ok { st with containers := containers }
      | _, _ => crash "key replacement outside an object or by a value without text".toList
  | NOP => THROW_ERROR ["Unhandled opcode".toList]

/-- The loop of `apply_template_actions` over the instructions. -/
def apply_loop (nested : Jval → Except TclError Jval) (template : Jval) (dict : subst_source) :
    List action → apply_state → Except TclError apply_state
  | [], st => .ok st
  | a :: rest, st =>
    match apply_action nested template dict st a with
    | .error e => .error e
    | .ok st' => apply_loop nested template dict rest st'

/-- The function `apply_template_actions` for a given way `nested` of evaluating
a fetched template: an empty tape returns the template, otherwise the result
is the target of frame 0 after the last instruction. -/
def apply_actions_with (nested : Jval → Except TclError Jval) (template : Jval)
    (actions : List action) (dict : subst_source) : Except TclError Jval :=
  if actions = [] then .ok template
  else
    match apply_loop nested template dict actions ⟨[], [], 0, 0, none, none, none, none⟩ with
    | .error e => .error e
    | .ok st =>
      match st.containers.getD 0 none with
      | none => crash "frame not initialised".toList
      | some frame => .ok frame.target

/-- The function `apply_template_actions`.  `EVALUATE_TEMPLATE` compiles the
fetched value with `build_template_actions` and applies the tape to it with
the same source; `fuel` bounds the depth of these nested evaluations. -/
def apply_template_actions : Nat → Jval → List action → subst_source → Except TclError Jval
  | 0, _, _, _ => THROW_ERROR ["too many nested evaluations".toList]
  | fuel + 1, template, actions, dict =>
    apply_actions_with
      (fun j =>
        match build_template_actions j with
        | .error e => .error e
        | .ok sub_template_actions => apply_template_actions fuel j sub_template_actions dict)
      template actions dict

/-! ## Direct substitution -/

/-- The value a placeholder of the given type and name stands for: the fetched
value coerced according to the type, a null when the source has no value, the
name itself as a string for a literal.  `str` builds the value of the type
String from the fetched text and `nested` evaluates a fetched template. -/
def coerce_value (str : Str → Jval) (nested : Jval → Except TclError Jval)
    (dict : subst_source) (type : dyn_type) (name : Str) : Except TclError Jval :=
  match type with
  | DYN_LITERAL => .ok (.string name)
  | DYN_STRING =>
    match dict.fetch name with
    | none => .ok .null
    | some obj => .ok (str obj.bytes)
  | DYN_NUMBER =>
    match dict.fetch name with
    | none => .ok .null
    | some obj =>
      match force_json_number obj with
      | none => .error ⟨not_a_number_msg name obj.bytes, []⟩
      | some _ => .ok (.number obj.bytes)
  | DYN_BOOL =>
    match dict.fetch name with
    | none => .ok .null
    | some obj =>
      match obj.boolean with
      | none => THROW_ERROR ["expected boolean value but got \"".toList, obj.bytes, "\"".toList]
      | some b => .ok (.bool b)
  | DYN_JSON =>
    match dict.fetch name with
    | none => .ok .null
    | some obj => obj.jval
  | DYN_TEMPLATE =>
    match dict.fetch name with
    | none => .ok .null
    | some obj =>
      match obj.jval with
      | .error e => .error e
      | .ok j => nested j

/-- Direct recursive substitution: every placeholder value is replaced by the
value it stands for, every other node is kept, the members of an object and
the elements of an array in order. -/
def direct_subst_with (str : Str → Jval) (nested : Jval → Except TclError Jval)
    (dict : subst_source) : Jval → Except TclError Jval
  | .dyn type name => coerce_value str nested dict type name
  | .object val =>
    match members val with
    | .error e => .error e
    | .ok val' => .ok (.object val')
  | .array val =>
    match elems val with
    | .error e => .error e
    | .ok val' => .ok (.array val')
  | v => .ok v
where
  /-- The members of an object, in order. -/
  members : List (Str × Jval) → Except TclError (List (Str × Jval))
    | [] => .ok []
    | (k, v) :: rest =>
      match direct_subst_with str nested dict v with
      | .error e => .error e
      | .ok v' =>
        match members rest with
        | .error e => .error e
        | .ok rest' => .ok ((k, v') :: rest')
  /-- The elements of an array, in order. -/
  elems : List Jval → Except TclError (List Jval)
    | [] => .ok []
    | v :: rest =>
      match direct_subst_with str nested dict v with
      | .error e => .error e
      | .ok v' =>
        match elems rest with
        | .error e => .error e
        | .ok rest' => .ok (v' :: rest')

/-- Direct substitution with nested templates: a fetched template is itself
substituted directly, `fuel` bounding the depth as in `apply_template_actions`. -/
def direct_subst (str : Str → Jval) : Nat → subst_source → Jval → Except TclError Jval
  | 0, _, _ => THROW_ERROR ["too many nested evaluations".toList]
  | fuel + 1, dict, template =>
    direct_subst_with str (direct_subst str fuel dict) dict template

/-- The function `JSON_Template` without its cache of tapes: the template is
compiled and the tape applied. -/
def compile_and_apply (fuel : Nat) (template : Jval) (dict : subst_source) :
    Except TclError Jval :=
  match build_template_actions template with
  | .error e => .error e
  | .ok actions => apply_template_actions fuel template actions dict

/-- No key of an object, here or below, has the form `~X:...` for one of the
six letters. -/
def keys_plain : Jval → Bool
  | .object val => members val
  | .array val => elems val
  | _ => true
where
  /-- The keys and the values of the members. -/
  members : List (Str × Jval) → Bool
    | [] => true
    | (k, v) :: rest => decide (key_subst_of k = .plain) && keys_plain v && members rest
  /-- The elements. -/
  elems : List Jval → Bool
    | [] => true
    | v :: rest => keys_plain v && elems rest

/-- A template in the sense of the statements below: the keys of every object
are pairwise different and none has a placeholder form. -/
def plain_template (v : Jval) : Prop := v.wf = true ∧ keys_plain v = true

/-- Every value of the source that is a JSON document is a template in the
sense above. -/
def plain_source (dict : subst_source) : Prop :=
  ∀ name obj j, dict.fetch name = some obj → obj.jval = .ok j → plain_template j

/-! ## The shape of a compiled tape -/

/-- What a `POP_CX` emitted after the instructions `c` of a member leaves: the
count of a final `POP_CX` grows by one, otherwise `POP_CX 1` is added. -/
def close_member (c : List action) : List action :=
  match c.getLast? with
  | some (POP_CX, .int n) => c.dropLast ++ [(POP_CX, .int (n + 1))]
  | _ => c ++ [(POP_CX, .int 1)]

/-- The instructions `template_actions` adds for a value whose keys are plain,
with the slot map and the number of slots before and after. -/
def code_of (map : List ((Str × dyn_type) × Nat)) (used : Nat) :
    Jval → List action × List ((Str × dyn_type) × Nat) × Nat
  | .dyn type name =>
    match map_get map name type with
    | some slot => ([(REPLACE_VAL, .int slot)], map, used)
    | none =>
      (slot_population name type used ++ [(REPLACE_VAL, .int used)],
        map ++ [((name, type), used)], used + 1)
  | .object val => members map used val
  | .array val => elems map used 0 val
  | _ => ([], map, used)
where
  /-- The members of an object. -/
  members (map : List ((Str × dyn_type) × Nat)) (used : Nat) :
      List (Str × Jval) → List action × List ((Str × dyn_type) × Nat) × Nat
    | [] => ([], map, used)
    | (k, v) :: rest =>
      let r := code_of map used v
      let r' := members r.2.1 r.2.2 rest
      ((if r.1 = [] then [] else (CX_OBJ_KEY, .text k) :: close_member r.1) ++ r'.1, r'.2)
  /-- The elements of an array from the index `i` on. -/
  elems (map : List ((Str × dyn_type) × Nat)) (used : Nat) (i : Nat) :
      List Jval → List action × List ((Str × dyn_type) × Nat) × Nat
    | [] => ([], map, used)
    | v :: rest =>
      let r := code_of map used v
      let r' := elems r.2.1 r.2.2 (i + 1) rest
      ((if r.1 = [] then [] else (CX_ARR_IDX, .int i) :: close_member r.1) ++ r'.1, r'.2)

/-! ## Notions used in the statements about the executor -/

/-- A frame as `CX_OBJ_KEY` and `CX_ARR_IDX` build it: a key in an object, or an
index within an array; the frame of the top level has no element. -/
def frame_ok (f : cx_stack) : Prop :=
  match f.elem, f.target with
  | none, _ => True
  | some (.text _), .object _ => True
  | some (.int idx), .array val => idx < val.length
  | _, _ => False

/-- The frames `0 .. level` are written and are as the entries into containers
build them. -/
def frames_ok (cs : List (Option cx_stack)) (level : Nat) : Prop :=
  ∀ i, i ≤ level → ∃ f, cs.getD i none = some f ∧ frame_ok f

/-- Two container stacks hold the same frames at the levels `0 .. level`. -/
def agree (level : Nat) (cs cs' : List (Option cx_stack)) : Prop :=
  ∀ i, i ≤ level → cs.getD i none = cs'.getD i none

/-- Every slot the map names is below `used`. -/
def map_bound (map : List ((Str × dyn_type) × Nat)) (used : Nat) : Prop :=
  ∀ name type slot, map_get map name type = some slot → slot < used

/-- Every slot the map names holds the value its placeholder stands for. -/
def slots_inv (nested : Jval → Except TclError Jval) (dict : subst_source)
    (map : List ((Str × dyn_type) × Nat)) (slots : List (Option Jval)) : Prop :=
  ∀ name type slot, map_get map name type = some slot →
    ∃ r, coerce_value string_jval nested dict type name = .ok r ∧ slots.getD slot none = some r

/-- What the statements about a run assume of the state in which the
instructions `c` of a value start at the level `level`: the frames up to that
level are written, the container stack has room for the entries of `c` and
the slot array for `used'` slots. -/
def exec_pre (st : apply_state) (level : Nat) (c : List action) (used' : Nat) : Prop :=
  st.stacklevel = level ∧ st.stacklevels = st.containers.length ∧
    frames_ok st.containers level ∧
    (max_depth c (level + 1, level + 1)).2 ≤ st.stacklevels ∧ used' ≤ st.slots.length

/-- What a run keeps: the level it started at and the sizes of the arrays. -/
def exec_post (st st' : apply_state) (level : Nat) : Prop :=
  st'.stacklevel = level ∧ st'.stacklevels = st.stacklevels ∧
    st'.containers.length = st.containers.length ∧ st'.slots.length = st.slots.length

/-! ## Templates with a single number placeholder -/

/-- Every placeholder of the template is the Number placeholder `~N:name`: each
dynamic value has the type Number and the name `name`, and no key of an object
has a placeholder form. -/
def only_number_placeholder (name : Str) : Jval → Bool
  | .dyn type val => decide (type = DYN_NUMBER) && decide (val = name)
  | .object val => members val
  | .array val => elems val
  | _ => true
where
  /-- The keys and the values of the members. -/
  members : List (Str × Jval) → Bool
    | [] => true
    | (k, v) :: rest =>
      decide (key_subst_of k = .plain) && only_number_placeholder name v && members rest
  /-- The elements. -/
  elems : List Jval → Bool
    | [] => true
    | v :: rest => only_number_placeholder name v && elems rest

/-- The template holds a placeholder value. -/
def has_placeholder : Jval → Bool
  | .dyn _ _ => true
  | .object val => members val
  | .array val => elems val
  | _ => false
where
  /-- Some member value holds one. -/
  members : List (Str × Jval) → Bool
    | [] => false
    | (_, v) :: rest => has_placeholder v || members rest
  /-- Some element holds one. -/
  elems : List Jval → Bool
    | [] => false
    | v :: rest => has_placeholder v || elems rest

/-! ## Parser

`set_from_any` is in the source; the functions it calls to read the text and
to keep its stack of contexts (`skip_whitespace`, `value_type`,
`push_parse_context`, `pop_parse_context`, `_parse_error`) and the constant
`CX_STACK_SIZE` are not, and are modelled from the specification. -/

/-- The `struct parse_context`.  Its declaration is not in the source; the
fields are those `set_from_any` and `append_to_cx` read and write. -/
structure parse_context where
  container : json_types
  val : Option Jval
  hold_key : Option Str
  char_ofs : Int
  closed : Bool
  deriving DecidableEq

/-- The array `cx[CX_STACK_SIZE]` together with the pointer `cx[0].last`:
`base` is `cx[0]` and `above` holds the contexts over it, the last one first. -/
structure parse_stack where
  base : parse_context
  above : List parse_context
  deriving DecidableEq

/-- The context `cx[0].last` points to. -/
def parse_stack.last (cx : parse_stack) : parse_context :=
  match cx.above with
  | [] => cx.base
  | top :: _ => top

/-- A write through `cx[0].last`. -/
def parse_stack.set_last (cx : parse_stack) (top : parse_context) : parse_stack :=
  match cx.above with
  | [] => { cx with base := top }
  | _ :: rest => { cx with above := top :: rest }

/-- The function `append_to_cx`: the value goes under the held key of an object,
to the end of an array, or becomes the value of a context that is no
container. -/
def append_to_cx (cx : parse_context) (val : Jval) : Except TclError parse_context :=
  match cx.container with
  | JSON_OBJECT =>
    match cx.val, cx.hold_key with
    | some (.object d), some key =>
      .ok { cx with val := some (.object (Tcl_DictObjPut d key val)), hold_key := none }
    | _, _ => crash "append to an object context without a dict or a key".toList
  | JSON_ARRAY =>
    match cx.val with
    | some (.array l) => .ok { cx with val := some (.array (l ++ [val])) }
    | _ => crash "append to an array context without a list".toList
  | _ => .ok { cx with val := some val }

/-- The decimal text of an integer. -/
def int_text (i : Int) : Str :=
  if i < 0 then '-' :: int_string i.natAbs else int_string i.toNat

/-- Modelled from the spec: `_parse_error` is not in the source.  The spec
says that a parse error aborts the parse and carries a character offset; the
error holds the message and, as its code, the offset. -/
def _parse_error (errmsg : Str) (char_ofs : Int) : TclError :=
  ⟨errmsg, [int_text char_ofs]⟩

/-- The expression `(p - doc) - char_adj`: the number of characters in front of
the place `p`, a place being given by the text that remains from it on. -/
def char_offset (doc p : Str) : Int := ((doc.length - p.length : Nat) : Int)

/-- Modelled from the spec: the states of `skip_whitespace`, which is not in
the source: between tokens, behind a `/`, in a comment that ends with the
line, in a comment that ends with `*/`, and behind a `*` in such a comment. -/
inductive skip_state where
  | blank
  | slash
  | line
  | block
  | star
  deriving DecidableEq, Repr

/-- Modelled from the spec: `skip_whitespace` is not in the source.  The spec
says that whitespace and comments are skipped between every token and does not
give the form of a comment; the blanks are space, tab, line feed and carriage
return, and a comment runs from `//` to the end of the line or from `/*` to
`*/`.  A comment that is not closed is the failure (with the message and the
place of the comment), otherwise the result is the text from the first
character that is not skipped. -/
def skip_whitespace (p : Str) : Except (Str × Str) Str :=
  go .blank p p
where
  /-- The scan; `start` is where the comment being read began. -/
  go : skip_state → Str → Str → Except (Str × Str) Str
    | .blank, _, [] => .ok []
    | .blank, _, c :: rest =>
      if c = ' ' ∨ c = '\t' ∨ c = '\n' ∨ c = '\r' then go .blank rest rest
      else if c = '/' then go .slash (c :: rest) rest
      else .ok (c :: rest)
    | .slash, start, [] => .ok start
    | .slash, start, c :: rest =>
      if c = '/' then go .line start rest
      else if c = '*' then go .block start rest
      else .ok start
    | .line, _, [] => .ok []
    | .line, start, c :: rest =>
      if c = '\n' then go .blank rest rest else go .line start rest
    | .block, start, [] => .error ("Unterminated comment".toList, start)
    | .block, start, c :: rest =>
      if c = '*' then go .star start rest else go .block start rest
    | .star, start, [] => .error ("Unterminated comment".toList, start)
    | .star, start, c :: rest =>
      if c = '/' then go .blank rest rest
      else if c = '*' then go .star start rest
      else go .block start rest

/-- Modelled from the spec: part of `value_type`, which is not in the source.
The value of a hexadecimal digit of an escape. -/
def hex_val (c : Char) : Option Nat :=
  if '0' ≤ c ∧ c ≤ '9' then some (c.toNat - 48)
  else if 'a' ≤ c ∧ c ≤ 'f' then some (c.toNat - 87)
  else if 'A' ≤ c ∧ c ≤ 'F' then some (c.toNat - 55)
  else none

/-- Modelled from the spec: part of `value_type`, which is not in the source.
The character a two character escape stands for, the escapes being those the
serializer writes and the escaped slash. -/
def simple_escape (e : Char) : Option Char :=
  if e = '"' then some '"'
  else if e = '\\' then some '\\'
  else if e = '/' then some '/'
  else if e = 'b' then some (Char.ofNat 0x8)
  else if e = 'f' then some (Char.ofNat 0xC)
  else if e = 'n' then some (Char.ofNat 0xA)
  else if e = 'r' then some (Char.ofNat 0xD)
  else if e = 't' then some (Char.ofNat 0x9)
  else none

/-- Modelled from the spec: part of `value_type`, which is not in the source.
The states of the reader of a string: between escapes, behind a backslash,
and within the four hexadecimal digits of `\\u` (`more` digits are still to
come after the next one and `code` is the value of those read). -/
inductive string_state where
  | plain
  | escape
  | hex (more code : Nat)

/-- Modelled from the spec: part of `value_type`, which is not in the source.
One more character in front of the text that was read. -/
def with_char (c : Char) : Option (Str × Str) → Option (Str × Str)
  | some (s, r) => some (c :: s, r)
  | none => none

/-- Modelled from the spec: part of `value_type`, which is not in the source.
The text of a JSON string from behind its opening quote: the characters up
to the closing quote with the escapes replaced, and what follows the closing
quote.  A control character and an unknown escape are refused. -/
def read_string (p : Str) : Option (Str × Str) :=
  go .plain p
where
  /-- The scan. -/
  go : string_state → Str → Option (Str × Str)
    | _, [] => none
    | .plain, c :: rest =>
      if c = '"' then some ([], rest)
      else if c = '\\' then go .escape rest
      else if c.toNat < 0x20 then none
      else with_char c (go .plain rest)
    | .escape, e :: rest =>
      if e = 'u' then go (.hex 3 0) rest
      else
        match simple_escape e with
        | some ch => with_char ch (go .plain rest)
        | none => none
    | .hex more code, h :: rest =>
      match hex_val h with
      | none => none
      | some x =>
        if more = 0 then with_char (Char.ofNat (code * 16 + x)) (go .plain rest)
        else go (.hex (more - 1) (code * 16 + x)) rest

/-- Modelled from the spec: part of `value_type`, which is not in the source.
The dynamic tag of a letter of the `~X:` convention. -/
def dyn_of_letter (c : Char) : Option dyn_type :=
  if c = 'S' then some DYN_STRING
  else if c = 'N' then some DYN_NUMBER
  else if c = 'B' then some DYN_BOOL
  else if c = 'J' then some DYN_JSON
  else if c = 'T' then some DYN_TEMPLATE
  else if c = 'L' then some DYN_LITERAL
  else none

/-- Modelled from the spec: part of `value_type`, which is not in the source.
The states of the grammar of a JSON number. -/
inductive number_state where
  | start
  | minus
  | zero
  | int
  | point
  | frac
  | exp
  | exp_sign
  | exp_digits
  deriving DecidableEq, Repr

/-- Modelled from the spec: part of `value_type`, which is not in the source.
The grammar of a JSON number: an optional minus, `0` or digits that do not
begin with `0`, an optional fraction, an optional exponent. -/
def number_grammar : number_state → Str → Bool
  | s, [] => decide (s = .zero ∨ s = .int ∨ s = .frac ∨ s = .exp_digits)
  | s, c :: rest =>
    let digit : Bool := decide ('0' ≤ c ∧ c ≤ '9')
    match s with
    | .start =>
      if c = '-' then number_grammar .minus rest
      else if c = '0' then number_grammar .zero rest
      else if digit then number_grammar .int rest
      else false
    | .minus =>
      if c = '0' then number_grammar .zero rest
      else if digit then number_grammar .int rest
      else false
    | .zero =>
      if c = '.' then number_grammar .point rest
      else if c = 'e' ∨ c = 'E' then number_grammar .exp rest
      else false
    | .int =>
      if digit then number_grammar .int rest
      else if c = '.' then number_grammar .point rest
      else if c = 'e' ∨ c = 'E' then number_grammar .exp rest
      else false
    | .point => if digit then number_grammar .frac rest else false
    | .frac =>
      if digit then number_grammar .frac rest
      else if c = 'e' ∨ c = 'E' then number_grammar .exp rest
      else false
    | .exp =>
      if c = '+' ∨ c = '-' then number_grammar .exp_sign rest
      else if digit then number_grammar .exp_digits rest
      else false
    | .exp_sign => if digit then number_grammar .exp_digits rest else false
    | .exp_digits => if digit then number_grammar .exp_digits rest else false

/-- Modelled from the spec: part of `value_type`, which is not in the source.
A character that can stand in a JSON number. -/
def number_char (c : Char) : Bool :=
  decide (('0' ≤ c ∧ c ≤ '9') ∨ c = '-' ∨ c = '+' ∨ c = '.' ∨ c = 'e' ∨ c = 'E')

/-- Modelled from the spec: a legal JSON number text, as `value_type` (not in
the source) validates it. -/
def is_json_number (text : Str) : Bool :=
  text.all number_char && number_grammar .start text

/-- What `value_type` finds at a place: the opening of an object or of an
array, or a value that is no container, which stands for the pair
`(type, val)` that `JSON_NewJvalObj` turns into that value.  These are the
types the `switch (type)` of `set_from_any` has a case for; its `default`
case has no counterpart. -/
inductive value_token where
  | object
  | array
  | atom (v : Jval)

/-- Modelled from the spec: `value_type` is not in the source.  The spec says
that the grammar recognised per value is object, array, string, number,
boolean, null and the six placeholder forms of a string, distinguished by the
three bytes `~X:` in front of the name, an unrecognised prefix being an
ordinary string, and that an illegal character is a parse error.  The place
after the token is returned with it; for a container the token is its
opening bracket. -/
def value_type (doc p : Str) : Except TclError (value_token × Str) :=
  let illegal : Except TclError (value_token × Str) :=
    .error (_parse_error "Illegal character".toList (char_offset doc p))
  match p with
  | [] => illegal
  | c :: rest =>
    if c = '{' then .ok (.object, rest)
    else if c = '[' then .ok (.array, rest)
    else if c = '"' then
      let dyn : Option (dyn_type × Str) :=
        match rest with
        | t :: x :: k :: name =>
          if t = '~' ∧ k = ':' then (dyn_of_letter x).map fun type => (type, name) else none
        | _ => none
      match dyn with
      | some (type, name) =>
        match read_string name with
        | some (s, r) => .ok (.atom (.dyn type s), r)
        | none => illegal
      | none =>
        match read_string rest with
        | some (s, r) => .ok (.atom (.string s), r)
        | none => illegal
    else if "true".toList.isPrefixOf p then .ok (.atom (.bool true), p.drop 4)
    else if "false".toList.isPrefixOf p then .ok (.atom (.bool false), p.drop 5)
    else if "null".toList.isPrefixOf p then .ok (.atom .null, p.drop 4)
    else if number_char c then
      if is_json_number (p.takeWhile number_char) then
        .ok (.atom (.number (p.takeWhile number_char)), p.dropWhile number_char)
      else illegal
    else illegal

/-- Modelled from the spec: `push_parse_context` and the constant
`CX_STACK_SIZE` are not in the source.  The spec says that the parser keeps a
bounded stack of frames (container kind, accumulated value, pending key, start
offset) and that pushing beyond the maximum depth is a parse failure ("too
deeply nested").  `size` is `CX_STACK_SIZE`, the number of entries of the array
`cx`, of which `cx[0]` is one.  On a full array the push fails and the stack
is as it was; what the caller makes of the failure is the caller's. -/
def push_parse_context (size : Nat) (cx : parse_stack) (container : json_types)
    (char_ofs : Int) : Except TclError parse_stack :=
  if size ≤ cx.above.length + 1 then
    .error (_parse_error "too deeply nested".toList char_ofs)
  else
    .ok { cx with above :=
      { container := container
        val := some (if container = JSON_OBJECT then .object [] else .array [])
        hold_key := none
        char_ofs := char_ofs
        closed := false } :: cx.above }

/-- Modelled from the spec: `pop_parse_context` is not in the source.  The spec
says that on closing a container the top frame is popped and appended into its
parent: keyed put for an object, append for an array, and for the root it
becomes the document value (`append_to_cx` on the parent). -/
def pop_parse_context (cx : parse_stack) : Except TclError parse_stack :=
  match cx.above with
  | [] => .ok { cx with base := { cx.base with closed := true } }
  | top :: rest =>
    let below : parse_stack := { cx with above := rest }
    match top.val with
    | none => .ok below
    | some val =>
      match append_to_cx below.last val with
      | .error e => .error e
      | .ok parent => .ok (below.set_last parent)

/-- The two places of `set_from_any` where the loop is entered: the top of the
`while` and the label `after_value`. -/
inductive parse_label where
  | loop_top
  | after_value
  deriving DecidableEq, Repr

/-- The part of the body of the `while` of `set_from_any` that reads the key of
a member when the last context is an object: the key is held and the place
after the colon and the blanks is returned. -/
def read_key (doc : Str) (cx : parse_stack) (p : Str) : Except TclError (parse_stack × Str) :=
  let key_start := p
  match value_type doc p with
  | .error e => .error e
  | .ok (token, p) =>
    let held : Except TclError Str :=
      match token with
      | .atom (.dyn _ val) => .ok ('~' :: key_start.getD 2 '\x00' :: ':' :: val)
      | .atom (.string val) => .ok val
      | _ => .error (_parse_error "Object key is not a string".toList (char_offset doc key_start))
    match held with
    | .error e => .error e
    | .ok key =>
      let cx := cx.set_last { cx.last with hold_key := some key }
      match skip_whitespace p with
      | .error (errmsg, err_at) => .error (_parse_error errmsg (char_offset doc err_at))
      | .ok p =>
        if p.head? ≠ some ':' then
          .error (_parse_error "Expecting : after object key".toList (char_offset doc p))
        else
          match skip_whitespace p.tail with
          | .error (errmsg, err_at) => .error (_parse_error errmsg (char_offset doc err_at))
          | .ok p => .ok (cx, p)

/-- The call `push_parse_context(cx, container, ofs);` of `set_from_any`: a
statement, of which no result is tested.  A push that fails leaves the stack
as it was, and the scan goes on with it. -/
def push_statement (size : Nat) (cx : parse_stack) (container : json_types)
    (char_ofs : Int) : parse_stack :=
  match push_parse_context size cx container char_ofs with
  | .error _ => cx
  | .ok cx => cx

/-- The part of the body of the `while` from `val_start = p` on; `next` is the
rest of the run from one of the two places. -/
def read_value (size : Nat) (doc : Str)
    (next : parse_label → parse_stack → Str → Except TclError parse_stack)
    (cx : parse_stack) (p : Str) : Except TclError parse_stack :=
  let val_start := p
  let container (type : json_types) (close : Char) (p : Str) : Except TclError parse_stack :=
    let cx := push_statement size cx type (char_offset doc val_start)
    match skip_whitespace p with
    | .error (errmsg, err_at) => .error (_parse_error errmsg (char_offset doc err_at))
    | .ok p =>
      if p.head? = some close then
        match pop_parse_context cx with
        | .error e => .error e
        | .ok cx => next .after_value cx p.tail
      else next .loop_top cx p
  match value_type doc p with
  | .error e => .error e
  | .ok (.object, p) => container JSON_OBJECT '}' p
  | .ok (.array, p) => container JSON_ARRAY ']' p
  | .ok (.atom v, p) =>
    match append_to_cx cx.last v with
    | .error e => .error e
    | .ok top => next .after_value (cx.set_last top) p

/-- The part of `set_from_any` from the label `after_value` to the end of the
body of the `while`; `none` is the `break`. -/
def after_value (doc : Str)
    (next : parse_label → parse_stack → Str → Except TclError parse_stack)
    (cx : parse_stack) (p : Str) : Except TclError parse_stack :=
  match skip_whitespace p with
  | .error (errmsg, err_at) => .error (_parse_error errmsg (char_offset doc err_at))
  | .ok p =>
    match p with
    | [] => .ok cx
    | c :: rest =>
      let separator (close : Char) (expecting : Str) : Except TclError parse_stack :=
        if c = close then
          match pop_parse_context cx with
          | .error e => .error e
          | .ok cx => next .after_value cx rest
        else if c ≠ ',' then .error (_parse_error expecting (char_offset doc p))
        else
          match skip_whitespace rest with
          | .error (errmsg, err_at) => .error (_parse_error errmsg (char_offset doc err_at))
          | .ok p => next .loop_top cx p
      match cx.last.container with
      | JSON_OBJECT => separator '}' "Expecting \x7d or ,".toList
      | JSON_ARRAY => separator ']' "Expecting ] or ,".toList
      | _ => .error (_parse_error "Trailing garbage after value".toList (char_offset doc p))

/-- The loop of `set_from_any` from one of its two places, up to the exit of the
`while`.  Every passage from one place to the next reads at least one
character and takes one unit of `fuel`. -/
def parse_loop (size : Nat) (doc : Str) :
    Nat → parse_label → parse_stack → Str → Except TclError parse_stack
  | 0, _, _, _ => crash "the loop ran longer than the text".toList
  | fuel + 1, .loop_top, cx, p =>
    if p = [] then .ok cx
    else if cx.last.container = JSON_OBJECT then
      match read_key doc cx p with
      | .error e => .error e
      | .ok (cx, p) => read_value size doc (fun l c q => parse_loop size doc fuel l c q) cx p
    else read_value size doc (fun l c q => parse_loop size doc fuel l c q) cx p
  | fuel + 1, .after_value, cx, p =>
    after_value doc (fun l c q => parse_loop size doc fuel l c q) cx p

/-- The depth of the nesting of containers in a value. -/
def Jval.depth : Jval → Nat
  | .object val => members val + 1
  | .array val => elems val + 1
  | _ => 0
where
  /-- The greatest depth of a member value. -/
  members : List (Str × Jval) → Nat
    | [] => 0
    | (_, v) :: rest => max v.depth (members rest)
  /-- The greatest depth of an element. -/
  elems : List Jval → Nat
    | [] => 0
    | v :: rest => max v.depth (elems rest)

/-- A value that the parser gives back: every number is a legal JSON number text and
no string begins with the three characters `~X:` of a placeholder. -/
def Jval.parseable : Jval → Bool
  | .object val => members val
  | .array val => elems val
  | .number text => is_json_number text
  | .string text => decide (string_jval text = .string text)
  | _ => true
where
  /-- The member values. -/
  members : List (Str × Jval) → Bool
    | [] => true
    | (_, v) :: rest => v.parseable && members rest
  /-- The elements. -/
  elems : List Jval → Bool
    | [] => true
    | v :: rest => v.parseable && elems rest

/-! ## Notions used in the statements and their proofs -/

/-- A text of `len` decimal digits with value `v`: `read_digits` consumes exactly
it, whatever non-digit follows. -/
def DigitsOf (s : Str) (len v : Nat) : Prop :=
  ∀ (a : Nat) (rest : Str), (∀ c r, rest = c :: r → digit_val c = none) →
    read_digits (s ++ rest) a = (a * 10 ^ len + v, len, rest)

/-- The last instruction of a non-empty `code_of` is a `REPLACE_VAL` or a
`POP_CX` with an integer count. -/
def ends_well (c : List action) : Prop :=
  ∀ a, c.getLast? = some a → a.1 = REPLACE_VAL ∨ ∃ n, a = (POP_CX, operand.int n)

/-- The facts: the slots stay below the count, the count and the map only grow,
a value without instructions leaves them as they are, and instructions imply
a slot. -/
def code_facts (map : List ((Str × dyn_type) × Nat)) (used : Nat)
    (r : List action × List ((Str × dyn_type) × Nat) × Nat) : Prop :=
  map_bound r.2.1 r.2.2 ∧ used ≤ r.2.2 ∧
    (∀ n t i, map_get map n t = some i → map_get r.2.1 n t = some i) ∧
    (r.1 = [] → r.2 = (map, used)) ∧
    (r.1 ≠ [] → ∃ n t i, map_get r.2.1 n t = some i)

/-- A statement about a result: `E` of the error, `S` of the value. -/
def on_result {β : Type} (d : Except TclError β) (E : TclError → Prop) (S : β → Prop) : Prop :=
  match d with
  | .error e => E e
  | .ok r => S r

/-- A character the serializer writes in front of a value or between values. -/
def token_char (c : Char) : Bool :=
  decide (c = '"' ∨ c = '{' ∨ c = '[' ∨ c = '}' ∨ c = ']' ∨ c = ',' ∨ c = ':' ∨ c = 't' ∨
    c = 'f' ∨ c = 'n' ∨ c = '-' ∨ ('0' ≤ c ∧ c ≤ '9'))

/-- A character the text of a value begins with. -/
def value_start (c : Char) : Bool :=
  decide (c = '"' ∨ c = '{' ∨ c = '[' ∨ c = 't' ∨ c = 'f' ∨ c = 'n' ∨ c = '-' ∨
    ('0' ≤ c ∧ c ≤ '9'))

/-- What follows a value in the text the serializer writes: nothing, a comma or
a closing bracket. -/
def delimited (rest : Str) : Prop :=
  ∀ c r, rest = c :: r → c = ',' ∨ c = '}' ∨ c = ']'

/-- The run goes on from the label `after_value` with the stack `cx` and the
text `rest`, with fuel for what remains. -/
def reaches (size : Nat) (doc : Str) (r : Except TclError parse_stack) (cx : parse_stack)
    (rest : Str) : Prop :=
  ∃ fuel, rest.length < fuel ∧ r = parse_loop size doc fuel .after_value cx rest

/-- What a run over the text of a value comes to: it goes on behind the value
when the nesting fits the stack. -/
def outcome (size : Nat) (doc : Str) (fits : Prop) (r : Except TclError parse_stack)
    (cx : parse_stack) (rest : Str) : Prop :=
  fits → reaches size doc r cx rest

/-- What the serializer leaves in its context when its text is `r`, written
after `ds` in the mode `mode`. -/
def written (ds : Str) (mode : serialize_modes) (r : Except TclError Str) :
    Except TclError serialize_context :=
  match r with
  | .error e => .error e
  | .ok s => .ok ⟨ds ++ s, mode⟩

/-- The escape of one character as the specification words it: `\"` for a
double quote, `\\` for a backslash, `\b`, `\f`, `\n`, `\r`, `\t` for 0x08, 0x0C,
0x0A, 0x0D, 0x09, `\u00XX` for every other character up to 0x1F, and the
character itself otherwise. -/
def escape_spec (c : Char) : Str :=
  if c = '"' then ['\\', '"']
  else if c = '\\' then ['\\', '\\']
  else if c.toNat = 0x08 then ['\\', 'b']
  else if c.toNat = 0x0C then ['\\', 'f']
  else if c.toNat = 0x0A then ['\\', 'n']
  else if c.toNat = 0x0D then ['\\', 'r']
  else if c.toNat = 0x09 then ['\\', 't']
  else if c.toNat ≤ 0x1F then
    ['\\', 'u', '0', '0', hexDigit (c.toNat / 16), hexDigit (c.toNat % 16)]
  else [c]

/-- A scan of the text between the delimiters of a JSON string.  `escaped`
tells that the character before was a backslash that starts an escape.  The
result is absent when a double quote is met outside an escape; otherwise it
tells whether the text ends inside an escape. -/
def scan_quotes : Bool → Str → Option Bool
  | escaped, [] => some escaped
  | true, _ :: rest => scan_quotes false rest
  | false, c :: rest => if c = '"' then none else scan_quotes (decide (c = '\\')) rest

/-- The node the steps `pre` lead to from `target` when `get` takes each of them
as a step that is not the last one of its path: an object key or an array
index, never a modifier. -/
def descend : Jval → List Str → Option Jval
  | target, [] => some target
  | target, step :: rest =>
    match resolve_step 0 false target step with
    | .ok (.inl t) => descend t rest
    | _ => none

/-- An object key of the form `~N:x`, `~B:x`, `~J:x` or `~T:x`: at least three
characters, the first `~`, the third `:`, the second one of the four letters. -/
def refused_key : Str → Bool
  | '~' :: c :: ':' :: _ => decide (c = 'N' ∨ c = 'B' ∨ c = 'J' ∨ c = 'T')
  | _ => false

/-- The document holds an object key of that form, at any depth. -/
def has_refused_key : Jval → Bool
  | .object val => members val
  | .array val => elems val
  | _ => false
where
  /-- The keys and the values of the members. -/
  members : List (Str × Jval) → Bool
    | [] => false
    | (k, v) :: rest => refused_key k || has_refused_key v || members rest
  /-- The elements. -/
  elems : List Jval → Bool
    | [] => false
    | v :: rest => has_refused_key v || elems rest

/-- Every `POP_CX` of the list carries an integer count. -/
def pops_counted (acts : List action) : Prop :=
  ∀ a ∈ acts, a.1 = POP_CX → ∃ n, a.2 = .int n

/-- The node the steps `pre` lead to from `target` as `JSON_Set` and
`unset_path` follow a path that exists: a key of an object, or an index of an
array that is in range. -/
def follow : Jval → List Str → Option Jval
  | target, [] => some target
  | .object val, step :: rest =>
    match Tcl_DictObjGet val step with
    | none => none
    | some t => follow t rest
  | .array val, step :: rest =>
    match array_index true val.length step with
    | .error _ => none
    | .ok index =>
      if index < 0 ∨ (val.length : Int) ≤ index then none
      else follow (val.getD index.toNat .null) rest
  | _, _ :: _ => none

/-- The object the keys `pre` lead to from `target` through objects only. -/
def object_at : Jval → List Str → Option (List (Str × Jval))
  | .object val, [] => some val
  | .object val, step :: rest =>
    match Tcl_DictObjGet val step with
    | none => none
    | some t => object_at t rest
  | _, _ => none

/-- The nested objects the specification names for the path elements that
remain: `v` itself for no element, and the object with the one member
`k : nested rest v` for the elements `k :: rest`. -/
def nested_objects : List Str → Jval → Jval
  | [], v => v
  | k :: rest, v => .object [(k, nested_objects rest v)]

/-- The stack level the instructions lead to from `level`, as the executor
counts it: an entry into a container adds one, a `POP_CX` takes its count.
There is none when a `POP_CX` has no integer count or takes more levels than
there are, or when the stack is allocated anew. -/
def level_after : List action → Nat → Option Nat
  | [], level => some level
  | (opcode, value) :: rest, level =>
    if opcode = CX_OBJ_KEY ∨ opcode = CX_ARR_IDX then level_after rest (level + 1)
    else if opcode = POP_CX then
      match value.toInt with
      | some n => if n ≤ level then level_after rest (level - n) else none
      | none => none
    else if opcode = ALLOCATE_STACK then none
    else level_after rest level

/-- The greatest stack level reached by the instructions from `level`, that
level included. -/
def max_level : List action → Nat → Nat
  | [], level => level
  | (opcode, value) :: rest, level =>
    if opcode = CX_OBJ_KEY ∨ opcode = CX_ARR_IDX then max_level rest (level + 1)
    else if opcode = POP_CX then max level (max_level rest (level - value.toInt.getD 0))
    else max_level rest level

/-- What holds of the instructions under compilation: they lead from level 0
to the level `d` without taking more levels than there are, and as long as no
slot is allocated the slot map is empty and there are only entries into
containers. -/
def compile_levels (cx : template_cx) (d : Nat) : Prop :=
  level_after cx.actions 0 = some d ∧
    (cx.slots_used = 0 →
      cx.map = [] ∧ ∀ a ∈ cx.actions, a.1 = CX_OBJ_KEY ∨ a.1 = CX_ARR_IDX)

/-- The placeholder an object key stands for: the pair of the name and the
kind for a key `~S:name` or `~L:name`, nothing for any other key. -/
def key_pair (k : Str) : List (Str × dyn_type) :=
  match key_subst_of k with
  | .subst stype name => [(name, stype)]
  | _ => []

/-- The (name, kind) pairs of the placeholders of a document, one for every
occurrence as a value or as a key. -/
def placeholder_pairs : Jval → List (Str × dyn_type)
  | .dyn type name => [(name, type)]
  | .object val => members val
  | .array val => elems val
  | _ => []
where
  /-- The pairs of the members: those of the value, then that of the key. -/
  members : List (Str × Jval) → List (Str × dyn_type)
    | [] => []
    | (k, v) :: rest => placeholder_pairs v ++ key_pair k ++ members rest
  /-- The pairs of the elements. -/
  elems : List Jval → List (Str × dyn_type)
    | [] => []
    | v :: rest => placeholder_pairs v ++ elems rest

/-- The operands of the instructions with the opcode `op`, in order. -/
def operands_of (op : action_opcode) (acts : List action) : List operand :=
  (acts.filter (fun a => decide (a.1 = op))).map Prod.snd

/-- What holds of the slot map and of the instructions under compilation: the
pairs of the map are pairwise different and have the slots `0 .. slots_used-1`
in order, every slot is filled by one `FILL_SLOT`, and there is one
`FETCH_VALUE` for every pair that is no literal. -/
def compile_slots (cx : template_cx) : Prop :=
  cx.map.map Prod.snd = List.range cx.slots_used ∧
    (cx.map.map Prod.fst).Nodup ∧
    operands_of FILL_SLOT cx.actions = (List.range cx.slots_used).map operand.int ∧
    operands_of FETCH_VALUE cx.actions =
      ((cx.map.map Prod.fst).filter (fun p => decide (p.2 ≠ DYN_LITERAL))).map
        (fun p => operand.text p.1)

/-! ## Templates with placeholder keys -/

/-- The key a member is found under after the application of the tape: an
ordinary key stays, a key `~S:name` or `~L:name` is replaced by the text of the
value its slot holds (none when the source has no value for the name), and a
key of a refused form has none. -/
def new_key (dict : subst_source) (k : Str) : Option Str :=
  match key_subst_of k with
  | .plain => some k
  | .not_allowed => none
  | .subst stype name =>
    match coerce_value string_jval (fun j => .ok j) dict stype name with
    | .ok r => key_text r
    | .error _ => none

/-- In every object of the template each key has a new key, the new keys of
the members are pairwise different, and the new key of a placeholder key is no
key of the object. -/
def keys_replaceable (dict : subst_source) : Jval → Bool
  | .object val =>
    decide ((val.map fun p => new_key dict p.1).Nodup) && members (val.map Prod.fst) val
  | .array val => elems val
  | _ => true
where
  /-- The members of an object whose keys are `keys`. -/
  members (keys : List Str) : List (Str × Jval) → Bool
    | [] => true
    | (k, v) :: rest =>
      (match new_key dict k with
        | none => false
        | some knew => decide (key_subst_of k = .plain ∨ knew ∉ keys)) &&
        keys_replaceable dict v && members keys rest
  /-- The elements. -/
  elems : List Jval → Bool
    | [] => true
    | v :: rest => keys_replaceable dict v && elems rest

/-- The instructions `template_actions` adds for a placeholder key, with the
slot map and the number of slots before and after: the slot of the pair is
filled when the pair is new, then `REPLACE_KEY` names it. -/
def key_code (map : List ((Str × dyn_type) × Nat)) (used : Nat) (name : Str) (stype : dyn_type) :
    List action × List ((Str × dyn_type) × Nat) × Nat :=
  match map_get map name stype with
  | some slot => ([(REPLACE_KEY, .int slot)], map, used)
  | none =>
    (slot_population name stype used ++ [(REPLACE_KEY, .int used)],
      map ++ [((name, stype), used)], used + 1)

/-- The instructions `template_actions` adds for a value whose keys are
ordinary or of the forms `~S:` and `~L:`, with the slot map and the number of
slots before and after. -/
def tape_code (map : List ((Str × dyn_type) × Nat)) (used : Nat) :
    Jval → List action × List ((Str × dyn_type) × Nat) × Nat
  | .dyn type name => code_of map used (.dyn type name)
  | .object val => members map used val
  | .array val => elems map used 0 val
  | _ => ([], map, used)
where
  /-- The members of an object. -/
  members (map : List ((Str × dyn_type) × Nat)) (used : Nat) :
      List (Str × Jval) → List action × List ((Str × dyn_type) × Nat) × Nat
    | [] => ([], map, used)
    | (k, v) :: rest =>
      let r := tape_code map used v
      match key_subst_of k with
      | .subst stype name =>
        let kc := key_code r.2.1 r.2.2 name stype
        let r' := members kc.2.1 kc.2.2 rest
        ((CX_OBJ_KEY, .text k) :: (r.1 ++ kc.1 ++ [(POP_CX, .int 1)]) ++ r'.1, r'.2)
      | _ =>
        let r' := members r.2.1 r.2.2 rest
        ((if r.1 = [] then [] else (CX_OBJ_KEY, .text k) :: close_member r.1) ++ r'.1, r'.2)
  /-- The elements of an array from the index `i` on. -/
  elems (map : List ((Str × dyn_type) × Nat)) (used : Nat) (i : Nat) :
      List Jval → List action × List ((Str × dyn_type) × Nat) × Nat
    | [] => ([], map, used)
    | v :: rest =>
      let r := tape_code map used v
      let r' := elems r.2.1 r.2.2 (i + 1) rest
      ((if r.1 = [] then [] else (CX_ARR_IDX, .int i) :: close_member r.1) ++ r'.1, r'.2)

/-- One member stored into the object `cur` as the tape stores it: the value
`x` under the key `k`, and for a placeholder key the member then moved from
`k` to its new key. -/
def place_member (dict : subst_source) (cur : List (Str × Jval)) (k : Str) (x : Jval) :
    List (Str × Jval) :=
  match key_subst_of k with
  | .subst _ _ => Tcl_DictObjPut (Tcl_DictObjRemove cur k) ((new_key dict k).getD k) x
  | _ => Tcl_DictObjPut cur k x

/-- The members stored one after the other, in their order. -/
def place_members (dict : subst_source) :
    List (Str × Jval) → List (Str × Jval) → List (Str × Jval)
  | cur, [] => cur
  | cur, (k, x) :: rest => place_members dict (place_member dict cur k x) rest

/-- Direct substitution with placeholder keys: every placeholder value is
replaced by the value it stands for, and the members of an object, their
values substituted, are stored into the object one after the other, those with
a placeholder key under their new key. -/
def subst_with_keys (nested : Jval → Except TclError Jval) (dict : subst_source) :
    Jval → Except TclError Jval
  | .dyn type name => coerce_value string_jval nested dict type name
  | .object val =>
    match members val with
    | .error e => .error e
    | .ok val' => .ok (.object (place_members dict val val'))
  | .array val =>
    match elems val with
    | .error e => .error e
    | .ok val' => .ok (.array val')
  | v => .ok v
where
  /-- The values of the members, in order, under the keys of the template. -/
  members : List (Str × Jval) → Except TclError (List (Str × Jval))
    | [] => .ok []
    | (k, v) :: rest =>
      match subst_with_keys nested dict v with
      | .error e => .error e
      | .ok v' =>
        match members rest with
        | .error e => .error e
        | .ok rest' => .ok ((k, v') :: rest')
  /-- The elements, in order. -/
  elems : List Jval → Except TclError (List Jval)
    | [] => .ok []
    | v :: rest =>
      match subst_with_keys nested dict v with
      | .error e => .error e
      | .ok v' =>
        match elems rest with
        | .error e => .error e
        | .ok rest' => .ok (v' :: rest')

/-- No `POP_CX` of the list comes right after a `POP_CX`, a `CX_OBJ_KEY` or a
`CX_ARR_IDX`. -/
def pops_folded (acts : List action) : Prop :=
  acts.Chain' fun a b => b.1 = POP_CX → a.1 ≠ POP_CX ∧ a.1 ≠ CX_OBJ_KEY ∧ a.1 ≠ CX_ARR_IDX

/-- The opcodes that set the value a `FILL_SLOT` stores. -/
def is_jval (op : action_opcode) : Prop :=
  op = JVAL_LITERAL ∨ op = JVAL_STRING ∨ op = JVAL_NUMBER ∨ op = JVAL_BOOLEAN ∨ op = JVAL_JSON

/-- What holds of the instruction `a` that follows the instructions `pre` in
the body of a tape with `n` slots: a `REPLACE_VAL` or `REPLACE_KEY` names a slot
below `n` that a `FILL_SLOT` of `pre` fills, a `FILL_SLOT` names a slot below `n`
and comes right after an instruction that sets the value to store, and `a` is
no allocation. -/
def slot_use_ok (n : Nat) (pre : List action) (a : action) : Prop :=
  (a.1 = REPLACE_VAL ∨ a.1 = REPLACE_KEY →
      ∃ i, a.2 = .int i ∧ i < n ∧ (FILL_SLOT, operand.int i) ∈ pre) ∧
    (a.1 = FILL_SLOT →
      ∃ i, a.2 = .int i ∧ i < n ∧ ∃ y, pre.getLast? = some y ∧ is_jval y.1) ∧
    a.1 ≠ ALLOCATE_SLOTS ∧ a.1 ≠ ALLOCATE_STACK

/-- Every instruction of the list is as `slot_use_ok` says, given those before
it. -/
def slots_wired (n : Nat) (acts : List action) : Prop :=
  ∀ pre a post, acts = pre ++ a :: post → slot_use_ok n pre a

/-- What holds of the compilation context: the instructions are wired, and
every slot the map names is below the count and filled by the instructions. -/
def compile_wired (cx : template_cx) : Prop :=
  slots_wired cx.slots_used cx.actions ∧
    ∀ name type i, map_get cx.map name type = some i →
      i < cx.slots_used ∧ (FILL_SLOT, operand.int i) ∈ cx.actions

/-- The function `JSON_Set` as it acts on the variable.  The C code works in
place on the value of the variable (an unset variable is first set to an empty
object), so the variable holds afterwards whatever the walk has written,
whether the call returns `TCL_OK` or `TCL_ERROR`: the result is the value of
the variable together with the error, if any.  On the way down the walk stores
the child it descends into back where it was (an unshared duplicate of it),
and what is done below happens inside that child.  The loop that fills an
array up to an index past its end appends one null after the other, and the
array keeps those it could append when an append fails.  Where the process
stops in `dup_internal_rep` the value is the one reached by then. -/
def JSON_Set_var (lim : list_limit) (shared : Nat → Bool) (srcvar : Option Jval)
    (pathv : List Str) (replacement : Jval) : Option Jval × Option TclError :=
  match unshare (shared 0) (srcvar.getD (.object [])) with
  | .error e => (some (srcvar.getD (.object [])), some e)
  | .ok src =>
    let out := walk 0 src pathv
    (some out.1, out.2)
where
  /-- The first loop with the labels `followed_path` and `set_val`. -/
  walk : Nat → Jval → List Str → Jval × Option TclError
    | _, _, [] => (replacement, none)
    | i, .object val, step :: rest =>
      match Tcl_DictObjGet val step with
      | none => (.object (Tcl_DictObjPut val step (JSON_Set.create replacement rest)), none)
      | some target =>
        match unshare (shared (i + 1)) target with
        | .error e => (.object val, some e)
        | .ok target =>
          let below := walk (i + 1) target rest
          (.object (Tcl_DictObjPut val step below.1), below.2)
    | i, .array val, step :: rest =>
      match array_index true val.length step with
      | .error e => (.array val, some e)
      | .ok index =>
        if index < 0 then
          if val.length < lim.LIST_MAX then
            (.array (Tcl_ListObjReplace val (-1) 0 [JSON_Set.create replacement rest]), none)
          else (.array val, some lim.too_long)
        else if (val.length : Int) ≤ index then
          if index < (lim.LIST_MAX : Int) then
            (.array (val ++ List.replicate (index.toNat - val.length) .null ++
              [JSON_Set.create replacement rest]), none)
          else
            (.array (val ++ List.replicate (lim.LIST_MAX - val.length) .null),
              some lim.too_long)
        else
          match unshare (shared (i + 1)) (val.getD index.toNat .null) with
          | .error e => (.array val, some e)
          | .ok target =>
            let below := walk (i + 1) target rest
            (.array (Tcl_ListObjReplace val index 1 [below.1]), below.2)
    | _, target, step :: _ =>
      (target, some ⟨"Attempt to index into atomic type ".toList ++ type_names target.type ++
        " at path key \"".toList ++ step ++ "\"".toList, []⟩)

/-- The values `JSON_Set` does not descend into: a string, a number, a
boolean, a null or a placeholder. -/
def is_atomic : Jval → Bool
  | .object _ => false
  | .array _ => false
  | _ => true

/-- Along the part of the path that exists in the document every step meets
an object, where it is read as a key, and never an array, where it would be
read as an index. -/
def key_path : Jval → List Str → Bool
  | .object val, step :: rest =>
    match Tcl_DictObjGet val step with
    | none => true
    | some t => key_path t rest
  | .array _, _ :: _ => false
  | _, _ => true

/-- The deletion the specification speaks of: the text without the spaces and
the newlines that lie outside a string literal.  The state is `none` outside
a string literal and `some escaped` inside one, where `escaped` tells that the
character before was a backslash that escapes the next character.  A double
quote outside a literal opens one, a double quote inside that is not escaped
closes it. -/
def delete_blanks_outside_strings : Option Bool → Str → Str
  | _, [] => []
  | none, c :: rest =>
    if c = ' ' ∨ c = '\n' then delete_blanks_outside_strings none rest
    else c :: delete_blanks_outside_strings (if c = '"' then some false else none) rest
  | some true, c :: rest => c :: delete_blanks_outside_strings (some false) rest
  | some false, c :: rest =>
    c :: delete_blanks_outside_strings (if c = '"' then none else some (decide (c = '\\'))) rest

/-- No number of the value holds a space, a newline or a double quote in its
text (the text of a JSON number holds digits, signs, a point and an exponent
letter). -/
def numbers_dense : Jval → Bool
  | .number val => val.all fun c => decide (c ≠ ' ' ∧ c ≠ '\n' ∧ c ≠ '"')
  | .object val => members val
  | .array val => elems val
  | _ => true
where
  /-- The member values. -/
  members : List (Str × Jval) → Bool
    | [] => true
    | (_, v) :: rest => numbers_dense v && members rest
  /-- The elements. -/
  elems : List Jval → Bool
    | [] => true
    | v :: rest => numbers_dense v && elems rest

/-! ## The interning cache -/

/-- One `struct kc_entry`: the string the slot holds (`none` for `NULL`) and
its hit counter. -/
structure kc_entry where
  val : Option Str
  hits : Nat
  deriving DecidableEq, Repr

/-- The fields of `struct interp_cx` that the interning cache uses: the hash
table `kc` from key to slot index, written as the list of its entries; the
counter `kc_count`; the bitmap `freemap`, one 64-bit pattern for each
`long long`, in which a set bit says that the slot is free; and the slots
`kc_entries`. -/
structure interp_cx where
  kc : List (Str × Nat)
  kc_count : Nat
  freemap : List Nat
  kc_entries : List kc_entry
  deriving DecidableEq, Repr

/-- The function `ffsll_polyfill` (and the `ffsll` it stands in for): one plus
the index of the lowest set bit of the 64-bit pattern `x`, or zero when no bit
is set. -/
def ffsll_polyfill (x : Nat) : Nat :=
  loop 64 0
where
  /-- The loop over the bit positions from `i` on. -/
  loop : Nat → Nat → Nat
    | 0, _ => 0
    | fuel + 1, i => if x.testBit i then i + 1 else loop fuel (i + 1)

/-- The function `first_free`: the index of the first set bit of the bitmap.
The loop of the C function does not test the length of the array; there is no
result when it runs past the last word. -/
def first_free (freemap : List Nat) : Option Nat :=
  go freemap 0
where
  /-- The loop `while (FFSLL(freemap[i]) == 0) i++`. -/
  go : List Nat → Nat → Option Nat
    | [], _ => none
    | w :: rest, i =>
      if ffsll_polyfill w = 0 then go rest (i + 1)
      else some (i * 64 + (ffsll_polyfill w - 1))

/-- The function `mark_used`: the bit of the slot is cleared. -/
def mark_used (freemap : List Nat) (idx : Nat) : List Nat :=
  let i := idx / 64
  let bit := idx - i * 64
  freemap.set i (freemap.getD i 0 &&& ((2 ^ 64 - 1) ^^^ (1 <<< bit)))

/-- The function `mark_free`: the bit of the slot is set. -/
def mark_free (freemap : List Nat) (idx : Nat) : List Nat :=
  let i := idx / 64
  let bit := idx - i * 64
  freemap.set i (freemap.getD i 0 ||| (1 <<< bit))

/-- `Tcl_FindHashEntry` on the table of the cache: the slot index stored under
the key. -/
def Tcl_FindHashEntry (kc : List (Str × Nat)) (key : Str) : Option Nat :=
  Tcl_DictObjGet kc key

/-- `Tcl_DeleteHashEntry` on the table of the cache. -/
def Tcl_DeleteHashEntry (kc : List (Str × Nat)) (key : Str) : List (Str × Nat) :=
  Tcl_DictObjRemove kc key

/-- The function `age_cache`: the walk over the entries of the hash table as
they are when the walk begins, then the reset of `kc_count`.  An entry whose
slot has no hit is deleted and its slot freed; the counter of every other
entry is shifted right by one. -/
def age_cache (l : interp_cx) : interp_cx :=
  { l.kc.foldl visit l with kc_count := 0 }
where
  /-- The body of the loop for the entry `he`. -/
  visit (l : interp_cx) (he : Str × Nat) : interp_cx :=
    let e := l.kc_entries.getD he.2 ⟨none, 0⟩
    if e.hits < 1 then
      { l with
        kc := Tcl_DeleteHashEntry l.kc he.1
        freemap := mark_free l.freemap he.2
        kc_entries := l.kc_entries.set he.2 { e with val := none } }
    else
      { l with kc_entries := l.kc_entries.set he.2 { e with hits := e.hits >>> 1 } }

/-- The C string that begins at `bytes`: the bytes before the first zero byte. -/
def c_string (bytes : Str) : Str :=
  bytes.takeWhile fun c => decide (c ≠ Char.ofNat 0)

/-- What `new_stringobj_dedup` returns and leaves behind: the string returned
(`none` for a `NULL` pointer), the cache afterwards, and `aged`, which records
whether the call ran `age_cache`. -/
structure dedup_result where
  out : Option Str
  cx : interp_cx
  aged : Bool
  deriving DecidableEq, Repr

/-- The function `new_stringobj_dedup`.  `KC_ENTRIES` and `STRING_DEDUP_MAX`
are the two constants of the header; `(int)(KC_ENTRIES/2.5)` is
`KC_ENTRIES * 2 / 5`.  `bytes` is the memory at the pointer (its end stands
for a terminating zero byte), `length` the length handed in.  The key of the
hash table is the C string at the first `length` bytes.  There is no result
when `first_free` has none. -/
def new_stringobj_dedup (KC_ENTRIES STRING_DEDUP_MAX : Nat) (l : interp_cx) (bytes : Str)
    (length : Int) : Option dedup_result :=
  if length = 0 then some ⟨some [], l, false⟩
  else
    let length := if length < 0 then (c_string bytes).length else length.toNat
    if length > STRING_DEDUP_MAX then some ⟨some (bytes.take length), l, false⟩
    else
      let keyname := c_string (bytes.take length)
      match Tcl_FindHashEntry l.kc keyname with
      | none =>
        match first_free l.freemap with
        | none => none
        | some idx =>
          if idx ≥ KC_ENTRIES then some ⟨some (bytes.take length), age_cache l, true⟩
          else
            let out := bytes.take length
            let l1 : interp_cx :=
              { kc := l.kc ++ [(keyname, idx)]
                kc_count := l.kc_count + 1
                freemap := mark_used l.freemap idx
                kc_entries := l.kc_entries.set idx ⟨some out, 0⟩ }
            if l1.kc_count > KC_ENTRIES * 2 / 5 then
              some ⟨some out,
                age_cache { l1 with kc_entries := l1.kc_entries.set idx ⟨some out, 1⟩ }, true⟩
            else some ⟨some out, l1, false⟩
      | some idx =>
        let kce := l.kc_entries.getD idx ⟨none, 0⟩
        some ⟨kce.val,
          { l with
            kc_entries := l.kc_entries.set idx
              { kce with hits := if kce.hits < 255 then kce.hits + 1 else kce.hits } },
          false⟩

/-- The cache as `Rl_json_Init` leaves it: an empty hash table, `kc_count`
zero, every bit of the `words` words of the bitmap set, and the slots as the
allocation left them. -/
def init_cache (words : Nat) (kc_entries : List kc_entry) : interp_cx :=
  ⟨[], 0, List.replicate words (2 ^ 64 - 1), kc_entries⟩

/-- The cache after the calls of `new_stringobj_dedup` on the byte strings of
the list, each with its own length, one after the other. -/
def intern_all (KC_ENTRIES STRING_DEDUP_MAX : Nat) (l : interp_cx) :
    List Str → Option interp_cx
  | [] => some l
  | bytes :: rest =>
    match new_stringobj_dedup KC_ENTRIES STRING_DEDUP_MAX l bytes bytes.length with
    | none => none
    | some r => intern_all KC_ENTRIES STRING_DEDUP_MAX r.cx rest
/-- The bit of the slot `idx` in the bitmap is set: the slot is free. -/
def slot_free (freemap : List Nat) (idx : Nat) : Bool :=
  (freemap.getD (idx / 64) 0).testBit (idx % 64)
/-- The entry of the slot `idx` (`l->kc_entries[idx]`). -/
def slot (l : interp_cx) (idx : Nat) : kc_entry :=
  l.kc_entries.getD idx ⟨none, 0⟩

/-- The consistency of the cache: the hash table has one entry for a key; its
entries map to different slots, all below `KC_ENTRIES`; there are
`KC_ENTRIES` slots and the bitmap has a bit past them; a bit of the bitmap is
clear exactly when an entry maps to its slot; the hit counter of the slot of
every entry is at most 255; and `kc_count` is at most the number of entries. -/
def cache_consistent (KC_ENTRIES : Nat) (l : interp_cx) : Prop :=
  (l.kc.map Prod.fst).Nodup ∧ (l.kc.map Prod.snd).Nodup ∧
    (∀ he ∈ l.kc, he.2 < KC_ENTRIES) ∧
    l.kc_entries.length = KC_ENTRIES ∧ KC_ENTRIES < 64 * l.freemap.length ∧
    (∀ idx, idx < 64 * l.freemap.length →
      (slot_free l.freemap idx = false ↔ idx ∈ l.kc.map Prod.snd)) ∧
    (∀ he ∈ l.kc, (slot l he.2).hits ≤ 255) ∧
    l.kc_count ≤ l.kc.length

/-- The slot of every entry of the hash table stores the key of the entry. -/
def cache_keys_stored (l : interp_cx) : Prop :=
  ∀ he ∈ l.kc, (slot l he.2).val = some he.1

/-- The cache after the insert path of `new_stringobj_dedup` has placed the
string `out` under the key `keyname` in the slot `idx` with the hit counter
`hits`, before any aging pass. -/
def inserted (l : interp_cx) (keyname : Str) (idx : Nat) (out : Str) (hits : Nat) :
    interp_cx :=
  { kc := l.kc ++ [(keyname, idx)]
    kc_count := l.kc_count + 1
    freemap := mark_used l.freemap idx
    kc_entries := l.kc_entries.set idx ⟨some out, hits⟩ }

/-- The cache after the hit path of `new_stringobj_dedup` on the slot `idx`:
the hit counter is incremented unless it has reached 255. -/
def hit (l : interp_cx) (idx : Nat) : interp_cx :=
  { l with
    kc_entries := l.kc_entries.set idx
      { slot l idx with
        hits := if (slot l idx).hits < 255 then (slot l idx).hits + 1 else (slot l idx).hits } }

/-- The length `new_stringobj_dedup` works with: `strlen(bytes)` for a negative
`length`. -/
def dedup_length (bytes : Str) (length : Int) : Nat :=
  if length < 0 then (c_string bytes).length else length.toNat
/-- The states of the cache that the calls of `new_stringobj_dedup` and
`age_cache` lead to from the initial state with `words` words in the bitmap.
With `dense` the calls are made on byte strings without a zero byte only. -/
inductive cache_reachable (KC_ENTRIES STRING_DEDUP_MAX words : Nat) (dense : Bool) :
    interp_cx → Prop
  | init (kc_entries : List kc_entry) : kc_entries.length = KC_ENTRIES →
    cache_reachable KC_ENTRIES STRING_DEDUP_MAX words dense (init_cache words kc_entries)
  | call (l : interp_cx) (bytes : Str) (length : Int) (r : dedup_result) :
    cache_reachable KC_ENTRIES STRING_DEDUP_MAX words dense l →
    (dense = true → ∀ c ∈ bytes, c ≠ Char.ofNat 0) →
    new_stringobj_dedup KC_ENTRIES STRING_DEDUP_MAX l bytes length = some r →
    cache_reachable KC_ENTRIES STRING_DEDUP_MAX words dense r.cx
  | age (l : interp_cx) : cache_reachable KC_ENTRIES STRING_DEDUP_MAX words dense l →
    cache_reachable KC_ENTRIES STRING_DEDUP_MAX words dense (age_cache l)

/-- The byte string of two letters with the number `i`, different for
different numbers below 676. -/
def two_letters (i : Nat) : Str := [Char.ofNat (65 + i / 26), Char.ofNat (97 + i % 26)]

/-! # Properties -/

/-! ## Decimal texts and the index readers -/

theorem digit_val_digit_char (d : Nat) (h : d < 10) : digit_val (digit_char d) = some d := by
  interval_cases d <;> rfl

theorem DigitsOf.nil : DigitsOf [] 0 0 := by
  intro a rest h
  cases rest with
  | nil => simp [read_digits]
  | cons c r => simp [read_digits, h c r rfl]

theorem DigitsOf.cons {s : Str} {len v d : Nat} (hd : d < 10) (h : DigitsOf s len v) :
    DigitsOf (digit_char d :: s) (len + 1) (d * 10 ^ len + v) := by
  intro a rest hrest
  show read_digits (digit_char d :: (s ++ rest)) a = _
  rw [read_digits]
  simp only [digit_val_digit_char d hd]
  rw [h _ rest hrest]
  simp only [Prod.mk.injEq, and_true]
  ring

theorem DigitsOf.decimal_aux : ∀ (fuel n : Nat) (acc : Str) (len v : Nat), n < fuel →
    DigitsOf acc len v →
    ∃ len', len < len' ∧ DigitsOf (decimal_aux fuel n acc) len' (n * 10 ^ len + v)
  | 0, n, _, _, _, h, _ => by omega
  | fuel + 1, n, acc, len, v, h, hacc => by
    unfold RlJson.decimal_aux
    split
    · next hn => exact ⟨len + 1, by omega, DigitsOf.cons hn hacc⟩
    · next hn =>
      have hlt : n / 10 < fuel := by omega
      obtain ⟨len', hl, hd⟩ := DigitsOf.decimal_aux fuel (n / 10) _ (len + 1) _ hlt
        (DigitsOf.cons (Nat.mod_lt n (by norm_num)) hacc)
      refine ⟨len', by omega, ?_⟩
      have e : n / 10 * 10 ^ (len + 1) + (n % 10 * 10 ^ len + v) = n * 10 ^ len + v := by
        have := Nat.div_add_mod n 10
        calc n / 10 * 10 ^ (len + 1) + (n % 10 * 10 ^ len + v)
            = (10 * (n / 10) + n % 10) * 10 ^ len + v := by ring
          _ = n * 10 ^ len + v := by rw [this]
      rw [← e]; exact hd

theorem read_digits_int_string (n a : Nat) (rest : Str)
    (hrest : ∀ c r, rest = c :: r → digit_val c = none) :
    ∃ len, 0 < len ∧ read_digits (int_string n ++ rest) a = (a * 10 ^ len + n, len, rest) := by
  obtain ⟨len, hl, hd⟩ := DigitsOf.decimal_aux (n + 1) n [] 0 0 (by omega) DigitsOf.nil
  refine ⟨len, by omega, ?_⟩
  have := hd a rest hrest
  simpa [int_string] using this

theorem Tcl_GetLongFromObj_end (tail : Str) :
    Tcl_GetLongFromObj ('e' :: 'n' :: 'd' :: tail) = none := by
  have h : digit_val 'e' = none := by decide
  simp [Tcl_GetLongFromObj, read_digits, h]

theorem strtol_minus_int_string (k : Nat) (hk : (k : Int) ≤ 2 ^ 63) :
    strtol ('-' :: int_string k) = (-(k : Int), [], false) := by
  obtain ⟨len, hl, hr⟩ := read_digits_int_string k 0 [] (by simp)
  simp only [List.append_nil, zero_mul, zero_add] at hr
  simp only [strtol, hr]
  have h1 : len ≠ 0 := by omega
  have h2 : ¬ (-(k : Int) < LONG_MIN) := by unfold LONG_MIN; omega
  simp [h1, h2]

theorem wrap_long_eq (x : Int) (hlo : LONG_MIN ≤ x) (hhi : x ≤ LONG_MAX) :
    wrap_long x = x := by
  unfold wrap_long
  unfold LONG_MIN at hlo
  unfold LONG_MAX at hhi
  omega

theorem wrap_long_range (x : Int) : LONG_MIN ≤ wrap_long x ∧ wrap_long x ≤ LONG_MAX := by
  unfold wrap_long LONG_MIN LONG_MAX
  omega

theorem array_index_end (plus : Bool) (ac : Nat) (hac : (ac : Int) ≤ 2 ^ 63) :
    array_index plus ac ['e', 'n', 'd'] = .ok ((ac : Int) - 1) := by
  simp only [array_index, Tcl_GetLongFromObj_end, end_offset, add_zero]
  rw [wrap_long_eq _ (by unfold LONG_MIN; omega) (by unfold LONG_MAX; omega)]

theorem array_index_end_minus_wrap (plus : Bool) (ac k : Nat) (hk : (k : Int) ≤ 2 ^ 63) :
    array_index plus ac ('e' :: 'n' :: 'd' :: '-' :: int_string k) =
      .ok (wrap_long ((ac : Int) - 1 - k)) := by
  simp only [array_index, Tcl_GetLongFromObj_end, end_offset, strtol_minus_int_string k hk]
  simp
  rfl

theorem array_index_end_minus (plus : Bool) (ac k : Nat) (hk : (k : Int) ≤ 2 ^ 63)
    (hac : (ac : Int) ≤ 2 ^ 63) (h0 : 0 < ac ∨ (k : Int) < 2 ^ 63) :
    array_index plus ac ('e' :: 'n' :: 'd' :: '-' :: int_string k) = .ok ((ac : Int) - 1 - k) := by
  rw [array_index_end_minus_wrap plus ac k hk,
    wrap_long_eq _ (by unfold LONG_MIN; omega) (by unfold LONG_MAX; omega)]

/-- The step `end-k` with `k` at least the length names no element: the index
is below zero, or (on the empty array with `k = 2^63`, where the sum of the
two `long`s wraps around) the greatest `long`. -/
theorem array_index_end_minus_out (plus : Bool) (ac k : Nat) (hk : (k : Int) ≤ 2 ^ 63)
    (hle : ac ≤ k) :
    ∃ i, array_index plus ac ('e' :: 'n' :: 'd' :: '-' :: int_string k) = .ok i ∧
      (i < 0 ∨ (ac : Int) ≤ i) := by
  refine ⟨_, array_index_end_minus_wrap plus ac k hk, ?_⟩
  unfold wrap_long
  omega

theorem getD_eq_get {α : Type} (l : List α) (i : Nat) (h : i < l.length) (d : α) :
    l.getD i d = l.get ⟨i, h⟩ := by
  simp [List.getD, List.getElem?_eq_getElem h]

/-- C6: on an array of length `n` (a C `int`), the step `end` reads the element
at index `n-1` and the step `end-k`, for `k < n` written in decimal, reads the
element at index `n-1-k`. -/
theorem end_relative_get (val : List Jval) (k : Nat) (hk : k < val.length)
    (hn : val.length < 2 ^ 31) :
    json_get (.array val) [['e', 'n', 'd']] =
        .ok (.jval (val.get ⟨val.length - 1, by omega⟩)) ∧
      json_get (.array val) ['e' :: 'n' :: 'd' :: '-' :: int_string k] =
        .ok (.jval (val.get ⟨val.length - 1 - k, by omega⟩)) := by
  have hk' : (k : Int) ≤ 2 ^ 63 := by
    have : (k : Int) < 2 ^ 31 := by exact_mod_cast (lt_trans hk hn)
    omega
  have hac : (val.length : Int) ≤ 2 ^ 63 := by
    have : (val.length : Int) < 2 ^ 31 := by exact_mod_cast hn
    omega
  constructor
  · simp only [json_get, resolve_path, resolve_step, array_index_end false _ hac]
    have h1 : ¬ ((val.length : Int) - 1 < 0 ∨ (val.length : Int) ≤ (val.length : Int) - 1) := by
      omega
    have h2 : ((val.length : Int) - 1).toNat = val.length - 1 := by omega
    simp only [h1, if_false, h2, List.length_singleton]
    rw [getD_eq_get _ _ (by omega)]
    simp
  · simp only [json_get, resolve_path, resolve_step,
      array_index_end_minus false _ k hk' hac (Or.inl (by omega))]
    have h1 : ¬ ((val.length : Int) - 1 - k < 0 ∨ (val.length : Int) ≤ (val.length : Int) - 1 - k) := by
      omega
    have h2 : ((val.length : Int) - 1 - k).toNat = val.length - 1 - k := by omega
    simp only [h1, if_false, h2, List.length_singleton]
    rw [getD_eq_get _ _ (by omega)]
    simp

theorem end_relative_get_witness :
    json_get (.array [.number ['1', '0'], .number ['2', '0'], .number ['3', '0']])
        [['e', 'n', 'd']] = .ok (.jval (.number ['3', '0'])) ∧
      json_get (.array [.number ['1', '0'], .number ['2', '0'], .number ['3', '0']])
        [['e', 'n', 'd', '-', '1']] = .ok (.jval (.number ['2', '0'])) :=
  end_relative_get [.number ['1', '0'], .number ['2', '0'], .number ['3', '0']] 1
    (by decide) (by decide)

/-! ## The step `end+N` and the `exists` mode -/

theorem array_index_cases (plus : Bool) (ac : Nat) (step : Str) :
    (∃ i, array_index plus ac step = .ok i) ∨
      array_index plus ac step = .error (index_error plus step) := by
  unfold array_index
  split
  · exact Or.inl ⟨_, rfl⟩
  · split
    · split
      · exact Or.inl ⟨_, rfl⟩
      · exact Or.inr rfl
    · exact Or.inr rfl

theorem array_index_false_end_plus (ac : Nat) (tail : Str) :
    array_index false ac ('e' :: 'n' :: 'd' :: '+' :: tail) =
      .error (index_error false ('e' :: 'n' :: 'd' :: '+' :: tail)) := by
  simp [array_index, Tcl_GetLongFromObj_end, end_offset]

/-- C7 (as amended): `get` does not accept the form `end+N`.  On every array,
whatever follows `end+`, the step fails with the index-syntax error of
`resolve_path`, which names `end(-integer)?` only. -/
theorem get_rejects_end_plus (val : List Jval) (tail : Str) :
    json_get (.array val) ['e' :: 'n' :: 'd' :: '+' :: tail] =
      .error (index_error false ('e' :: 'n' :: 'd' :: '+' :: tail)) := by
  simp [json_get, resolve_path, resolve_step, array_index_false_end_plus]

/-- C7, the claim as written fails: on `[10,20,30]` the step `end+1` does not
resolve to the out-of-range index 3 (a null), `get` fails with the
index-syntax error. -/
theorem get_end_plus_counterexample :
    json_get (.array [.number ['1', '0'], .number ['2', '0'], .number ['3', '0']])
        [['e', 'n', 'd', '+', '1']] ≠ .ok (.jval .null) ∧
      json_get (.array [.number ['1', '0'], .number ['2', '0'], .number ['3', '0']])
        [['e', 'n', 'd', '+', '1']] =
        .error ⟨"Expected an integer index or end(-integer)?, got end+1".toList, []⟩ := by
  decide

theorem resolve_step_exists_cases (pathc : Nat) (target : Jval) (step : Str) :
    (∃ r, resolve_step pathc true target step = .ok r) ∨
      resolve_step pathc true target step = .error (index_error false step) := by
  cases target with
  | array val =>
    rcases array_index_cases false val.length step with ⟨i, hi⟩ | he
    · left
      simp only [resolve_step, hi]
      split <;> exact ⟨_, rfl⟩
    · right
      simp only [resolve_step, he]
  | object val =>
    left
    simp only [resolve_step]
    split <;> exact ⟨_, rfl⟩
  | _ => left; exact ⟨_, rfl⟩

theorem get_modifier_cases (tail : Str) :
    (∃ m, m ≠ MODIFIER_NONE ∧ get_modifier ('?' :: tail) = .ok m) ∨
      get_modifier ('?' :: tail) = .error (bad_modifier_error ('?' :: tail)) := by
  unfold get_modifier
  simp only [List.cons_ne_nil, if_false]
  split
  · exact Or.inl ⟨_, by decide, rfl⟩
  · split
    · exact Or.inl ⟨_, by decide, rfl⟩
    · split
      · exact Or.inl ⟨_, by decide, rfl⟩
      · split
        · exact Or.inl ⟨_, by decide, rfl⟩
        · exact Or.inr rfl

theorem apply_modifier_exists (step : Str) (target : Jval) (m : modifiers)
    (hm : m ≠ MODIFIER_NONE) : ∃ b, apply_modifier true step target m = .ok (.boolean b) := by
  cases m <;> first | exact absurd rfl hm | (cases target <;> exact ⟨_, rfl⟩)

theorem resolve_path_exists_cases (pathc : Nat) : ∀ (path : List Str) (target : Jval),
    (∃ b, resolve_path pathc true target path = .ok (.boolean b)) ∨
      (∃ step, resolve_path pathc true target path = .error (index_error false step)) ∨
      (∃ step, resolve_path pathc true target path = .error (bad_modifier_error step))
  | [], target => by left; exact ⟨_, rfl⟩
  | [step], target => by
    have hdesc : ∀ s : Str,
        (∃ b, (match resolve_step pathc true target s with
          | .error e => (.error e : Except TclError Resolved)
          | .ok (.inr b) => .ok (.boolean b)
          | .ok (.inl t) => resolve_path pathc true t []) = .ok (.boolean b)) ∨
        (∃ st, (match resolve_step pathc true target s with
          | .error e => (.error e : Except TclError Resolved)
          | .ok (.inr b) => .ok (.boolean b)
          | .ok (.inl t) => resolve_path pathc true t []) = .error (index_error false st)) := by
      intro s
      rcases resolve_step_exists_cases pathc target s with ⟨r, hr⟩ | he
      · left
        rw [hr]
        cases r with
        | inl t => exact ⟨_, rfl⟩
        | inr b => exact ⟨_, rfl⟩
      · right; rw [he]; exact ⟨_, rfl⟩
    unfold resolve_path
    split
    · rcases hdesc ('?' :: _) with h | h
      · exact Or.inl h
      · exact Or.inr (Or.inl h)
    · next tail _ =>
      rcases get_modifier_cases tail with ⟨m, hm, hg⟩ | he
      · rw [hg]; exact Or.inl (apply_modifier_exists _ _ m hm)
      · rw [he]; exact Or.inr (Or.inr ⟨_, rfl⟩)
    · rcases hdesc step with h | h
      · exact Or.inl h
      · exact Or.inr (Or.inl h)
  | step :: s2 :: rest, target => by
    unfold resolve_path
    rcases resolve_step_exists_cases pathc target step with ⟨r, hr⟩ | he
    · rw [hr]
      cases r with
      | inl t => exact resolve_path_exists_cases pathc (s2 :: rest) t
      | inr b => exact Or.inl ⟨_, rfl⟩
    · rw [he]; exact Or.inr (Or.inl ⟨_, rfl⟩)

/-- C8, the claim as written fails: `exists` on the array `[1]` with the step
`x` fails with the index-syntax error, and with the step `?foo` it fails with
the unknown-modifier error; neither yields false. -/
theorem exists_fails_counterexample :
    json_exists (.array [.number ['1']]) [['x']] =
        .error ⟨"Expected an integer index or end(-integer)?, got x".toList, []⟩ ∧
      json_exists (.array [.number ['1']]) [['?', 'f', 'o', 'o']] =
        .error ⟨"bad modifier \"?foo\": must be ?length, ?size, ?type, or ?keys".toList,
          ["TCL".toList, "LOOKUP".toList, "INDEX".toList, "modifier".toList,
            "?foo".toList]⟩ := by
  decide

/-! ## set then get -/

theorem Tcl_DictObjGet_Put {α : Type} (d : List (Str × α)) (k : Str) (v : α) :
    Tcl_DictObjGet (Tcl_DictObjPut d k v) k = some v := by
  induction d with
  | nil => simp [Tcl_DictObjPut, Tcl_DictObjGet]
  | cons p d ih =>
    obtain ⟨k', v'⟩ := p
    by_cases h : k' = k
    · simp [Tcl_DictObjPut, Tcl_DictObjGet, h]
    · simp [Tcl_DictObjPut, Tcl_DictObjGet, h, ih]

theorem resolve_path_cons (pathc : Nat) (ex : Bool) (target : Jval) (step : Str)
    (rest : List Str) (h : last_step_plain (step :: rest) = true) :
    resolve_path pathc ex target (step :: rest) =
      match resolve_step pathc ex target step with
      | .error e => .error e
      | .ok (.inr b) => .ok (.boolean b)
      | .ok (.inl t) => resolve_path pathc ex t rest := by
  cases rest with
  | cons s2 rest => rw [resolve_path]; simp
  | nil =>
    have h' : step.head? ≠ some '?' := by simpa [last_step_plain] using h
    unfold resolve_path
    split
    · simp at h'
    · simp at h'
    · rfl

theorem last_step_plain_tail (step : Str) (rest : List Str) (hne : rest ≠ [])
    (h : last_step_plain (step :: rest) = true) : last_step_plain rest = true := by
  cases rest with
  | nil => exact absurd rfl hne
  | cons s2 rest => simpa [last_step_plain] using h

theorem last_step_plain_tail' (step : Str) (rest : List Str)
    (h : last_step_plain (step :: rest) = true) : last_step_plain rest = true := by
  cases rest with
  | nil => rfl
  | cons s2 rest => simpa [last_step_plain] using h

theorem resolve_path_create (pathc : Nat) (replacement : Jval) : ∀ (rest : List Str),
    last_step_plain rest = true →
    resolve_path pathc false (JSON_Set.create replacement rest) rest = .ok (.jval replacement)
  | [], _ => by simp [JSON_Set.create, resolve_path]
  | step :: rest, h => by
    rw [resolve_path_cons _ _ _ _ _ h]
    simp only [JSON_Set.create, resolve_step, Tcl_DictObjGet_Put]
    exact resolve_path_create pathc replacement rest (last_step_plain_tail' _ _ h)
theorem strtol_minus_nonpos (rest : Str) : (strtol ('-' :: rest)).1 ≤ 0 := by
  simp only [strtol]
  split
  · simp
  · split
    · simp [LONG_MIN]
    · simp

theorem end_offset_false_nonpos (tail : Str) (off : Int) (h : end_offset false tail = some off) :
    off ≤ 0 := by
  cases tail with
  | nil => simp [end_offset] at h; omega
  | cons c t =>
    simp only [end_offset] at h
    split at h
    · simp at h
    · next hc =>
      have hc' : c = '-' := by simpa using hc
      subst hc'
      split at h
      · simp at h
      · simp only [Option.some.injEq] at h
        rw [← h]; exact strtol_minus_nonpos t

theorem end_offset_false_true (tail : Str) (off : Int) (h : end_offset false tail = some off) :
    end_offset true tail = some off := by
  cases tail with
  | nil => simpa [end_offset] using h
  | cons c t =>
    simp only [end_offset] at h ⊢
    split at h
    · simp at h
    · next hc =>
      have hc' : c = '-' := by simpa using hc
      subst hc'
      simpa using h

theorem array_index_false_true (ac : Nat) (step : Str) (i : Int)
    (h : array_index false ac step = .ok i) : array_index true ac step = .ok i := by
  unfold array_index at h ⊢
  split
  · next idx hidx => simpa [hidx] using h
  · next hnone =>
    simp only [hnone] at h
    split at h
    · next tail =>
      split at h
      · next off hoff => simpa [end_offset_false_true tail off hoff] using h
      · simp at h
    · simp at h

theorem strtol_minus_range (rest : Str) (h : (strtol ('-' :: rest)).2.2 = false) :
    LONG_MIN ≤ (strtol ('-' :: rest)).1 := by
  simp only [strtol] at h ⊢
  split
  · simp [LONG_MIN]
  · split
    · next h1 h2 => simp [h1, h2] at h
    · next h1 h2 => simpa using h2

theorem end_offset_false_range (tail : Str) (off : Int) (h : end_offset false tail = some off) :
    LONG_MIN ≤ off := by
  cases tail with
  | nil => simp [end_offset] at h; subst h; simp [LONG_MIN]
  | cons c t =>
    simp only [end_offset] at h
    split at h
    · simp at h
    · next hc =>
      have hc' : c = '-' := by simpa using hc
      subst hc'
      split at h
      · simp at h
      · next hok =>
        simp only [Option.some.injEq] at h
        rw [← h]
        apply strtol_minus_range
        simp only [not_or, Bool.not_eq_true] at hok
        exact hok.1

/-- A step that `resolve_path` reads on an array of `ac` elements as an index
that is not below `ac` and is below `2^31` is an integer, so it names the same
index on an array of any length. -/
theorem array_index_false_extend (ac : Nat) (step : Str) (i : Int)
    (h : array_index false ac step = .ok i) (hle : (ac : Int) ≤ i) (hi : i < 2 ^ 31) :
    ∀ ac', array_index false ac' step = .ok i := by
  unfold array_index at h
  split at h
  · next idx hidx =>
    intro ac'
    simp only [array_index, hidx]
    simpa using h
  · next hnone =>
    split at h
    · next tail =>
      split at h
      · next off hoff =>
        exfalso
        have h1 := end_offset_false_nonpos tail off hoff
        have h2 := end_offset_false_range tail off hoff
        simp only [Except.ok.injEq] at h
        unfold wrap_long at h
        unfold LONG_MIN at h2
        omega
      · simp at h
    · simp at h

theorem unshare_ok (shared : Bool) (target t : Jval) (h : unshare shared target = .ok t) :
    t = target := by
  unfold unshare at h
  split at h
  · unfold dup_internal_rep at h
    split at h
    · cases h
    · simpa using h.symm
  · simpa using h.symm

theorem unshare_container (shared : Bool) (target : Jval)
    (h : target ≠ .null ∨ shared = false) : unshare shared target = .ok target := by
  unfold unshare
  split
  · next hs =>
    unfold dup_internal_rep
    split
    · rcases h with h | h
      · exact absurd rfl h
      · simp [hs] at h
    · rfl
  · rfl

theorem unshare_error (shared : Bool) (target : Jval) (e : TclError)
    (h : unshare shared target = .error e) :
    shared = true ∧ target = .null ∧ e = null_crash := by
  unfold unshare at h
  split at h
  · next hs =>
    unfold dup_internal_rep at h
    split at h
    · simp only [Except.error.injEq] at h
      exact ⟨hs, rfl, h.symm⟩
    · cases h
  · cases h

theorem getD_replace_one {α : Type} (l : List α) (i : Nat) (h : i < l.length) (t d : α) :
    (Tcl_ListObjReplace l (i : Int) 1 [t]).getD i d = t ∧
      (Tcl_ListObjReplace l (i : Int) 1 [t]).length = l.length := by
  simp only [Tcl_ListObjReplace, Int.toNat_ofNat, List.append_assoc]
  constructor
  · rw [List.getD_append_right _ _ _ _ (by simp [le_of_lt h])]
    simp [Nat.min_eq_left (le_of_lt h)]
  · simp; omega

theorem getD_extend {α : Type} (l : List α) (i : Nat) (h : l.length ≤ i) (x d : α) :
    (l ++ List.replicate (i - l.length) d ++ [x]).getD i d = x ∧
      (l ++ List.replicate (i - l.length) d ++ [x]).length = i + 1 := by
  constructor
  · rw [List.getD_append_right _ _ _ _ (by simp; omega)]
    have : i - (l.length + (i - l.length)) = 0 := by omega
    simp [this]
  · simp; omega
theorem set_walk_get (lim : list_limit) (shared : Nat → Bool) (pathc : Nat) (v : Jval) :
    ∀ (path : List Str) (i : Nat) (doc doc' : Jval),
    JSON_Set.walk lim shared v i doc path = .ok doc' → last_step_plain path = true →
    index_steps_readable doc path = true →
    resolve_path pathc false doc' path = .ok (.jval v)
  | [], i, doc, doc', hset, _, _ => by
    simp only [JSON_Set.walk, Except.ok.injEq] at hset
    subst hset
    simp [resolve_path]
  | step :: rest, i, doc, doc', hset, hlast, hidx => by
    have hrest := last_step_plain_tail' _ _ hlast
    rw [resolve_path_cons _ _ _ _ _ hlast]
    cases doc with
    | object val =>
      simp only [JSON_Set.walk] at hset
      simp only [index_steps_readable] at hidx
      cases hg : Tcl_DictObjGet val step with
      | none =>
        simp only [hg, Except.ok.injEq] at hset
        subst hset
        simp only [resolve_step, Tcl_DictObjGet_Put]
        exact resolve_path_create pathc v rest hrest
      | some target =>
        simp only [hg] at hset hidx
        split at hset
        · cases hset
        · next target' hu =>
          have := unshare_ok _ _ _ hu
          subst this
          split at hset
          · cases hset
          · next t hw =>
            simp only [Except.ok.injEq] at hset
            subst hset
            simp only [resolve_step, Tcl_DictObjGet_Put]
            exact set_walk_get lim shared pathc v rest _ _ t hw hrest hidx
    | array val =>
      simp only [JSON_Set.walk] at hset
      simp only [index_steps_readable] at hidx
      cases hi : array_index false val.length step with
      | error e => simp [hi] at hidx
      | ok index =>
        simp only [hi, Bool.and_eq_true, decide_eq_true_eq] at hidx
        obtain ⟨h0, hsub⟩ := hidx
        have hn : ¬ index < 0 := by omega
        have hnat : (index.toNat : Int) = index := Int.toNat_of_nonneg h0
        simp only [array_index_false_true _ _ _ hi, hn, if_false] at hset
        by_cases hlen : (val.length : Int) ≤ index
        · simp only [hlen, if_true] at hset
          by_cases hmax : index < (lim.LIST_MAX : Int)
          · simp only [hmax, if_true, Except.ok.injEq] at hset
            subst hset
            have hle : val.length ≤ index.toNat := by omega
            obtain ⟨hget, hlen'⟩ := getD_extend val index.toNat hle (JSON_Set.create v rest) .null
            have hidx' : array_index false (index.toNat + 1) step = .ok index := by
              have hr := lim.int_range
              exact array_index_false_extend _ _ _ hi hlen (by omega) _
            simp only [resolve_step, hlen', hidx']
            have hc : ¬ (index < 0 ∨ ((index.toNat + 1 : Nat) : Int) ≤ index) := by
              push_cast; omega
            simp only [hc, if_false, hget]
            exact resolve_path_create pathc v rest hrest
          · simp [hmax] at hset
        · simp only [hlen, if_false] at hset
          have hlt : index.toNat < val.length := by omega
          have hlt' : index < (val.length : Int) := by omega
          simp only [hlt', if_true] at hsub
          split at hset
          · cases hset
          · next target' hu =>
            have := unshare_ok _ _ _ hu
            subst this
            split at hset
            · cases hset
            · next t hw =>
              simp only [Except.ok.injEq] at hset
              subst hset
              obtain ⟨hget, hlen'⟩ := getD_replace_one val index.toNat hlt t .null
              rw [hnat] at hget hlen'
              simp only [resolve_step, hlen', hi]
              have hc : ¬ (index < 0 ∨ (val.length : Int) ≤ index) := by omega
              simp only [hc, if_false, hget]
              exact set_walk_get lim shared pathc v rest _ _ t hw hrest hsub
    | string s => simp [JSON_Set.walk, atomic_index_error, THROW_ERROR] at hset
    | number s => simp [JSON_Set.walk, atomic_index_error, THROW_ERROR] at hset
    | bool b => simp [JSON_Set.walk, atomic_index_error, THROW_ERROR] at hset
    | null => simp [JSON_Set.walk, atomic_index_error, THROW_ERROR] at hset
    | dyn t s => simp [JSON_Set.walk, atomic_index_error, THROW_ERROR] at hset

theorem JSON_Set_ok (lim : list_limit) (shared : Nat → Bool) (srcvar : Option Jval)
    (path : List Str) (v doc' : Jval) (h : JSON_Set lim shared srcvar path v = .ok doc') :
    JSON_Set.walk lim shared v 0 (srcvar.getD (.object [])) path = .ok doc' := by
  unfold JSON_Set at h
  split at h
  · cases h
  · next src hu =>
    have := unshare_ok _ _ _ hu
    subst this
    exact h

/-- C2 (as amended): when `set` succeeds on a path whose last step does not
begin with `?` and whose steps into existing arrays are indices that `get`
reads (an integer, `end` or `end-N`) and are not negative, `get` with the same
path on the resulting document returns the value that was set; this includes
the keys and the array elements `set` had to create.  That holds whatever
values of the document have a second holder and whatever the limit of the
length of a list is. -/
theorem set_then_get (lim : list_limit) (shared : Nat → Bool) (srcvar : Option Jval)
    (path : List Str) (v doc' : Jval)
    (hset : JSON_Set lim shared srcvar path v = .ok doc')
    (hlast : last_step_plain path = true)
    (hidx : index_steps_readable (srcvar.getD (.object [])) path = true) :
    json_get doc' path = .ok (.jval v) :=
  set_walk_get lim shared path.length v path _ _ doc'
    (JSON_Set_ok lim shared srcvar path v doc' hset) hlast hidx

theorem set_then_get_witness :
    JSON_Set tcl86_lists (fun _ => false) (some (.object [(['a'], .array [.null])])) [['a'], ['2'], ['b']]
        (.bool true) =
        .ok (.object [(['a'], .array [.null, .null, .object [(['b'], .bool true)]])]) ∧
      json_get (.object [(['a'], .array [.null, .null, .object [(['b'], .bool true)]])])
        [['a'], ['2'], ['b']] = .ok (.jval (.bool true)) :=
  ⟨by decide, set_then_get tcl86_lists (fun _ => false) (some (.object [(['a'], .array [.null])]))
    [['a'], ['2'], ['b']] (.bool true) _ (by decide) (by decide) (by decide)⟩

/-- C2, the claim as written fails: `set` of `7` at the step `-1` of `[10]`
succeeds and gives `[7,10]`, on which `get` with the step `-1` returns null;
`set` at the step `end+1` succeeds and `get` rejects that step. -/
theorem set_then_get_counterexample :
    JSON_Set tcl86_lists (fun _ => false) (some (.array [.number ['1', '0']])) [['-', '1']] (.number ['7']) =
        .ok (.array [.number ['7'], .number ['1', '0']]) ∧
      json_get (.array [.number ['7'], .number ['1', '0']]) [['-', '1']] = .ok (.jval .null) ∧
      json_get (.array [.number ['7'], .number ['1', '0']]) [['-', '1']] ≠
        .ok (.jval (.number ['7'])) ∧
      JSON_Set tcl86_lists (fun _ => false) (some (.array [.number ['1', '0']])) [['e', 'n', 'd', '+', '1']]
          (.number ['7']) =
        .ok (.array [.number ['1', '0'], .number ['7']]) ∧
      json_get (.array [.number ['1', '0'], .number ['7']]) [['e', 'n', 'd', '+', '1']] =
        .error (index_error false ['e', 'n', 'd', '+', '1']) := by
  decide

/-! ## unset then exists -/

theorem Tcl_DictObjGet_Remove {α : Type} (d : List (Str × α)) (k : Str) :
    Tcl_DictObjGet (Tcl_DictObjRemove d k) k = none := by
  induction d with
  | nil => simp [Tcl_DictObjRemove, Tcl_DictObjGet]
  | cons p d ih =>
    obtain ⟨k', v'⟩ := p
    by_cases h : k' = k
    · simp [Tcl_DictObjRemove, h, ih]
    · simp [Tcl_DictObjRemove, Tcl_DictObjGet, h, ih]

theorem resolve_step_pathc (pathc pathc' : Nat) (target : Jval) (step : Str) (t : Jval)
    (h : resolve_step pathc true target step = .ok (.inl t)) :
    resolve_step pathc' true target step = .ok (.inl t) := by
  cases target <;> exact h

theorem unset_walk_exists (pathc : Nat) : ∀ (path : List Str) (doc doc' : Jval)
    (done : List Str),
    resolve_path pathc true doc path = .ok (.boolean true) →
    unset_path.walk doc path done = .ok doc' →
    last_step_plain path = true → last_step_in_object doc path = true →
    resolve_path pathc true doc' path = .ok (.boolean false)
  | [], doc, doc', done, _, _, _, hobj => by simp [last_step_in_object] at hobj
  | [step], doc, doc', done, hex, hun, hlast, hobj => by
    cases doc with
    | object val =>
      simp only [unset_path.walk, Except.ok.injEq] at hun
      subst hun
      rw [resolve_path_cons _ _ _ _ _ hlast]
      simp [resolve_step, Tcl_DictObjGet_Remove]
    | _ => simp [last_step_in_object] at hobj
  | step :: s2 :: rest, doc, doc', done, hex, hun, hlast, hobj => by
    have hrest : last_step_plain (s2 :: rest) = true := last_step_plain_tail' _ _ hlast
    rw [resolve_path_cons _ _ _ _ _ hlast] at hex ⊢
    cases hr : resolve_step pathc true doc step with
    | error e => simp [hr] at hex
    | ok r =>
      cases r with
      | inr b =>
        cases doc with
        | object val =>
          simp only [resolve_step] at hr
          split at hr <;> simp at hr
          subst hr; simp [resolve_step, *] at hex
        | array val =>
          simp only [resolve_step] at hr
          split at hr
          · simp at hr
          · split at hr <;> simp at hr
            subst hr; simp [resolve_step, *] at hex
        | _ => simp [resolve_step] at hr; subst hr; simp [resolve_step] at hex
      | inl t =>
        simp only [hr] at hex
        have hobj' : last_step_in_object t (s2 :: rest) = true := by
          rw [last_step_in_object] at hobj
          · rw [resolve_step_pathc pathc 0 doc step t hr] at hobj
            exact hobj
          all_goals simp
        cases doc with
        | object val =>
          simp only [resolve_step] at hr
          split at hr
          · simp at hr
          · next t0 hg =>
            simp only [Except.ok.injEq, Sum.inl.injEq] at hr
            subst hr
            simp only [unset_path.walk, hg] at hun
            split at hun
            · simp at hun
            · next t' hw =>
              simp only [Except.ok.injEq] at hun
              subst hun
              simp only [resolve_step, Tcl_DictObjGet_Put]
              exact unset_walk_exists pathc (s2 :: rest) _ t' _ hex hw hrest hobj'
        | array val =>
          simp only [resolve_step] at hr
          split at hr
          · simp at hr
          · next index hi =>
            split at hr
            · simp at hr
            · next hc =>
              simp only [Except.ok.injEq, Sum.inl.injEq] at hr
              subst hr
              have h0 : ¬ index < 0 := by omega
              have hl : ¬ (val.length : Int) ≤ index := by omega
              have hnat : (index.toNat : Int) = index := Int.toNat_of_nonneg (by omega)
              have hlt : index.toNat < val.length := by omega
              simp only [unset_path.walk, array_index_false_true _ _ _ hi, h0, hl,
                if_false] at hun
              split at hun
              · simp at hun
              · next t' hw =>
                simp only [Except.ok.injEq] at hun
                subst hun
                obtain ⟨hget, hlen'⟩ := getD_replace_one val index.toNat hlt t' .null
                rw [hnat] at hget hlen'
                simp only [resolve_step, hlen', hi, hc, if_false, hget]
                exact unset_walk_exists pathc (s2 :: rest) _ t' _ hex hw hrest hobj'
        | _ => simp [resolve_step] at hr

/-- C3 (as amended): for a path that exists in the document, whose last step
addresses a key of an object and does not begin with `?`, after `unset`
succeeds `exists` on the resulting document with the same path is false. -/
theorem unset_then_exists (doc doc' : Jval) (path : List Str)
    (hex : json_exists doc path = .ok (.boolean true))
    (hun : unset_path (some doc) path = .ok doc')
    (hlast : last_step_plain path = true)
    (hobj : last_step_in_object doc path = true) :
    json_exists doc' path = .ok (.boolean false) := by
  have hne : path ≠ [] := by
    rintro rfl
    simp [last_step_in_object] at hobj
  simp only [json_exists, hne, if_false] at hex ⊢
  simp only [unset_path, hne, if_false] at hun
  exact unset_walk_exists path.length path doc doc' [] hex hun hlast hobj

theorem unset_then_exists_witness :
    json_exists (.object [(['a'], .array [.object [(['b'], .bool true), (['c'], .null)]])])
        [['a'], ['0'], ['b']] = .ok (.boolean true) ∧
      unset_path (some (.object [(['a'], .array [.object [(['b'], .bool true), (['c'], .null)]])]))
        [['a'], ['0'], ['b']] = .ok (.object [(['a'], .array [.object [(['c'], .null)]])]) ∧
      json_exists (.object [(['a'], .array [.object [(['c'], .null)]])])
        [['a'], ['0'], ['b']] = .ok (.boolean false) :=
  ⟨by decide, by decide,
    unset_then_exists (.object [(['a'], .array [.object [(['b'], .bool true), (['c'], .null)]])])
      _ [['a'], ['0'], ['b']] (by decide) (by decide) (by decide) (by decide)⟩

/-- C3, the claim as written fails: in `[1,2]` the path `0` exists, `unset`
succeeds and gives `[2]`, and the path `0` still exists there. -/
theorem unset_then_exists_counterexample :
    json_exists (.array [.number ['1'], .number ['2']]) [['0']] = .ok (.boolean true) ∧
      unset_path (some (.array [.number ['1'], .number ['2']])) [['0']] =
        .ok (.array [.number ['2']]) ∧
      json_exists (.array [.number ['2']]) [['0']] = .ok (.boolean true) := by
  decide

/-! ## Pretty printing of an object -/

theorem append_json_string_plain (k : Str) (h : ∀ c ∈ k, plain_char c) :
    append_json_string k = '"' :: (k ++ ['"']) := by
  have : k.flatMap escape_char = k := by
    induction k with
    | nil => rfl
    | cons c k ih =>
      have hc : plain_char c := h c (List.mem_cons_self _ _)
      have hk := ih (fun c' hc' => h c' (List.mem_cons_of_mem _ hc'))
      simp only [List.flatMap_cons, hk]
      unfold plain_char at hc
      simp [escape_char, hc]
  simp [append_json_string, this]

theorem key_max_foldl (val : List (Str × Jval)) (h : ∀ kv ∈ val, byte_length kv.1 ≤ 20)
    (acc : Nat) :
    val.foldl (fun max kv =>
      if byte_length kv.1 ≤ 20 ∧ byte_length kv.1 > max then byte_length kv.1 else max) acc =
      Nat.max acc (longest_key val) := by
  induction val generalizing acc with
  | nil => simp [longest_key]
  | cons kv val ih =>
    have h1 := h kv (List.mem_cons_self _ _)
    have h2 := ih (fun kv' hkv' => h kv' (List.mem_cons_of_mem _ hkv'))
    simp only [List.foldl_cons, h2]
    simp only [longest_key, List.map_cons, List.foldr_cons]
    have e : longest_key val = (val.map fun kv => byte_length kv.1).foldr Nat.max 0 := rfl
    rw [← e]
    generalize longest_key val = m
    simp only [h1, true_and]
    simp only [Nat.max_def]
    split_ifs <;> omega

theorem longest_key_le (val : List (Str × Jval)) (h : ∀ kv ∈ val, byte_length kv.1 ≤ 20) :
    longest_key val ≤ 20 := by
  induction val with
  | nil => simp [longest_key]
  | cons kv val ih =>
    have h1 := h kv (List.mem_cons_self _ _)
    have h2 := ih (fun kv' hkv' => h kv' (List.mem_cons_of_mem _ hkv'))
    simp only [longest_key, List.map_cons, List.foldr_cons] at h2 ⊢
    exact Nat.max_le.mpr ⟨h1, h2⟩

theorem byte_length_le_longest (val : List (Str × Jval)) (kv : Str × Jval) (h : kv ∈ val) :
    byte_length kv.1 ≤ longest_key val := by
  induction val with
  | nil => simp at h
  | cons kv' val ih =>
    simp only [longest_key, List.map_cons, List.foldr_cons]
    rcases List.mem_cons.mp h with rfl | h'
    · exact Nat.le_max_left _ _
    · exact le_trans (ih h') (Nat.le_max_right _ _)

theorem byte_length_append (a b : Str) : byte_length (a ++ b) = byte_length a + byte_length b := by
  simp [byte_length]

theorem byte_length_replicate_space (n : Nat) : byte_length (List.replicate n ' ') = n := by
  induction n with
  | zero => rfl
  | succ n ih =>
    simp only [List.replicate_succ, byte_length, List.map_cons, List.sum_cons] at ih ⊢
    rw [ih]
    have : utf_size ' ' = 1 := by decide
    omega

theorem pretty_members_lines (indent next_pad : Str) (max total : Nat) :
    ∀ (val : List (Str × Jval)) (n : Nat),
    (∀ kv ∈ val, (∀ c ∈ kv.1, plain_char c) ∧ byte_length kv.1 ≤ max) →
    n + val.length = total →
    json_pretty.members indent next_pad max val =
      (val.mapIdx fun i kv =>
        next_pad ++ '"' :: (kv.1 ++ ['"', ':', ' ']) ++
          List.replicate (max - byte_length kv.1) ' ' ++
          json_pretty indent next_pad kv.2 ++
          (if i + n + 1 < total then [',', '\n'] else ['\n'])).flatten
  | [], _, _, _ => by simp [json_pretty.members]
  | (k, v) :: rest, n, h, hn => by
    have hk := h (k, v) (List.mem_cons_self _ _)
    have ih := pretty_members_lines indent next_pad max total rest (n + 1)
      (fun kv' hkv' => h kv' (List.mem_cons_of_mem _ hkv'))
      (by simp only [List.length_cons] at hn; omega)
    have hpad : (if byte_length k < max then List.replicate (max - byte_length k) ' ' else []) =
        List.replicate (max - byte_length k) ' ' := by
      split
      · rfl
      · have : max - byte_length k = 0 := by omega
        simp [this]
    have hlast : (rest.length ≠ 0) ↔ (0 + n + 1 < total) := by
      simp only [List.length_cons] at hn; omega
    have hf : (fun i (kv : Str × Jval) =>
        next_pad ++ '"' :: (kv.1 ++ ['"', ':', ' ']) ++
          List.replicate (max - byte_length kv.1) ' ' ++
          json_pretty indent next_pad kv.2 ++
          (if i + 1 + n + 1 < total then [',', '\n'] else ['\n'])) =
        (fun i (kv : Str × Jval) =>
        next_pad ++ '"' :: (kv.1 ++ ['"', ':', ' ']) ++
          List.replicate (max - byte_length kv.1) ' ' ++
          json_pretty indent next_pad kv.2 ++
          (if i + (n + 1) + 1 < total then [',', '\n'] else ['\n'])) := by
      funext i kv
      have : i + 1 + n + 1 = i + (n + 1) + 1 := by omega
      rw [this]
    rw [json_pretty.members, List.mapIdx_cons, List.flatten_cons, hf, ← ih, hpad,
      append_json_string_plain k hk.1]
    simp only [hlast]
    simp

/-- C9: pretty printing an object whose keys are at most 20 bytes long and need
no escaping writes, between the opening and the closing line, one line per
member in order: the accumulated indent, the quoted key, `: `, as many blanks
as the key is shorter (in bytes) than the longest key, then the value, then
`,` except after the last member.  The text in front of the value has the
same length in bytes on every member line. -/
theorem pretty_object_aligned (indent pad : Str) (val : List (Str × Jval))
    (hne : val ≠ [])
    (hkeys : ∀ kv ∈ val, (∀ c ∈ kv.1, plain_char c) ∧ byte_length kv.1 ≤ 20) :
    json_pretty indent pad (.object val) =
        '{' :: '\n' :: ((val.mapIdx fun i kv =>
          (pad ++ indent) ++ '"' :: (kv.1 ++ ['"', ':', ' ']) ++
            List.replicate (longest_key val - byte_length kv.1) ' ' ++
            json_pretty indent (pad ++ indent) kv.2 ++
            (if i + 1 < val.length then [',', '\n'] else ['\n'])).flatten ++ pad ++ ['}']) ∧
      ∀ kv ∈ val,
        byte_length ((pad ++ indent) ++ '"' :: (kv.1 ++ ['"', ':', ' ']) ++
            List.replicate (longest_key val - byte_length kv.1) ' ') =
          byte_length pad + byte_length indent + longest_key val + 4 := by
  have hlen : val.length ≠ 0 := by simpa using hne
  have hmax : key_max val = longest_key val := by
    have := key_max_foldl val (fun kv h => (hkeys kv h).2) 0
    simpa [key_max] using this
  have hle := longest_key_le val (fun kv h => (hkeys kv h).2)
  constructor
  · have hcap : (if key_max val > 20 then 20 else key_max val) = longest_key val := by
      rw [hmax]; split
      · omega
      · rfl
    have := pretty_members_lines indent (pad ++ indent) (longest_key val) val.length val 0
      (fun kv h => ⟨(hkeys kv h).1, byte_length_le_longest val kv h⟩) (by simp)
    simp only [json_pretty, hlen, if_false, hcap, this]
  · intro kv hkv
    have h1 := byte_length_le_longest val kv hkv
    have hq : byte_length ['"'] = 1 := by decide
    have hc : byte_length ['"', ':', ' '] = 3 := by decide
    have e : (pad ++ indent) ++ '"' :: (kv.1 ++ ['"', ':', ' ']) ++
        List.replicate (longest_key val - byte_length kv.1) ' ' =
        pad ++ (indent ++ (['"'] ++ (kv.1 ++ (['"', ':', ' '] ++
          List.replicate (longest_key val - byte_length kv.1) ' ')))) := by simp
    rw [e]
    simp only [byte_length_append, byte_length_replicate_space, hq, hc]
    omega

theorem pretty_object_aligned_witness :
    json_pretty [' ', ' ', ' ', ' '] []
        (.object [(['a'], .number ['1']), (['b', 'b'], .number ['2'])]) =
      "\x7b\n    \"a\":  1,\n    \"bb\": 2\n\x7d".toList :=
  (pretty_object_aligned [' ', ' ', ' ', ' '] []
    [(['a'], .number ['1']), (['b', 'b'], .number ['2'])] (by decide)
    (by
      intro kv hkv
      simp only [List.mem_cons, List.mem_singleton, List.not_mem_nil, or_false] at hkv
      rcases hkv with rfl | rfl <;> refine ⟨?_, by decide⟩ <;> intro c hc <;>
        simp only [List.mem_cons, List.mem_singleton, List.not_mem_nil, or_false, or_self] at hc <;>
        subst hc <;> unfold plain_char <;> decide)).1

/-! ## The compiler emits `code_of` -/

theorem emit_action_append (cx : template_cx) (opcode : action_opcode) (value : operand)
    (h : opcode ≠ POP_CX) :
    emit_action cx opcode value = .ok { cx with actions := cx.actions ++ [(opcode, value)] } := by
  simp [emit_action, h]

theorem emit_actions_append (cx : template_cx) (l : List action)
    (h : ∀ a ∈ l, a.1 ≠ POP_CX) :
    emit_actions cx l = .ok { cx with actions := cx.actions ++ l } := by
  induction l generalizing cx with
  | nil => simp [emit_actions]
  | cons a l ih =>
    rw [emit_actions, emit_action_append cx a.1 a.2 (h a (List.mem_cons_self _ _))]
    simp only
    rw [ih _ (fun b hb => h b (List.mem_cons_of_mem _ hb))]
    simp

theorem slot_population_no_pop (name : Str) (type : dyn_type) (slot : Nat) :
    ∀ a ∈ slot_population name type slot, a.1 ≠ POP_CX := by
  intro a ha
  cases type <;> simp [slot_population] at ha <;> rcases ha with h | h | h | h <;>
    (try subst h) <;> simp_all

theorem close_member_ends_well (c : List action) : ends_well (close_member c) ∧
    close_member c ≠ [] := by
  unfold close_member
  split <;> constructor <;> first
    | (intro a ha; simp at ha; right; exact ⟨_, ha.symm⟩)
    | simp

theorem ends_well_append (a b : List action) (ha : ends_well a) (hb : ends_well b) :
    ends_well (a ++ b) := by
  intro x hx
  cases b with
  | nil => simp at hx; exact ha x hx
  | cons y b =>
    rw [List.getLast?_append_of_ne_nil _ (by simp)] at hx
    exact hb x hx
theorem getLast?_cons_ne {α : Type} (e : α) (l : List α) (h : l ≠ []) :
    (e :: l).getLast? = l.getLast? := by
  cases l with
  | nil => exact absurd rfl h
  | cons a l => simp [List.getLast?_cons_cons]
theorem getLast?_snoc {α : Type} (l : List α) (a : α) : (l ++ [a]).getLast? = some a := by
  simp
theorem getLast?_mid {α : Type} (acts : List α) (e : α) (c0 : List α) (a : α) :
    (acts ++ e :: (c0 ++ [a])).getLast? = some a := by
  rw [show acts ++ e :: (c0 ++ [a]) = (acts ++ e :: c0) ++ [a] by simp]
  exact getLast?_snoc _ _
theorem dropLast_mid {α : Type} (acts : List α) (e : α) (c0 : List α) (a : α) :
    (acts ++ e :: (c0 ++ [a])).dropLast = acts ++ e :: c0 := by
  rw [show acts ++ e :: (c0 ++ [a]) = (acts ++ e :: c0) ++ [a] by simp]
  exact List.dropLast_concat

theorem emit_pop_after (m : List ((Str × dyn_type) × Nat)) (u : Nat) (acts : List action)
    (e : action) (c : List action) (he : e.1 = CX_OBJ_KEY ∨ e.1 = CX_ARR_IDX)
    (hc : ends_well c) :
    emit_action ⟨m, acts ++ e :: c, u⟩ POP_CX (.int 1) =
      .ok ⟨m, acts ++ (if c = [] then [] else e :: close_member c), u⟩ := by
  rcases List.eq_nil_or_concat c with rfl | ⟨c0, a, rfl⟩
  · have hp : prev_opcode ⟨m, acts ++ [e], u⟩ = e.1 := by simp [prev_opcode]
    simp only [emit_action, hp, he, and_self, if_true, true_and]
    simp
  · simp only [List.concat_eq_append] at hc ⊢
    have hlast : (acts ++ e :: (c0 ++ [a])).getLast? = some a := getLast?_mid _ _ _ _
    have hp : prev_opcode ⟨m, acts ++ e :: (c0 ++ [a]), u⟩ = a.1 := by
      simp [prev_opcode, hlast]
    have hne : c0 ++ [a] ≠ [] := by simp
    rcases hc a (by simp) with hrep | ⟨n, rfl⟩
    · have h1 : ¬ (a.1 = CX_OBJ_KEY ∨ a.1 = CX_ARR_IDX) := by rw [hrep]; decide
      have h2 : ¬ a.1 = POP_CX := by rw [hrep]; decide
      simp only [emit_action, hp, h1, h2, and_false, if_false, hne]
      have : close_member (c0 ++ [a]) = c0 ++ [a] ++ [(POP_CX, .int 1)] := by
        unfold close_member
        obtain ⟨op, val⟩ := a
        simp only at hrep
        subst hrep
        simp
      rw [this]
      simp
    · have h1 : ¬ ((POP_CX : action_opcode) = CX_OBJ_KEY ∨ (POP_CX : action_opcode) = CX_ARR_IDX) := by
        decide
      simp only [emit_action, hp, h1, and_false, if_false, and_self, if_true, hlast, operand.toInt,
        hne]
      have : close_member (c0 ++ [(POP_CX, operand.int n)]) = c0 ++ [(POP_CX, .int (n + 1))] := by
        unfold close_member
        simp
      rw [this]
      have : (acts ++ e :: (c0 ++ [(POP_CX, operand.int n)])).dropLast = acts ++ e :: c0 :=
        dropLast_mid _ _ _ _
      rw [this]
      simp

theorem code_of_dyn_ends_well (map : List ((Str × dyn_type) × Nat)) (used : Nat)
    (type : dyn_type) (name : Str) :
    ends_well (code_of map used (.dyn type name)).1 ∧ (code_of map used (.dyn type name)).1 ≠ [] := by
  unfold code_of
  split
  · constructor
    · intro a ha; simp at ha; left; rw [← ha]
    · simp
  · constructor
    · intro a ha
      rw [List.getLast?_append_of_ne_nil _ (by simp)] at ha
      simp at ha; left; rw [← ha]
    · simp

theorem get_subst_slot_code (cx : template_cx) (name : Str) (type : dyn_type) :
    (match get_subst_slot cx name type with
      | .error e => (.error e : Except TclError template_cx)
      | .ok (cx1, slot) => emit_action cx1 REPLACE_VAL (.int slot)) =
      .ok ⟨(code_of cx.map cx.slots_used (.dyn type name)).2.1,
        cx.actions ++ (code_of cx.map cx.slots_used (.dyn type name)).1,
        (code_of cx.map cx.slots_used (.dyn type name)).2.2⟩ := by
  unfold get_subst_slot code_of
  cases h : map_get cx.map name type with
  | some slot =>
    simp only [emit_action_append _ _ _ (show REPLACE_VAL ≠ POP_CX by decide)]
  | none =>
    simp only [emit_actions_append _ _ (slot_population_no_pop name type cx.slots_used),
      emit_action_append _ _ _ (show REPLACE_VAL ≠ POP_CX by decide)]
    simp

mutual
theorem template_actions_code : ∀ (v : Jval) (cx : template_cx), keys_plain v = true →
    template_actions cx v = .ok ⟨(code_of cx.map cx.slots_used v).2.1,
      cx.actions ++ (code_of cx.map cx.slots_used v).1, (code_of cx.map cx.slots_used v).2.2⟩ ∧
    ends_well (code_of cx.map cx.slots_used v).1
  | .string _, cx, _ => by simp [template_actions, code_of, ends_well]
  | .number _, cx, _ => by simp [template_actions, code_of, ends_well]
  | .bool _, cx, _ => by simp [template_actions, code_of, ends_well]
  | .null, cx, _ => by simp [template_actions, code_of, ends_well]
  | .dyn type name, cx, _ => by
    refine ⟨?_, (code_of_dyn_ends_well _ _ _ _).1⟩
    rw [template_actions]
    exact get_subst_slot_code cx name type
  | .object val, cx, h => by
    rw [template_actions, code_of]
    exact template_actions_members val cx (by simpa [keys_plain] using h)
  | .array val, cx, h => by
    rw [template_actions, code_of]
    exact template_actions_elems val cx 0 (by simpa [keys_plain] using h)
theorem template_actions_members : ∀ (val : List (Str × Jval)) (cx : template_cx),
    keys_plain.members val = true →
    template_actions.members cx val = .ok ⟨(code_of.members cx.map cx.slots_used val).2.1,
      cx.actions ++ (code_of.members cx.map cx.slots_used val).1,
      (code_of.members cx.map cx.slots_used val).2.2⟩ ∧
    ends_well (code_of.members cx.map cx.slots_used val).1
  | [], cx, _ => by simp [template_actions.members, code_of.members, ends_well]
  | (k, v) :: rest, cx, h => by
    simp only [keys_plain.members, Bool.and_eq_true, decide_eq_true_eq] at h
    obtain ⟨⟨hk, hv⟩, hrest⟩ := h
    obtain ⟨hc, hw⟩ := template_actions_code v
      ⟨cx.map, cx.actions ++ [(CX_OBJ_KEY, .text k)], cx.slots_used⟩ hv
    simp only at hc hw
    obtain ⟨hr, hrw⟩ := template_actions_members rest
      ⟨(code_of cx.map cx.slots_used v).2.1,
        cx.actions ++ (if (code_of cx.map cx.slots_used v).1 = [] then []
          else (CX_OBJ_KEY, .text k) :: close_member (code_of cx.map cx.slots_used v).1),
        (code_of cx.map cx.slots_used v).2.2⟩ hrest
    simp only at hr hrw
    constructor
    · rw [template_actions.members,
        emit_action_append _ _ _ (show CX_OBJ_KEY ≠ POP_CX by decide)]
      simp only [hc, hk]
      rw [show cx.actions ++ [(CX_OBJ_KEY, operand.text k)] ++ (code_of cx.map cx.slots_used v).1 =
        cx.actions ++ (CX_OBJ_KEY, operand.text k) :: (code_of cx.map cx.slots_used v).1 by simp]
      rw [emit_pop_after _ _ _ _ _ (Or.inl rfl) hw]
      simp only [hr, code_of.members]
      simp
    · simp only [code_of.members]
      apply ends_well_append _ _ _ hrw
      split
      · simp [ends_well]
      · intro a ha
        rw [getLast?_cons_ne _ _ (close_member_ends_well _).2] at ha
        exact (close_member_ends_well _).1 a ha
theorem template_actions_elems : ∀ (val : List Jval) (cx : template_cx) (i : Nat),
    keys_plain.elems val = true →
    template_actions.elems cx i val = .ok ⟨(code_of.elems cx.map cx.slots_used i val).2.1,
      cx.actions ++ (code_of.elems cx.map cx.slots_used i val).1,
      (code_of.elems cx.map cx.slots_used i val).2.2⟩ ∧
    ends_well (code_of.elems cx.map cx.slots_used i val).1
  | [], cx, i, _ => by simp [template_actions.elems, code_of.elems, ends_well]
  | v :: rest, cx, i, h => by
    simp only [keys_plain.elems, Bool.and_eq_true] at h
    obtain ⟨hv, hrest⟩ := h
    obtain ⟨hc, hw⟩ := template_actions_code v
      ⟨cx.map, cx.actions ++ [(CX_ARR_IDX, .int i)], cx.slots_used⟩ hv
    simp only at hc hw
    obtain ⟨hr, hrw⟩ := template_actions_elems rest
      ⟨(code_of cx.map cx.slots_used v).2.1,
        cx.actions ++ (if (code_of cx.map cx.slots_used v).1 = [] then []
          else (CX_ARR_IDX, .int i) :: close_member (code_of cx.map cx.slots_used v).1),
        (code_of cx.map cx.slots_used v).2.2⟩ (i + 1) hrest
    simp only at hr hrw
    constructor
    · rw [template_actions.elems,
        emit_action_append _ _ _ (show CX_ARR_IDX ≠ POP_CX by decide)]
      simp only [hc]
      rw [show cx.actions ++ [(CX_ARR_IDX, operand.int i)] ++ (code_of cx.map cx.slots_used v).1 =
        cx.actions ++ (CX_ARR_IDX, operand.int i) :: (code_of cx.map cx.slots_used v).1 by simp]
      rw [emit_pop_after _ _ _ _ _ (Or.inr rfl) hw]
      simp only [hr, code_of.elems]
      simp
    · simp only [code_of.elems]
      apply ends_well_append _ _ _ hrw
      split
      · simp [ends_well]
      · intro a ha
        rw [getLast?_cons_ne _ _ (close_member_ends_well _).2] at ha
        exact (close_member_ends_well _).1 a ha
end

/-! ## The function `replace` on well-formed frames -/

theorem getD_set_eq {α : Type} (l : List α) (i : Nat) (x d : α) (h : i < l.length) :
    (l.set i x).getD i d = x := by
  simp [List.getD, List.getElem?_set, h]

theorem getD_set_ne {α : Type} (l : List α) (i j : Nat) (x d : α) (h : i ≠ j) :
    (l.set i x).getD j d = l.getD j d := by
  simp [List.getD, List.getElem?_set, h]

theorem getD_some_lt {α : Type} (l : List (Option α)) (i : Nat) (x : α)
    (h : l.getD i none = some x) : i < l.length := by
  by_contra hc
  have : l.getD i none = none := by
    simp [List.getD, List.getElem?_eq_none (not_lt.mp hc)]
  rw [this] at h; cases h

theorem store_elem_ok (f : cx_stack) (e : operand) (x : Jval) (he : f.elem = some e)
    (hf : frame_ok f) :
    ∃ c, store_elem f.target e x = .ok c ∧ frame_ok ⟨c, some e⟩ := by
  unfold frame_ok at hf
  rw [he] at hf
  cases e with
  | empty => cases hf
  | text s =>
    cases ht : f.target <;> rw [ht] at hf <;> first | exact hf.elim | skip
    exact ⟨_, rfl, by simp [frame_ok]⟩
  | int idx =>
    cases ht : f.target <;> rw [ht] at hf <;> first | exact hf.elim | skip
    refine ⟨_, rfl, ?_⟩
    simp only [frame_ok, Tcl_ListObjReplace, Int.toNat_ofNat]
    simp at hf ⊢
    omega

theorem replace_ok : ∀ (level : Nat) (cs : List (Option cx_stack)) (x : Jval),
    frames_ok cs level →
    ∃ cs', replace cs level x = .ok cs' ∧ frames_ok cs' level ∧ cs'.length = cs.length ∧
      ∀ i, level < i → cs'.getD i none = cs.getD i none
  | level, cs, x, h => by
    obtain ⟨f, hf, hfo⟩ := h level (le_refl _)
    have hlt := getD_some_lt _ _ _ hf
    rw [replace]
    simp only [hf]
    cases he : f.elem with
    | none =>
      simp only
      refine ⟨_, rfl, ?_, by simp, ?_⟩
      · intro i hi
        by_cases hil : level = i
        · subst hil
          exact ⟨_, getD_set_eq _ _ _ _ hlt, by simp [frame_ok, he]⟩
        · rw [getD_set_ne _ _ _ _ _ hil]
          exact h i hi
      · intro i hi
        exact getD_set_ne _ _ _ _ _ (by omega)
    | some e =>
      obtain ⟨c, hc, hco⟩ := store_elem_ok f e x he hfo
      simp only [hc]
      cases level with
      | zero =>
        simp only
        refine ⟨_, rfl, ?_, by simp, ?_⟩
        · intro i hi
          have : i = 0 := by omega
          subst this
          exact ⟨_, getD_set_eq _ _ _ _ hlt, by simpa [he] using hco⟩
        · intro i hi
          exact getD_set_ne _ _ _ _ _ (by omega)
      | succ below =>
        simp only
        have hw : frames_ok (cs.set (below + 1) (some ⟨c, some e⟩)) below := by
          intro i hi
          rw [getD_set_ne _ _ _ _ _ (by omega)]
          exact h i (by omega)
        obtain ⟨cs', hr, hfo', hlen, hab⟩ := replace_ok below _ c hw
        refine ⟨cs', hr, ?_, by simpa using hlen, ?_⟩
        · intro i hi
          by_cases hil : i ≤ below
          · exact hfo' i hil
          · have : i = below + 1 := by omega
            subst this
            rw [hab _ (by omega), getD_set_eq _ _ _ _ hlt]
            exact ⟨_, rfl, by simpa [he] using hco⟩
        · intro i hi
          rw [hab i (by omega)]
          exact getD_set_ne _ _ _ _ _ (by omega)
theorem agree_set_above (level i : Nat) (cs : List (Option cx_stack)) (x : Option cx_stack)
    (h : level < i) : agree level (cs.set i x) cs := by
  intro j hj
  exact getD_set_ne _ _ _ _ _ (by omega)

theorem agree_symm {level : Nat} {a b : List (Option cx_stack)} (h : agree level a b) :
    agree level b a := fun i hi => (h i hi).symm

theorem agree_trans {level : Nat} {a b c : List (Option cx_stack)} (h : agree level a b)
    (h' : agree level b c) : agree level a c := fun i hi => (h i hi).trans (h' i hi)

theorem agree_mono {level level' : Nat} {a b : List (Option cx_stack)} (h : agree level a b)
    (hl : level' ≤ level) : agree level' a b := fun i hi => h i (le_trans hi hl)

theorem frames_ok_agree {level : Nat} {a b : List (Option cx_stack)} (h : agree level a b)
    (ha : frames_ok a level) : frames_ok b level := by
  intro i hi
  rw [← h i hi]
  exact ha i hi

theorem agree_set_both (level : Nat) (a b : List (Option cx_stack)) (x : Option cx_stack)
    (h : agree level a b) (i : Nat) (_hi : i ≤ level) (ha : i < a.length) (hb : i < b.length) :
    agree level (a.set i x) (b.set i x) := by
  intro j hj
  by_cases hij : i = j
  · subst hij
    rw [getD_set_eq _ _ _ _ ha, getD_set_eq _ _ _ _ hb]
  · rw [getD_set_ne _ _ _ _ _ hij, getD_set_ne _ _ _ _ _ hij]
    exact h j hj

theorem replace_agree : ∀ (level : Nat) (cs cs2 : List (Option cx_stack)) (x : Jval),
    agree level cs cs2 → frames_ok cs level →
    ∀ a, replace cs level x = .ok a → ∃ b, replace cs2 level x = .ok b ∧ agree level a b
  | level, cs, cs2, x, hag, hok, a, ha => by
    obtain ⟨f, hf, hfo⟩ := hok level (le_refl _)
    have hf2 : cs2.getD level none = some f := by rw [← hag level (le_refl _)]; exact hf
    have hlt := getD_some_lt _ _ _ hf
    have hlt2 := getD_some_lt _ _ _ hf2
    rw [replace] at ha ⊢
    simp only [hf] at ha
    simp only [hf2]
    cases he : f.elem with
    | none =>
      simp only [he, Except.ok.injEq] at ha
      subst ha
      exact ⟨_, rfl, agree_set_both _ _ _ _ hag _ (le_refl _) hlt hlt2⟩
    | some e =>
      obtain ⟨c, hc, hco⟩ := store_elem_ok f e x he hfo
      simp only [he, hc] at ha
      simp only [hc]
      cases level with
      | zero =>
        simp only [Except.ok.injEq] at ha
        subst ha
        exact ⟨_, rfl, agree_set_both _ _ _ _ hag _ (le_refl _) hlt hlt2⟩
      | succ below =>
        simp only at ha ⊢
        have hag' : agree below (cs.set (below + 1) (some ⟨c, some e⟩))
            (cs2.set (below + 1) (some ⟨c, some e⟩)) :=
          agree_mono (agree_set_both _ _ _ _ hag _ (le_refl _) hlt hlt2) (by omega)
        have hw : frames_ok (cs.set (below + 1) (some ⟨c, some e⟩)) below := by
          intro i hi
          rw [getD_set_ne _ _ _ _ _ (by omega)]
          exact hok i (by omega)
        obtain ⟨b, hb, hab⟩ := replace_agree below _ _ c hag' hw a ha
        refine ⟨b, hb, ?_⟩
        intro i hi
        by_cases hil : i ≤ below
        · exact hab i hil
        · have : i = below + 1 := by omega
          subst this
          obtain ⟨_, ha', _, _, haa⟩ := replace_ok below _ c hw
          rw [ha] at ha'
          simp only [Except.ok.injEq] at ha'
          subst ha'
          obtain ⟨_, hb', _, _, hbb⟩ := replace_ok below _ c (frames_ok_agree hag' hw)
          rw [hb] at hb'
          simp only [Except.ok.injEq] at hb'
          subst hb'
          rw [haa _ (by omega), hbb _ (by omega), getD_set_eq _ _ _ _ hlt,
            getD_set_eq _ _ _ _ hlt2]

theorem Tcl_DictObjPut_twice {α : Type} (d : List (Str × α)) (k : Str) (x y : α) :
    Tcl_DictObjPut (Tcl_DictObjPut d k x) k y = Tcl_DictObjPut d k y := by
  induction d with
  | nil => simp [Tcl_DictObjPut]
  | cons p d ih =>
    obtain ⟨k', v'⟩ := p
    by_cases hk : k' = k
    · simp [Tcl_DictObjPut, hk]
    · simp [Tcl_DictObjPut, hk, ih]

theorem store_elem_twice (f : cx_stack) (e : operand) (x y c : Jval) (hf : frame_ok f)
    (he : f.elem = some e) (hc : store_elem f.target e x = .ok c) :
    store_elem c e y = store_elem f.target e y := by
  unfold frame_ok at hf
  rw [he] at hf
  cases e with
  | empty => cases hf
  | text s =>
    cases ht : f.target <;> rw [ht] at hf hc <;> first | exact hf.elim | skip
    next val =>
      simp only [store_elem, Except.ok.injEq] at hc
      subst hc
      simp only [store_elem, operand.toStr]
      rw [Tcl_DictObjPut_twice]
  | int idx =>
    cases ht : f.target <;> rw [ht] at hf hc <;> first | exact hf.elim | skip
    next val =>
      simp only [store_elem, operand.toInt, Except.ok.injEq] at hc
      subst hc
      simp only [store_elem, operand.toInt]
      congr 2
      simp only [Tcl_ListObjReplace, Int.toNat_ofNat]
      simp at hf
      have h1 : (List.take idx val ++ [x] ++ List.drop (idx + 1) val).take idx = List.take idx val := by
        rw [List.append_assoc, List.take_append_of_le_length (by simp; omega)]
        simp
      have h2 : (List.take idx val ++ [x] ++ List.drop (idx + 1) val).drop (idx + 1) =
          List.drop (idx + 1) val := by
        have : (List.take idx val ++ [x]).length = idx + 1 := by simp; omega
        rw [show idx + 1 = (List.take idx val ++ [x]).length + 0 by omega, List.drop_append]
        simp
      rw [h1, h2]
theorem replace_twice : ∀ (level : Nat) (cs : List (Option cx_stack)) (x y : Jval),
    frames_ok cs level →
    ∀ a b', replace cs level x = .ok a → replace cs level y = .ok b' →
    ∃ b, replace a level y = .ok b ∧ agree level b b'
  | level, cs, x, y, hok, a, b', ha, hb' => by
    obtain ⟨f, hf, hfo⟩ := hok level (le_refl _)
    have hlt := getD_some_lt _ _ _ hf
    rw [replace] at ha hb'
    simp only [hf] at ha hb'
    cases he : f.elem with
    | none =>
      simp only [he, Except.ok.injEq] at ha hb'
      subst ha hb'
      rw [replace]
      simp only [getD_set_eq _ _ _ _ hlt, List.set_set]
      exact ⟨_, rfl, fun _ _ => rfl⟩
    | some e =>
      obtain ⟨c1, hc1, hco1⟩ := store_elem_ok f e x he hfo
      obtain ⟨c2, hc2, hco2⟩ := store_elem_ok f e y he hfo
      have h12 : store_elem c1 e y = .ok c2 := by
        rw [store_elem_twice f e x y c1 hfo he hc1]; exact hc2
      simp only [he, hc1] at ha
      simp only [he, hc2] at hb'
      cases level with
      | zero =>
        simp only [Except.ok.injEq] at ha hb'
        subst ha hb'
        rw [replace]
        simp only [getD_set_eq _ _ _ _ hlt, h12, List.set_set]
        exact ⟨_, rfl, fun _ _ => rfl⟩
      | succ below =>
        simp only at ha hb'
        have hA : frames_ok (cs.set (below + 1) (some ⟨c1, some e⟩)) below := by
          intro i hi
          rw [getD_set_ne _ _ _ _ _ (by omega)]
          exact hok i (by omega)
        obtain ⟨a0, ha0, hao, halen, haa⟩ := replace_ok below _ c1 hA
        rw [ha] at ha0
        simp only [Except.ok.injEq] at ha0
        subst ha0
        have hatop : a.getD (below + 1) none = some ⟨c1, some e⟩ := by
          rw [haa _ (by omega), getD_set_eq _ _ _ _ hlt]
        have halt : below + 1 < a.length := getD_some_lt _ _ _ hatop
        obtain ⟨b2, hb2, _, _, _⟩ := replace_ok below _ c2 hA
        obtain ⟨b0, hb0, hag0⟩ := replace_twice below _ c1 c2 hA a b2 ha hb2
        obtain ⟨b, hb, hagb⟩ := replace_agree below a (a.set (below + 1) (some ⟨c2, some e⟩)) c2
          (agree_symm (agree_set_above _ _ _ _ (by omega))) hao b0 hb0
        have hAB : agree below (cs.set (below + 1) (some ⟨c1, some e⟩))
            (cs.set (below + 1) (some ⟨c2, some e⟩)) :=
          agree_trans (agree_set_above _ _ _ _ (by omega))
            (agree_symm (agree_set_above _ _ _ _ (by omega)))
        obtain ⟨b3, hb3, hag3⟩ := replace_agree below _ _ c2 hAB hA b2 hb2
        rw [hb'] at hb3
        simp only [Except.ok.injEq] at hb3
        subst hb3
        refine ⟨b, ?_, ?_⟩
        · rw [replace]
          simp only [hatop, h12]
          exact hb
        · intro i hi
          by_cases hil : i ≤ below
          · exact ((hagb i hil).symm.trans (hag0 i hil)).trans (hag3 i hil)
          · have : i = below + 1 := by omega
            subst this
            have hB : frames_ok (cs.set (below + 1) (some ⟨c2, some e⟩)) below :=
              frames_ok_agree hAB hA
            obtain ⟨_, hx, _, _, hxx⟩ := replace_ok below _ c2 hB
            rw [hb'] at hx
            simp only [Except.ok.injEq] at hx
            subst hx
            have hA2 : frames_ok (a.set (below + 1) (some ⟨c2, some e⟩)) below :=
              frames_ok_agree (agree_symm (agree_set_above _ _ _ _ (by omega))) hao
            obtain ⟨_, hy, _, _, hyy⟩ := replace_ok below _ c2 hA2
            rw [hb] at hy
            simp only [Except.ok.injEq] at hy
            subst hy
            rw [hyy _ (by omega), hxx _ (by omega), getD_set_eq _ _ _ _ halt,
              getD_set_eq _ _ _ _ hlt]

theorem replace_top (cs : List (Option cx_stack)) (level : Nat) (x : Jval) (f : cx_stack)
    (e : operand) (c : Jval) (a : List (Option cx_stack)) (hok : frames_ok cs level)
    (hf : cs.getD level none = some f) (he : f.elem = some e)
    (hc : store_elem f.target e x = .ok c) (ha : replace cs level x = .ok a) :
    a.getD level none = some ⟨c, some e⟩ := by
  have hlt := getD_some_lt _ _ _ hf
  rw [replace] at ha
  simp only [hf, he, hc] at ha
  cases level with
  | zero =>
    simp only [Except.ok.injEq] at ha
    subst ha
    exact getD_set_eq _ _ _ _ hlt
  | succ below =>
    simp only at ha
    have hA : frames_ok (cs.set (below + 1) (some ⟨c, some e⟩)) below := by
      intro i hi
      rw [getD_set_ne _ _ _ _ _ (by omega)]
      exact hok i (by omega)
    obtain ⟨a0, ha0, _, _, haa⟩ := replace_ok below _ c hA
    rw [ha] at ha0
    simp only [Except.ok.injEq] at ha0
    subst ha0
    rw [haa _ (by omega), getD_set_eq _ _ _ _ hlt]

theorem replace_succ_agree (cs : List (Option cx_stack)) (below : Nat) (x : Jval) (f : cx_stack)
    (e : operand) (c : Jval) (a : List (Option cx_stack)) (hok : frames_ok cs (below + 1))
    (hf : cs.getD (below + 1) none = some f) (he : f.elem = some e)
    (hc : store_elem f.target e x = .ok c) (ha : replace cs (below + 1) x = .ok a) :
    ∃ b, replace cs below c = .ok b ∧ agree below a b := by
  rw [replace] at ha
  simp only [hf, he, hc] at ha
  have hA : frames_ok (cs.set (below + 1) (some ⟨c, some e⟩)) below := by
    intro i hi
    rw [getD_set_ne _ _ _ _ _ (by omega)]
    exact hok i (by omega)
  exact replace_agree below _ cs c (agree_set_above _ _ _ _ (by omega)) hA a ha

/-! ## Facts about `code_of` that do not involve the executor -/

theorem map_get_append (map : List ((Str × dyn_type) × Nat)) (n : Str) (t : dyn_type) (u : Nat)
    (name : Str) (type : dyn_type) :
    map_get (map ++ [((n, t), u)]) name type =
      match map_get map name type with
      | some i => some i
      | none => if n = name ∧ t = type then some u else none := by
  induction map with
  | nil => simp [map_get]
  | cons p map ih =>
    obtain ⟨⟨n', t'⟩, i⟩ := p
    simp only [List.cons_append, map_get]
    split
    · rfl
    · exact ih

theorem code_facts_nil (map : List ((Str × dyn_type) × Nat)) (used : Nat) (h : map_bound map used) :
    code_facts map used ([], map, used) :=
  ⟨h, le_refl _, fun _ _ _ h => h, fun _ => rfl, fun h => absurd rfl h⟩

theorem code_facts_dyn (map : List ((Str × dyn_type) × Nat)) (used : Nat) (type : dyn_type) (name : Str)
    (h : map_bound map used) :
    code_facts map used (code_of map used (.dyn type name)) := by
  unfold code_of
  cases hg : map_get map name type with
  | some slot =>
    exact ⟨h, le_refl _, fun _ _ _ h => h, fun hc => by simp at hc, fun _ => ⟨_, _, _, hg⟩⟩
  | none =>
    refine ⟨?_, by simp, ?_, fun hc => by simp at hc, fun _ => ⟨name, type, used, ?_⟩⟩
    · intro n t i hi
      simp only at hi ⊢
      rw [map_get_append] at hi
      split at hi
      · next j hj =>
        simp only [Option.some.injEq] at hi
        subst hi
        exact Nat.lt_succ_of_lt (h _ _ _ hj)
      · split at hi
        · simp only [Option.some.injEq] at hi; omega
        · cases hi
    · intro n t i hi
      simp only
      rw [map_get_append, hi]
    · simp only
      rw [map_get_append, hg]
      simp

theorem code_facts_step (map : List ((Str × dyn_type) × Nat)) (used : Nat)
    (r r' : List action × List ((Str × dyn_type) × Nat) × Nat) (e : action)
    (h1 : code_facts map used r) (h2 : code_facts r.2.1 r.2.2 r') :
    code_facts map used
      ((if r.1 = [] then [] else e :: close_member r.1) ++ r'.1, r'.2) := by
  obtain ⟨_, a2, a3, a4, a5⟩ := h1
  obtain ⟨b1, b2, b3, b4, b5⟩ := h2
  refine ⟨b1, le_trans a2 b2, fun n t i h => b3 _ _ _ (a3 _ _ _ h), ?_, ?_⟩
  · intro hc
    simp only [List.append_eq_nil] at hc
    have hr : r.1 = [] := by
      by_contra hne
      simp [hne] at hc
    rw [b4 hc.2, a4 hr]
  · intro hc
    by_cases hr : r.1 = []
    · simp only [hr, if_true, List.nil_append] at hc
      exact b5 hc
    · obtain ⟨n, t, i, hi⟩ := a5 hr
      exact ⟨n, t, i, b3 _ _ _ hi⟩

mutual
theorem code_of_facts :
    ∀ (v : Jval) (map : List ((Str × dyn_type) × Nat)) (used : Nat), map_bound map used →
    code_facts map used (code_of map used v)
  | .string _, map, used, h => by simp only [code_of]; exact code_facts_nil map used h
  | .number _, map, used, h => by simp only [code_of]; exact code_facts_nil map used h
  | .bool _, map, used, h => by simp only [code_of]; exact code_facts_nil map used h
  | .null, map, used, h => by simp only [code_of]; exact code_facts_nil map used h
  | .dyn type name, map, used, h => code_facts_dyn map used type name h
  | .object val, map, used, h => by
    rw [code_of]; exact code_of_members_facts val map used h
  | .array val, map, used, h => by
    rw [code_of]; exact code_of_elems_facts val map used 0 h
theorem code_of_members_facts :
    ∀ (val : List (Str × Jval)) (map : List ((Str × dyn_type) × Nat)) (used : Nat),
    map_bound map used → code_facts map used (code_of.members map used val)
  | [], map, used, h => by rw [code_of.members]; exact code_facts_nil map used h
  | (k, v) :: rest, map, used, h => by
    rw [code_of.members]
    have h1 := code_of_facts v map used h
    have h2 := code_of_members_facts rest _ _ h1.1
    exact code_facts_step map used _ _ _ h1 h2
theorem code_of_elems_facts :
    ∀ (val : List Jval) (map : List ((Str × dyn_type) × Nat)) (used : Nat) (i : Nat),
    map_bound map used → code_facts map used (code_of.elems map used i val)
  | [], map, used, i, h => by rw [code_of.elems]; exact code_facts_nil map used h
  | v :: rest, map, used, i, h => by
    rw [code_of.elems]
    have h1 := code_of_facts v map used h
    have h2 := code_of_elems_facts rest _ _ (i + 1) h1.1
    exact code_facts_step map used _ _ _ h1 h2
end

mutual
theorem code_nil_subst (str : Str → Jval) (nested : Jval → Except TclError Jval)
    (dict : subst_source) :
    ∀ (v : Jval) (map : List ((Str × dyn_type) × Nat)) (used : Nat),
    (code_of map used v).1 = [] → direct_subst_with str nested dict v = .ok v
  | .string _, _, _, _ => by simp [direct_subst_with]
  | .number _, _, _, _ => by simp [direct_subst_with]
  | .bool _, _, _, _ => by simp [direct_subst_with]
  | .null, _, _, _ => by simp [direct_subst_with]
  | .dyn type name, map, used, h => by
    exact absurd h (code_of_dyn_ends_well map used type name).2
  | .object val, map, used, h => by
    rw [code_of] at h
    rw [direct_subst_with, code_nil_subst_members str nested dict val map used h]
  | .array val, map, used, h => by
    rw [code_of] at h
    rw [direct_subst_with, code_nil_subst_elems str nested dict val map used 0 h]
theorem code_nil_subst_members (str : Str → Jval) (nested : Jval → Except TclError Jval)
    (dict : subst_source) :
    ∀ (val : List (Str × Jval)) (map : List ((Str × dyn_type) × Nat)) (used : Nat),
    (code_of.members map used val).1 = [] →
    direct_subst_with.members str nested dict val = .ok val
  | [], _, _, _ => by simp [direct_subst_with.members]
  | (k, v) :: rest, map, used, h => by
    rw [code_of.members] at h
    simp only [List.append_eq_nil] at h
    have hr : (code_of map used v).1 = [] := by
      by_contra hne
      simp [hne] at h
    rw [direct_subst_with.members, code_nil_subst str nested dict v map used hr]
    simp only
    rw [code_nil_subst_members str nested dict rest _ _ h.2]
theorem code_nil_subst_elems (str : Str → Jval) (nested : Jval → Except TclError Jval)
    (dict : subst_source) :
    ∀ (val : List Jval) (map : List ((Str × dyn_type) × Nat)) (used : Nat) (i : Nat),
    (code_of.elems map used i val).1 = [] →
    direct_subst_with.elems str nested dict val = .ok val
  | [], _, _, _, _ => by simp [direct_subst_with.elems]
  | v :: rest, map, used, i, h => by
    rw [code_of.elems] at h
    simp only [List.append_eq_nil] at h
    have hr : (code_of map used v).1 = [] := by
      by_contra hne
      simp [hne] at h
    rw [direct_subst_with.elems, code_nil_subst str nested dict v map used hr]
    simp only
    rw [code_nil_subst_elems str nested dict rest _ _ (i + 1) h.2]
end

/-! ## The loop of the executor -/

theorem apply_loop_append (N : Jval → Except TclError Jval) (T : Jval) (D : subst_source)
    (a b : List action) (st : apply_state) :
    apply_loop N T D (a ++ b) st =
      match apply_loop N T D a st with
      | .error e => .error e
      | .ok st' => apply_loop N T D b st' := by
  induction a generalizing st with
  | nil => simp [apply_loop]
  | cons x a ih =>
    simp only [List.cons_append, apply_loop]
    cases apply_action N T D st x with
    | error e => rfl
    | ok st' => exact ih st'

theorem apply_loop_error_front (N : Jval → Except TclError Jval) (T : Jval) (D : subst_source)
    (a l : List action) (st : apply_state) (e : TclError)
    (h : apply_loop N T D a st = .error e) (hp : a <+: l) :
    apply_loop N T D l st = .error e := by
  obtain ⟨b, rfl⟩ := hp
  rw [apply_loop_append, h]

theorem apply_loop_single (N : Jval → Except TclError Jval) (T : Jval) (D : subst_source)
    (a : action) (st : apply_state) :
    apply_loop N T D [a] st = apply_action N T D st a := by
  simp only [apply_loop]
  cases apply_action N T D st a <;> rfl

theorem pop_fold (N : Jval → Except TclError Jval) (T : Jval) (D : subst_source)
    (n : Nat) (t s2 : apply_state)
    (h : apply_action N T D t (POP_CX, .int n) = .ok s2) :
    apply_action N T D t (POP_CX, .int (n + 1)) = apply_action N T D s2 (POP_CX, .int 1) := by
  simp only [apply_action, operand.toInt] at h ⊢
  split at h
  · simp [crash] at h
  · next hlev =>
    split at h
    · simp [crash] at h
    · next f hf =>
      simp only [Except.ok.injEq] at h
      subst h
      simp only
      have e1 : t.stacklevel - (n + 1) + 1 = t.stacklevel - n - 1 + 1 := by omega
      have e2 : t.stacklevel - (n + 1) = t.stacklevel - n - 1 := by omega
      by_cases hu : t.stacklevel < n + 1
      · have hu' : t.stacklevel - n < 1 := by omega
        simp [hu, hu']
      · have hu' : ¬ t.stacklevel - n < 1 := by omega
        simp only [hu, hu', if_false, e1, e2]

theorem dropLast_prefix_close (c : List action) : c.dropLast <+: close_member c := by
  unfold close_member
  split
  · exact List.prefix_append _ _
  · exact ( List.dropLast_prefix c).trans (List.prefix_append _ _)

theorem close_member_run (N : Jval → Except TclError Jval) (T : Jval) (D : subst_source)
    (c : List action) (st s2 : apply_state) (h : apply_loop N T D c st = .ok s2) :
    apply_loop N T D (close_member c) st = apply_action N T D s2 (POP_CX, .int 1) := by
  unfold close_member
  split
  · next n hl =>
    obtain ⟨c0, hc0⟩ : ∃ c0, c = c0 ++ [(POP_CX, .int n)] := by
      rcases List.eq_nil_or_concat c with rfl | ⟨c0, a, rfl⟩
      · simp at hl
      · simp only [List.concat_eq_append] at hl ⊢
        simp at hl
        exact ⟨c0, by rw [hl]⟩
    subst hc0
    rw [apply_loop_append] at h
    simp only [List.dropLast_concat]
    rw [apply_loop_append]
    cases ht : apply_loop N T D c0 st with
    | error e => simp [ht] at h
    | ok t =>
      simp only [ht, apply_loop_single] at h ⊢
      exact pop_fold N T D n t s2 h
  · rw [apply_loop_append, h]
    exact apply_loop_single _ _ _ _ _

/-! ## The replay that sizes the container stack -/

theorem max_depth_append (a b : List action) (s : Nat × Nat) :
    max_depth (a ++ b) s = max_depth b (max_depth a s) := by
  induction a generalizing s with
  | nil => rfl
  | cons x a ih =>
    obtain ⟨op, val⟩ := x
    obtain ⟨d, m⟩ := s
    simp only [List.cons_append, max_depth]
    split
    · exact ih _
    · split <;> exact ih _

theorem max_depth_ge (c : List action) (d m : Nat) : m ≤ (max_depth c (d, m)).2 := by
  induction c generalizing d m with
  | nil => exact le_refl _
  | cons x c ih =>
    obtain ⟨op, val⟩ := x
    simp only [max_depth]
    split
    · refine le_trans ?_ (ih _ _)
      split <;> omega
    · split <;> exact ih _ _

theorem max_depth_mono (c : List action) (d m m' : Nat) (h : m ≤ m') :
    (max_depth c (d, m)).2 ≤ (max_depth c (d, m')).2 ∧
      (max_depth c (d, m)).1 = (max_depth c (d, m')).1 := by
  induction c generalizing d m m' with
  | nil => exact ⟨h, rfl⟩
  | cons x c ih =>
    obtain ⟨op, val⟩ := x
    simp only [max_depth]
    split
    · apply ih
      split <;> split <;> omega
    · split <;> exact ih _ _ _ h

theorem max_depth_close (c : List action) (s : Nat × Nat) :
    (max_depth (close_member c) s).2 = (max_depth c s).2 := by
  have hpop : ∀ (n : Nat) (s : Nat × Nat), (max_depth [(POP_CX, operand.int n)] s).2 = s.2 := by
    intro n s
    obtain ⟨d, m⟩ := s
    simp [max_depth]
  unfold close_member
  split
  · next n hl =>
    obtain ⟨c0, hc0⟩ : ∃ c0, c = c0 ++ [(POP_CX, .int n)] := by
      rcases List.eq_nil_or_concat c with rfl | ⟨c0, a, rfl⟩
      · simp at hl
      · simp only [List.concat_eq_append] at hl ⊢
        simp at hl
        exact ⟨c0, by rw [hl]⟩
    subst hc0
    simp only [List.dropLast_concat]
    rw [max_depth_append, max_depth_append, hpop, hpop]
  · rw [max_depth_append, hpop]

theorem apply_action_level (N : Jval → Except TclError Jval) (T : Jval) (D : subst_source)
    (a : action) (st st' : apply_state) (m : Nat)
    (h : apply_action N T D st a = .ok st') :
    (max_depth [a] (st.stacklevel + 1, m)).1 = st'.stacklevel + 1 := by
  obtain ⟨op, val⟩ := a
  cases op <;> simp only [apply_action, enter] at h <;> simp only [max_depth] <;>
    (try simp only [reduceCtorEq, or_self, or_false, or_true, false_or, if_false, if_true]) <;>
    (repeat' (split at h)) <;>
    (try (simp [crash, THROW_ERROR] at h; done)) <;>
    (try (simp only [Except.ok.injEq] at h; subst h; simp; done))
  next idx hidx hlev _ frame hframe =>
    simp only [Except.ok.injEq] at h
    subst h
    simp only [hidx, Option.getD_some]
    omega

theorem apply_loop_level (N : Jval → Except TclError Jval) (T : Jval) (D : subst_source) :
    ∀ (c : List action) (st st' : apply_state) (m : Nat),
    apply_loop N T D c st = .ok st' →
    (max_depth c (st.stacklevel + 1, m)).1 = st'.stacklevel + 1
  | [], st, st', m, h => by
    simp only [apply_loop, Except.ok.injEq] at h
    subst h; rfl
  | a :: c, st, st', m, h => by
    simp only [apply_loop] at h
    cases ha : apply_action N T D st a with
    | error e => simp [ha] at h
    | ok s1 =>
      simp only [ha] at h
      have h1 := apply_action_level N T D a st s1 m ha
      rw [show a :: c = [a] ++ c by rfl, max_depth_append]
      have h2 := apply_loop_level N T D c s1 st' (max_depth [a] (st.stacklevel + 1, m)).2 h
      rw [← h2, ← h1]

theorem getD_set_other {α : Type} (l : List α) (i j : Nat) (x d : α) (h : i ≠ j) :
    (l.set i x).getD j d = l.getD j d := getD_set_ne l i j x d h

/-- The effect of the instructions that fill a new slot. -/
theorem slot_population_run (N N2 : Jval → Except TclError Jval) (T : Jval) (D : subst_source)
    (name : Str) (type : dyn_type) (slot : Nat) (st : apply_state) (hs : slot < st.slots.length)
    (hN : ∀ nm obj j, D.fetch nm = some obj → obj.jval = .ok j → N j = N2 j) :
    match coerce_value string_jval N2 D type name with
    | .error e => apply_loop N T D (slot_population name type slot) st = .error e
    | .ok r => ∃ st', apply_loop N T D (slot_population name type slot) st = .ok st' ∧
        st'.slots = st.slots.set slot (some r) ∧ st'.containers = st.containers ∧
        st'.stacklevel = st.stacklevel ∧ st'.stacklevels = st.stacklevels ∧
        st'.target = st.target := by
  have hs' : ¬ st.slots.length ≤ slot := by omega
  cases type
  case DYN_LITERAL =>
    simp only [coerce_value, slot_population, apply_loop, apply_action, operand.toStr,
      operand.toInt, hs', if_false]
    exact ⟨_, rfl, rfl, rfl, rfl, rfl, rfl⟩
  case DYN_STRING =>
    simp only [coerce_value, slot_population, apply_loop, apply_action, operand.toStr,
      operand.toInt]
    cases D.fetch name with
    | none => simp only [hs', if_false]; exact ⟨_, rfl, rfl, rfl, rfl, rfl, rfl⟩
    | some obj => simp only [hs', if_false]; exact ⟨_, rfl, rfl, rfl, rfl, rfl, rfl⟩
  case DYN_NUMBER =>
    simp only [coerce_value, slot_population, apply_loop, apply_action, operand.toStr,
      operand.toInt]
    cases D.fetch name with
    | none => simp only [hs', if_false]; exact ⟨_, rfl, rfl, rfl, rfl, rfl, rfl⟩
    | some obj =>
      simp only
      cases force_json_number obj with
      | none => simp
      | some f => simp only [hs', if_false]; exact ⟨_, rfl, rfl, rfl, rfl, rfl, rfl⟩
  case DYN_BOOL =>
    simp only [coerce_value, slot_population, apply_loop, apply_action, operand.toStr,
      operand.toInt]
    cases D.fetch name with
    | none => simp only [hs', if_false]; exact ⟨_, rfl, rfl, rfl, rfl, rfl, rfl⟩
    | some obj =>
      simp only
      cases obj.boolean with
      | none => simp [THROW_ERROR]
      | some f => simp only [hs', if_false]; exact ⟨_, rfl, rfl, rfl, rfl, rfl, rfl⟩
  case DYN_JSON =>
    simp only [coerce_value, slot_population, apply_loop, apply_action, operand.toStr,
      operand.toInt]
    cases D.fetch name with
    | none => simp only [hs', if_false]; exact ⟨_, rfl, rfl, rfl, rfl, rfl, rfl⟩
    | some obj =>
      simp only
      cases obj.jval with
      | error e => simp
      | ok j => simp only [hs', if_false]; exact ⟨_, rfl, rfl, rfl, rfl, rfl, rfl⟩
  case DYN_TEMPLATE =>
    simp only [coerce_value, slot_population, apply_loop, apply_action, operand.toStr,
      operand.toInt]
    cases hf : D.fetch name with
    | none => simp only [hs', if_false]; exact ⟨_, rfl, rfl, rfl, rfl, rfl, rfl⟩
    | some obj =>
      simp only
      cases hj : obj.jval with
      | error e => simp
      | ok j =>
        simp only [hN name obj j hf hj]
        cases N2 j with
        | error e => simp
        | ok res =>
          simp only [Tcl_Obj.ofJval, hs', if_false]
          exact ⟨_, rfl, rfl, rfl, rfl, rfl, rfl⟩

/-! ## A placeholder value and a member of a container -/

theorem close_member_ne_nil (c : List action) : close_member c ≠ [] :=
  (close_member_ends_well c).2

theorem dropLast_prefix_append {α : Type} (a b : List α) :
    a.dropLast <+: (a ++ b).dropLast := by
  cases b with
  | nil => simp
  | cons x b =>
    rw [List.dropLast_append_of_ne_nil _ (by simp)]
    exact ( List.dropLast_prefix a).trans (List.prefix_append _ _)

theorem dropLast_prefix_dropLast_close (c : List action) :
    c.dropLast <+: (close_member c).dropLast := by
  unfold close_member
  split
  · simp
  · rw [List.dropLast_append_of_ne_nil _ (by simp)]
    simp only [List.dropLast_single, List.append_nil]
    exact List.dropLast_prefix c

theorem member_error_front (x : action) (c cr : List action) :
    (x :: c.dropLast) <+: ((x :: close_member c) ++ cr).dropLast := by
  have h1 : ∀ l : List action, l ≠ [] → (x :: l).dropLast = x :: l.dropLast := by
    intro l hl
    cases l with
    | nil => exact absurd rfl hl
    | cons y t => rfl
  rw [List.cons_append, h1 _ (by simp [close_member_ne_nil c])]
  refine (List.prefix_cons_inj x).mpr ?_
  exact (dropLast_prefix_dropLast_close c).trans
    (dropLast_prefix_append _ _)

theorem dyn_run (N N2 : Jval → Except TclError Jval) (T : Jval) (D : subst_source)
    (hN : ∀ nm obj j, D.fetch nm = some obj → obj.jval = .ok j → N j = N2 j)
    (type : dyn_type) (name : Str) (map : List ((Str × dyn_type) × Nat)) (used : Nat)
    (st : apply_state) (level : Nat)
    (hpre : exec_pre st level (code_of map used (.dyn type name)).1
      (code_of map used (.dyn type name)).2.2)
    (hinv : slots_inv N2 D map st.slots) (hb : map_bound map used) :
    match coerce_value string_jval N2 D type name with
    | .error e =>
      apply_loop N T D (code_of map used (.dyn type name)).1.dropLast st = .error e
    | .ok v' => ∃ st', apply_loop N T D (code_of map used (.dyn type name)).1 st = .ok st' ∧
        exec_post st st' level ∧ slots_inv N2 D (code_of map used (.dyn type name)).2.1 st'.slots ∧
        ∃ cs', replace st.containers level v' = .ok cs' ∧ agree level st'.containers cs' := by
  obtain ⟨hl, hcap, hfr, _, hused⟩ := hpre
  unfold code_of at hused ⊢
  cases hg : map_get map name type with
  | some slot =>
    obtain ⟨r, hr, hslot⟩ := hinv name type slot hg
    simp only [hr]
    obtain ⟨cs', hrep, _, hlen, _⟩ := replace_ok level st.containers r hfr
    refine ⟨{ st with containers := cs' }, ?_, ⟨hl, rfl, hlen, rfl⟩, hinv, cs', hrep,
      fun _ _ => rfl⟩
    simp only [apply_loop, apply_action, operand.toInt, hslot, hl, hrep]
  | none =>
    simp only [hg] at hused
    simp only [List.dropLast_concat]
    have hs : used < st.slots.length := by omega
    have hpop := slot_population_run N N2 T D name type used st hs hN
    cases hc : coerce_value string_jval N2 D type name with
    | error e =>
      simp only [hc] at hpop
      exact hpop
    | ok r =>
      simp only [hc] at hpop
      obtain ⟨s1, hrun, hslots, hcont, hlev, hlevs, _⟩ := hpop
      obtain ⟨cs', hrep, _, hlen, _⟩ := replace_ok level st.containers r hfr
      have hget : s1.slots.getD used none = some r := by
        rw [hslots]; exact getD_set_eq _ _ _ _ hs
      refine ⟨{ s1 with containers := cs' }, ?_, ⟨by simpa [hl] using hlev, hlevs, hlen,
        by simp [hslots]⟩, ?_, cs', hrep, fun _ _ => rfl⟩
      · rw [apply_loop_append, hrun]
        simp only [apply_loop, apply_action, operand.toInt, hget, hcont, hlev, hl, hrep]
      · intro n t i hi
        simp only at hi ⊢
        rw [map_get_append] at hi
        split at hi
        · next j hj =>
          simp only [Option.some.injEq] at hi
          subst hi
          obtain ⟨r', hr', hs'⟩ := hinv n t j hj
          refine ⟨r', hr', ?_⟩
          rw [hslots, getD_set_ne _ _ _ _ _ (by have := hb _ _ _ hj; omega)]
          exact hs'
        · split at hi
          · next hnt =>
            simp only [Option.some.injEq] at hi
            subst hi
            obtain ⟨rfl, rfl⟩ := hnt
            exact ⟨r, hc, hget⟩
          · cases hi

theorem chain_frames (stc s3c s4c b2 cs'' : List (Option cx_stack)) (level : Nat) (X Y : Jval)
    (hok : frames_ok stc level) (h1 : replace stc level X = .ok b2)
    (h2 : agree level s3c b2) (h3 : replace s3c level Y = .ok cs'')
    (h4 : agree level s4c cs'') :
    ∃ cf, replace stc level Y = .ok cf ∧ agree level s4c cf := by
  obtain ⟨cf, hcf, _, _, _⟩ := replace_ok level stc Y hok
  obtain ⟨b2', hb2', hb2ok, _, _⟩ := replace_ok level stc X hok
  rw [h1] at hb2'
  simp only [Except.ok.injEq] at hb2'
  subst hb2'
  obtain ⟨bb, hbb, hagbb⟩ := replace_twice level stc X Y hok b2 cf h1 hcf
  have hs3ok : frames_ok s3c level := frames_ok_agree (agree_symm h2) hb2ok
  obtain ⟨b, hb, hagb⟩ := replace_agree level s3c b2 Y h2 hs3ok cs'' h3
  rw [hbb] at hb
  simp only [Except.ok.injEq] at hb
  subst hb
  exact ⟨cf, hcf, agree_trans h4 (agree_trans hagb hagbb)⟩

theorem member_step (N : Jval → Except TclError Jval) (T : Jval) (D : subst_source)
    (st s1 s2 : apply_state) (level : Nat) (cx : action) (c : List action) (Vcur : Jval)
    (e : operand) (v' Vnext : Jval)
    (hfr : frames_ok st.containers level)
    (hcx : apply_action N T D st cx = .ok s1)
    (hs1c : s1.containers = st.containers.set (level + 1) (some ⟨Vcur, some e⟩))
    (hs1l : level + 1 < st.containers.length)
    (hfo : frame_ok ⟨Vcur, some e⟩)
    (hstore : store_elem Vcur e v' = .ok Vnext)
    (hrun : apply_loop N T D c s1 = .ok s2)
    (hpost : exec_post s1 s2 (level + 1))
    (hrep : ∃ cs', replace s1.containers (level + 1) v' = .ok cs' ∧
      agree (level + 1) s2.containers cs') :
    ∃ s3 b2, apply_loop N T D (cx :: close_member c) st = .ok s3 ∧ s3.target = some Vnext ∧
      s3.stacklevel = level ∧ s3.containers = s2.containers ∧ s3.slots = s2.slots ∧
      s3.stacklevels = s2.stacklevels ∧ replace st.containers level Vnext = .ok b2 ∧
      agree level s3.containers b2 := by
  obtain ⟨cs', hcs', hag⟩ := hrep
  have htop1 : s1.containers.getD (level + 1) none = some ⟨Vcur, some e⟩ := by
    rw [hs1c]; exact getD_set_eq _ _ _ _ hs1l
  have hag1 : agree level s1.containers st.containers := by
    rw [hs1c]; exact agree_set_above _ _ _ _ (by omega)
  have hfr1 : frames_ok s1.containers (level + 1) := by
    intro i hi
    by_cases hil : i ≤ level
    · rw [hag1 i hil]; exact hfr i hil
    · have : i = level + 1 := by omega
      subst this
      exact ⟨_, htop1, hfo⟩
  have htop : cs'.getD (level + 1) none = some ⟨Vnext, some e⟩ :=
    replace_top s1.containers (level + 1) v' ⟨Vcur, some e⟩ e Vnext cs' hfr1 htop1 rfl hstore hcs'
  have htop2 : s2.containers.getD (level + 1) none = some ⟨Vnext, some e⟩ := by
    rw [hag (level + 1) (le_refl _)]; exact htop
  obtain ⟨b, hb, hagb⟩ := replace_succ_agree s1.containers level v' ⟨Vcur, some e⟩ e Vnext cs'
    hfr1 htop1 rfl hstore hcs'
  have hfr1' : frames_ok s1.containers level := fun i hi => hfr1 i (by omega)
  obtain ⟨b2, hb2, hagb2⟩ := replace_agree level s1.containers st.containers Vnext hag1 hfr1' b hb
  refine ⟨{ s2 with stacklevel := level, target := some Vnext }, b2, ?_, rfl, rfl, rfl, rfl, rfl,
    hb2, ?_⟩
  · simp only [apply_loop, hcx]
    rw [close_member_run N T D c s1 s2 hrun]
    have hl2 : s2.stacklevel = level + 1 := hpost.1
    simp only [apply_action, operand.toInt, hl2]
    have h1 : ¬ level + 1 < 1 := by omega
    have h2 : level + 1 - 1 + 1 = level + 1 := by omega
    have h3 : level + 1 - 1 = level := by omega
    simp only [h1, if_false, h2, h3, htop2]
  · exact agree_trans (agree_mono hag (by omega)) (agree_trans hagb hagb2)

/-! ## The run of the instructions of a value -/

theorem dict_get_mid (done' : List (Str × Jval)) (k : Str) (v : Jval) (rest : List (Str × Jval))
    (h : k ∉ done'.map Prod.fst) : Tcl_DictObjGet (done' ++ (k, v) :: rest) k = some v := by
  induction done' with
  | nil => simp [Tcl_DictObjGet]
  | cons p d ih =>
    obtain ⟨k', v'⟩ := p
    simp only [List.map_cons, List.mem_cons, not_or] at h
    simp only [List.cons_append, Tcl_DictObjGet, Ne.symm h.1, if_false]
    exact ih h.2

theorem dict_put_mid (done' : List (Str × Jval)) (k : Str) (v x : Jval)
    (rest : List (Str × Jval)) (h : k ∉ done'.map Prod.fst) :
    Tcl_DictObjPut (done' ++ (k, v) :: rest) k x = done' ++ (k, x) :: rest := by
  induction done' with
  | nil => simp [Tcl_DictObjPut]
  | cons p d ih =>
    obtain ⟨k', v'⟩ := p
    simp only [List.map_cons, List.mem_cons, not_or] at h
    have := ih h.2
    show Tcl_DictObjPut ((k', v') :: (d ++ (k, v) :: rest)) k x = _
    simp only [Tcl_DictObjPut, Ne.symm h.1, if_false, this, List.cons_append]

theorem list_get_mid (done' : List Jval) (v : Jval) (rest : List Jval) :
    (done' ++ v :: rest).get? done'.length = some v := by
  rw [List.get?_eq_getElem?, List.getElem?_append_right (Nat.le_refl _)]
  simp

theorem list_replace_mid (done' : List Jval) (v x : Jval) (rest : List Jval) :
    Tcl_ListObjReplace (done' ++ v :: rest) (done'.length : Int) 1 [x] = done' ++ x :: rest := by
  simp only [Tcl_ListObjReplace, Int.toNat_ofNat]
  rw [List.take_left' rfl]
  have h : List.drop (done'.length + 1) (done' ++ v :: rest) = rest := by
    rw [List.drop_append_eq_append_drop]
    simp
  rw [h]
  simp

theorem member_combine (N : Jval → Except TclError Jval) (T : Jval) (D : subst_source)
    (st s3 s4 : apply_state) (level : Nat) (cr : List action) (b2 : List (Option cx_stack))
    (Vnext Vfin : Jval)
    (hfr : frames_ok st.containers level)
    (ht3 : s3.target = some Vnext)
    (hb2 : replace st.containers level Vnext = .ok b2) (hag : agree level s3.containers b2)
    (hrun : apply_loop N T D cr s3 = .ok s4)
    (hnil : cr = [] → Vfin = Vnext)
    (hcons : cr ≠ [] → (∃ cs'', replace s3.containers level Vfin = .ok cs'' ∧
      agree level s4.containers cs'') ∧ s4.target = some Vfin) :
    (∃ cf, replace st.containers level Vfin = .ok cf ∧ agree level s4.containers cf) ∧
      s4.target = some Vfin := by
  by_cases hc : cr = []
  · subst hc
    simp only [apply_loop, Except.ok.injEq] at hrun
    subst hrun
    rw [hnil rfl]
    exact ⟨⟨b2, hb2, hag⟩, ht3⟩
  · obtain ⟨⟨cs'', hcs, hag4⟩, ht4⟩ := hcons hc
    exact ⟨chain_frames _ _ _ _ _ level Vnext Vfin hfr hb2 hag hcs hag4, ht4⟩

theorem enter_frames (cs : List (Option cx_stack)) (level : Nat) (f : cx_stack)
    (hfr : frames_ok cs level) (hlen : level + 1 < cs.length) (hf : frame_ok f) :
    frames_ok (cs.set (level + 1) (some f)) (level + 1) := by
  intro i hi
  by_cases hil : i ≤ level
  · rw [agree_set_above level (level + 1) cs (some f) (by omega) i hil]
    exact hfr i hil
  · have : i = level + 1 := by omega
    subst this
    exact ⟨f, getD_set_eq _ _ _ _ hlen, hf⟩

/-- One member of a container followed by the members after it: the entry, the
instructions of the member, the return, then the rest. -/
theorem step_run {β : Type} (N N2 : Jval → Except TclError Jval) (T : Jval) (D : subst_source)
    (st : apply_state) (level : Nat) (cx : action) (e : operand)
    (child : Jval → Except TclError (Option Jval)) (cv cr : List action) (Vcur v : Jval)
    (dv : Except TclError Jval) (dr : Except TclError β) (Vnext : Jval → Jval)
    (Vfin : Jval → β → Jval) (map0 map1 map2 : List ((Str × dyn_type) × Nat)) (used1 used2 : Nat)
    (hpre : exec_pre st level ((if cv = [] then [] else cx :: close_member cv) ++ cr) used2)
    (hu : used1 ≤ used2) (ht : st.target = some Vcur) (hinv : slots_inv N2 D map0 st.slots)
    (hcx : ∀ s, apply_action N T D s cx = enter s e child)
    (hchild : child Vcur = .ok (some v))
    (hcxop : cx.1 = CX_OBJ_KEY ∨ cx.1 = CX_ARR_IDX)
    (hfo : frame_ok ⟨Vcur, some e⟩)
    (hstore : ∀ x, store_elem Vcur e x = .ok (Vnext x))
    (hVn : Vnext v = Vcur)
    (hnilv : cv = [] → dv = .ok v ∧ map1 = map0)
    (hnilr : cr = [] → ∃ r0, dr = .ok r0 ∧ ∀ x, Vfin x r0 = Vnext x)
    (IHv : ∀ s1 : apply_state, s1.target = some v → exec_pre s1 (level + 1) cv used1 →
      slots_inv N2 D map0 s1.slots →
      on_result dv (fun err => apply_loop N T D cv.dropLast s1 = .error err)
        (fun v' => ∃ s2, apply_loop N T D cv s1 = .ok s2 ∧ exec_post s1 s2 (level + 1) ∧
          slots_inv N2 D map1 s2.slots ∧
          (cv ≠ [] → ∃ cs', replace s1.containers (level + 1) v' = .ok cs' ∧
            agree (level + 1) s2.containers cs')))
    (IHr : ∀ (x : Jval) (s3 : apply_state), s3.target = some (Vnext x) →
      exec_pre s3 level cr used2 → slots_inv N2 D map1 s3.slots →
      on_result dr (fun err => apply_loop N T D cr.dropLast s3 = .error err)
        (fun r' => ∃ s4, apply_loop N T D cr s3 = .ok s4 ∧ exec_post s3 s4 level ∧
          slots_inv N2 D map2 s4.slots ∧
          (cr ≠ [] → (∃ cs'', replace s3.containers level (Vfin x r') = .ok cs'' ∧
            agree level s4.containers cs'') ∧ s4.target = some (Vfin x r')))) :
    on_result dv
      (fun err =>
        apply_loop N T D ((if cv = [] then [] else cx :: close_member cv) ++ cr).dropLast st =
          .error err)
      (fun v' => on_result dr
        (fun err =>
          apply_loop N T D ((if cv = [] then [] else cx :: close_member cv) ++ cr).dropLast st =
            .error err)
        (fun r' => ∃ st',
          apply_loop N T D ((if cv = [] then [] else cx :: close_member cv) ++ cr) st = .ok st' ∧
          exec_post st st' level ∧ slots_inv N2 D map2 st'.slots ∧
          ((if cv = [] then [] else cx :: close_member cv) ++ cr ≠ [] →
            (∃ cf, replace st.containers level (Vfin v' r') = .ok cf ∧
              agree level st'.containers cf) ∧ st'.target = some (Vfin v' r')))) := by
  obtain ⟨hl, hcap, hfr, hdepth, hused⟩ := hpre
  by_cases hcv : cv = []
  · obtain ⟨hdv, hm⟩ := hnilv hcv
    subst hdv
    subst hm
    simp only [hcv, if_true, List.nil_append, on_result] at hdepth ⊢
    have h := IHr v st (by rw [hVn]; exact ht) ⟨hl, hcap, hfr, hdepth, hused⟩ hinv
    cases dr with
    | error err => simp only [on_result] at h ⊢; exact h
    | ok r' => simp only [on_result] at h ⊢; exact h
  · simp only [hcv, if_false] at hdepth ⊢
    have hd1 : max_depth (cx :: close_member cv ++ cr) (level + 1, level + 1) =
        max_depth (close_member cv ++ cr) (level + 2, level + 2) := by
      obtain ⟨op, val⟩ := cx
      simp only at hcxop
      simp only [max_depth, if_pos hcxop]
      simp
    have hcapv : (max_depth cv (level + 2, level + 2)).2 ≤ st.stacklevels := by
      rw [hd1, max_depth_append] at hdepth
      have h2 : (max_depth (close_member cv) (level + 2, level + 2)).2 ≤
          (max_depth cr (max_depth (close_member cv) (level + 2, level + 2))).2 :=
        max_depth_ge cr _ _
      rw [max_depth_close] at h2
      omega
    have hge := max_depth_ge cv (level + 2) (level + 2)
    have hroom : level + 1 < st.containers.length := by omega
    have hcx1 : apply_action N T D st cx = .ok { st with
        stacklevel := level + 1
        containers := st.containers.set (level + 1) (some ⟨Vcur, some e⟩)
        target := some v } := by
      rw [hcx, enter, ht]
      simp only [hl, hchild]
      rw [if_neg (by omega)]
    have hfr1 := enter_frames st.containers level ⟨Vcur, some e⟩ hfr hroom hfo
    have h := IHv { st with
        stacklevel := level + 1
        containers := st.containers.set (level + 1) (some ⟨Vcur, some e⟩)
        target := some v } rfl ⟨rfl, by simp [hcap], hfr1, hcapv, le_trans hu hused⟩ hinv
    cases dv with
    | error err =>
      simp only [on_result] at h ⊢
      refine apply_loop_error_front N T D (cx :: cv.dropLast) _ st err ?_
        (member_error_front cx cv cr)
      simp only [apply_loop, hcx1]
      exact h
    | ok v' =>
      simp only [on_result] at h ⊢
      obtain ⟨s2, hrun2, hpost2, hinv2, hrep2⟩ := h
      obtain ⟨s3, b2, hrun3, ht3, hl3, hc3, hsl3, hlv3, hb2, hag3⟩ :=
        member_step N T D st _ s2 level cx cv Vcur e v' (Vnext v') hfr hcx1 rfl hroom hfo
          (hstore v') hrun2 hpost2 (hrep2 hcv)
      obtain ⟨p2, p3, p4, p5⟩ := hpost2
      simp only [List.length_set] at p4 p3 p5
      obtain ⟨b2', hb2', hb2ok, _, _⟩ := replace_ok level st.containers (Vnext v') hfr
      rw [hb2] at hb2'
      simp only [Except.ok.injEq] at hb2'
      subst hb2'
      have hfr3 : frames_ok s3.containers level := frames_ok_agree (agree_symm hag3) hb2ok
      have hlev := apply_loop_level N T D (cx :: close_member cv) st s3 (level + 1) hrun3
      rw [hl, hl3] at hlev
      have hd3 : (max_depth cr (level + 1, level + 1)).2 ≤ s3.stacklevels := by
        rw [show cx :: close_member cv ++ cr = (cx :: close_member cv) ++ cr by rfl,
          max_depth_append] at hdepth
        have hm := max_depth_ge (cx :: close_member cv) (level + 1) (level + 1)
        have hpair : max_depth (cx :: close_member cv) (level + 1, level + 1) =
            (level + 1, (max_depth (cx :: close_member cv) (level + 1, level + 1)).2) :=
          Prod.ext hlev rfl
        rw [hpair] at hdepth
        have := (max_depth_mono cr (level + 1) (level + 1) _ hm).1
        rw [hlv3, p3]
        omega
      have h4 := IHr v' s3 ht3
        ⟨hl3, by rw [hlv3, p3, hc3, p4]; exact hcap, hfr3, hd3, by rw [hsl3, p5]; exact hused⟩
        (by rw [hsl3]; exact hinv2)
      cases dr with
      | error err =>
        simp only [on_result] at h4 ⊢
        have hcr : cr ≠ [] := by
          intro hc
          obtain ⟨r0, hr0, _⟩ := hnilr hc
          cases hr0
        rw [show cx :: close_member cv ++ cr = (cx :: close_member cv) ++ cr by rfl,
          List.dropLast_append_of_ne_nil _ hcr, apply_loop_append, hrun3]
        exact h4
      | ok r' =>
        simp only [on_result] at h4 ⊢
        obtain ⟨s4, hrun4, ⟨q1, q2, q3, q4⟩, hinv4, hc4⟩ := h4
        refine ⟨s4, ?_, ⟨q1, by rw [q2, hlv3, p3], by rw [q3, hc3, p4], by rw [q4, hsl3, p5]⟩,
          hinv4, fun _ => ?_⟩
        · rw [show cx :: close_member cv ++ cr = (cx :: close_member cv) ++ cr by rfl,
            apply_loop_append, hrun3]
          exact hrun4
        · refine member_combine N T D st s3 s4 level cr b2 (Vnext v') (Vfin v' r') hfr ht3 hb2
            hag3 hrun4 ?_ hc4
          intro hc
          obtain ⟨r0, hr0, hV⟩ := hnilr hc
          simp only [Except.ok.injEq] at hr0
          subst hr0
          exact hV v'

theorem nodup_mid (done' : List (Str × Jval)) (k : Str) (v : Jval) (rest : List (Str × Jval))
    (h : ((done' ++ (k, v) :: rest).map Prod.fst).Nodup) : k ∉ done'.map Prod.fst := by
  simp only [List.map_append, List.map_cons] at h
  have h2 := (List.nodup_append.mp h).2.2
  intro hk
  exact h2 hk (List.mem_cons_self _ _)

theorem on_result_intro {β : Type} (d : Except TclError β) (E : TclError → Prop) (S : β → Prop)
    (h : (∀ e, d = .error e → E e) ∧ (∀ r, d = .ok r → S r)) : on_result d E S := by
  cases d with
  | error e => exact h.1 e rfl
  | ok r => exact h.2 r rfl

mutual
/-- The instructions of a value, run in a state whose target is that value,
do what direct substitution does to it. -/
theorem value_run (N N2 : Jval → Except TclError Jval) (T : Jval) (D : subst_source)
    (hN : ∀ nm obj j, D.fetch nm = some obj → obj.jval = .ok j → N j = N2 j) :
    ∀ (v : Jval) (map : List ((Str × dyn_type) × Nat)) (used : Nat) (st : apply_state)
      (level : Nat),
    v.wf = true → keys_plain v = true → st.target = some v →
    exec_pre st level (code_of map used v).1 (code_of map used v).2.2 →
    slots_inv N2 D map st.slots → map_bound map used →
    match direct_subst_with string_jval N2 D v with
    | .error e => apply_loop N T D (code_of map used v).1.dropLast st = .error e
    | .ok v' => ∃ st', apply_loop N T D (code_of map used v).1 st = .ok st' ∧
        exec_post st st' level ∧ slots_inv N2 D (code_of map used v).2.1 st'.slots ∧
        ((code_of map used v).1 ≠ [] → ∃ cs', replace st.containers level v' = .ok cs' ∧
          agree level st'.containers cs')
  | .string _, map, used, st, level, _, _, _, hpre, hinv, _ => by
    simp only [code_of, direct_subst_with]
    exact ⟨st, rfl, ⟨hpre.1, rfl, rfl, rfl⟩, hinv, fun h => absurd rfl h⟩
  | .number _, map, used, st, level, _, _, _, hpre, hinv, _ => by
    simp only [code_of, direct_subst_with]
    exact ⟨st, rfl, ⟨hpre.1, rfl, rfl, rfl⟩, hinv, fun h => absurd rfl h⟩
  | .bool _, map, used, st, level, _, _, _, hpre, hinv, _ => by
    simp only [code_of, direct_subst_with]
    exact ⟨st, rfl, ⟨hpre.1, rfl, rfl, rfl⟩, hinv, fun h => absurd rfl h⟩
  | .null, map, used, st, level, _, _, _, hpre, hinv, _ => by
    simp only [code_of, direct_subst_with]
    exact ⟨st, rfl, ⟨hpre.1, rfl, rfl, rfl⟩, hinv, fun h => absurd rfl h⟩
  | .dyn type name, map, used, st, level, _, _, _, hpre, hinv, hb => by
    have h := dyn_run N N2 T D hN type name map used st level hpre hinv hb
    simp only [direct_subst_with]
    cases hc : coerce_value string_jval N2 D type name with
    | error e => simp only [hc] at h ⊢; exact h
    | ok r =>
      simp only [hc] at h ⊢
      obtain ⟨st', h1, h2, h3, h4⟩ := h
      exact ⟨st', h1, h2, h3, fun _ => h4⟩
  | .object val, map, used, st, level, hwf, hkp, ht, hpre, hinv, hb => by
    simp only [Jval.wf, Bool.and_eq_true, decide_eq_true_eq] at hwf
    simp only [keys_plain] at hkp
    have h := members_run N N2 T D hN val [] map used st level hwf.1 hkp
      (by simpa using hwf.2) (by simpa using ht) (by rw [code_of] at hpre; exact hpre) hinv hb
    simp only [direct_subst_with]
    rw [code_of]
    cases hm : direct_subst_with.members string_jval N2 D val with
    | error e => simp only [hm] at h ⊢; exact h
    | ok r =>
      simp only [hm, List.nil_append] at h ⊢
      obtain ⟨st', h1, h2, h3, h4⟩ := h
      exact ⟨st', h1, h2, h3, fun hne => (h4 hne).1⟩
  | .array val, map, used, st, level, hwf, hkp, ht, hpre, hinv, hb => by
    simp only [Jval.wf] at hwf
    simp only [keys_plain] at hkp
    have h := elems_run N N2 T D hN val [] map used 0 st level hwf hkp rfl
      (by simpa using ht) (by rw [code_of] at hpre; exact hpre) hinv hb
    simp only [direct_subst_with]
    rw [code_of]
    cases hm : direct_subst_with.elems string_jval N2 D val with
    | error e => simp only [hm] at h ⊢; exact h
    | ok r =>
      simp only [hm, List.nil_append] at h ⊢
      obtain ⟨st', h1, h2, h3, h4⟩ := h
      exact ⟨st', h1, h2, h3, fun hne => (h4 hne).1⟩
/-- The instructions of the members `rest` of an object, run when the members
`done'` before them have been substituted. -/
theorem members_run (N N2 : Jval → Except TclError Jval) (T : Jval) (D : subst_source)
    (hN : ∀ nm obj j, D.fetch nm = some obj → obj.jval = .ok j → N j = N2 j) :
    ∀ (rest done' : List (Str × Jval)) (map : List ((Str × dyn_type) × Nat)) (used : Nat)
      (st : apply_state) (level : Nat),
    Jval.wf.wfMembers rest = true → keys_plain.members rest = true →
    ((done' ++ rest).map Prod.fst).Nodup → st.target = some (.object (done' ++ rest)) →
    exec_pre st level (code_of.members map used rest).1 (code_of.members map used rest).2.2 →
    slots_inv N2 D map st.slots → map_bound map used →
    match direct_subst_with.members string_jval N2 D rest with
    | .error e => apply_loop N T D (code_of.members map used rest).1.dropLast st = .error e
    | .ok rest' => ∃ st', apply_loop N T D (code_of.members map used rest).1 st = .ok st' ∧
        exec_post st st' level ∧ slots_inv N2 D (code_of.members map used rest).2.1 st'.slots ∧
        ((code_of.members map used rest).1 ≠ [] →
          (∃ cf, replace st.containers level (.object (done' ++ rest')) = .ok cf ∧
            agree level st'.containers cf) ∧ st'.target = some (.object (done' ++ rest')))
  | [], done', map, used, st, level, _, _, _, _, hpre, hinv, _ => by
    simp only [code_of.members, direct_subst_with.members]
    exact ⟨st, rfl, ⟨hpre.1, rfl, rfl, rfl⟩, hinv, fun h => absurd rfl h⟩
  | (k, v) :: rest2, done', map, used, st, level, hwf, hkp, hnd, ht, hpre, hinv, hb => by
    simp only [Jval.wf.wfMembers, Bool.and_eq_true] at hwf
    simp only [keys_plain.members, Bool.and_eq_true, decide_eq_true_eq] at hkp
    have hk := nodup_mid done' k v rest2 hnd
    have hf1 := code_of_facts v map used hb
    have hf2 := code_of_members_facts rest2 _ _ hf1.1
    rw [code_of.members] at hpre ⊢
    have h := step_run N N2 T D st level (CX_OBJ_KEY, .text k) (.text k)
      (fun target =>
        match target with
        | .object container => .ok (Tcl_DictObjGet container (operand.toStr (.text k)))
        | _ => THROW_ERROR ["missing value to go with key".toList])
      (code_of map used v).1
      (code_of.members (code_of map used v).2.1 (code_of map used v).2.2 rest2).1
      (.object (done' ++ (k, v) :: rest2)) v
      (direct_subst_with string_jval N2 D v)
      (direct_subst_with.members string_jval N2 D rest2)
      (fun x => .object (done' ++ (k, x) :: rest2))
      (fun x r' => .object (done' ++ (k, x) :: r'))
      map (code_of map used v).2.1
      (code_of.members (code_of map used v).2.1 (code_of map used v).2.2 rest2).2.1
      (code_of map used v).2.2
      (code_of.members (code_of map used v).2.1 (code_of map used v).2.2 rest2).2.2
      hpre hf2.2.1 ht hinv (fun s => rfl)
      (by simp only [operand.toStr]; rw [dict_get_mid done' k v rest2 hk])
      (Or.inl rfl) trivial
      (fun x => by simp only [store_elem, operand.toStr]; rw [dict_put_mid done' k v x rest2 hk])
      rfl
      (fun hc => ⟨code_nil_subst string_jval N2 D v map used hc, by rw [hf1.2.2.2.1 hc]⟩)
      (fun hc => ⟨rest2, code_nil_subst_members string_jval N2 D rest2 _ _ hc, fun _ => rfl⟩)
      (fun s1 h1 h2 h3 => by
        have := value_run N N2 T D hN v map used s1 (level + 1) hwf.1 hkp.1.2 h1 h2 h3 hb
        refine on_result_intro _ _ _ ⟨fun e hd => ?_, fun r hd => ?_⟩ <;>
          (rw [hd] at this; exact this))
      (fun x s3 h1 h2 h3 => by
        have := members_run N N2 T D hN rest2 (done' ++ [(k, x)]) _ _ s3 level hwf.2 hkp.2
          (by simpa using hnd) (by simpa using h1) h2 h3 hf1.1
        simp only [List.append_assoc, List.singleton_append] at this
        refine on_result_intro _ _ _ ⟨fun e hd => ?_, fun r hd => ?_⟩ <;>
          (rw [hd] at this; exact this))
    simp only [direct_subst_with.members]
    simp only [on_result] at h
    cases hv : direct_subst_with string_jval N2 D v with
    | error e => simp only [hv] at h ⊢; exact h
    | ok v' =>
      simp only [hv] at h ⊢
      cases hr : direct_subst_with.members string_jval N2 D rest2 with
      | error e => simp only [hr] at h ⊢; exact h
      | ok r' => simp only [hr] at h ⊢; exact h
/-- The instructions of the elements `rest` of an array, run when the elements
`done'` before them have been substituted. -/
theorem elems_run (N N2 : Jval → Except TclError Jval) (T : Jval) (D : subst_source)
    (hN : ∀ nm obj j, D.fetch nm = some obj → obj.jval = .ok j → N j = N2 j) :
    ∀ (rest done' : List Jval) (map : List ((Str × dyn_type) × Nat)) (used : Nat) (i : Nat)
      (st : apply_state) (level : Nat),
    Jval.wf.wfElems rest = true → keys_plain.elems rest = true → i = done'.length →
    st.target = some (.array (done' ++ rest)) →
    exec_pre st level (code_of.elems map used i rest).1 (code_of.elems map used i rest).2.2 →
    slots_inv N2 D map st.slots → map_bound map used →
    match direct_subst_with.elems string_jval N2 D rest with
    | .error e => apply_loop N T D (code_of.elems map used i rest).1.dropLast st = .error e
    | .ok rest' => ∃ st', apply_loop N T D (code_of.elems map used i rest).1 st = .ok st' ∧
        exec_post st st' level ∧ slots_inv N2 D (code_of.elems map used i rest).2.1 st'.slots ∧
        ((code_of.elems map used i rest).1 ≠ [] →
          (∃ cf, replace st.containers level (.array (done' ++ rest')) = .ok cf ∧
            agree level st'.containers cf) ∧ st'.target = some (.array (done' ++ rest')))
  | [], done', map, used, i, st, level, _, _, _, _, hpre, hinv, _ => by
    simp only [code_of.elems, direct_subst_with.elems]
    exact ⟨st, rfl, ⟨hpre.1, rfl, rfl, rfl⟩, hinv, fun h => absurd rfl h⟩
  | v :: rest2, done', map, used, i, st, level, hwf, hkp, hi, ht, hpre, hinv, hb => by
    simp only [Jval.wf.wfElems, Bool.and_eq_true] at hwf
    simp only [keys_plain.elems, Bool.and_eq_true] at hkp
    subst hi
    have hf1 := code_of_facts v map used hb
    have hf2 := code_of_elems_facts rest2 _ _ (done'.length + 1) hf1.1
    rw [code_of.elems] at hpre ⊢
    have h := step_run N N2 T D st level (CX_ARR_IDX, .int done'.length) (.int done'.length)
      (fun target =>
        match target with
        | .array container =>
          match (operand.int done'.length).toInt with
          | none => THROW_ERROR ["expected integer but got \"".toList,
              (operand.int done'.length).toStr, "\"".toList]
          | some idx => .ok (container.get? idx)
        | _ => crash "index in a value that is no list".toList)
      (code_of map used v).1
      (code_of.elems (code_of map used v).2.1 (code_of map used v).2.2 (done'.length + 1) rest2).1
      (.array (done' ++ v :: rest2)) v
      (direct_subst_with string_jval N2 D v)
      (direct_subst_with.elems string_jval N2 D rest2)
      (fun x => .array (done' ++ x :: rest2))
      (fun x r' => .array (done' ++ x :: r'))
      map (code_of map used v).2.1
      (code_of.elems (code_of map used v).2.1 (code_of map used v).2.2 (done'.length + 1) rest2).2.1
      (code_of map used v).2.2
      (code_of.elems (code_of map used v).2.1 (code_of map used v).2.2 (done'.length + 1) rest2).2.2
      hpre hf2.2.1 ht hinv (fun s => rfl)
      (by simp only [operand.toInt]; rw [list_get_mid done' v rest2])
      (Or.inr rfl) (by simp [frame_ok])
      (fun x => by
        simp only [store_elem, operand.toInt]
        rw [list_replace_mid done' v x rest2])
      rfl
      (fun hc => ⟨code_nil_subst string_jval N2 D v map used hc, by rw [hf1.2.2.2.1 hc]⟩)
      (fun hc => ⟨rest2, code_nil_subst_elems string_jval N2 D rest2 _ _ _ hc, fun _ => rfl⟩)
      (fun s1 h1 h2 h3 => by
        have := value_run N N2 T D hN v map used s1 (level + 1) hwf.1 hkp.1 h1 h2 h3 hb
        refine on_result_intro _ _ _ ⟨fun e hd => ?_, fun r hd => ?_⟩ <;>
          (rw [hd] at this; exact this))
      (fun x s3 h1 h2 h3 => by
        have := elems_run N N2 T D hN rest2 (done' ++ [x]) _ _ (done'.length + 1) s3 level
          hwf.2 hkp.2 (by simp) (by simpa using h1) h2 h3 hf1.1
        simp only [List.append_assoc, List.singleton_append] at this
        refine on_result_intro _ _ _ ⟨fun e hd => ?_, fun r hd => ?_⟩ <;>
          (rw [hd] at this; exact this))
    simp only [direct_subst_with.elems]
    simp only [on_result] at h
    cases hv : direct_subst_with string_jval N2 D v with
    | error e => simp only [hv] at h ⊢; exact h
    | ok v' =>
      simp only [hv] at h ⊢
      cases hr : direct_subst_with.elems string_jval N2 D rest2 with
      | error e => simp only [hr] at h ⊢; exact h
      | ok r' => simp only [hr] at h ⊢; exact h
end

/-! ## The whole tape -/

theorem pop_containers (N : Jval → Except TclError Jval) (T : Jval) (D : subst_source)
    (n : Nat) (t s : apply_state) (h : apply_action N T D t (POP_CX, .int n) = .ok s) :
    s.containers = t.containers := by
  simp only [apply_action, operand.toInt] at h
  split at h
  · simp [crash] at h
  · split at h
    · simp [crash] at h
    · simp only [Except.ok.injEq] at h
      subst h
      rfl

theorem max_depth_pop (c : List action) (n : Nat) (s : Nat × Nat) :
    (max_depth (c ++ [(POP_CX, operand.int n)]) s).2 = (max_depth c s).2 := by
  rw [max_depth_append]
  generalize max_depth c s = p
  obtain ⟨d, m⟩ := p
  simp [max_depth]

/-- The tape of a template that has instructions: the two allocations, then the
instructions without a final return. -/
theorem tape_run (N : Jval → Except TclError Jval) (D : subst_source) (v : Jval)
    (c trimmed : List action) (used' : Nat) (dres : Except TclError Jval)
    (htr : trimmed = c ∨ ∃ n, c = trimmed ++ [(POP_CX, operand.int n)])
    (hV : ∀ st : apply_state, st.target = some v → exec_pre st 0 c used' → st.slots.length = used' →
      on_result dres (fun e => apply_loop N v D c.dropLast st = .error e)
        (fun v' => ∃ st', apply_loop N v D c st = .ok st' ∧
          ∃ cs', replace st.containers 0 v' = .ok cs' ∧ agree 0 st'.containers cs')) :
    apply_actions_with N v
      ((ALLOCATE_STACK, .int (max_depth ((ALLOCATE_SLOTS, .int used') :: trimmed) (1, 1)).2) ::
        (ALLOCATE_SLOTS, .int used') :: trimmed) D = dres := by
  have hd : (max_depth ((ALLOCATE_SLOTS, operand.int used') :: trimmed) (1, 1)).2 =
      (max_depth trimmed (1, 1)).2 := by
    simp [max_depth]
  have hd1 : 1 ≤ (max_depth trimmed (1, 1)).2 := max_depth_ge trimmed 1 1
  have hdc : (max_depth c (1, 1)).2 = (max_depth trimmed (1, 1)).2 := by
    rcases htr with h | ⟨n, h⟩
    · rw [h]
    · rw [h, max_depth_pop]
  have hpre : c.dropLast <+: trimmed := by
    rcases htr with h | ⟨n, h⟩
    · rw [h]; exact List.dropLast_prefix c
    · rw [h, List.dropLast_concat]
  rw [hd]
  generalize hdd : (max_depth trimmed (1, 1)).2 = d at hd1 hdc
  have h := hV ⟨List.replicate used' none, (List.replicate d none).set 0 (some ⟨v, none⟩), 0, d,
      none, none, none, some v⟩ rfl
    ⟨rfl, by simp, ?_, by simp only [hdc]; exact le_refl _, by simp⟩ (by simp)
  · unfold apply_actions_with
    rw [if_neg (by simp)]
    simp only [apply_loop, apply_action, operand.toInt]
    rw [if_neg (by omega)]
    simp only
    cases dres with
    | error e =>
      simp only [on_result] at h
      rw [apply_loop_error_front N v D _ _ _ e h hpre]
    | ok v' =>
      simp only [on_result] at h
      obtain ⟨st', hrun, cs', hrep, hag⟩ := h
      have hcs : cs'.getD 0 none = some ⟨v', none⟩ := by
        simp only [replace] at hrep
        rw [getD_set_eq _ _ _ _ (by simp; omega)] at hrep
        simp only [Except.ok.injEq] at hrep
        subst hrep
        rw [getD_set_eq _ _ _ _ (by simp; omega)]
      have hres : st'.containers.getD 0 none = some ⟨v', none⟩ := by
        rw [hag 0 (le_refl _)]; exact hcs
      rcases htr with ht | ⟨n, ht⟩
      · subst ht
        rw [hrun]
        simp only [hres]
      · subst ht
        rw [apply_loop_append] at hrun
        cases hrun0 : apply_loop N v D trimmed
            ⟨List.replicate used' none, (List.replicate d none).set 0 (some ⟨v, none⟩), 0, d,
              none, none, none, some v⟩ with
        | error e => simp [hrun0] at hrun
        | ok t =>
          simp only [hrun0, apply_loop_single] at hrun
          have := pop_containers N v D n t st' hrun
          simp only [← this, hres]
  · intro i hi
    have : i = 0 := by omega
    subst this
    refine ⟨⟨v, none⟩, getD_set_eq _ _ _ _ (by simp; omega), ?_⟩
    simp [frame_ok]

/-- The tape `build_template_actions` compiles for a template, applied to the
template, gives what direct substitution gives. -/
theorem apply_actions_correct (N N2 : Jval → Except TclError Jval) (D : subst_source)
    (hN : ∀ nm obj j, D.fetch nm = some obj → obj.jval = .ok j → N j = N2 j)
    (v : Jval) (hwf : v.wf = true) (hkp : keys_plain v = true) :
    ∃ actions, build_template_actions v = .ok actions ∧
      apply_actions_with N v actions D = direct_subst_with string_jval N2 D v := by
  obtain ⟨hcode, hew⟩ := template_actions_code v ⟨[], [], 0⟩ hkp
  have hb0 : map_bound [] 0 := by
    intro n t s h
    simp [map_get] at h
  have hinv0 : ∀ slots, slots_inv N2 D [] slots := by
    intro slots n t s h
    simp [map_get] at h
  have hf := code_of_facts v [] 0 hb0
  simp only [List.nil_append] at hcode hew hf
  unfold build_template_actions
  rw [hcode]
  simp only [prev_opcode]
  by_cases hc : (code_of [] 0 v).1 = []
  · have h2 := hf.2.2.2.1 hc
    have hu : (code_of [] 0 v).2.2 = 0 := by rw [h2]
    simp only [hc, hu, List.getLast?_nil, ne_eq, not_true_eq_false, if_false, reduceCtorEq,
      List.dropLast_nil]
    refine ⟨[], rfl, ?_⟩
    rw [code_nil_subst string_jval N2 D v [] 0 hc]
    simp [apply_actions_with]
  · obtain ⟨n, t, i, hi⟩ := hf.2.2.2.2 hc
    have hu : (code_of [] 0 v).2.2 ≠ 0 := by
      have := hf.1 n t i hi
      omega
    simp only [ne_eq, hu, not_false_eq_true, if_true]
    refine ⟨_, rfl, ?_⟩
    apply tape_run N D v (code_of [] 0 v).1
    · rcases List.eq_nil_or_concat (code_of [] 0 v).1 with h | ⟨c0, a, h⟩
      · exact absurd h hc
      · simp only [List.concat_eq_append] at h
        have hl : (code_of [] 0 v).1.getLast? = some a := by rw [h]; exact getLast?_snoc c0 a
        rcases hew a hl with hr | ⟨m, hm⟩
        · left
          simp only [hl, hr, reduceCtorEq, if_false]
        · right
          subst hm
          refine ⟨m, ?_⟩
          simp only [hl, if_true]
          rw [h, List.dropLast_concat]
    · intro st ht hpre _
      have := value_run N N2 v D hN v [] 0 st 0 hwf hkp ht hpre (hinv0 _) hb0
      refine on_result_intro _ _ _ ⟨fun e hd => ?_, fun r hd => ?_⟩
      · rw [hd] at this; exact this
      · rw [hd] at this
        obtain ⟨st', h1, _, _, h4⟩ := this
        exact ⟨st', h1, h4 hc⟩

/-! ## The tape is direct substitution -/

theorem compile_and_apply_succ (fuel : Nat) (template : Jval) (dict : subst_source)
    (hwf : template.wf = true) (hkp : keys_plain template = true) :
    compile_and_apply (fuel + 1) template dict =
      direct_subst_with string_jval (fun j => compile_and_apply fuel j dict) dict template := by
  obtain ⟨actions, hb, hrun⟩ := apply_actions_correct
    (fun j => compile_and_apply fuel j dict) (fun j => compile_and_apply fuel j dict) dict
    (fun _ _ _ _ _ => rfl) template hwf hkp
  rw [← hrun]
  simp only [compile_and_apply, hb, apply_template_actions]

theorem compile_and_apply_direct (dict : subst_source) (hs : plain_source dict) :
    ∀ (fuel : Nat) (template : Jval), plain_template template →
    compile_and_apply fuel template dict = direct_subst string_jval fuel dict template
  | 0, template, ht => by
    obtain ⟨actions, hb, _⟩ := apply_actions_correct (fun j => .ok j) (fun j => .ok j) dict
      (fun _ _ _ _ _ => rfl) template ht.1 ht.2
    simp only [compile_and_apply, hb, apply_template_actions, direct_subst]
  | fuel + 1, template, ht => by
    obtain ⟨actions, hb, hrun⟩ := apply_actions_correct
      (fun j => compile_and_apply fuel j dict) (direct_subst string_jval fuel dict) dict
      (fun nm obj j hf hj => compile_and_apply_direct dict hs fuel j (hs nm obj j hf hj))
      template ht.1 ht.2
    rw [direct_subst, ← hrun]
    simp only [compile_and_apply, hb, apply_template_actions]

/-- C4 (amended): for a template whose keys are pairwise different and carry no
placeholder prefix, and for every source, the compiled tape applied to the
template gives exactly what direct substitution gives, errors included: every
placeholder value is replaced by its fetched value coerced according to its
type, a null when the source has no value, every other node is kept.  The
String coercion is that of `JVAL_STRING` (a fetched text that begins with `~X:`
becomes the placeholder of that type), and the Template coercion is the
compilation and application of the fetched value; when the documents of the
source are such templates too, this is the fully recursive direct
substitution. -/
theorem tape_is_direct_substitution (fuel : Nat) (template : Jval) (dict : subst_source)
    (ht : plain_template template) :
    compile_and_apply (fuel + 1) template dict =
        direct_subst_with string_jval (fun j => compile_and_apply fuel j dict) dict template ∧
      (plain_source dict →
        compile_and_apply (fuel + 1) template dict =
          direct_subst string_jval (fuel + 1) dict template) :=
  ⟨compile_and_apply_succ fuel template dict ht.1 ht.2,
    fun hs => compile_and_apply_direct dict hs (fuel + 1) template ht⟩

theorem tape_is_direct_substitution_witness :
    plain_template (.object [(['a'], .dyn DYN_STRING "name".toList)]) ∧
      compile_and_apply 1 (.object [(['a'], .dyn DYN_STRING "name".toList)])
        ⟨some [("name".toList, ⟨"bob".toList, .error ⟨"Illegal character".toList, []⟩,
          none, none⟩)], fun _ => none⟩ = .ok (.object [(['a'], .string "bob".toList)]) ∧
      compile_and_apply 1 (.object [(['a'], .dyn DYN_STRING "name".toList)])
        ⟨some [], fun _ => none⟩ = .ok (.object [(['a'], .null)]) :=
  ⟨⟨rfl, rfl⟩,
    (tape_is_direct_substitution 0 (.object [(['a'], .dyn DYN_STRING "name".toList)])
      ⟨some [("name".toList, ⟨"bob".toList, .error ⟨"Illegal character".toList, []⟩,
        none, none⟩)], fun _ => none⟩ ⟨rfl, rfl⟩).1.trans (by decide),
    (tape_is_direct_substitution 0 (.object [(['a'], .dyn DYN_STRING "name".toList)])
      ⟨some [], fun _ => none⟩ ⟨rfl, rfl⟩).1.trans (by decide)⟩

theorem build_string_member :
    build_template_actions (.object [(['a'], .dyn DYN_STRING "name".toList)]) =
      .ok [(ALLOCATE_STACK, .int 2), (ALLOCATE_SLOTS, .int 1), (CX_OBJ_KEY, .text ['a']),
        (FETCH_VALUE, .text "name".toList), (JVAL_STRING, .empty), (FILL_SLOT, .int 0),
        (REPLACE_VAL, .int 0)] := by
  rfl

theorem apply_string_member_tape :
    apply_template_actions 1 (.object [(['a'], .dyn DYN_STRING "name".toList)])
      [(ALLOCATE_STACK, .int 2), (ALLOCATE_SLOTS, .int 1), (CX_OBJ_KEY, .text ['a']),
        (FETCH_VALUE, .text "name".toList), (JVAL_STRING, .empty), (FILL_SLOT, .int 0),
        (REPLACE_VAL, .int 0)]
        ⟨some [("name".toList, ⟨"~N:x".toList, .error ⟨"Illegal character".toList, []⟩,
          none, none⟩)], fun _ => none⟩ = .ok (.object [(['a'], .dyn DYN_NUMBER ['x'])]) := by
  rfl

/-- C4, the claim as written fails: with the template `{"a":"~S:name"}` and
the source that maps `name` to the text `~N:x`, every coercion succeeds and
direct substitution with a string for the String type gives
`{"a":"~N:x"}` as a string, while the tape gives the Number placeholder `x`
under `a`. -/
theorem tape_string_prefix_counterexample :
    compile_and_apply 1 (.object [(['a'], .dyn DYN_STRING "name".toList)])
        ⟨some [("name".toList, ⟨"~N:x".toList, .error ⟨"Illegal character".toList, []⟩,
          none, none⟩)], fun _ => none⟩ = .ok (.object [(['a'], .dyn DYN_NUMBER ['x'])]) ∧
      direct_subst Jval.string 1
        ⟨some [("name".toList, ⟨"~N:x".toList, .error ⟨"Illegal character".toList, []⟩,
          none, none⟩)], fun _ => none⟩ (.object [(['a'], .dyn DYN_STRING "name".toList)]) =
        .ok (.object [(['a'], .string "~N:x".toList)]) := by
  refine ⟨?_, by decide⟩
  rw [compile_and_apply, build_string_member]
  exact apply_string_member_tape

/-! ## A number placeholder whose value is not a number -/

mutual
theorem only_number_keys_plain (name : Str) :
    ∀ v : Jval, only_number_placeholder name v = true → keys_plain v = true
  | .string _, _ => rfl
  | .number _, _ => rfl
  | .bool _, _ => rfl
  | .null, _ => rfl
  | .dyn _ _, _ => rfl
  | .object val, h => by
    rw [only_number_placeholder] at h
    rw [keys_plain]
    exact only_number_keys_plain_members name val h
  | .array val, h => by
    rw [only_number_placeholder] at h
    rw [keys_plain]
    exact only_number_keys_plain_elems name val h
theorem only_number_keys_plain_members (name : Str) :
    ∀ val : List (Str × Jval), only_number_placeholder.members name val = true →
      keys_plain.members val = true
  | [], _ => rfl
  | (k, v) :: rest, h => by
    simp only [only_number_placeholder.members, Bool.and_eq_true] at h
    simp only [keys_plain.members, Bool.and_eq_true]
    exact ⟨⟨h.1.1, only_number_keys_plain name v h.1.2⟩,
      only_number_keys_plain_members name rest h.2⟩
theorem only_number_keys_plain_elems (name : Str) :
    ∀ val : List Jval, only_number_placeholder.elems name val = true →
      keys_plain.elems val = true
  | [], _ => rfl
  | v :: rest, h => by
    simp only [only_number_placeholder.elems, Bool.and_eq_true] at h
    simp only [keys_plain.elems, Bool.and_eq_true]
    exact ⟨only_number_keys_plain name v h.1, only_number_keys_plain_elems name rest h.2⟩
end

mutual
theorem direct_number_fails (str : Str → Jval) (nested : Jval → Except TclError Jval)
    (dict : subst_source) (name : Str) (obj : Tcl_Obj) (hf : dict.fetch name = some obj)
    (hn : force_json_number obj = none) :
    ∀ v : Jval, only_number_placeholder name v = true →
      direct_subst_with str nested dict v =
        if has_placeholder v = true then .error ⟨not_a_number_msg name obj.bytes, []⟩ else .ok v
  | .string _, _ => by simp [direct_subst_with, has_placeholder]
  | .number _, _ => by simp [direct_subst_with, has_placeholder]
  | .bool _, _ => by simp [direct_subst_with, has_placeholder]
  | .null, _ => by simp [direct_subst_with, has_placeholder]
  | .dyn type val, h => by
    simp only [only_number_placeholder, Bool.and_eq_true, decide_eq_true_eq] at h
    obtain ⟨rfl, rfl⟩ := h
    simp [direct_subst_with, has_placeholder, coerce_value, hf, hn]
  | .object val, h => by
    rw [only_number_placeholder] at h
    rw [direct_subst_with, has_placeholder,
      direct_number_fails_members str nested dict name obj hf hn val h]
    cases has_placeholder.members val <;> simp
  | .array val, h => by
    rw [only_number_placeholder] at h
    rw [direct_subst_with, has_placeholder,
      direct_number_fails_elems str nested dict name obj hf hn val h]
    cases has_placeholder.elems val <;> simp
theorem direct_number_fails_members (str : Str → Jval) (nested : Jval → Except TclError Jval)
    (dict : subst_source) (name : Str) (obj : Tcl_Obj) (hf : dict.fetch name = some obj)
    (hn : force_json_number obj = none) :
    ∀ val : List (Str × Jval), only_number_placeholder.members name val = true →
      direct_subst_with.members str nested dict val =
        if has_placeholder.members val = true then .error ⟨not_a_number_msg name obj.bytes, []⟩
        else .ok val
  | [], _ => by simp [direct_subst_with.members, has_placeholder.members]
  | (k, v) :: rest, h => by
    simp only [only_number_placeholder.members, Bool.and_eq_true] at h
    rw [direct_subst_with.members, has_placeholder.members,
      direct_number_fails str nested dict name obj hf hn v h.1.2,
      direct_number_fails_members str nested dict name obj hf hn rest h.2]
    cases has_placeholder v <;> cases has_placeholder.members rest <;> simp
theorem direct_number_fails_elems (str : Str → Jval) (nested : Jval → Except TclError Jval)
    (dict : subst_source) (name : Str) (obj : Tcl_Obj) (hf : dict.fetch name = some obj)
    (hn : force_json_number obj = none) :
    ∀ val : List Jval, only_number_placeholder.elems name val = true →
      direct_subst_with.elems str nested dict val =
        if has_placeholder.elems val = true then .error ⟨not_a_number_msg name obj.bytes, []⟩
        else .ok val
  | [], _ => by simp [direct_subst_with.elems, has_placeholder.elems]
  | v :: rest, h => by
    simp only [only_number_placeholder.elems, Bool.and_eq_true] at h
    rw [direct_subst_with.elems, has_placeholder.elems,
      direct_number_fails str nested dict name obj hf hn v h.1,
      direct_number_fails_elems str nested dict name obj hf hn rest h.2]
    cases has_placeholder v <;> cases has_placeholder.elems rest <;> simp
end

mutual
theorem serialize_number_fails (src : subst_source) (sub : Jval → Except TclError Str)
    (name : Str) (obj : Tcl_Obj) (hf : src.fetch name = some obj)
    (hn : force_json_number obj = none) :
    ∀ v : Jval, only_number_placeholder name v = true →
      (has_placeholder v = true →
        serialize_json_val_template src sub v = .error ⟨not_a_number_msg name obj.bytes, []⟩) ∧
      (has_placeholder v = false → ∃ s, serialize_json_val_template src sub v = .ok s)
  | .string _, _ => by simp [serialize_json_val_template, has_placeholder]
  | .number _, _ => by simp [serialize_json_val_template, has_placeholder]
  | .bool _, _ => by simp [serialize_json_val_template, has_placeholder]
  | .null, _ => by simp [serialize_json_val_template, has_placeholder]
  | .dyn type val, h => by
    simp only [only_number_placeholder, Bool.and_eq_true, decide_eq_true_eq] at h
    obtain ⟨rfl, rfl⟩ := h
    simp [serialize_json_val_template, has_placeholder, serialize_dyn_template, hf, hn]
  | .object val, h => by
    rw [only_number_placeholder] at h
    have := serialize_number_fails_members src sub name obj hf hn val true h
    rw [serialize_json_val_template, has_placeholder]
    constructor
    · intro hp
      rw [this.1 hp]
      rfl
    · intro hp
      obtain ⟨s, hs⟩ := this.2 hp
      rw [hs]
      exact ⟨_, rfl⟩
  | .array val, h => by
    rw [only_number_placeholder] at h
    have := serialize_number_fails_elems src sub name obj hf hn val true h
    rw [serialize_json_val_template, has_placeholder]
    constructor
    · intro hp
      rw [this.1 hp]
      rfl
    · intro hp
      obtain ⟨s, hs⟩ := this.2 hp
      rw [hs]
      exact ⟨_, rfl⟩
theorem serialize_number_fails_members (src : subst_source) (sub : Jval → Except TclError Str)
    (name : Str) (obj : Tcl_Obj) (hf : src.fetch name = some obj)
    (hn : force_json_number obj = none) :
    ∀ (val : List (Str × Jval)) (first : Bool),
      only_number_placeholder.members name val = true →
      (has_placeholder.members val = true →
        serialize_json_val_template.members src sub val first =
          .error ⟨not_a_number_msg name obj.bytes, []⟩) ∧
      (has_placeholder.members val = false →
        ∃ s, serialize_json_val_template.members src sub val first = .ok s)
  | [], _, _ => by simp [serialize_json_val_template.members, has_placeholder.members]
  | (k, v) :: rest, first, h => by
    simp only [only_number_placeholder.members, Bool.and_eq_true, decide_eq_true_eq] at h
    have hv := serialize_number_fails src sub name obj hf hn v h.1.2
    have hr := serialize_number_fails_members src sub name obj hf hn rest false h.2
    rw [serialize_json_val_template.members, has_placeholder.members, h.1.1]
    cases hpv : has_placeholder v with
    | true =>
      rw [hv.1 hpv]
      simp [bind, Except.bind]
    | false =>
      obtain ⟨s, hs⟩ := hv.2 hpv
      rw [hs]
      cases hpr : has_placeholder.members rest with
      | true =>
        rw [hr.1 hpr]
        simp [bind, Except.bind]
      | false =>
        obtain ⟨s2, hs2⟩ := hr.2 hpr
        rw [hs2]
        simp [bind, Except.bind]
theorem serialize_number_fails_elems (src : subst_source) (sub : Jval → Except TclError Str)
    (name : Str) (obj : Tcl_Obj) (hf : src.fetch name = some obj)
    (hn : force_json_number obj = none) :
    ∀ (val : List Jval) (first : Bool),
      only_number_placeholder.elems name val = true →
      (has_placeholder.elems val = true →
        serialize_json_val_template.elems src sub val first =
          .error ⟨not_a_number_msg name obj.bytes, []⟩) ∧
      (has_placeholder.elems val = false →
        ∃ s, serialize_json_val_template.elems src sub val first = .ok s)
  | [], _, _ => by simp [serialize_json_val_template.elems, has_placeholder.elems]
  | v :: rest, first, h => by
    simp only [only_number_placeholder.elems, Bool.and_eq_true] at h
    have hv := serialize_number_fails src sub name obj hf hn v h.1
    have hr := serialize_number_fails_elems src sub name obj hf hn rest false h.2
    rw [serialize_json_val_template.elems, has_placeholder.elems]
    cases hpv : has_placeholder v with
    | true =>
      rw [hv.1 hpv]
      simp [bind, Except.bind]
    | false =>
      obtain ⟨s, hs⟩ := hv.2 hpv
      rw [hs]
      cases hpr : has_placeholder.elems rest with
      | true =>
        rw [hr.1 hpr]
        simp [bind, Except.bind]
      | false =>
        obtain ⟨s2, hs2⟩ := hr.2 hpr
        rw [hs2]
        simp [bind, Except.bind]
end

theorem not_a_number_msg_names (name subst : Str) :
    name <:+: not_a_number_msg name subst ∧ subst <:+: not_a_number_msg name subst := by
  unfold not_a_number_msg
  constructor
  · refine ⟨"Error substituting value from \"".toList,
      "\" into template, not a number: \"".toList ++ subst ++ "\"".toList, ?_⟩
    simp only [List.append_assoc]
  · exact ⟨"Error substituting value from \"".toList ++ name ++
      "\" into template, not a number: \"".toList, "\"".toList, rfl⟩

/-- C5: for a template with pairwise different keys whose only placeholder is
the Number placeholder `~N:name`, and a source that gives for `name` a value
whose text is not a number, the compiled tape applied to the template and the
serialization in the template mode both fail, no document is returned, and
the message of the error contains the name of the placeholder and the rejected
text. -/
theorem number_coercion_fails (fuel : Nat) (template : Jval) (name : Str) (dict : subst_source)
    (obj : Tcl_Obj) (hwf : template.wf = true)
    (honly : only_number_placeholder name template = true)
    (hhas : has_placeholder template = true) (hf : dict.fetch name = some obj)
    (hn : force_json_number obj = none) :
    compile_and_apply (fuel + 1) template dict =
        .error ⟨not_a_number_msg name obj.bytes, []⟩ ∧
      serialize_template (fuel + 1) dict template =
        .error ⟨not_a_number_msg name obj.bytes, []⟩ ∧
      name <:+: not_a_number_msg name obj.bytes ∧
      obj.bytes <:+: not_a_number_msg name obj.bytes := by
  refine ⟨?_, ?_, not_a_number_msg_names name obj.bytes⟩
  · rw [compile_and_apply_succ fuel template dict hwf (only_number_keys_plain name template honly),
      direct_number_fails string_jval _ dict name obj hf hn template honly, if_pos hhas]
  · rw [serialize_template]
    exact (serialize_number_fails dict _ name obj hf hn template honly).1 hhas

theorem number_coercion_fails_witness :
    compile_and_apply 1 (.object [(['n'], .dyn DYN_NUMBER "qty".toList)])
        ⟨some [("qty".toList, ⟨"abc".toList, .error ⟨"Illegal character".toList, []⟩,
          none, none⟩)], fun _ => none⟩ =
        .error ⟨"Error substituting value from \"qty\" into template, not a number: \"abc\"".toList,
          []⟩ ∧
      serialize_template 1
        ⟨some [("qty".toList, ⟨"abc".toList, .error ⟨"Illegal character".toList, []⟩,
          none, none⟩)], fun _ => none⟩ (.object [(['n'], .dyn DYN_NUMBER "qty".toList)]) =
        .error ⟨"Error substituting value from \"qty\" into template, not a number: \"abc\"".toList,
          []⟩ :=
  have h := number_coercion_fails 0 (.object [(['n'], .dyn DYN_NUMBER "qty".toList)])
    "qty".toList
    ⟨some [("qty".toList, ⟨"abc".toList, .error ⟨"Illegal character".toList, []⟩,
      none, none⟩)], fun _ => none⟩
    ⟨"abc".toList, .error ⟨"Illegal character".toList, []⟩, none, none⟩
    (by decide) (by decide) (by decide) rfl rfl
  ⟨h.1, h.2.1⟩

/-! ## Reading what the serializer wrote: strings -/

theorem hex_val_hexDigit : ∀ n, n < 16 → hex_val (hexDigit n) = some n := by decide

theorem char_eq_of_toNat (c : Char) (n : Nat) (h : c.toNat = n) : c = Char.ofNat n := by
  rw [← h, Char.ofNat_toNat]

theorem read_string_escape (c : Char) (tail s r : Str)
    (h : read_string.go .plain tail = some (s, r)) :
    read_string.go .plain (escape_char c ++ tail) = some (c :: s, r) := by
  unfold escape_char
  split
  · next hsp =>
    split
    · next h1 => subst h1; simp [read_string.go, simple_escape, h, with_char]
    · next h1 =>
      split
      · next h2 => subst h2; simp [read_string.go, simple_escape, h, with_char]
      · next h2 =>
        have hctl : c.toNat ≤ 0x1f := by
          rcases hsp with h3 | h3 | h3
          · exact h3
          · exact absurd h3 h2
          · exact absurd h3 h1
        split
        · next h3 =>
          simp [read_string.go, simple_escape, h, with_char, char_eq_of_toNat c _ h3]
        · split
          · next h3 =>
            simp [read_string.go, simple_escape, h, with_char, char_eq_of_toNat c _ h3]
          · split
            · next h3 =>
              simp [read_string.go, simple_escape, h, with_char, char_eq_of_toNat c _ h3]
            · split
              · next h3 =>
                simp [read_string.go, simple_escape, h, with_char, char_eq_of_toNat c _ h3]
              · split
                · next h3 =>
                  simp [read_string.go, simple_escape, h, with_char, char_eq_of_toNat c _ h3]
                · have hhi : c.toNat / 16 < 16 := by omega
                  have hlo : c.toNat % 16 < 16 := by omega
                  have e0 : hex_val '0' = some 0 := by decide
                  have e1 : c.toNat / 16 * 16 + c.toNat % 16 = c.toNat := by
                    omega
                  simp [read_string.go, e0, hex_val_hexDigit _ hhi, hex_val_hexDigit _ hlo, h,
                    with_char, e1, Char.ofNat_toNat]
  · next hsp =>
    simp only [not_or] at hsp
    have h3 : ¬ c.toNat < 0x20 := by omega
    simp [read_string.go, hsp.2.1, hsp.2.2, h3, h, with_char]

theorem read_string_escaped (s rest : Str) :
    read_string (s.flatMap escape_char ++ '"' :: rest) = some (s, rest) := by
  unfold read_string
  induction s with
  | nil => simp [read_string.go]
  | cons c s ih =>
    simp only [List.flatMap_cons, List.append_assoc]
    exact read_string_escape c _ s rest ih

theorem digit_facts (c : Char) (h : '0' ≤ c ∧ c ≤ '9') :
    c ≠ ' ' ∧ c ≠ '\t' ∧ c ≠ '\n' ∧ c ≠ '\r' ∧ c ≠ '/' ∧ c ≠ '{' ∧ c ≠ '[' ∧ c ≠ '"' ∧
      c ≠ '}' ∧ c ≠ ']' ∧ c ≠ ',' ∧ c ≠ ':' ∧ c ≠ 't' ∧ c ≠ 'f' ∧ c ≠ 'n' := by
  refine ⟨?_, ?_, ?_, ?_, ?_, ?_, ?_, ?_, ?_, ?_, ?_, ?_, ?_, ?_, ?_⟩ <;>
    (rintro rfl; revert h; decide)

theorem token_char_not_blank (c : Char) (h : token_char c = true) :
    c ≠ ' ' ∧ c ≠ '\t' ∧ c ≠ '\n' ∧ c ≠ '\r' ∧ c ≠ '/' := by
  simp only [token_char, decide_eq_true_eq] at h
  rcases h with h | h | h | h | h | h | h | h | h | h | h | h
  all_goals first
    | (subst h; decide)
    | exact ⟨(digit_facts c h).1, (digit_facts c h).2.1, (digit_facts c h).2.2.1,
        (digit_facts c h).2.2.2.1, (digit_facts c h).2.2.2.2.1⟩

theorem value_start_token (c : Char) (h : value_start c = true) :
    token_char c = true ∧ c ≠ '}' ∧ c ≠ ']' ∧ c ≠ ',' ∧ c ≠ ':' := by
  simp only [value_start, decide_eq_true_eq] at h
  simp only [token_char, decide_eq_true_eq]
  rcases h with h | h | h | h | h | h | h | h
  all_goals first
    | (subst h; decide)
    | exact ⟨by simp [h], (digit_facts c h).2.2.2.2.2.2.2.2.1,
        (digit_facts c h).2.2.2.2.2.2.2.2.2.1, (digit_facts c h).2.2.2.2.2.2.2.2.2.2.1,
        (digit_facts c h).2.2.2.2.2.2.2.2.2.2.2.1⟩

theorem skip_whitespace_token (c : Char) (rest : Str) (h : token_char c = true) :
    skip_whitespace (c :: rest) = .ok (c :: rest) := by
  obtain ⟨h1, h2, h3, h4, h5⟩ := token_char_not_blank c h
  simp [skip_whitespace, skip_whitespace.go, h1, h2, h3, h4, h5]

/-! ## Reading what the serializer wrote: the tokens -/

theorem escape_char_plain (c : Char) (h1 : ¬ c.toNat ≤ 0x1f) (h2 : c ≠ '\\') (h3 : c ≠ '"') :
    escape_char c = [c] := by
  simp [escape_char, h1, h2, h3]

theorem escape_char_head (c : Char) :
    escape_char c = [c] ∨ ∃ tl, escape_char c = '\\' :: tl := by
  unfold escape_char
  split
  · right
    repeat' split
    all_goals exact ⟨_, rfl⟩
  · left; rfl

/-- A text that the serializer wrote and that begins with a character other
than the quote and the backslash: the string begins with that character. -/
theorem escaped_head (s rest : Str) (h : Char) (tl : Str)
    (e : s.flatMap escape_char ++ '"' :: rest = h :: tl) (h1 : h ≠ '"') (h2 : h ≠ '\\') :
    ∃ s1, s = h :: s1 ∧ tl = s1.flatMap escape_char ++ '"' :: rest := by
  cases s with
  | nil =>
    simp only [List.flatMap_nil, List.nil_append, List.cons.injEq] at e
    exact absurd e.1.symm h1
  | cons a s1 =>
    simp only [List.flatMap_cons, List.append_assoc] at e
    rcases escape_char_head a with ha | ⟨tl', ha⟩
    · rw [ha] at e
      simp only [List.singleton_append, List.cons.injEq] at e
      exact ⟨s1, by rw [e.1], e.2.symm⟩
    · rw [ha] at e
      simp only [List.cons_append, List.cons.injEq] at e
      exact absurd e.1.symm h2

theorem dyn_of_letter_some (x : Char) (t : dyn_type) (h : dyn_of_letter x = some t) :
    x = dyn_letter t ∧ x ≠ '"' ∧ x ≠ '\\' ∧ ¬ x.toNat ≤ 0x1f := by
  unfold dyn_of_letter at h
  repeat' split at h
  all_goals (try cases h)
  all_goals (subst_vars; decide)

theorem dyn_of_letter_letter (t : dyn_type) : dyn_of_letter (dyn_letter t) = some t := by
  cases t <;> rfl

theorem string_jval_dyn (t : dyn_type) (name : Str) :
    string_jval ('~' :: dyn_letter t :: ':' :: name) = .dyn t name := by
  cases t <;> rfl

theorem string_jval_other (s : Str)
    (h : ∀ x name t, s = '~' :: x :: ':' :: name → dyn_of_letter x ≠ some t) :
    string_jval s = .string s := by
  unfold string_jval
  split
  · next c name =>
    have hc := h c name
    simp only [dyn_of_letter, true_implies] at hc
    repeat' split
    all_goals first
      | rfl
      | (subst_vars; exact absurd rfl (hc _))
  · rfl

/-- The token `value_type` reads from the text `append_json_string` wrote for a
text: the value `string_jval` makes of the text. -/
theorem value_type_string (doc s rest : Str) :
    value_type doc (append_json_string s ++ rest) = .ok (.atom (string_jval s), rest) := by
  have hq : ('"' : Char) ≠ '{' ∧ ('"' : Char) ≠ '[' := by decide
  simp only [append_json_string, List.cons_append, List.append_assoc, List.singleton_append,
    List.nil_append, value_type, hq.1, hq.2, if_false, if_true]
  by_cases hd : ∃ x name t, s = '~' :: x :: ':' :: name ∧ dyn_of_letter x = some t
  · obtain ⟨x, name, t, rfl, hx⟩ := hd
    obtain ⟨hx1, hx2, hx3, hx4⟩ := dyn_of_letter_some x t hx
    have e1 : escape_char '~' = ['~'] := by decide
    have e2 : escape_char ':' = [':'] := by decide
    have e3 : escape_char x = [x] := escape_char_plain x hx4 hx3 hx2
    simp only [List.flatMap_cons, e1, e2, e3, List.singleton_append, List.cons_append,
      List.nil_append, and_self, if_true, hx, Option.map_some', read_string_escaped]
    subst hx1
    rw [string_jval_dyn]
  · have hs : string_jval s = .string s := by
      apply string_jval_other
      intro x name t e ht
      exact hd ⟨x, name, t, e, ht⟩
    rw [hs]
    have hnone : (match s.flatMap escape_char ++ '"' :: rest with
        | t :: x :: k :: name =>
          if t = '~' ∧ k = ':' then (dyn_of_letter x).map fun type => (type, name) else none
        | _ => none) = none := by
      split
      · next t x k name e =>
        split
        · next htk =>
          obtain ⟨rfl, rfl⟩ := htk
          cases hx : dyn_of_letter x with
          | none => rfl
          | some ty =>
            exfalso
            obtain ⟨_, hx2, hx3, _⟩ := dyn_of_letter_some x ty hx
            obtain ⟨s1, rfl, e1⟩ := escaped_head s rest '~' _ e (by decide) (by decide)
            obtain ⟨s2, rfl, e2⟩ := escaped_head s1 rest x _ e1.symm hx2 hx3
            obtain ⟨s3, rfl, _⟩ := escaped_head s2 rest ':' _ e2.symm (by decide) (by decide)
            exact hd ⟨x, s3, ty, rfl, hx⟩
        · rfl
      · rfl
    simp only [hnone, read_string_escaped]

theorem delimited_cons (c : Char) (r : Str) (h : c = ',' ∨ c = '}' ∨ c = ']') :
    delimited (c :: r) := by
  intro c' r' e
  simp only [List.cons.injEq] at e
  rw [← e.1]
  exact h

theorem delimited_token (rest : Str) (h : delimited rest) :
    skip_whitespace rest = .ok rest ∧ ∀ c r, rest = c :: r → number_char c = false := by
  cases rest with
  | nil => exact ⟨rfl, fun c r e => by cases e⟩
  | cons c r =>
    have hc := h c r rfl
    constructor
    · apply skip_whitespace_token
      rcases hc with rfl | rfl | rfl <;> decide
    · intro c' r' e
      simp only [List.cons.injEq] at e
      rw [← e.1]
      rcases hc with rfl | rfl | rfl <;> decide

theorem takeWhile_dropWhile_append (p : Char → Bool) (l r : Str) (hl : l.all p = true)
    (hr : ∀ c r', r = c :: r' → p c = false) :
    (l ++ r).takeWhile p = l ∧ (l ++ r).dropWhile p = r := by
  induction l with
  | nil =>
    cases r with
    | nil => exact ⟨rfl, rfl⟩
    | cons c r' => simp [List.takeWhile, List.dropWhile, hr c r' rfl]
  | cons a l ih =>
    simp only [List.all_cons, Bool.and_eq_true] at hl
    have h1 := (ih hl.2).1
    have h2 := (ih hl.2).2
    show List.takeWhile p (a :: (l ++ r)) = a :: l ∧ List.dropWhile p (a :: (l ++ r)) = r
    simp only [List.takeWhile, List.dropWhile, hl.1, h1, h2, and_self]

theorem number_first (text : Str) (h : is_json_number text = true) :
    ∃ c tl, text = c :: tl ∧ (c = '-' ∨ ('0' ≤ c ∧ c ≤ '9')) := by
  simp only [is_json_number, Bool.and_eq_true] at h
  cases text with
  | nil => simp [number_grammar] at h
  | cons c tl =>
    refine ⟨c, tl, rfl, ?_⟩
    have h2 := h.2
    simp only [number_grammar] at h2
    by_cases h1 : c = '-'
    · exact Or.inl h1
    · right
      by_cases h0 : c = '0'
      · subst h0; decide
      · simp only [h1, h0, if_false] at h2
        by_cases hd : '0' ≤ c ∧ c ≤ '9'
        · exact hd
        · simp [hd] at h2

theorem value_type_number (doc text rest : Str) (h : is_json_number text = true)
    (hr : ∀ c r, rest = c :: r → number_char c = false) :
    value_type doc (text ++ rest) = .ok (.atom (.number text), rest) := by
  obtain ⟨c, tl, rfl, hc⟩ := number_first text h
  have hall : (c :: tl).all number_char = true := by
    simp only [is_json_number, Bool.and_eq_true] at h
    exact h.1
  obtain ⟨ht, hd⟩ := takeWhile_dropWhile_append number_char (c :: tl) rest hall hr
  have hnc : number_char c = true := by
    simp only [List.all_cons, Bool.and_eq_true] at hall
    exact hall.1
  have hne : c ≠ '{' ∧ c ≠ '[' ∧ c ≠ '"' ∧ c ≠ 't' ∧ c ≠ 'f' ∧ c ≠ 'n' := by
    rcases hc with rfl | hc
    · decide
    · have := digit_facts c hc
      exact ⟨this.2.2.2.2.2.1, this.2.2.2.2.2.2.1, this.2.2.2.2.2.2.2.1,
        this.2.2.2.2.2.2.2.2.2.2.2.2.1, this.2.2.2.2.2.2.2.2.2.2.2.2.2.1,
        this.2.2.2.2.2.2.2.2.2.2.2.2.2.2⟩
  have p1 : "true".toList.isPrefixOf (c :: tl ++ rest) = false := by
    simp [List.isPrefixOf, Ne.symm hne.2.2.2.1]
  have p2 : "false".toList.isPrefixOf (c :: tl ++ rest) = false := by
    simp [List.isPrefixOf, Ne.symm hne.2.2.2.2.1]
  have p3 : "null".toList.isPrefixOf (c :: tl ++ rest) = false := by
    simp [List.isPrefixOf, Ne.symm hne.2.2.2.2.2]
  simp only [List.cons_append] at ht hd p1 p2 p3 ⊢
  simp only [value_type, hne.1, hne.2.1, hne.2.2.1, if_false, p1, p2, p3, hnc, if_true, ht, hd, h,
    Bool.false_eq_true]

theorem value_type_bool (doc rest : Str) (b : Bool) :
    value_type doc ((if b then "true".toList else "false".toList) ++ rest) =
      .ok (.atom (.bool b), rest) := by
  cases b <;> simp [value_type, List.isPrefixOf]

theorem value_type_null (doc rest : Str) :
    value_type doc ("null".toList ++ rest) = .ok (.atom .null, rest) := by
  simp [value_type, List.isPrefixOf]

theorem value_type_object (doc rest : Str) :
    value_type doc ('{' :: rest) = .ok (.object, rest) := by
  simp [value_type]

theorem value_type_array (doc rest : Str) :
    value_type doc ('[' :: rest) = .ok (.array, rest) := by
  simp [value_type]

/-! ## Steps of the loop of the parser on the text the serializer wrote -/

theorem string_jval_cases (k : Str) :
    string_jval k = .string k ∨
      ∃ t name, k = '~' :: dyn_letter t :: ':' :: name ∧ string_jval k = .dyn t name := by
  by_cases hd : ∃ x name t, k = '~' :: x :: ':' :: name ∧ dyn_of_letter x = some t
  · obtain ⟨x, name, t, rfl, hx⟩ := hd
    obtain ⟨rfl, _⟩ := dyn_of_letter_some x t hx
    exact Or.inr ⟨t, name, rfl, string_jval_dyn t name⟩
  · left
    apply string_jval_other
    intro x name t e ht
    exact hd ⟨x, name, t, e, ht⟩

theorem serialize_head (v : Jval) (h : v.parseable = true) :
    ∃ c r, serialize_json_val_normal v = c :: r ∧ value_start c = true := by
  cases v with
  | object val => exact ⟨'{', _, by rw [serialize_json_val_normal], by decide⟩
  | array val => exact ⟨'[', _, by rw [serialize_json_val_normal], by decide⟩
  | string val => exact ⟨'"', _, by rw [serialize_json_val_normal, append_json_string], by decide⟩
  | dyn t val => exact ⟨'"', _, by rw [serialize_json_val_normal, append_json_string], by decide⟩
  | null => exact ⟨'n', _, by rw [serialize_json_val_normal]; rfl, by decide⟩
  | bool b =>
    cases b
    · exact ⟨'f', _, by rw [serialize_json_val_normal]; rfl, by decide⟩
    · exact ⟨'t', _, by rw [serialize_json_val_normal]; rfl, by decide⟩
  | number text =>
    simp only [Jval.parseable] at h
    obtain ⟨c, tl, e, hc⟩ := number_first text h
    refine ⟨c, tl, by rw [serialize_json_val_normal]; exact e, ?_⟩
    simp only [value_start, decide_eq_true_eq]
    rcases hc with hc | hc
    · simp [hc]
    · simp [hc]

theorem loop_top_value (size : Nat) (doc : Str) (fuel : Nat) (cx : parse_stack) (p : Str)
    (hp : p ≠ []) (hc : cx.last.container ≠ JSON_OBJECT) :
    parse_loop size doc (fuel + 1) .loop_top cx p =
      read_value size doc (fun l c q => parse_loop size doc fuel l c q) cx p := by
  simp only [parse_loop, hp, hc, if_false]

theorem read_key_written (doc : Str) (cx : parse_stack) (k q : Str) (c : Char) (r : Str)
    (hq : q = c :: r) (hc : token_char c = true) :
    read_key doc cx (append_json_string k ++ ':' :: q) =
      .ok (cx.set_last { cx.last with hold_key := some k }, q) := by
  have hcolon : skip_whitespace (':' :: q) = .ok (':' :: q) :=
    skip_whitespace_token ':' q (by decide)
  have hskip : skip_whitespace q = .ok q := by
    rw [hq]; exact skip_whitespace_token c r hc
  unfold read_key
  simp only [value_type_string]
  rcases string_jval_cases k with hs | ⟨t, name, hk, hs⟩
  · simp only [hs, hcolon, List.head?_cons, ne_eq, not_true_eq_false, if_false, List.tail_cons,
      hskip]
  · have e1 : escape_char '~' = ['~'] := by decide
    have e2 : escape_char (dyn_letter t) = [dyn_letter t] := by cases t <;> decide
    have hget : (append_json_string k ++ ':' :: q).getD 2 '\x00' = dyn_letter t := by
      rw [hk]
      simp [append_json_string, e1, e2]
    simp only [hs, hget, hcolon, List.head?_cons, ne_eq, not_true_eq_false, if_false,
      List.tail_cons, hskip]
    rw [← hk]

theorem loop_top_member (size : Nat) (doc : Str) (fuel : Nat) (cx : parse_stack) (k q : Str)
    (c : Char) (r : Str) (hq : q = c :: r) (hc : token_char c = true)
    (ho : cx.last.container = JSON_OBJECT) :
    parse_loop size doc (fuel + 1) .loop_top cx (append_json_string k ++ ':' :: q) =
      read_value size doc (fun l c q => parse_loop size doc fuel l c q)
        (cx.set_last { cx.last with hold_key := some k }) q := by
  have hp : append_json_string k ++ ':' :: q ≠ [] := by simp [append_json_string]
  simp only [parse_loop, hp, ho, if_false, if_true, read_key_written doc cx k q c r hq hc]

theorem read_value_atom (size : Nat) (doc : Str)
    (next : parse_label → parse_stack → Str → Except TclError parse_stack) (cx : parse_stack)
    (p rest : Str) (v : Jval) (top : parse_context)
    (hv : value_type doc p = .ok (.atom v, rest)) (ha : append_to_cx cx.last v = .ok top) :
    read_value size doc next cx p = next .after_value (cx.set_last top) rest := by
  simp only [read_value, hv, ha]

theorem read_value_open (size : Nat) (doc : Str)
    (next : parse_label → parse_stack → Str → Except TclError parse_stack) (cx : parse_stack)
    (p q : Str) (type : json_types) (token : value_token) (close : Char)
    (ht : (token = .object ∧ type = JSON_OBJECT ∧ close = '}') ∨
      (token = .array ∧ type = JSON_ARRAY ∧ close = ']'))
    (hv : value_type doc p = .ok (token, q)) (hs : skip_whitespace q = .ok q) :
    read_value size doc next cx p =
      if q.head? = some close then
        match pop_parse_context (push_statement size cx type (char_offset doc p)) with
        | .error e => .error e
        | .ok cx2 => next .after_value cx2 q.tail
      else next .loop_top (push_statement size cx type (char_offset doc p)) q := by
  rcases ht with ⟨rfl, rfl, rfl⟩ | ⟨rfl, rfl, rfl⟩
  · simp only [read_value, hv, hs]
  · simp only [read_value, hv, hs]

theorem after_value_close (size : Nat) (doc : Str) (fuel : Nat) (cx cx2 : parse_stack)
    (close : Char) (rest : Str)
    (ht : (cx.last.container = JSON_OBJECT ∧ close = '}') ∨
      (cx.last.container = JSON_ARRAY ∧ close = ']'))
    (hpop : pop_parse_context cx = .ok cx2) :
    parse_loop size doc (fuel + 1) .after_value cx (close :: rest) =
      parse_loop size doc fuel .after_value cx2 rest := by
  have hs : skip_whitespace (close :: rest) = .ok (close :: rest) := by
    apply skip_whitespace_token
    rcases ht with ⟨_, rfl⟩ | ⟨_, rfl⟩ <;> decide
  rcases ht with ⟨hc, rfl⟩ | ⟨hc, rfl⟩
  · simp only [parse_loop, after_value, hs, hc, if_true, hpop]
  · simp only [parse_loop, after_value, hs, hc, if_true, hpop]

theorem after_value_comma (size : Nat) (doc : Str) (fuel : Nat) (cx : parse_stack)
    (q : Str) (c : Char) (r : Str) (hq : q = c :: r) (hc : token_char c = true)
    (ht : cx.last.container = JSON_OBJECT ∨ cx.last.container = JSON_ARRAY) :
    parse_loop size doc (fuel + 1) .after_value cx (',' :: q) =
      parse_loop size doc fuel .loop_top cx q := by
  have hs : skip_whitespace (',' :: q) = .ok (',' :: q) :=
    skip_whitespace_token ',' q (by decide)
  have hskip : skip_whitespace q = .ok q := by
    rw [hq]; exact skip_whitespace_token c r hc
  have h1 : (',' : Char) ≠ '}' ∧ (',' : Char) ≠ ']' := by decide
  rcases ht with ht | ht
  · simp only [parse_loop, after_value, hs, ht, h1.1, if_false, ne_eq, not_true_eq_false, hskip]
  · simp only [parse_loop, after_value, hs, ht, h1.2, if_false, ne_eq, not_true_eq_false, hskip]

/-! ## The run of the parser over the text of a value -/

theorem outcome_chain (size : Nat) (doc : Str) (f1 f2 : Prop)
    (r1 : Except TclError parse_stack) (cx1 cx2 : parse_stack) (tail rest : Str)
    (h1 : outcome size doc f1 r1 cx1 tail)
    (h2 : ∀ fuel, tail.length < fuel →
      outcome size doc f2 (parse_loop size doc fuel .after_value cx1 tail) cx2 rest) :
    outcome size doc (f1 ∧ f2) r1 cx2 rest := by
  rintro ⟨a, b⟩
  obtain ⟨fuel, hf, e⟩ := h1 a
  rw [e]
  exact h2 fuel hf b

theorem outcome_congr (size : Nat) (doc : Str) (f1 f2 : Prop)
    (r : Except TclError parse_stack) (cx : parse_stack) (rest : Str) (h : f1 ↔ f2)
    (h1 : outcome size doc f1 r cx rest) : outcome size doc f2 r cx rest :=
  fun a => h1 (h.mpr a)

theorem dict_put_new (acc : List (Str × Jval)) (k : Str) (v : Jval)
    (h : k ∉ acc.map Prod.fst) : Tcl_DictObjPut acc k v = acc ++ [(k, v)] := by
  induction acc with
  | nil => rfl
  | cons p acc ih =>
    obtain ⟨k', v'⟩ := p
    simp only [List.map_cons, List.mem_cons, not_or] at h
    simp only [Tcl_DictObjPut, Ne.symm h.1, if_false, ih h.2, List.cons_append]

/-- A member of an object read from the top of the loop, then what follows
it. -/
theorem member_from_top (size : Nat) (doc : Str) (f : Nat) (base : parse_context)
    (ab : List parse_context) (top : parse_context) (k : Str) (text tail rest : Str)
    (cxk cx1 cxF : parse_stack) (fv fr : Prop)
    (htop : top.container = JSON_OBJECT)
    (hcxk : cxk = ⟨base, { top with hold_key := some k } :: ab⟩)
    (hhead : ∃ c r, text ++ tail = c :: r ∧ token_char c = true)
    (hlen : (append_json_string k ++ ':' :: (text ++ tail)).length < f)
    (hU : ∀ fuel, (text ++ tail).length ≤ fuel →
      outcome size doc fv
        (read_value size doc (fun l c q => parse_loop size doc fuel l c q) cxk (text ++ tail))
        cx1 tail)
    (hR : ∀ fuel, tail.length < fuel →
      outcome size doc fr (parse_loop size doc fuel .after_value cx1 tail) cxF rest) :
    outcome size doc (fv ∧ fr)
      (parse_loop size doc f .loop_top ⟨base, top :: ab⟩
        (append_json_string k ++ ':' :: (text ++ tail))) cxF rest := by
  obtain ⟨c, r, hq, hc⟩ := hhead
  cases f with
  | zero => simp at hlen
  | succ f0 =>
    rw [loop_top_member size doc f0 ⟨base, top :: ab⟩ k (text ++ tail) c r hq hc htop]
    simp only [parse_stack.set_last, parse_stack.last]
    rw [← hcxk]
    refine outcome_chain size doc fv fr _ cx1 cxF tail rest (hU f0 ?_) hR
    simp only [List.length_append, List.length_cons, append_json_string] at hlen ⊢
    omega

/-- An element of an array read from the top of the loop, then what follows
it. -/
theorem element_from_top (size : Nat) (doc : Str) (f : Nat) (cx cx1 cxF : parse_stack)
    (text tail rest : Str) (fv fr : Prop)
    (htop : cx.last.container ≠ JSON_OBJECT)
    (hne : text ≠ [])
    (hlen : (text ++ tail).length < f)
    (hU : ∀ fuel, (text ++ tail).length ≤ fuel →
      outcome size doc fv
        (read_value size doc (fun l c q => parse_loop size doc fuel l c q) cx (text ++ tail))
        cx1 tail)
    (hR : ∀ fuel, tail.length < fuel →
      outcome size doc fr (parse_loop size doc fuel .after_value cx1 tail) cxF rest) :
    outcome size doc (fv ∧ fr) (parse_loop size doc f .loop_top cx (text ++ tail)) cxF rest := by
  cases f with
  | zero => simp at hlen
  | succ f0 =>
    rw [loop_top_value size doc f0 cx (text ++ tail) (by simp [hne]) htop]
    exact outcome_chain size doc fv fr _ cx1 cxF tail rest (hU f0 (by omega)) hR

theorem atom_parse (size : Nat) (doc : Str) (fuel : Nat) (cx : parse_stack) (text rest : Str)
    (v : Jval) (top : parse_context)
    (hv : value_type doc (text ++ rest) = .ok (.atom v, rest)) (hne : text ≠ [])
    (hlen : (text ++ rest).length ≤ fuel) (_hab : cx.above.length < size)
    (ha : append_to_cx cx.last v = .ok top) (hd : v.depth = 0) :
    outcome size doc (cx.above.length + v.depth < size)
      (read_value size doc (fun l c q => parse_loop size doc fuel l c q) cx (text ++ rest))
      (cx.set_last top) rest := by
  rw [read_value_atom size doc _ cx (text ++ rest) rest v top hv ha, hd]
  refine fun _ => ⟨fuel, ?_, rfl⟩
  have : 0 < text.length := List.length_pos.mpr hne
  simp only [List.length_append] at hlen
  omega

theorem members_delimited (ms : List (Str × Jval)) (rest : Str) :
    delimited (serialize_json_val_normal.members ms false ++ '}' :: rest) := by
  cases ms with
  | nil => exact delimited_cons _ _ (Or.inr (Or.inl rfl))
  | cons m ms =>
    obtain ⟨k, v⟩ := m
    simp only [serialize_json_val_normal.members, Bool.false_eq_true, if_false,
      List.singleton_append, List.cons_append, List.append_assoc]
    exact delimited_cons _ _ (Or.inl rfl)

theorem elems_delimited (es : List Jval) (rest : Str) :
    delimited (serialize_json_val_normal.elems es false ++ ']' :: rest) := by
  cases es with
  | nil => exact delimited_cons _ _ (Or.inr (Or.inr rfl))
  | cons e es =>
    simp only [serialize_json_val_normal.elems, Bool.false_eq_true, if_false,
      List.singleton_append, List.cons_append, List.append_assoc]
    exact delimited_cons _ _ (Or.inl rfl)

theorem value_head_token (v : Jval) (tail : Str) (h : v.parseable = true) :
    ∃ c r, serialize_json_val_normal v ++ tail = c :: r ∧ token_char c = true ∧ c ≠ ']' := by
  obtain ⟨c, r, e, hc⟩ := serialize_head v h
  exact ⟨c, r ++ tail, by rw [e]; rfl, (value_start_token c hc).1, (value_start_token c hc).2.2.1⟩

theorem push_room (size : Nat) (cx : parse_stack) (type : json_types) (ofs : Int)
    (h : ¬ size ≤ cx.above.length + 1) :
    push_statement size cx type ofs =
      ⟨cx.base, ⟨type, some (if type = JSON_OBJECT then .object [] else .array []), none,
        ofs, false⟩ :: cx.above⟩ := by
  simp only [push_statement, push_parse_context, h, if_false]

theorem pop_top (base : parse_context) (ab : List parse_context) (top parent : parse_context)
    (val : Jval) (hv : top.val = some val)
    (ha : append_to_cx (parse_stack.last ⟨base, ab⟩) val = .ok parent) :
    pop_parse_context ⟨base, top :: ab⟩ = .ok ((⟨base, ab⟩ : parse_stack).set_last parent) := by
  simp only [pop_parse_context, hv, ha]

theorem max_lt_iff (a b c n : Nat) : a + (max b c + 1) < n ↔ a + 1 + b < n ∧ a + 1 + c < n := by
  simp only [Nat.max_def]
  split <;> omega

/-- A member of an object whose context is the last one: the key, the colon,
the value, and what follows them. -/
theorem member_parse_step (size : Nat) (doc : Str) (f : Nat) (base : parse_context)
    (ab : List parse_context) (top : parse_context) (acc : List (Str × Jval)) (k : Str)
    (v : Jval) (tail rest : Str) (cxF : parse_stack) (fr : Prop)
    (htop : top.container = JSON_OBJECT) (hval : top.val = some (.object acc))
    (hk : k ∉ acc.map Prod.fst) (hp : v.parseable = true)
    (hlen : (append_json_string k ++ ':' :: (serialize_json_val_normal v ++ tail)).length < f)
    (hab : ab.length + 1 < size)
    (hU : ∀ (fuel : Nat) (cx : parse_stack) (top1 : parse_context),
      (serialize_json_val_normal v ++ tail).length ≤ fuel → cx.above.length < size →
      append_to_cx cx.last v = .ok top1 →
      outcome size doc (cx.above.length + v.depth < size)
        (read_value size doc (fun l c q => parse_loop size doc fuel l c q) cx
          (serialize_json_val_normal v ++ tail)) (cx.set_last top1) tail)
    (hR : ∀ fuel, tail.length < fuel →
      outcome size doc fr
        (parse_loop size doc fuel .after_value
          ⟨base, { top with val := some (.object (acc ++ [(k, v)])), hold_key := none } :: ab⟩
          tail) cxF rest) :
    outcome size doc (ab.length + 1 + v.depth < size ∧ fr)
      (parse_loop size doc f .loop_top ⟨base, top :: ab⟩
        (append_json_string k ++ ':' :: (serialize_json_val_normal v ++ tail))) cxF rest := by
  obtain ⟨c, r, hc1, hc2, _⟩ := value_head_token v tail hp
  refine member_from_top size doc f base ab top k (serialize_json_val_normal v) tail rest
    ⟨base, { top with hold_key := some k } :: ab⟩
    ⟨base, { top with val := some (.object (acc ++ [(k, v)])), hold_key := none } :: ab⟩
    cxF _ fr htop rfl ⟨c, r, hc1, hc2⟩ hlen ?_ hR
  intro fuel hf
  have ha : append_to_cx (parse_stack.last ⟨base, { top with hold_key := some k } :: ab⟩) v =
      .ok { top with val := some (.object (acc ++ [(k, v)])), hold_key := none } := by
    simp only [parse_stack.last, append_to_cx, htop, hval, dict_put_new acc k v hk]
  have h := hU fuel ⟨base, { top with hold_key := some k } :: ab⟩ _ hf
    (by simp only [List.length_cons]; omega) ha
  refine outcome_congr size doc _ _ _ _ _ ?_ h
  simp only [List.length_cons]

/-- An element of an array whose context is the last one, and what follows
it. -/
theorem element_parse_step (size : Nat) (doc : Str) (f : Nat) (base : parse_context)
    (ab : List parse_context) (top : parse_context) (acc : List Jval)
    (v : Jval) (tail rest : Str) (cxF : parse_stack) (fr : Prop)
    (htop : top.container = JSON_ARRAY) (hval : top.val = some (.array acc))
    (hp : v.parseable = true)
    (hlen : (serialize_json_val_normal v ++ tail).length < f)
    (hab : ab.length + 1 < size)
    (hU : ∀ (fuel : Nat) (cx : parse_stack) (top1 : parse_context),
      (serialize_json_val_normal v ++ tail).length ≤ fuel → cx.above.length < size →
      append_to_cx cx.last v = .ok top1 →
      outcome size doc (cx.above.length + v.depth < size)
        (read_value size doc (fun l c q => parse_loop size doc fuel l c q) cx
          (serialize_json_val_normal v ++ tail)) (cx.set_last top1) tail)
    (hR : ∀ fuel, tail.length < fuel →
      outcome size doc fr
        (parse_loop size doc fuel .after_value
          ⟨base, { top with val := some (.array (acc ++ [v])) } :: ab⟩ tail) cxF rest) :
    outcome size doc (ab.length + 1 + v.depth < size ∧ fr)
      (parse_loop size doc f .loop_top ⟨base, top :: ab⟩
        (serialize_json_val_normal v ++ tail)) cxF rest := by
  obtain ⟨c, r, hc1, _⟩ := serialize_head v hp
  refine element_from_top size doc f ⟨base, top :: ab⟩
    ⟨base, { top with val := some (.array (acc ++ [v])) } :: ab⟩ cxF
    (serialize_json_val_normal v) tail rest _ fr (by simp [parse_stack.last, htop])
    (by rw [hc1]; simp) hlen ?_ hR
  intro fuel hf
  have ha : append_to_cx (parse_stack.last ⟨base, top :: ab⟩) v =
      .ok { top with val := some (.array (acc ++ [v])) } := by
    simp only [parse_stack.last, append_to_cx, htop, hval]
  have h := hU fuel ⟨base, top :: ab⟩ _ hf (by simp only [List.length_cons]; omega) ha
  refine outcome_congr size doc _ _ _ _ _ ?_ h
  simp only [List.length_cons]

theorem open_empty (size : Nat) (doc : Str)
    (next : parse_label → parse_stack → Str → Except TclError parse_stack) (cx : parse_stack)
    (p rest : Str) (type : json_types) (token : value_token) (close : Char)
    (top' : parse_context)
    (ht : (token = .object ∧ type = JSON_OBJECT ∧ close = '}') ∨
      (token = .array ∧ type = JSON_ARRAY ∧ close = ']'))
    (hv : value_type doc p = .ok (token, close :: rest))
    (hpush : ¬ size ≤ cx.above.length + 1)
    (ha : append_to_cx cx.last (if type = JSON_OBJECT then .object [] else .array []) =
      .ok top') :
    read_value size doc next cx p = next .after_value (cx.set_last top') rest := by
  have hs : skip_whitespace (close :: rest) = .ok (close :: rest) := by
    apply skip_whitespace_token
    rcases ht with ⟨_, _, rfl⟩ | ⟨_, _, rfl⟩ <;> decide
  rw [read_value_open size doc next cx p (close :: rest) type token close ht hv hs,
    push_room size cx _ _ hpush]
  simp only [List.head?_cons, if_true, List.tail_cons]
  rw [pop_top cx.base cx.above _ top' _ rfl ha]

theorem open_first (size : Nat) (doc : Str)
    (next : parse_label → parse_stack → Str → Except TclError parse_stack) (cx : parse_stack)
    (p q : Str) (type : json_types) (token : value_token) (close : Char) (c : Char) (r : Str)
    (ht : (token = .object ∧ type = JSON_OBJECT ∧ close = '}') ∨
      (token = .array ∧ type = JSON_ARRAY ∧ close = ']'))
    (hv : value_type doc p = .ok (token, q)) (hq : q = c :: r) (hc : token_char c = true)
    (hne : c ≠ close) (hpush : ¬ size ≤ cx.above.length + 1) :
    ∃ top : parse_context, top.container = type ∧
      top.val = some (if type = JSON_OBJECT then .object [] else .array []) ∧
      read_value size doc next cx p = next .loop_top ⟨cx.base, top :: cx.above⟩ q := by
  have hs : skip_whitespace q = .ok q := by
    rw [hq]; exact skip_whitespace_token c r hc
  refine ⟨⟨type, some (if type = JSON_OBJECT then .object [] else .array []),
    none, char_offset doc p, false⟩, rfl, rfl, ?_⟩
  rw [read_value_open size doc next cx p q type token close ht hv hs,
    push_room size cx _ _ hpush]
  have hh : q.head? ≠ some close := by
    rw [hq]
    simp only [List.head?_cons, ne_eq, Option.some.injEq]
    exact hne
  simp only [hh, if_false]

theorem max_lt_iff2 (a b c n : Nat) : a + max b c < n ↔ a + b < n ∧ a + c < n := by
  simp only [Nat.max_def]
  split <;> omega

mutual
/-- The run of the parser over the text the serializer wrote for a value: the
value is appended to the last context when its nesting fits the stack. -/
theorem value_parse (size : Nat) (doc : Str) :
    ∀ (v : Jval) (fuel : Nat) (cx : parse_stack) (rest : Str) (top' : parse_context),
    v.wf = true → v.parseable = true → delimited rest →
    (serialize_json_val_normal v ++ rest).length ≤ fuel → cx.above.length < size →
    append_to_cx cx.last v = .ok top' →
    outcome size doc (cx.above.length + v.depth < size)
      (read_value size doc (fun l c q => parse_loop size doc fuel l c q) cx
        (serialize_json_val_normal v ++ rest)) (cx.set_last top') rest
  | .string s, fuel, cx, rest, top', _, hp, _, hlen, hab, ha => by
    simp only [Jval.parseable, decide_eq_true_eq] at hp
    rw [serialize_json_val_normal] at hlen ⊢
    exact atom_parse size doc fuel cx _ rest (.string s) top'
      (by rw [value_type_string, hp]) (by simp [append_json_string]) hlen hab ha rfl
  | .dyn t name, fuel, cx, rest, top', _, _, _, hlen, hab, ha => by
    rw [serialize_json_val_normal] at hlen ⊢
    exact atom_parse size doc fuel cx _ rest (.dyn t name) top'
      (by rw [value_type_string]; simp only [ dyn_prefix, List.cons_append, List.nil_append,
        string_jval_dyn])
      (by simp [append_json_string]) hlen hab ha rfl
  | .number text, fuel, cx, rest, top', _, hp, hr, hlen, hab, ha => by
    simp only [Jval.parseable] at hp
    rw [serialize_json_val_normal] at hlen ⊢
    obtain ⟨c, tl, e, _⟩ := number_first text hp
    exact atom_parse size doc fuel cx _ rest (.number text) top'
      (value_type_number doc text rest hp (delimited_token rest hr).2) (by simp [e]) hlen hab ha
      rfl
  | .bool b, fuel, cx, rest, top', _, _, _, hlen, hab, ha => by
    rw [serialize_json_val_normal] at hlen ⊢
    exact atom_parse size doc fuel cx _ rest (.bool b) top' (value_type_bool doc rest b)
      (by cases b <;> simp) hlen hab ha rfl
  | .null, fuel, cx, rest, top', _, _, _, hlen, hab, ha => by
    rw [serialize_json_val_normal] at hlen ⊢
    exact atom_parse size doc fuel cx _ rest .null top' (value_type_null doc rest)
      (by simp) hlen hab ha rfl
  | .object ms, fuel, cx, rest, top', hwf, hp, hr, hlen, hab, ha => by
    simp only [Jval.wf, Bool.and_eq_true, decide_eq_true_eq] at hwf
    simp only [Jval.parseable] at hp
    have htext : serialize_json_val_normal (.object ms) ++ rest =
        '{' :: (serialize_json_val_normal.members ms true ++ '}' :: rest) := by
      simp [serialize_json_val_normal]
    rw [htext] at hlen ⊢
    cases ms with
    | nil =>
      simp only [serialize_json_val_normal.members, List.nil_append] at hlen ⊢
      by_cases hpush : size ≤ cx.above.length + 1
      · intro h
        simp only [Jval.depth, Jval.depth.members] at h
        omega
      · rw [open_empty size doc _ cx _ rest JSON_OBJECT .object '}' top'
          (Or.inl ⟨rfl, rfl, rfl⟩) (value_type_object doc _) hpush ha]
        refine fun _ => ⟨fuel, ?_, rfl⟩
        simp only [List.length_cons] at hlen
        omega
    | cons m ms' =>
      obtain ⟨k, v⟩ := m
      simp only [Jval.wf.wfMembers, Bool.and_eq_true] at hwf
      simp only [Jval.parseable.members, Bool.and_eq_true] at hp
      have hq : serialize_json_val_normal.members ((k, v) :: ms') true ++ '}' :: rest =
          append_json_string k ++ ':' :: (serialize_json_val_normal v ++
            (serialize_json_val_normal.members ms' false ++ '}' :: rest)) := by
        simp [serialize_json_val_normal.members]
      rw [hq] at hlen ⊢
      have hkey : ∃ r, append_json_string k ++ ':' :: (serialize_json_val_normal v ++
            (serialize_json_val_normal.members ms' false ++ '}' :: rest)) = '"' :: r :=
        ⟨_, by rw [append_json_string]; rfl⟩
      obtain ⟨r, hr'⟩ := hkey
      by_cases hpush : size ≤ cx.above.length + 1
      · intro h
        simp only [Jval.depth] at h
        omega
      · obtain ⟨top, htop, hval, e⟩ := open_first size doc
          (fun l c q => parse_loop size doc fuel l c q) cx
          ('{' :: (append_json_string k ++ ':' :: (serialize_json_val_normal v ++
            (serialize_json_val_normal.members ms' false ++ '}' :: rest)))) _
          JSON_OBJECT .object '}' '"' r
          (Or.inl ⟨rfl, rfl, rfl⟩) (value_type_object doc _) hr' (by decide) (by decide) hpush
        rw [e]
        have h := member_parse_step size doc fuel cx.base cx.above top [] k v
          (serialize_json_val_normal.members ms' false ++ '}' :: rest) rest (cx.set_last top')
          (cx.above.length + 1 + Jval.depth.members ms' < size) htop hval (by simp) hp.1
          (by simp only [List.length_cons] at hlen; omega) (by omega)
          (fun fuel' cx' top1 h1 h2 h3 => value_parse size doc v fuel' cx' _ top1 hwf.1.1 hp.1
            (members_delimited ms' rest) h1 h2 h3)
          (fun fuel' hf => members_parse size doc ms' ([] ++ [(k, v)]) fuel' cx.base cx.above _
            rest top' hwf.1.2 hp.2 hwf.2 htop rfl hr hf (by omega) ha)
        refine outcome_congr size doc _ _ _ _ _ ?_ h
        simp only [Jval.depth, Jval.depth.members]
        exact (max_lt_iff _ _ _ _).symm
  | .array es, fuel, cx, rest, top', hwf, hp, hr, hlen, hab, ha => by
    simp only [Jval.wf] at hwf
    simp only [Jval.parseable] at hp
    have htext : serialize_json_val_normal (.array es) ++ rest =
        '[' :: (serialize_json_val_normal.elems es true ++ ']' :: rest) := by
      simp [serialize_json_val_normal]
    rw [htext] at hlen ⊢
    cases es with
    | nil =>
      simp only [serialize_json_val_normal.elems, List.nil_append] at hlen ⊢
      by_cases hpush : size ≤ cx.above.length + 1
      · intro h
        simp only [Jval.depth, Jval.depth.elems] at h
        omega
      · rw [open_empty size doc _ cx _ rest JSON_ARRAY .array ']' top'
          (Or.inr ⟨rfl, rfl, rfl⟩) (value_type_array doc _) hpush ha]
        refine fun _ => ⟨fuel, ?_, rfl⟩
        simp only [List.length_cons] at hlen
        omega
    | cons v es' =>
      simp only [Jval.wf.wfElems, Bool.and_eq_true] at hwf
      simp only [Jval.parseable.elems, Bool.and_eq_true] at hp
      have hq : serialize_json_val_normal.elems (v :: es') true ++ ']' :: rest =
          serialize_json_val_normal v ++
            (serialize_json_val_normal.elems es' false ++ ']' :: rest) := by
        simp [serialize_json_val_normal.elems]
      rw [hq] at hlen ⊢
      obtain ⟨c, r, hc1, hc2, hc3⟩ := value_head_token v
        (serialize_json_val_normal.elems es' false ++ ']' :: rest) hp.1
      by_cases hpush : size ≤ cx.above.length + 1
      · intro h
        simp only [Jval.depth] at h
        omega
      · obtain ⟨top, htop, hval, e⟩ := open_first size doc
          (fun l c q => parse_loop size doc fuel l c q) cx
          ('[' :: (serialize_json_val_normal v ++
            (serialize_json_val_normal.elems es' false ++ ']' :: rest))) _
          JSON_ARRAY .array ']' c r
          (Or.inr ⟨rfl, rfl, rfl⟩) (value_type_array doc _) hc1 hc2 hc3 hpush
        rw [e]
        have h := element_parse_step size doc fuel cx.base cx.above top [] v
          (serialize_json_val_normal.elems es' false ++ ']' :: rest) rest (cx.set_last top')
          (cx.above.length + 1 + Jval.depth.elems es' < size) htop hval hp.1
          (by simp only [List.length_cons] at hlen; omega) (by omega)
          (fun fuel' cx' top1 h1 h2 h3 => value_parse size doc v fuel' cx' _ top1 hwf.1 hp.1
            (elems_delimited es' rest) h1 h2 h3)
          (fun fuel' hf => elems_parse size doc es' ([] ++ [v]) fuel' cx.base cx.above _
            rest top' hwf.2 hp.2 htop rfl hr hf (by omega) ha)
        refine outcome_congr size doc _ _ _ _ _ ?_ h
        simp only [Jval.depth, Jval.depth.elems]
        exact (max_lt_iff _ _ _ _).symm
/-- The run over the members `ms` that follow the members `acc` already held by
the last context, up to the closing brace. -/
theorem members_parse (size : Nat) (doc : Str) :
    ∀ (ms acc : List (Str × Jval)) (fuel : Nat) (base : parse_context)
      (ab : List parse_context) (top : parse_context) (rest : Str) (top' : parse_context),
    Jval.wf.wfMembers ms = true → Jval.parseable.members ms = true →
    ((acc ++ ms).map Prod.fst).Nodup → top.container = JSON_OBJECT →
    top.val = some (.object acc) → delimited rest →
    (serialize_json_val_normal.members ms false ++ '}' :: rest).length < fuel →
    ab.length + 1 < size →
    append_to_cx (parse_stack.last ⟨base, ab⟩) (.object (acc ++ ms)) = .ok top' →
    outcome size doc (ab.length + 1 + Jval.depth.members ms < size)
      (parse_loop size doc fuel .after_value ⟨base, top :: ab⟩
        (serialize_json_val_normal.members ms false ++ '}' :: rest))
      ((⟨base, ab⟩ : parse_stack).set_last top') rest
  | [], acc, fuel, base, ab, top, rest, top', _, _, _, htop, hval, _, hlen, hab, ha => by
    simp only [serialize_json_val_normal.members, List.nil_append, List.append_nil] at hlen ha ⊢
    cases fuel with
    | zero => simp at hlen
    | succ f =>
      rw [after_value_close size doc f ⟨base, top :: ab⟩ _ '}' rest (Or.inl ⟨htop, rfl⟩)
        (pop_top base ab top top' (.object acc) hval ha)]
      refine fun _ => ⟨f, ?_, rfl⟩
      simp only [List.length_cons] at hlen
      omega
  | (k, v) :: ms', acc, fuel, base, ab, top, rest, top', hwf, hp, hnd, htop, hval, hr, hlen,
      hab, ha => by
    simp only [Jval.wf.wfMembers, Bool.and_eq_true] at hwf
    simp only [Jval.parseable.members, Bool.and_eq_true] at hp
    have hk := nodup_mid acc k v ms' hnd
    have hq : serialize_json_val_normal.members ((k, v) :: ms') false ++ '}' :: rest =
        ',' :: (append_json_string k ++ ':' :: (serialize_json_val_normal v ++
          (serialize_json_val_normal.members ms' false ++ '}' :: rest))) := by
      simp [serialize_json_val_normal.members]
    rw [hq] at hlen ⊢
    have hkey : ∃ r, append_json_string k ++ ':' :: (serialize_json_val_normal v ++
          (serialize_json_val_normal.members ms' false ++ '}' :: rest)) = '"' :: r :=
      ⟨_, by rw [append_json_string]; rfl⟩
    obtain ⟨r, hr'⟩ := hkey
    cases fuel with
    | zero => simp at hlen
    | succ f =>
      rw [after_value_comma size doc f ⟨base, top :: ab⟩ _ '"' r hr' (by decide) (Or.inl htop)]
      have h := member_parse_step size doc f base ab top acc k v
        (serialize_json_val_normal.members ms' false ++ '}' :: rest) rest
        ((⟨base, ab⟩ : parse_stack).set_last top')
        (ab.length + 1 + Jval.depth.members ms' < size) htop hval hk hp.1
        (by simp only [List.length_cons] at hlen; omega) hab
        (fun fuel' cx' top1 h1 h2 h3 => value_parse size doc v fuel' cx' _ top1 hwf.1 hp.1
          (members_delimited ms' rest) h1 h2 h3)
        (fun fuel' hf => members_parse size doc ms' (acc ++ [(k, v)]) fuel' base ab _
          rest top' hwf.2 hp.2 (by rw [List.append_assoc]; exact hnd) htop rfl hr hf hab
          (by rw [List.append_assoc]; exact ha))
      refine outcome_congr size doc _ _ _ _ _ ?_ h
      simp only [Jval.depth.members]
      rw [Nat.add_assoc, max_lt_iff2]
      simp only [Nat.add_assoc]
/-- The run over the elements `es` that follow the elements `acc` already held
by the last context, up to the closing bracket. -/
theorem elems_parse (size : Nat) (doc : Str) :
    ∀ (es acc : List Jval) (fuel : Nat) (base : parse_context)
      (ab : List parse_context) (top : parse_context) (rest : Str) (top' : parse_context),
    Jval.wf.wfElems es = true → Jval.parseable.elems es = true →
    top.container = JSON_ARRAY →
    top.val = some (.array acc) → delimited rest →
    (serialize_json_val_normal.elems es false ++ ']' :: rest).length < fuel →
    ab.length + 1 < size →
    append_to_cx (parse_stack.last ⟨base, ab⟩) (.array (acc ++ es)) = .ok top' →
    outcome size doc (ab.length + 1 + Jval.depth.elems es < size)
      (parse_loop size doc fuel .after_value ⟨base, top :: ab⟩
        (serialize_json_val_normal.elems es false ++ ']' :: rest))
      ((⟨base, ab⟩ : parse_stack).set_last top') rest
  | [], acc, fuel, base, ab, top, rest, top', _, _, htop, hval, _, hlen, hab, ha => by
    simp only [serialize_json_val_normal.elems, List.nil_append, List.append_nil] at hlen ha ⊢
    cases fuel with
    | zero => simp at hlen
    | succ f =>
      rw [after_value_close size doc f ⟨base, top :: ab⟩ _ ']' rest (Or.inr ⟨htop, rfl⟩)
        (pop_top base ab top top' (.array acc) hval ha)]
      refine fun _ => ⟨f, ?_, rfl⟩
      simp only [List.length_cons] at hlen
      omega
  | v :: es', acc, fuel, base, ab, top, rest, top', hwf, hp, htop, hval, hr, hlen,
      hab, ha => by
    simp only [Jval.wf.wfElems, Bool.and_eq_true] at hwf
    simp only [Jval.parseable.elems, Bool.and_eq_true] at hp
    have hq : serialize_json_val_normal.elems (v :: es') false ++ ']' :: rest =
        ',' :: (serialize_json_val_normal v ++
          (serialize_json_val_normal.elems es' false ++ ']' :: rest)) := by
      simp [serialize_json_val_normal.elems]
    rw [hq] at hlen ⊢
    obtain ⟨c, r, hc1, hc2, _⟩ := value_head_token v
      (serialize_json_val_normal.elems es' false ++ ']' :: rest) hp.1
    cases fuel with
    | zero => simp at hlen
    | succ f =>
      rw [after_value_comma size doc f ⟨base, top :: ab⟩ _ c r hc1 hc2 (Or.inr htop)]
      have h := element_parse_step size doc f base ab top acc v
        (serialize_json_val_normal.elems es' false ++ ']' :: rest) rest
        ((⟨base, ab⟩ : parse_stack).set_last top')
        (ab.length + 1 + Jval.depth.elems es' < size) htop hval hp.1
        (by simp only [List.length_cons] at hlen; omega) hab
        (fun fuel' cx' top1 h1 h2 h3 => value_parse size doc v fuel' cx' _ top1 hwf.1 hp.1
          (elems_delimited es' rest) h1 h2 h3)
        (fun fuel' hf => elems_parse size doc es' (acc ++ [v]) fuel' base ab _
          rest top' hwf.2 hp.2 htop rfl hr hf hab (by rw [List.append_assoc]; exact ha))
      refine outcome_congr size doc _ _ _ _ _ ?_ h
      simp only [Jval.depth.elems]
      rw [Nat.add_assoc, max_lt_iff2]
      simp only [Nat.add_assoc]
end

/-! ## The parser on the text of a value -/

mutual
theorem serialize_json_val_normal_eq (src : subst_source)
    (sub : serialize_context → Jval → Except TclError serialize_context) :
    ∀ (v : Jval) (ds : Str),
      serialize_json_val_with src sub ⟨ds, SERIALIZE_NORMAL⟩ v =
        .ok ⟨ds ++ serialize_json_val_normal v, SERIALIZE_NORMAL⟩
  | .string _, _ => rfl
  | .number _, _ => rfl
  | .bool _, _ => rfl
  | .null, _ => rfl
  | .dyn _ _, _ => rfl
  | .object val, ds => by
    rw [serialize_json_val_with, serialize_json_val_normal, Tcl_DStringAppend,
      serialize_members_normal_eq src sub val true]
    simp [Tcl_DStringAppend]
  | .array val, ds => by
    rw [serialize_json_val_with, serialize_json_val_normal, Tcl_DStringAppend,
      serialize_elems_normal_eq src sub val true]
    simp [Tcl_DStringAppend]
theorem serialize_members_normal_eq (src : subst_source)
    (sub : serialize_context → Jval → Except TclError serialize_context) :
    ∀ (val : List (Str × Jval)) (first : Bool) (ds : Str),
      serialize_json_val_with.members src sub ⟨ds, SERIALIZE_NORMAL⟩ val first =
        .ok ⟨ds ++ serialize_json_val_normal.members val first, SERIALIZE_NORMAL⟩
  | [], _, _ => by simp [serialize_json_val_with.members, serialize_json_val_normal.members]
  | (k, v) :: rest, first, ds => by
    rw [serialize_json_val_with.members, serialize_json_val_normal.members]
    cases first <;>
      simp [Tcl_DStringAppend, serialize_json_val_normal_eq src sub v,
        serialize_members_normal_eq src sub rest false]
theorem serialize_elems_normal_eq (src : subst_source)
    (sub : serialize_context → Jval → Except TclError serialize_context) :
    ∀ (val : List Jval) (first : Bool) (ds : Str),
      serialize_json_val_with.elems src sub ⟨ds, SERIALIZE_NORMAL⟩ val first =
        .ok ⟨ds ++ serialize_json_val_normal.elems val first, SERIALIZE_NORMAL⟩
  | [], _, _ => by simp [serialize_json_val_with.elems, serialize_json_val_normal.elems]
  | v :: rest, first, ds => by
    rw [serialize_json_val_with.elems, serialize_json_val_normal.elems]
    cases first <;>
      simp [Tcl_DStringAppend, serialize_json_val_normal_eq src sub v,
        serialize_elems_normal_eq src sub rest false]
end


theorem serialize_dyn_template_eq (src : subst_source)
    (sub : serialize_context → Jval → Except TclError serialize_context)
    (sub' : Jval → Except TclError Str)
    (hN : ∀ ds j, sub ⟨ds, SERIALIZE_NORMAL⟩ j =
      .ok ⟨ds ++ serialize_json_val_normal j, SERIALIZE_NORMAL⟩)
    (hT : ∀ ds j, sub ⟨ds, SERIALIZE_TEMPLATE⟩ j = written ds SERIALIZE_TEMPLATE (sub' j))
    (type : dyn_type) (val ds : Str) :
    serialize_dyn src sub ⟨ds, SERIALIZE_TEMPLATE⟩ type val =
      written ds SERIALIZE_TEMPLATE (serialize_dyn_template src sub' type val) := by
  unfold serialize_dyn serialize_dyn_template
  simp only []
  by_cases hl : type = DYN_LITERAL
  · simp [hl, written, Tcl_DStringAppend]
  · simp only [hl, if_false]
    cases hf : src.fetch val with
    | none => simp [written, Tcl_DStringAppend]
    | some subst_val =>
      cases type with
      | DYN_LITERAL => exact absurd rfl hl
      | DYN_JSON =>
        simp only []
        cases hj : subst_val.jval with
        | error e => simp [written]
        | ok j => simp [written, hN]
      | DYN_TEMPLATE =>
        simp only []
        cases hj : subst_val.jval with
        | error e => simp [written]
        | ok j => simp [hT]
      | DYN_NUMBER =>
        simp only []
        cases hn : force_json_number subst_val <;> simp [written, Tcl_DStringAppend]
      | DYN_BOOL =>
        simp only []
        cases hb : subst_val.boolean <;> simp [written, Tcl_DStringAppend]
      | DYN_STRING => simp [written, Tcl_DStringAppend]

mutual
theorem serialize_json_val_template_eq (src : subst_source)
    (sub : serialize_context → Jval → Except TclError serialize_context)
    (sub' : Jval → Except TclError Str)
    (hN : ∀ ds j, sub ⟨ds, SERIALIZE_NORMAL⟩ j =
      .ok ⟨ds ++ serialize_json_val_normal j, SERIALIZE_NORMAL⟩)
    (hT : ∀ ds j, sub ⟨ds, SERIALIZE_TEMPLATE⟩ j = written ds SERIALIZE_TEMPLATE (sub' j)) :
    ∀ (v : Jval) (ds : Str),
      serialize_json_val_with src sub ⟨ds, SERIALIZE_TEMPLATE⟩ v =
        written ds SERIALIZE_TEMPLATE (serialize_json_val_template src sub' v)
  | .string _, _ => rfl
  | .number _, _ => rfl
  | .bool _, _ => rfl
  | .null, _ => rfl
  | .dyn type val, ds => by
    rw [serialize_json_val_with, serialize_json_val_template]
    exact serialize_dyn_template_eq src sub sub' hN hT type val ds
  | .object val, ds => by
    rw [serialize_json_val_with, serialize_json_val_template, Tcl_DStringAppend,
      serialize_members_template_eq src sub sub' hN hT val true]
    cases serialize_json_val_template.members src sub' val true <;>
      simp [written, Tcl_DStringAppend, bind, Except.bind]
  | .array val, ds => by
    rw [serialize_json_val_with, serialize_json_val_template, Tcl_DStringAppend,
      serialize_elems_template_eq src sub sub' hN hT val true]
    cases serialize_json_val_template.elems src sub' val true <;>
      simp [written, Tcl_DStringAppend, bind, Except.bind]
theorem serialize_members_template_eq (src : subst_source)
    (sub : serialize_context → Jval → Except TclError serialize_context)
    (sub' : Jval → Except TclError Str)
    (hN : ∀ ds j, sub ⟨ds, SERIALIZE_NORMAL⟩ j =
      .ok ⟨ds ++ serialize_json_val_normal j, SERIALIZE_NORMAL⟩)
    (hT : ∀ ds j, sub ⟨ds, SERIALIZE_TEMPLATE⟩ j = written ds SERIALIZE_TEMPLATE (sub' j)) :
    ∀ (val : List (Str × Jval)) (first : Bool) (ds : Str),
      serialize_json_val_with.members src sub ⟨ds, SERIALIZE_TEMPLATE⟩ val first =
        written ds SERIALIZE_TEMPLATE (serialize_json_val_template.members src sub' val first)
  | [], _, _ => by
    simp [serialize_json_val_with.members, serialize_json_val_template.members, written]
  | (k, v) :: rest, first, ds => by
    rw [serialize_json_val_with.members, serialize_json_val_template.members]
    have hmode : (if first = true then (⟨ds, SERIALIZE_TEMPLATE⟩ : serialize_context)
        else Tcl_DStringAppend ⟨ds, SERIALIZE_TEMPLATE⟩ [',']) =
        ⟨ds ++ (if first = true then [] else [',']), SERIALIZE_TEMPLATE⟩ := by
      cases first <;> simp [Tcl_DStringAppend]
    simp only [hmode]
    cases hk : key_subst_of k with
    | not_allowed => simp [THROW_ERROR, written, bind, Except.bind]
    | plain =>
      simp only [Tcl_DStringAppend, serialize_json_val_template_eq src sub sub' hN hT v]
      cases serialize_json_val_template src sub' v with
      | error e => simp [written, bind, Except.bind]
      | ok value =>
        simp only [written, serialize_members_template_eq src sub sub' hN hT rest false]
        cases serialize_json_val_template.members src sub' rest false <;>
          simp [written, bind, Except.bind]
    | subst stype name =>
      simp only [serialize_dyn_template_eq src sub sub' hN hT]
      cases serialize_dyn_template src sub' stype name with
      | error e => simp [written, bind, Except.bind]
      | ok key =>
        simp only [written, Tcl_DStringAppend,
          serialize_json_val_template_eq src sub sub' hN hT v]
        cases serialize_json_val_template src sub' v with
        | error e => simp [written, bind, Except.bind]
        | ok value =>
          simp only [written, serialize_members_template_eq src sub sub' hN hT rest false]
          cases serialize_json_val_template.members src sub' rest false <;>
            simp [written, bind, Except.bind]
theorem serialize_elems_template_eq (src : subst_source)
    (sub : serialize_context → Jval → Except TclError serialize_context)
    (sub' : Jval → Except TclError Str)
    (hN : ∀ ds j, sub ⟨ds, SERIALIZE_NORMAL⟩ j =
      .ok ⟨ds ++ serialize_json_val_normal j, SERIALIZE_NORMAL⟩)
    (hT : ∀ ds j, sub ⟨ds, SERIALIZE_TEMPLATE⟩ j = written ds SERIALIZE_TEMPLATE (sub' j)) :
    ∀ (val : List Jval) (first : Bool) (ds : Str),
      serialize_json_val_with.elems src sub ⟨ds, SERIALIZE_TEMPLATE⟩ val first =
        written ds SERIALIZE_TEMPLATE (serialize_json_val_template.elems src sub' val first)
  | [], _, _ => by
    simp [serialize_json_val_with.elems, serialize_json_val_template.elems, written]
  | v :: rest, first, ds => by
    rw [serialize_json_val_with.elems, serialize_json_val_template.elems]
    have hmode : (if first = true then (⟨ds, SERIALIZE_TEMPLATE⟩ : serialize_context)
        else Tcl_DStringAppend ⟨ds, SERIALIZE_TEMPLATE⟩ [',']) =
        ⟨ds ++ (if first = true then [] else [',']), SERIALIZE_TEMPLATE⟩ := by
      cases first <;> simp [Tcl_DStringAppend]
    simp only [hmode, serialize_json_val_template_eq src sub sub' hN hT v]
    cases serialize_json_val_template src sub' v with
    | error e => simp [written, bind, Except.bind]
    | ok value =>
      simp only [written, serialize_elems_template_eq src sub sub' hN hT rest false]
      cases serialize_json_val_template.elems src sub' rest false <;>
        simp [written, bind, Except.bind]
end


theorem serialize_json_val_normal_mode (src : subst_source) (obj : Jval) (ds : Str) :
    ∀ fuel : Nat, serialize_json_val fuel src ⟨ds, SERIALIZE_NORMAL⟩ obj =
      .ok ⟨ds ++ serialize_json_val_normal obj, SERIALIZE_NORMAL⟩
  | 0 => by
    rw [serialize_json_val]
    exact serialize_json_val_normal_eq src _ obj ds
  | fuel + 1 => by
    rw [serialize_json_val]
    exact serialize_json_val_normal_eq src _ obj ds

theorem serialize_json_val_template_mode (src : subst_source) :
    ∀ (fuel : Nat) (obj : Jval) (ds : Str),
      serialize_json_val fuel src ⟨ds, SERIALIZE_TEMPLATE⟩ obj =
        written ds SERIALIZE_TEMPLATE (serialize_template fuel src obj)
  | 0, _, _ => rfl
  | fuel + 1, obj, ds => by
    rw [serialize_json_val, serialize_template]
    exact serialize_json_val_template_eq src _ _
      (fun ds j => serialize_json_val_normal_mode src j ds fuel)
      (fun ds j => serialize_json_val_template_mode src fuel j ds) obj ds

theorem serialize_normal (fuel : Nat) (src : subst_source) (obj : Jval) :
    serialize fuel src SERIALIZE_NORMAL obj = .ok (update_string_rep obj) := by
  simp [serialize, serialize_json_val_normal_mode, update_string_rep]

theorem serialize_template_mode (fuel : Nat) (src : subst_source) (obj : Jval) :
    serialize fuel src SERIALIZE_TEMPLATE obj = serialize_template fuel src obj := by
  rw [serialize, serialize_json_val_template_mode]
  cases serialize_template fuel src obj <;> simp [written]


/-! ## The text of a string, a number and a placeholder -/

theorem escape_char_spec (c : Char) : escape_char c = escape_spec c := by
  unfold escape_char escape_spec
  by_cases h1 : c = '"'
  · simp [h1]
  · by_cases h2 : c = '\\'
    · simp [h2]
    · simp only [h1, h2, or_false, if_false]
      by_cases h3 : c.toNat ≤ 0x1f
      · simp only [h3, if_true]
      · simp only [h3, if_false]
        have : c.toNat ≠ 0x08 ∧ c.toNat ≠ 0x0C ∧ c.toNat ≠ 0x0A ∧ c.toNat ≠ 0x0D ∧
            c.toNat ≠ 0x09 := by omega
        simp [this.1, this.2.1, this.2.2.1, this.2.2.2.1, this.2.2.2.2]

theorem hexDigit_visible : ∀ n, n < 16 →
    0x1f < (hexDigit n).toNat ∧ hexDigit n ≠ '"' ∧ hexDigit n ≠ '\\' := by
  decide

theorem escape_char_visible (c x : Char) (h : x ∈ escape_char c) : 0x1f < x.toNat := by
  unfold escape_char at h
  split at h
  · next hc =>
    have hd := hexDigit_visible (c.toNat / 16)
    have hm := hexDigit_visible (c.toNat % 16) (Nat.mod_lt _ (by decide))
    split at h
    · simp at h; rcases h with rfl | rfl <;> decide
    · split at h
      · simp at h; subst h; decide
      · split at h
        · simp at h; rcases h with rfl | rfl <;> decide
        · split at h
          · simp at h; rcases h with rfl | rfl <;> decide
          · split at h
            · simp at h; rcases h with rfl | rfl <;> decide
            · split at h
              · simp at h; rcases h with rfl | rfl <;> decide
              · split at h
                · simp at h; rcases h with rfl | rfl <;> decide
                · next hq hb _ _ _ _ _ =>
                  have hle : c.toNat ≤ 0x1f := by
                    rcases hc with h | h | h
                    · exact h
                    · exact absurd h hb
                    · exact absurd h hq
                  have hd' := hd (by omega)
                  simp at h
                  rcases h with rfl | rfl | rfl | rfl | rfl
                  · decide
                  · decide
                  · decide
                  · exact hd'.1
                  · exact hm.1
  · next hc =>
    simp at h
    subst h
    simp only [not_or] at hc
    omega

theorem scan_quotes_escape_char (c : Char) (r : Str) :
    scan_quotes false (escape_char c ++ r) = scan_quotes false r := by
  unfold escape_char
  split
  · next hc =>
    have hd := hexDigit_visible (c.toNat / 16)
    have hm := hexDigit_visible (c.toNat % 16) (Nat.mod_lt _ (by decide))
    split
    · simp [scan_quotes]
    · split
      · simp [scan_quotes]
      · split
        · simp [scan_quotes]
        · split
          · simp [scan_quotes]
          · split
            · simp [scan_quotes]
            · split
              · simp [scan_quotes]
              · split
                · simp [scan_quotes]
                · next hq hb _ _ _ _ _ =>
                  have hle : c.toNat ≤ 0x1f := by
                    rcases hc with h | h | h
                    · exact h
                    · exact absurd h hb
                    · exact absurd h hq
                  have hd' := hd (by omega)
                  simp [scan_quotes, hd'.2.1, hd'.2.2, hm.2.1, hm.2.2]
  · next hc =>
    simp only [not_or] at hc
    simp [scan_quotes, hc.2.1, hc.2.2]

theorem scan_quotes_escaped (s : Str) : scan_quotes false (s.flatMap escape_char) = some false := by
  induction s with
  | nil => rfl
  | cons c s ih =>
    rw [List.flatMap_cons, scan_quotes_escape_char]
    exact ih


/-- C13: for every string `s`, `append_json_string` writes a double quote, then
for each character of `s` in order the escape the specification words
(`escape_spec`: `\"`, `\\`, `\b`, `\f`, `\n`, `\r`, `\t`, `\u00XX` for the other
characters up to 0x1F, the character itself otherwise), then a double quote.
Between the two delimiters there is no character up to 0x1F, and the scan of
the escapes meets no double quote outside an escape and ends outside an
escape. -/
theorem append_json_string_escapes (s : Str) :
    append_json_string s = '"' :: (s.flatMap escape_spec ++ ['"']) ∧
      (∀ c ∈ s.flatMap escape_spec, 0x1f < c.toNat) ∧
      scan_quotes false (s.flatMap escape_spec) = some false := by
  have he : escape_spec = escape_char := funext fun c => (escape_char_spec c).symm
  rw [he]
  refine ⟨rfl, ?_, scan_quotes_escaped s⟩
  intro c hc
  obtain ⟨a, _, ha⟩ := List.mem_flatMap.mp hc
  exact escape_char_visible a c ha

/-- C14: a Number node holding the text `t` is serialized in the normal mode as
exactly `t`: by `serialize_json_val` on an empty buffer, and so as the string
representation of the value; the node holding `1.0` is written `1.0`. -/
theorem number_serialized_verbatim (t : Str) (fuel : Nat) (src : subst_source) :
    serialize fuel src SERIALIZE_NORMAL (.number t) = .ok t ∧
      update_string_rep (.number t) = t ∧
      update_string_rep (.number ['1', '.', '0']) = ['1', '.', '0'] := by
  refine ⟨?_, rfl, rfl⟩
  rw [serialize_normal]
  rfl

/-- C15: a placeholder of each of the six kinds with the name `n` is serialized
in the normal mode as the JSON string literal of the three characters `~X:`
followed by `n`, escaped by `append_json_string` like any string. -/
theorem placeholder_serialized_prefixed (n : Str) (fuel : Nat) (src : subst_source) :
    serialize fuel src SERIALIZE_NORMAL (.dyn DYN_STRING n) =
        .ok (append_json_string ('~' :: 'S' :: ':' :: n)) ∧
      serialize fuel src SERIALIZE_NORMAL (.dyn DYN_NUMBER n) =
        .ok (append_json_string ('~' :: 'N' :: ':' :: n)) ∧
      serialize fuel src SERIALIZE_NORMAL (.dyn DYN_BOOL n) =
        .ok (append_json_string ('~' :: 'B' :: ':' :: n)) ∧
      serialize fuel src SERIALIZE_NORMAL (.dyn DYN_JSON n) =
        .ok (append_json_string ('~' :: 'J' :: ':' :: n)) ∧
      serialize fuel src SERIALIZE_NORMAL (.dyn DYN_TEMPLATE n) =
        .ok (append_json_string ('~' :: 'T' :: ':' :: n)) ∧
      serialize fuel src SERIALIZE_NORMAL (.dyn DYN_LITERAL n) =
        .ok (append_json_string ('~' :: 'L' :: ':' :: n)) ∧
      ∀ type : dyn_type, update_string_rep (.dyn type n) =
        append_json_string ( dyn_prefix type ++ n) := by
  simp only [serialize_normal]
  exact ⟨rfl, rfl, rfl, rfl, rfl, rfl, fun _ => rfl⟩


/-! ## Steps of `get`: absent keys, indices out of range, `?length` -/

theorem resolve_step_get_pathc (pathc pathc' : Nat) (target : Jval) (step : Str) (t : Jval)
    (h : resolve_step pathc false target step = .ok (.inl t)) :
    resolve_step pathc' false target step = .ok (.inl t) := by
  cases target with
  | object val =>
    simp only [resolve_step] at h ⊢
    cases hg : Tcl_DictObjGet val step with
    | none => simp [hg, THROW_ERROR] at h
    | some x => simpa [hg] using h
  | array val => exact h
  | _ => simp [resolve_step, THROW_ERROR] at h

theorem resolve_path_descend (pathc : Nat) : ∀ (pre : List Str) (doc t : Jval) (step : Str)
    (rest : List Str), descend doc pre = some t →
    resolve_path pathc false doc (pre ++ step :: rest) =
      resolve_path pathc false t (step :: rest)
  | [], doc, t, step, rest, h => by
    simp only [descend, Option.some.injEq] at h
    rw [h, List.nil_append]
  | s :: pre, doc, t, step, rest, h => by
    simp only [descend] at h
    cases hs : resolve_step 0 false doc s with
    | error e => simp [hs] at h
    | ok r =>
      cases r with
      | inr b => simp [hs] at h
      | inl x =>
        simp only [hs] at h
        have hx := resolve_step_get_pathc 0 pathc doc s x hs
        have ih := resolve_path_descend pathc pre x t step rest h
        rw [← ih]
        cases pre with
        | nil => rw [List.cons_append, List.nil_append, resolve_path, hx]
                 intro h0
                 simp at h0
        | cons s2 pre => rw [List.cons_append, List.cons_append, resolve_path, hx]
                         intro h0
                         simp at h0

theorem json_get_descend (pre : List Str) (doc t : Jval) (step : Str) (rest : List Str)
    (h : descend doc pre = some t) :
    json_get doc (pre ++ step :: rest) =
      resolve_path (pre ++ step :: rest).length false t (step :: rest) := by
  rw [json_get]
  exact resolve_path_descend _ pre doc t step rest h


theorem resolve_path_key_step (pathc : Nat) (target : Jval) (key : Str) (rest : List Str)
    (h : rest ≠ [] ∨ key.head? ≠ some '?') :
    resolve_path pathc false target (key :: rest) =
      match resolve_step pathc false target key with
      | .error e => .error e
      | .ok (.inr b) => .ok (.boolean b)
      | .ok (.inl t) => resolve_path pathc false t rest := by
  cases rest with
  | cons s2 rest => rw [resolve_path]; simp
  | nil =>
    have h' : key.head? ≠ some '?' := by simpa using h
    unfold resolve_path
    split
    · simp at h'
    · simp at h'
    · rfl

theorem resolve_path_escaped_step (pathc : Nat) (target : Jval) (tail : Str) :
    resolve_path pathc false target ['?' :: '?' :: tail] =
      match resolve_step pathc false target ('?' :: tail) with
      | .error e => .error e
      | .ok (.inr b) => .ok (.boolean b)
      | .ok (.inl t) => resolve_path pathc false t [] := by
  rw [resolve_path]

/-- C17: `get` fails on every step that is a key absent from the object it
addresses, wherever the object is in the document (`pre` leads to it) and
whatever follows the step, with the path error
`Path element N: "key" not found` (`N` is the length of the path plus one).
A last step is a key when it does not begin with `?`, or when it is written
`??...`, the escape of a key that begins with `?`. -/
theorem get_absent_key (doc : Jval) (pre : List Str) (val : List (Str × Jval)) (key : Str)
    (rest : List Str) (hd : descend doc pre = some (.object val))
    (hk : Tcl_DictObjGet val key = none) :
    (rest ≠ [] ∨ key.head? ≠ some '?' →
        json_get doc (pre ++ key :: rest) =
          .error ⟨"Path element ".toList ++ int_string ((pre ++ key :: rest).length + 1) ++
            ": \"".toList ++ key ++ "\" not found".toList, []⟩) ∧
      (key.head? = some '?' →
        json_get doc (pre ++ [ '?' :: key]) =
          .error ⟨"Path element ".toList ++ int_string ((pre ++ [ '?' :: key]).length + 1) ++
            ": \"".toList ++ key ++ "\" not found".toList, []⟩) := by
  constructor
  · intro h
    rw [json_get_descend pre doc _ key rest hd, resolve_path_key_step _ _ _ _ h]
    simp [resolve_step, hk, THROW_ERROR]
  · intro h
    cases key with
    | nil => simp at h
    | cons c tail =>
      simp only [List.head?_cons, Option.some.injEq] at h
      subst h
      rw [json_get_descend pre doc _ _ [] hd, resolve_path_escaped_step]
      simp [resolve_step, hk, THROW_ERROR]

theorem get_absent_key_witness :
    json_get (.object [(['a'], .object [(['b'], .number ['1'])])]) [['a'], ['c']] =
        .error ⟨"Path element 3: \"c\" not found".toList, []⟩ ∧
      json_get (.object [(['a'], .object [(['b'], .number ['1'])])]) [['a'], ['?', '?', 'c']] =
        .error ⟨"Path element 3: \"?c\" not found".toList, []⟩ :=
  ⟨(get_absent_key (.object [(['a'], .object [(['b'], .number ['1'])])]) [['a']]
      [(['b'], .number ['1'])] ['c'] [] rfl rfl).1 (Or.inr (by decide)),
    (get_absent_key (.object [(['a'], .object [(['b'], .number ['1'])])]) [['a']]
      [(['b'], .number ['1'])] ['?', 'c'] [] rfl rfl).2 rfl⟩

theorem Tcl_GetCharLength_basic : ∀ s : Str, (∀ c ∈ s, c.toNat < 65536) →
    Tcl_GetCharLength s = s.length
  | [], _ => rfl
  | c :: rest, h => by
    have h1 : c.toNat < 65536 := h c (List.mem_cons_self _ _)
    have h2 := Tcl_GetCharLength_basic rest (fun d hd => h d (List.mem_cons_of_mem _ hd))
    simp only [Tcl_GetCharLength, h1, if_true, h2, List.length_cons]
    omega

/-- C20 (as amended): the last step `?length`, on the node the steps before it
lead to, gives the number of elements of an array, the count of
`Tcl_GetCharLength` for a string, which is the number of its 16-bit units (a
character above U+FFFF counts as two; the number of characters when no
character is above U+FFFF, whatever the number of bytes), and that count of
the name plus 3 for a placeholder of every one of the six kinds; on an object,
a number, a boolean and a null `get` fails with `?length modifier is not
supported for type T`. -/
theorem length_modifier (doc : Jval) (pre : List Str) (node : Jval)
    (hd : descend doc pre = some node) :
    (∀ elems, node = .array elems →
        json_get doc (pre ++ ["?length".toList]) = .ok (.int elems.length)) ∧
      (∀ s, node = .string s →
        json_get doc (pre ++ ["?length".toList]) = .ok (.int (Tcl_GetCharLength s)) ∧
        ((∀ c ∈ s, c.toNat < 65536) →
          json_get doc (pre ++ ["?length".toList]) = .ok (.int s.length))) ∧
      (∀ type name, node = .dyn type name →
        json_get doc (pre ++ ["?length".toList]) =
            .ok (.int (Tcl_GetCharLength name + 3)) ∧
        ((∀ c ∈ name, c.toNat < 65536) →
          json_get doc (pre ++ ["?length".toList]) = .ok (.int (name.length + 3)))) ∧
      (∀ members, node = .object members →
        json_get doc (pre ++ ["?length".toList]) =
          .error ⟨"?length modifier is not supported for type object".toList, []⟩) ∧
      (∀ t, node = .number t →
        json_get doc (pre ++ ["?length".toList]) =
          .error ⟨"?length modifier is not supported for type number".toList, []⟩) ∧
      (∀ b, node = .bool b →
        json_get doc (pre ++ ["?length".toList]) =
          .error ⟨"?length modifier is not supported for type boolean".toList, []⟩) ∧
      (node = .null →
        json_get doc (pre ++ ["?length".toList]) =
          .error ⟨"?length modifier is not supported for type null".toList, []⟩) := by
  rw [json_get_descend pre doc node _ [] hd]
  refine ⟨?_, ?_, ?_, ?_, ?_, ?_, ?_⟩
  · rintro elems rfl; rfl
  · rintro s rfl
    refine ⟨rfl, fun h => ?_⟩
    rw [← Tcl_GetCharLength_basic s h]; rfl
  · rintro type name rfl
    refine ⟨rfl, fun h => ?_⟩
    rw [← Tcl_GetCharLength_basic name h]; rfl
  · rintro members rfl; rfl
  · rintro t rfl; rfl
  · rintro b rfl; rfl
  · rintro rfl; rfl

theorem length_modifier_witness :
    json_get (.object [(['a'], .array [.number ['1'], .null])]) [['a'], "?length".toList] =
        .ok (.int 2) ∧
      json_get (.string ['h', 'é']) ["?length".toList] = .ok (.int 2) ∧
      json_get (.string ['h', Char.ofNat 0x1F600]) ["?length".toList] = .ok (.int 3) ∧
      json_get (.dyn DYN_NUMBER ['q', 't', 'y']) ["?length".toList] = .ok (.int 6) ∧
      json_get (.object []) ["?length".toList] =
        .error ⟨"?length modifier is not supported for type object".toList, []⟩ :=
  ⟨(length_modifier (.object [(['a'], .array [.number ['1'], .null])]) [['a']]
      (.array [.number ['1'], .null]) rfl).1 _ rfl,
    ((length_modifier (.string ['h', 'é']) [] (.string ['h', 'é']) rfl).2.1 _ rfl).2
      (by decide),
    ((length_modifier (.string ['h', Char.ofNat 0x1F600]) []
      (.string ['h', Char.ofNat 0x1F600]) rfl).2.1 _ rfl).1,
    ((length_modifier (.dyn DYN_NUMBER ['q', 't', 'y']) [] (.dyn DYN_NUMBER ['q', 't', 'y'])
      rfl).2.2.1 _ _ rfl).2 (by decide),
    (length_modifier (.object []) [] (.object []) rfl).2.2.2.1 _ rfl⟩

/-- C20, the claim as written fails: the string made of the one character
U+1F600 has `?length` 2, not 1, and the placeholder whose name is that one
character has `?length` 5, not 4. -/
theorem length_counterexample :
    json_get (.string [Char.ofNat 0x1F600]) ["?length".toList] = .ok (.int 2) ∧
      [Char.ofNat 0x1F600].length = 1 ∧
      json_get (.dyn DYN_STRING [Char.ofNat 0x1F600]) ["?length".toList] = .ok (.int 5) := by
  decide


theorem digit_char_not_sign : ∀ d, d < 10 → digit_char d ≠ '-' ∧ digit_char d ≠ '+' := by
  decide

theorem decimal_aux_head : ∀ (fuel n : Nat) (acc : Str),
    (0 < fuel ∨ ∃ d tl, d < 10 ∧ acc = digit_char d :: tl) →
    ∃ d tl, d < 10 ∧ decimal_aux fuel n acc = digit_char d :: tl
  | 0, _, _, h => by
    rcases h with h | h
    · omega
    · simpa [decimal_aux] using h
  | fuel + 1, n, acc, _ => by
    unfold RlJson.decimal_aux
    split
    · next hn => exact ⟨n, acc, hn, rfl⟩
    · exact decimal_aux_head fuel (n / 10) _
        (Or.inr ⟨n % 10, acc, Nat.mod_lt n (by norm_num), rfl⟩)

theorem Tcl_GetLongFromObj_int_text (i : Int) (hlo : LONG_MIN ≤ i) (hhi : i ≤ LONG_MAX) :
    Tcl_GetLongFromObj (int_text i) = some i := by
  unfold int_text
  split
  · next hneg =>
    obtain ⟨len, hl, hr⟩ := read_digits_int_string i.natAbs 0 [] (by simp)
    simp only [List.append_nil, zero_mul, zero_add] at hr
    have h1 : len ≠ 0 := by omega
    have h2 : -((i.natAbs : Nat) : Int) = i := by omega
    simp only [Tcl_GetLongFromObj, hr, h2]
    simp [h1, not_lt.mpr hlo, not_lt.mpr hhi]
  · next hpos =>
    obtain ⟨len, hl, hr⟩ := read_digits_int_string i.toNat 0 [] (by simp)
    simp only [List.append_nil, zero_mul, zero_add] at hr
    obtain ⟨d, tl, hd, he⟩ := decimal_aux_head (i.toNat + 1) i.toNat [] (Or.inl (by omega))
    have hs := digit_char_not_sign d hd
    have h1 : len ≠ 0 := by omega
    have h2 : ((i.toNat : Nat) : Int) = i := by omega
    have hbody : (match int_string i.toNat with
        | '-' :: rest => rest
        | '+' :: rest => rest
        | _ => int_string i.toNat) = int_string i.toNat := by
      unfold int_string
      rw [he]
      split
      · next heq => simp at heq; exact absurd heq.1 hs.1
      · next heq => simp at heq; exact absurd heq.1 hs.2
      · rfl
    have hv : (match int_string i.toNat with
        | '-' :: _ => -((i.toNat : Nat) : Int)
        | _ => ((i.toNat : Nat) : Int)) = i := by
      unfold int_string
      rw [he]
      split
      · next heq => simp at heq; exact absurd heq.1 hs.1
      · exact h2
    simp only [Tcl_GetLongFromObj, hbody, hr, hv]
    simp [h1, not_lt.mpr hlo, not_lt.mpr hhi]

theorem array_index_int_text (plus : Bool) (ac : Nat) (i : Int) (hlo : LONG_MIN ≤ i)
    (hhi : i ≤ LONG_MAX) : array_index plus ac (int_text i) = .ok i := by
  simp [array_index, Tcl_GetLongFromObj_int_text i hlo hhi]

theorem int_text_head (i : Int) : (int_text i).head? ≠ some '?' := by
  unfold int_text
  split
  · simp
  · obtain ⟨d, tl, hd, he⟩ := decimal_aux_head (i.toNat + 1) i.toNat [] (Or.inl (by omega))
    unfold int_string
    rw [he]
    have : ∀ d, d < 10 → digit_char d ≠ '?' := by decide
    simpa using this d hd


theorem array_index_not_modifier (plus : Bool) (ac : Nat) (step : Str) (i : Int)
    (h : array_index plus ac step = .ok i) : step.head? ≠ some '?' := by
  intro hq
  cases step with
  | nil => simp at hq
  | cons c tl =>
    simp only [List.head?_cons, Option.some.injEq] at hq
    subst hq
    have hd : digit_val '?' = none := by decide
    simp [array_index, Tcl_GetLongFromObj, read_digits, hd] at h

theorem get_index_out_of_range (doc : Jval) (pre : List Str) (val : List Jval) (step : Str)
    (i : Int) (hd : descend doc pre = some (.array val))
    (hi : array_index false val.length step = .ok i)
    (hout : i < 0 ∨ (val.length : Int) ≤ i) :
    json_get doc (pre ++ [step]) = .ok (.jval .null) := by
  rw [json_get_descend pre doc _ step [] hd,
    resolve_path_key_step _ _ _ _ (Or.inr (array_index_not_modifier _ _ _ _ hi))]
  simp [resolve_step, hi, hout, resolve_path]

/-- C18 (as amended): on every array of length `n`, wherever it is in the
document (`pre` leads to it), `get` with a last step that names an index `i`
with `i < 0` or `i >= n` succeeds and returns a null.  That holds for every
step `array_index` reads as such an index, in particular for every integer in
the range of a C `long` written in decimal, and for the step `end-k` with
`k >= n`, which names the index `n-1-k` below zero (on the empty array with
`k = 2^63` the sum of the two `long`s wraps around to the greatest `long`,
which is out of range as well).  An index `i >= n` has no
end-relative form that `get` reads. -/
theorem get_out_of_range (doc : Jval) (pre : List Str) (val : List Jval)
    (hd : descend doc pre = some (.array val)) :
    (∀ (step : Str) (i : Int), array_index false val.length step = .ok i →
        i < 0 ∨ (val.length : Int) ≤ i →
        json_get doc (pre ++ [step]) = .ok (.jval .null)) ∧
      (∀ i : Int, LONG_MIN ≤ i → i ≤ LONG_MAX → i < 0 ∨ (val.length : Int) ≤ i →
        json_get doc (pre ++ [int_text i]) = .ok (.jval .null)) ∧
      (∀ k : Nat, val.length ≤ k → (k : Int) ≤ 2 ^ 63 →
        json_get doc (pre ++ ['e' :: 'n' :: 'd' :: '-' :: int_string k]) =
          .ok (.jval .null)) := by
  refine ⟨fun step i hi hout => get_index_out_of_range doc pre val step i hd hi hout, ?_, ?_⟩
  · intro i hlo hhi hout
    exact get_index_out_of_range doc pre val _ i hd (array_index_int_text _ _ i hlo hhi) hout
  · intro k hk hk2
    obtain ⟨i, hi, hout⟩ := array_index_end_minus_out false val.length k hk2 hk
    exact get_index_out_of_range doc pre val _ i hd hi hout

theorem get_out_of_range_witness :
    json_get (.array [.number ['1', '0'], .number ['2', '0'], .number ['3', '0']])
        [['3']] = .ok (.jval .null) ∧
      json_get (.array [.number ['1', '0'], .number ['2', '0'], .number ['3', '0']])
        [['-', '1']] = .ok (.jval .null) ∧
      json_get (.array [.number ['1', '0'], .number ['2', '0'], .number ['3', '0']])
        [['e', 'n', 'd', '-', '3']] = .ok (.jval .null) :=
  have h := get_out_of_range
    (.array [.number ['1', '0'], .number ['2', '0'], .number ['3', '0']]) []
    [.number ['1', '0'], .number ['2', '0'], .number ['3', '0']] rfl
  have h1 := h.2.1 3 (by decide) (by decide) (Or.inr (by decide))
  have e : int_text (-1) = ['-', '1'] := by decide
  have h2 := h.2.1 (-1) (by decide) (by decide) (Or.inl (by decide))
  have h3 := h.2.2 3 (by decide) (by decide)
  ⟨h1, by rw [e] at h2; exact h2, h3⟩

/-- C18, the claim as written fails: on the array `[10,20]` the end-relative
step `end+1` stands for the index 2, which is not below the length, and `get`
does not return a null: it fails with the index-syntax error. -/
theorem get_out_of_range_counterexample :
    json_get (.array [.number ['1', '0'], .number ['2', '0']]) [['e', 'n', 'd', '+', '1']] =
        .error ⟨"Expected an integer index or end(-integer)?, got end+1".toList, []⟩ ∧
      array_index true 2 ['e', 'n', 'd', '+', '1'] = .ok 2 := by
  decide


/-! ## `exists` after a `get` that resolves -/

theorem resolve_step_get_exists (pathc : Nat) (target : Jval) (step : Str) (t : Jval)
    (h : resolve_step pathc false target step = .ok (.inl t)) :
    resolve_step pathc true target step = .ok (.inl t) ∨
      (t = .null ∧ resolve_step pathc true target step = .ok (.inr false)) := by
  cases target with
  | object val =>
    simp only [resolve_step] at h ⊢
    cases hg : Tcl_DictObjGet val step with
    | none => simp [hg, THROW_ERROR] at h
    | some x => left; simpa [hg] using h
  | array val =>
    simp only [resolve_step] at h ⊢
    cases hi : array_index false val.length step with
    | error e => simp [hi] at h
    | ok index =>
      simp only [hi] at h ⊢
      by_cases hout : index < 0 ∨ (val.length : Int) ≤ index
      · right
        simp only [hout, if_true] at h ⊢
        simp at h
        exact ⟨h.symm, by simp⟩
      · left
        simpa [hout] using h
  | _ => simp [resolve_step, THROW_ERROR] at h

theorem resolve_step_get_inl (pathc : Nat) (target : Jval) (step : Str) (b : Bool) :
    resolve_step pathc false target step ≠ .ok (.inr b) := by
  cases target with
  | object val =>
    simp only [resolve_step]
    cases Tcl_DictObjGet val step <;> simp [THROW_ERROR]
  | array val =>
    simp only [resolve_step]
    cases array_index false val.length step with
    | error e => simp
    | ok index => simp only []; split <;> simp
  | _ => simp [resolve_step, THROW_ERROR]

theorem apply_modifier_get_not_jval (step : Str) (target : Jval) (m : modifiers) (v : Jval) :
    apply_modifier false step target m ≠ .ok (.jval v) := by
  cases m <;> cases target <;> simp [apply_modifier, THROW_ERROR]

theorem resolve_path_null_get (pathc : Nat) (step : Str) (rest : List Str) (v : Jval) :
    resolve_path pathc false .null (step :: rest) ≠ .ok (.jval v) := by
  cases rest with
  | cons s2 rest => rw [resolve_path]; simp [resolve_step, THROW_ERROR]; simp
  | nil =>
    unfold resolve_path
    split
    · simp [resolve_step, THROW_ERROR]
    · cases get_modifier _ with
      | error e => simp
      | ok m => exact apply_modifier_get_not_jval _ _ m v
    · simp [resolve_step, THROW_ERROR]


theorem descent_get_exists (pathc : Nat) (target : Jval) (s : Str) (rest : List Str) (v : Jval)
    (IH : ∀ t, resolve_path pathc false t rest = .ok (.jval v) →
      resolve_path pathc true t rest = .ok (.boolean (decide (v.type ≠ JSON_NULL))))
    (h : (match resolve_step pathc false target s with
      | .error e => (.error e : Except TclError Resolved)
      | .ok (.inr b) => .ok (.boolean b)
      | .ok (.inl t) => resolve_path pathc false t rest) = .ok (.jval v)) :
    (match resolve_step pathc true target s with
      | .error e => (.error e : Except TclError Resolved)
      | .ok (.inr b) => .ok (.boolean b)
      | .ok (.inl t) => resolve_path pathc true t rest) =
      .ok (.boolean (decide (v.type ≠ JSON_NULL))) := by
  cases hs : resolve_step pathc false target s with
  | error e => simp [hs] at h
  | ok r =>
    cases r with
    | inr b => simp [hs] at h
    | inl t =>
      simp only [hs] at h
      rcases resolve_step_get_exists pathc target s t hs with h1 | ⟨rfl, h1⟩
      · simp only [h1]
        exact IH t h
      · simp only [h1]
        cases rest with
        | nil =>
          simp only [resolve_path, Bool.false_eq_true, if_false, Except.ok.injEq,
            Resolved.jval.injEq] at h
          subst h
          rfl
        | cons s2 rest => exact absurd h (resolve_path_null_get pathc s2 rest v)

theorem resolve_path_get_exists (pathc : Nat) : ∀ (path : List Str) (target v : Jval),
    resolve_path pathc false target path = .ok (.jval v) →
    resolve_path pathc true target path = .ok (.boolean (decide (v.type ≠ JSON_NULL)))
  | [], target, v, h => by
    simp only [resolve_path, Bool.false_eq_true, if_false, Except.ok.injEq,
      Resolved.jval.injEq] at h
    subst h
    simp [resolve_path]
  | [step], target, v, h => by
    have IH : ∀ t, resolve_path pathc false t [] = .ok (.jval v) →
        resolve_path pathc true t [] = .ok (.boolean (decide (v.type ≠ JSON_NULL))) :=
      fun t ht => resolve_path_get_exists pathc [] t v ht
    by_cases hp : step.head? = some '?'
    · unfold resolve_path at h
      split at h
      · rw [resolve_path]
        exact descent_get_exists pathc target _ [] v IH h
      · exfalso
        revert h
        cases get_modifier _ with
        | error e => simp
        | ok m => exact apply_modifier_get_not_jval _ _ m v
      · next h1 h2 =>
        cases step with
        | nil => simp at hp
        | cons c tl =>
          simp only [List.head?_cons, Option.some.injEq] at hp
          subst hp
          exact absurd rfl (h2 tl)
    · have hl : last_step_plain [step] = true := by simpa [last_step_plain] using hp
      rw [resolve_path_cons pathc _ target step [] hl] at h ⊢
      exact descent_get_exists pathc target step [] v IH h
  | step :: s2 :: rest, target, v, h => by
    rw [resolve_path] at h ⊢
    · exact descent_get_exists pathc target step (s2 :: rest) v
        (fun t ht => resolve_path_get_exists pathc (s2 :: rest) t v ht) h
    all_goals simp


/-- C19 (as amended): for every document and every non-empty path that `get`
resolves to a node (a path that ends in a modifier resolves to no node),
`exists` with the same path returns false when that node is a null and true
otherwise. -/
theorem exists_after_get (doc : Jval) (path : List Str) (v : Jval) (hne : path ≠ [])
    (hget : json_get doc path = .ok (.jval v)) :
    (v = .null → json_exists doc path = .ok (.boolean false)) ∧
      (v ≠ .null → json_exists doc path = .ok (.boolean true)) := by
  have h := resolve_path_get_exists path.length path doc v hget
  simp only [json_exists, hne, if_false, h]
  constructor
  · rintro rfl
    rfl
  · intro hv
    cases v with
    | null => exact absurd rfl hv
    | dyn type val => cases type <;> rfl
    | _ => rfl

theorem exists_after_get_witness :
    json_exists (.object [(['a'], .null), (['b'], .array [.number ['1']])]) [['a']] =
        .ok (.boolean false) ∧
      json_exists (.object [(['a'], .null), (['b'], .array [.number ['1']])]) [['b'], ['5']] =
        .ok (.boolean false) ∧
      json_exists (.object [(['a'], .null), (['b'], .array [.number ['1']])]) [['b'], ['0']] =
        .ok (.boolean true) :=
  ⟨(exists_after_get (.object [(['a'], .null), (['b'], .array [.number ['1']])]) [['a']]
      .null (by decide) (by decide)).1 rfl,
    (exists_after_get (.object [(['a'], .null), (['b'], .array [.number ['1']])])
      [['b'], ['5']] .null (by decide) (by decide)).1 rfl,
    (exists_after_get (.object [(['a'], .null), (['b'], .array [.number ['1']])])
      [['b'], ['0']] (.number ['1']) (by decide) (by decide)).2 (by decide)⟩

/-- C19, the claim as written fails: with the empty path `get` resolves the
document `null` to the null node itself, and `exists` returns true. -/
theorem exists_empty_path_counterexample :
    json_get .null [] = .ok (.jval .null) ∧ json_exists .null [] = .ok (.boolean true) := by
  decide


/-! ## Placeholders in the template mode -/

/-- C12: a placeholder of the kind String, Number, Bool, Json or Template whose
name the source does not hold is written as `null` by the serializer in the
template mode and becomes the null value under the executor; a Literal
placeholder gives the JSON string of its name, and the string value of its
name, for every source, one that holds a value under that name included. -/
theorem absent_placeholder_null (fuel : Nat) (src : subst_source) (type : dyn_type)
    (name : Str) :
    (type ≠ DYN_LITERAL → src.fetch name = none →
        serialize (fuel + 1) src SERIALIZE_TEMPLATE (.dyn type name) = .ok "null".toList ∧
          compile_and_apply (fuel + 1) (.dyn type name) src = .ok .null) ∧
      serialize (fuel + 1) src SERIALIZE_TEMPLATE (.dyn DYN_LITERAL name) =
        .ok (append_json_string name) ∧
      compile_and_apply (fuel + 1) (.dyn DYN_LITERAL name) src = .ok (.string name) := by
  refine ⟨fun hl hf => ⟨?_, ?_⟩, ?_, ?_⟩
  · rw [serialize_template_mode, serialize_template, serialize_json_val_template,
      serialize_dyn_template]
    simp [hl, hf]
  · rw [compile_and_apply_succ fuel (.dyn type name) src rfl rfl, direct_subst_with]
    cases type <;> first | exact absurd rfl hl | simp [coerce_value, hf]
  · rw [serialize_template_mode, serialize_template, serialize_json_val_template,
      serialize_dyn_template]
    simp
  · rw [compile_and_apply_succ fuel (.dyn DYN_LITERAL name) src rfl rfl, direct_subst_with]
    rfl

theorem absent_placeholder_null_witness :
    (serialize 1 ⟨some [], fun _ => none⟩ SERIALIZE_TEMPLATE (.dyn DYN_NUMBER ['q']) =
        .ok "null".toList ∧
      compile_and_apply 1 (.dyn DYN_NUMBER ['q']) ⟨some [], fun _ => none⟩ = .ok .null) ∧
      serialize 1 ⟨some [(['q'], ⟨['7'], .ok (.number ['7']), some ['7'], none⟩)], fun _ => none⟩
        SERIALIZE_TEMPLATE (.dyn DYN_LITERAL ['q']) = .ok ['"', 'q', '"'] :=
  ⟨(absent_placeholder_null 0 ⟨some [], fun _ => none⟩ DYN_NUMBER ['q']).1 (by decide) rfl,
    (absent_placeholder_null 0
      ⟨some [(['q'], ⟨['7'], .ok (.number ['7']), some ['7'], none⟩)], fun _ => none⟩
      DYN_LITERAL ['q']).2.1⟩


/-- C16: in the template mode, a `~J:name` placeholder whose fetched value is
the document `d` is written as exactly the normal-mode text of `d` (nothing in
`d` is substituted), and the context it leaves is in the template mode again;
a `~T:name` placeholder is written as `d` is by the serializer in the template
mode with the same source.  So an element that follows the `~J:` placeholder
in an array is still substituted: a `~S:` placeholder there is written as the
JSON string of its fetched text. -/
theorem json_and_template_placeholders (fuel : Nat) (src : subst_source) (name : Str)
    (obj : Tcl_Obj) (d : Jval) (hf : src.fetch name = some obj) (hj : obj.jval = .ok d) :
    (∀ ds : Str, serialize_json_val (fuel + 1) src ⟨ds, SERIALIZE_TEMPLATE⟩ (.dyn DYN_JSON name) =
        .ok ⟨ds ++ update_string_rep d, SERIALIZE_TEMPLATE⟩) ∧
      serialize (fuel + 1) src SERIALIZE_TEMPLATE (.dyn DYN_JSON name) =
        serialize (fuel + 1) src SERIALIZE_NORMAL d ∧
      (∀ ds : Str,
        serialize_json_val (fuel + 1) src ⟨ds, SERIALIZE_TEMPLATE⟩ (.dyn DYN_TEMPLATE name) =
          serialize_json_val fuel src ⟨ds, SERIALIZE_TEMPLATE⟩ d) ∧
      serialize (fuel + 1) src SERIALIZE_TEMPLATE (.dyn DYN_TEMPLATE name) =
        serialize fuel src SERIALIZE_TEMPLATE d ∧
      (∀ (later : Str) (obj2 : Tcl_Obj), src.fetch later = some obj2 →
        serialize (fuel + 1) src SERIALIZE_TEMPLATE
            (.array [.dyn DYN_JSON name, .dyn DYN_STRING later]) =
          .ok ('[' :: (update_string_rep d ++ ',' :: (append_json_string obj2.bytes ++ [']'])))) := by
  have hJ : ∀ ds : Str,
      serialize_json_val (fuel + 1) src ⟨ds, SERIALIZE_TEMPLATE⟩ (.dyn DYN_JSON name) =
        .ok ⟨ds ++ update_string_rep d, SERIALIZE_TEMPLATE⟩ := by
    intro ds
    rw [serialize_json_val, serialize_json_val_with, serialize_dyn]
    simp [hf, hj, serialize_json_val_normal_mode, update_string_rep]
  have hT : ∀ ds : Str,
      serialize_json_val (fuel + 1) src ⟨ds, SERIALIZE_TEMPLATE⟩ (.dyn DYN_TEMPLATE name) =
        serialize_json_val fuel src ⟨ds, SERIALIZE_TEMPLATE⟩ d := by
    intro ds
    rw [serialize_json_val, serialize_json_val_with, serialize_dyn]
    simp [hf, hj]
  refine ⟨hJ, ?_, hT, ?_, ?_⟩
  · rw [serialize, hJ, serialize_normal]
    rfl
  · rw [serialize, hT, serialize]
  · intro later obj2 hf2
    rw [serialize, serialize_json_val, serialize_json_val_with,
      serialize_json_val_with.elems, ← serialize_json_val]
    simp only [if_true, Tcl_DStringAppend, List.nil_append, hJ]
    rw [serialize_json_val_with.elems]
    simp [serialize_json_val_with, serialize_dyn, serialize_json_val_with.elems, hf2,
      Tcl_DStringAppend]

theorem json_and_template_placeholders_witness :
    serialize 2
        ⟨some [(['a'], ⟨"\"~S:b\"".toList, .ok (.dyn DYN_STRING ['b']), none, none⟩),
          (['b'], ⟨['x'], .error ⟨"Illegal character".toList, []⟩, none, none⟩)],
          fun _ => none⟩
        SERIALIZE_TEMPLATE (.array [.dyn DYN_JSON ['a'], .dyn DYN_STRING ['b']]) =
        .ok "[\"~S:b\",\"x\"]".toList ∧
      serialize 2
        ⟨some [(['a'], ⟨"\"~S:b\"".toList, .ok (.dyn DYN_STRING ['b']), none, none⟩),
          (['b'], ⟨['x'], .error ⟨"Illegal character".toList, []⟩, none, none⟩)],
          fun _ => none⟩
        SERIALIZE_TEMPLATE (.dyn DYN_TEMPLATE ['a']) = .ok "\"x\"".toList :=
  have h := json_and_template_placeholders 1
    ⟨some [(['a'], ⟨"\"~S:b\"".toList, .ok (.dyn DYN_STRING ['b']), none, none⟩),
      (['b'], ⟨['x'], .error ⟨"Illegal character".toList, []⟩, none, none⟩)],
      fun _ => none⟩
    ['a'] ⟨"\"~S:b\"".toList, .ok (.dyn DYN_STRING ['b']), none, none⟩ (.dyn DYN_STRING ['b'])
    rfl rfl
  ⟨(h.2.2.2.2 ['b'] ⟨['x'], .error ⟨"Illegal character".toList, []⟩, none, none⟩ rfl).trans
      (by decide),
    h.2.2.2.1.trans (by decide)⟩


/-! ## Object keys that are refused -/

theorem refused_key_iff (k : Str) : refused_key k = true ↔ key_subst_of k = .not_allowed := by
  unfold refused_key key_subst_of
  split
  · next c name =>
    by_cases hS : c = 'S'
    · subst hS; simp
    · by_cases hL : c = 'L'
      · subst hL; simp
      · by_cases h : c = 'N' ∨ c = 'B' ∨ c = 'J' ∨ c = 'T'
        · simp [hS, hL, h]
        · simp [hS, hL, h]
  · simp

theorem emit_other_counted (cx : template_cx) (opcode : action_opcode) (value : operand)
    (h : opcode ≠ POP_CX) (hinv : pops_counted cx.actions) :
    ∃ cx', emit_action cx opcode value = .ok cx' ∧ pops_counted cx'.actions := by
  refine ⟨_, emit_action_append cx opcode value h, ?_⟩
  intro a ha hp
  simp only [List.mem_append, List.mem_singleton] at ha
  rcases ha with ha | rfl
  · exact hinv a ha hp
  · exact absurd hp h

theorem emit_pop_counted (cx : template_cx) (hinv : pops_counted cx.actions) :
    ∃ cx', emit_action cx POP_CX (.int 1) = .ok cx' ∧ pops_counted cx'.actions := by
  have hdrop : pops_counted cx.actions.dropLast :=
    fun a ha hp => hinv a (List.mem_of_mem_dropLast ha) hp
  unfold emit_action
  split
  · exact ⟨_, rfl, hdrop⟩
  · split
    · next hpp =>
      cases hl : cx.actions.getLast? with
      | none => exact ⟨_, rfl, hinv⟩
      | some a =>
        obtain ⟨op, depthobj⟩ := a
        have hop : op = POP_CX := by simpa [prev_opcode, hl] using hpp.2
        obtain ⟨n, hn⟩ := hinv (op, depthobj) (List.mem_of_getLast?_eq_some hl) hop
        simp only at hn
        subst hn
        refine ⟨_, rfl, ?_⟩
        intro a ha hp
        simp only [List.mem_append, List.mem_singleton] at ha
        rcases ha with ha | rfl
        · exact hdrop a ha hp
        · exact ⟨_, rfl⟩
    · refine ⟨_, rfl, ?_⟩
      intro a ha hp
      simp only [List.mem_append, List.mem_singleton] at ha
      rcases ha with ha | rfl
      · exact hinv a ha hp
      · exact ⟨_, rfl⟩

theorem get_subst_slot_counted (cx : template_cx) (elem : Str) (type : dyn_type)
    (hinv : pops_counted cx.actions) :
    ∃ cx' slot, get_subst_slot cx elem type = .ok (cx', slot) ∧ pops_counted cx'.actions := by
  unfold get_subst_slot
  split
  · exact ⟨_, _, rfl, hinv⟩
  · simp only []
    rw [emit_actions_append _ _ (slot_population_no_pop elem type cx.slots_used)]
    refine ⟨_, _, rfl, ?_⟩
    intro a ha hp
    simp only [List.mem_append] at ha
    rcases ha with ha | ha
    · exact hinv a ha hp
    · exact absurd hp (slot_population_no_pop elem type cx.slots_used a ha)


theorem refused_key_false (k : Str) (h : key_subst_of k ≠ .not_allowed) :
    refused_key k = false := by
  cases hr : refused_key k with
  | false => rfl
  | true => exact absurd ((refused_key_iff k).mp hr) h

mutual
theorem template_actions_refused : ∀ (v : Jval) (cx : template_cx),
    pops_counted cx.actions →
    (has_refused_key v = true →
      template_actions cx v = THROW_ERROR ["Only strings allowed as object keys".toList]) ∧
    (has_refused_key v = false →
      ∃ cx', template_actions cx v = .ok cx' ∧ pops_counted cx'.actions)
  | .string _, cx, h => ⟨by simp [has_refused_key], fun _ => ⟨cx, rfl, h⟩⟩
  | .number _, cx, h => ⟨by simp [has_refused_key], fun _ => ⟨cx, rfl, h⟩⟩
  | .bool _, cx, h => ⟨by simp [has_refused_key], fun _ => ⟨cx, rfl, h⟩⟩
  | .null, cx, h => ⟨by simp [has_refused_key], fun _ => ⟨cx, rfl, h⟩⟩
  | .dyn type val, cx, h => by
    refine ⟨by simp [has_refused_key], fun _ => ?_⟩
    obtain ⟨cx1, slot, h1, hi1⟩ := get_subst_slot_counted cx val type h
    obtain ⟨cx2, h2, hi2⟩ := emit_other_counted cx1 REPLACE_VAL (.int slot) (by decide) hi1
    exact ⟨cx2, by simp only [template_actions, h1, h2], hi2⟩
  | .object val, cx, h => by
    rw [template_actions, has_refused_key]
    exact template_members_refused val cx h
  | .array val, cx, h => by
    rw [template_actions, has_refused_key]
    exact template_elems_refused val cx 0 h
theorem template_members_refused : ∀ (val : List (Str × Jval)) (cx : template_cx),
    pops_counted cx.actions →
    (has_refused_key.members val = true →
      template_actions.members cx val =
        THROW_ERROR ["Only strings allowed as object keys".toList]) ∧
    (has_refused_key.members val = false →
      ∃ cx', template_actions.members cx val = .ok cx' ∧ pops_counted cx'.actions)
  | [], cx, h => ⟨by simp [has_refused_key.members], fun _ => ⟨cx, rfl, h⟩⟩
  | (k, v) :: rest, cx, h => by
    obtain ⟨cx1, h1, hi1⟩ := emit_other_counted cx CX_OBJ_KEY (.text k) (by decide) h
    have hv := template_actions_refused v cx1 hi1
    rw [template_actions.members, has_refused_key.members, h1]
    simp only []
    cases hrv : has_refused_key v with
    | true =>
      rw [hv.1 hrv]
      simp [THROW_ERROR]
    | false =>
      obtain ⟨cx2, h2, hi2⟩ := hv.2 hrv
      rw [h2]
      simp only []
      cases hk : key_subst_of k with
      | not_allowed =>
        rw [(refused_key_iff k).mpr hk]
        simp [THROW_ERROR]
      | plain =>
        rw [refused_key_false k (by rw [hk]; decide)]
        obtain ⟨cx5, h5, hi5⟩ := emit_pop_counted cx2 hi2
        have hr := template_members_refused rest cx5 hi5
        simp only [h5, Bool.false_or]
        exact hr
      | subst stype name =>
        rw [refused_key_false k (by rw [hk]; simp)]
        obtain ⟨cx3, slot, h3, hi3⟩ := get_subst_slot_counted cx2 name stype hi2
        obtain ⟨cx4, h4, hi4⟩ := emit_other_counted cx3 REPLACE_KEY (.int slot) (by decide) hi3
        obtain ⟨cx5, h5, hi5⟩ := emit_pop_counted cx4 hi4
        have hr := template_members_refused rest cx5 hi5
        simp only [h3, h4, h5, Bool.false_or]
        exact hr
theorem template_elems_refused : ∀ (val : List Jval) (cx : template_cx) (i : Nat),
    pops_counted cx.actions →
    (has_refused_key.elems val = true →
      template_actions.elems cx i val =
        THROW_ERROR ["Only strings allowed as object keys".toList]) ∧
    (has_refused_key.elems val = false →
      ∃ cx', template_actions.elems cx i val = .ok cx' ∧ pops_counted cx'.actions)
  | [], cx, _, h => ⟨by simp [has_refused_key.elems], fun _ => ⟨cx, rfl, h⟩⟩
  | v :: rest, cx, i, h => by
    obtain ⟨cx1, h1, hi1⟩ := emit_other_counted cx CX_ARR_IDX (.int i) (by decide) h
    have hv := template_actions_refused v cx1 hi1
    rw [template_actions.elems, has_refused_key.elems, h1]
    simp only []
    cases hrv : has_refused_key v with
    | true =>
      rw [hv.1 hrv]
      simp [THROW_ERROR]
    | false =>
      obtain ⟨cx2, h2, hi2⟩ := hv.2 hrv
      obtain ⟨cx3, h3, hi3⟩ := emit_pop_counted cx2 hi2
      have hr := template_elems_refused rest cx3 (i + 1) hi3
      simp only [h2, h3, Bool.false_or]
      exact hr
end


mutual
theorem serialize_refused (src : subst_source) (sub : Jval → Except TclError Str) :
    ∀ v : Jval, has_refused_key v = true →
      ∃ e, serialize_json_val_template src sub v = .error e
  | .string _, h => by simp [has_refused_key] at h
  | .number _, h => by simp [has_refused_key] at h
  | .bool _, h => by simp [has_refused_key] at h
  | .null, h => by simp [has_refused_key] at h
  | .dyn _ _, h => by simp [has_refused_key] at h
  | .object val, h => by
    rw [has_refused_key] at h
    obtain ⟨e, he⟩ := serialize_members_refused src sub val true h
    exact ⟨e, by rw [serialize_json_val_template, he]; rfl⟩
  | .array val, h => by
    rw [has_refused_key] at h
    obtain ⟨e, he⟩ := serialize_elems_refused src sub val true h
    exact ⟨e, by rw [serialize_json_val_template, he]; rfl⟩
theorem serialize_members_refused (src : subst_source) (sub : Jval → Except TclError Str) :
    ∀ (val : List (Str × Jval)) (first : Bool), has_refused_key.members val = true →
      ∃ e, serialize_json_val_template.members src sub val first = .error e
  | [], _, h => by simp [has_refused_key.members] at h
  | (k, v) :: rest, first, h => by
    rw [has_refused_key.members] at h
    rw [serialize_json_val_template.members]
    cases hk : key_subst_of k with
    | not_allowed =>
      exact ⟨⟨"Only strings allowed as object keys".toList, []⟩,
        by simp [THROW_ERROR, bind, Except.bind]⟩
    | plain =>
      rw [refused_key_false k (by rw [hk]; decide), Bool.false_or, Bool.or_eq_true] at h
      simp only []
      rcases h with h | h
      · obtain ⟨e, he⟩ := serialize_refused src sub v h
        exact ⟨e, by simp [he, bind, Except.bind]⟩
      · obtain ⟨e, he⟩ := serialize_members_refused src sub rest false h
        cases serialize_json_val_template src sub v with
        | error e2 => exact ⟨e2, by simp [bind, Except.bind]⟩
        | ok value => exact ⟨e, by simp [he, bind, Except.bind]⟩
    | subst stype name =>
      rw [refused_key_false k (by rw [hk]; simp), Bool.false_or, Bool.or_eq_true] at h
      simp only []
      cases serialize_dyn_template src sub stype name with
      | error e1 => exact ⟨e1, by simp [bind, Except.bind]⟩
      | ok key =>
        rcases h with h | h
        · obtain ⟨e, he⟩ := serialize_refused src sub v h
          exact ⟨e, by simp [he, bind, Except.bind]⟩
        · obtain ⟨e, he⟩ := serialize_members_refused src sub rest false h
          cases serialize_json_val_template src sub v with
          | error e2 => exact ⟨e2, by simp [bind, Except.bind]⟩
          | ok value => exact ⟨e, by simp [he, bind, Except.bind]⟩
theorem serialize_elems_refused (src : subst_source) (sub : Jval → Except TclError Str) :
    ∀ (val : List Jval) (first : Bool), has_refused_key.elems val = true →
      ∃ e, serialize_json_val_template.elems src sub val first = .error e
  | [], _, h => by simp [has_refused_key.elems] at h
  | v :: rest, first, h => by
    rw [has_refused_key.elems, Bool.or_eq_true] at h
    rw [serialize_json_val_template.elems]
    rcases h with h | h
    · obtain ⟨e, he⟩ := serialize_refused src sub v h
      exact ⟨e, by simp [he, bind, Except.bind]⟩
    · obtain ⟨e, he⟩ := serialize_elems_refused src sub rest false h
      cases serialize_json_val_template src sub v with
      | error e2 => exact ⟨e2, by simp [bind, Except.bind]⟩
      | ok value => exact ⟨e, by simp [he, bind, Except.bind]⟩
end

/-- C11: for every template document that holds, at any depth, an object key
of the form `~N:x`, `~B:x`, `~J:x` or `~T:x`, the compilation
`build_template_actions` fails with the error
`Only strings allowed as object keys`, so does the compilation followed by
the application of the tape, and the serializer in the template mode fails
too, for every source: none of them gives a result. -/
theorem refused_key_fails (template : Jval) (src : subst_source) (fuel : Nat)
    (h : has_refused_key template = true) :
    build_template_actions template =
        .error ⟨"Only strings allowed as object keys".toList, []⟩ ∧
      compile_and_apply fuel template src =
        .error ⟨"Only strings allowed as object keys".toList, []⟩ ∧
      ∃ e, serialize fuel src SERIALIZE_TEMPLATE template = .error e := by
  have hb : build_template_actions template =
      .error ⟨"Only strings allowed as object keys".toList, []⟩ := by
    have := (template_actions_refused template ⟨[], [], 0⟩ (by intro a ha; simp at ha)).1 h
    rw [build_template_actions, this]
    rfl
  refine ⟨hb, by rw [compile_and_apply, hb], ?_⟩
  rw [serialize_template_mode]
  cases fuel with
  | zero => exact ⟨_, rfl⟩
  | succ fuel =>
    rw [serialize_template]
    exact serialize_refused src _ template h

theorem refused_key_fails_witness :
    build_template_actions (.array [.object [("~N:x".toList, .number ['1'])]]) =
        .error ⟨"Only strings allowed as object keys".toList, []⟩ ∧
      serialize 1 ⟨some [], fun _ => none⟩ SERIALIZE_TEMPLATE
        (.array [.object [("~N:x".toList, .number ['1'])]]) =
        .error ⟨"Only strings allowed as object keys".toList, []⟩ :=
  have h := refused_key_fails (.array [.object [("~N:x".toList, .number ['1'])]])
    ⟨some [], fun _ => none⟩ 1 (by decide)
  ⟨h.1, by decide⟩


/-! ## A step that begins with `?` -/

theorem resolve_path_escaped (pathc : Nat) (ex : Bool) (target : Jval) (tail : Str) :
    resolve_path pathc ex target ['?' :: '?' :: tail] =
      match resolve_step pathc ex target ('?' :: tail) with
      | .error e => .error e
      | .ok (.inr b) => .ok (.boolean b)
      | .ok (.inl t) => resolve_path pathc ex t [] := by
  rw [resolve_path]

theorem resolve_path_inner (pathc : Nat) (ex : Bool) (target : Jval) (step : Str)
    (more : List Str) (h : more ≠ []) :
    resolve_path pathc ex target (step :: more) =
      match resolve_step pathc ex target step with
      | .error e => .error e
      | .ok (.inr b) => .ok (.boolean b)
      | .ok (.inl t) => resolve_path pathc ex t more := by
  cases more with
  | nil => exact absurd rfl h
  | cons s2 more => rw [resolve_path]; simp

/-- C21: a step that begins with `?` is a modifier only as the last step.  On
an object that holds `x` under the key `?rest`, the last step `??rest` resolves
to `x` (one `?` is removed; `get` returns `x`, `exists` tells whether `x` is a
null).  A step in front of further steps is looked up as it is written,
whatever it begins with: on an object the walk goes on from the value under
that key, and on an array a step that begins with `?` is no index.  As the last
step, `?size` is the modifier even on an object that holds the key `?size`. -/
theorem modifier_only_last (pathc : Nat) (ex : Bool) (val : List (Str × Jval)) (x : Jval) :
    (∀ rest : Str, Tcl_DictObjGet val ('?' :: rest) = some x →
        resolve_path pathc ex (.object val) ['?' :: '?' :: rest] = resolve_path pathc ex x [] ∧
          json_get (.object val) ['?' :: '?' :: rest] = .ok (.jval x)) ∧
      (∀ (step : Str) (more : List Str), more ≠ [] → Tcl_DictObjGet val step = some x →
        resolve_path pathc ex (.object val) (step :: more) = resolve_path pathc ex x more) ∧
      (∀ (elems : List Jval) (tail : Str) (more : List Str), more ≠ [] →
        resolve_path pathc ex (.array elems) (('?' :: tail) :: more) =
          .error (index_error false ('?' :: tail))) ∧
      json_get (.object val) ["?size".toList] = .ok (.int val.length) := by
  refine ⟨fun rest h => ⟨?_, ?_⟩, fun step more hm h => ?_, fun elems tail more hm => ?_, rfl⟩
  · rw [resolve_path_escaped]
    simp [resolve_step, h]
  · rw [json_get, resolve_path_escaped]
    simp [resolve_step, h, resolve_path]
  · rw [resolve_path_inner _ _ _ _ _ hm]
    simp [resolve_step, h]
  · rw [resolve_path_inner _ _ _ _ _ hm]
    have hd : digit_val '?' = none := by decide
    simp [resolve_step, array_index, Tcl_GetLongFromObj, read_digits, hd]

theorem modifier_only_last_witness :
    json_get (.object [("?a".toList, .object [(['b'], .number ['1'])])]) ["??a".toList] =
        .ok (.jval (.object [(['b'], .number ['1'])])) ∧
      json_get (.object [("?a".toList, .object [(['b'], .number ['1'])])])
        ["?a".toList, ['b']] = .ok (.jval (.number ['1'])) :=
  have h := modifier_only_last 2 false [("?a".toList, .object [(['b'], .number ['1'])])]
    (.object [(['b'], .number ['1'])])
  ⟨(h.1 ['a'] rfl).2, (h.2.1 "?a".toList [['b']] (by decide) rfl).trans (by decide)⟩


/-! ## `set` and `unset` below a path that exists -/

theorem follow_nil (t : Jval) : follow t [] = some t := by
  cases t <;> rfl

theorem object_at_follow : ∀ (pre : List Str) (doc : Jval) (val : List (Str × Jval)),
    object_at doc pre = some val → follow doc pre = some (.object val)
  | [], doc, val, h => by
    cases doc <;> simp [object_at] at h
    subst h
    rfl
  | step :: rest, doc, val, h => by
    cases doc with
    | object d =>
      simp only [object_at] at h
      simp only [follow]
      cases hg : Tcl_DictObjGet d step with
      | none => simp [hg] at h
      | some t =>
        simp only [hg] at h ⊢
        exact object_at_follow rest t val h
    | _ => simp [object_at] at h

theorem create_nested (v : Jval) : ∀ rest : List Str,
    JSON_Set.create v rest = nested_objects rest v
  | [] => rfl
  | k :: rest => by
    rw [JSON_Set.create, nested_objects, create_nested v rest]
    rfl

theorem follow_container (t : Jval) (step : Str) (rest : List Str) (x : Jval)
    (h : follow t (step :: rest) = some x) : t ≠ .null := by
  intro hn
  subst hn
  simp [follow] at h

theorem follow_unshare (shared : Bool) (x t : Jval) (pre : List Str)
    (hf : follow x pre = some t) (hns : pre = [] → t ≠ .null ∨ shared = false) :
    unshare shared x = .ok x := by
  apply unshare_container
  cases pre with
  | nil =>
    simp only [follow_nil, Option.some.injEq] at hf
    subst hf
    exact hns rfl
  | cons s pre => exact Or.inl (follow_container x s pre t hf)

theorem JSON_Set_container (lim : list_limit) (shared : Nat → Bool) (srcvar : Option Jval)
    (path : List Str) (v : Jval) (h : srcvar.getD (.object []) ≠ .null ∨ shared 0 = false) :
    JSON_Set lim shared srcvar path v =
      JSON_Set.walk lim shared v 0 (srcvar.getD (.object [])) path := by
  unfold JSON_Set
  rw [unshare_container _ _ h]

/-- The walk of `JSON_Set` through the steps `pre`, which lead to the value
`t`, is the walk from `t` on, with its result put back where `t` was.  The walk
comes to `t` when `t` is no null with a second holder. -/
theorem set_follow (lim : list_limit) (shared : Nat → Bool) (v : Jval) :
    ∀ (pre : List Str) (i : Nat) (doc t t' : Jval) (rest : List Str),
    follow doc pre = some t →
    (pre ≠ [] → t ≠ .null ∨ shared (i + pre.length) = false) →
    JSON_Set.walk lim shared v (i + pre.length) t rest = .ok t' →
    ∃ doc', JSON_Set.walk lim shared v i doc (pre ++ rest) = .ok doc' ∧
      follow doc' pre = some t'
  | [], i, doc, t, t', rest, hf, _, hw => by
    simp only [follow_nil, Option.some.injEq] at hf
    subst hf
    exact ⟨t', by simpa using hw, follow_nil t'⟩
  | step :: pre, i, doc, t, t', rest, hf, hns, hw => by
    have hlen : i + (step :: pre).length = i + 1 + pre.length := by
      simp only [List.length_cons]; omega
    rw [hlen] at hw hns
    have hns' : pre ≠ [] → t ≠ .null ∨ shared (i + 1 + pre.length) = false :=
      fun _ => hns (by simp)
    have hns0 : pre = [] → t ≠ .null ∨ shared (i + 1) = false := by
      intro hp
      subst hp
      simpa using hns (by simp)
    cases doc with
    | object val =>
      simp only [follow] at hf
      cases hg : Tcl_DictObjGet val step with
      | none => simp [hg] at hf
      | some x =>
        simp only [hg] at hf
        obtain ⟨x', hx, hfx⟩ := set_follow lim shared v pre (i + 1) x t t' rest hf hns' hw
        refine ⟨.object (Tcl_DictObjPut val step x'), ?_, ?_⟩
        · simp only [List.cons_append, JSON_Set.walk, hg, List.append_eq,
            follow_unshare _ x t pre hf hns0, hx]
        · simp only [follow, Tcl_DictObjGet_Put]
          exact hfx
    | array val =>
      simp only [follow] at hf
      cases hi : array_index true val.length step with
      | error e => simp [hi] at hf
      | ok index =>
        simp only [hi] at hf
        by_cases hout : index < 0 ∨ (val.length : Int) ≤ index
        · simp [hout] at hf
        · simp only [hout, if_false] at hf
          obtain ⟨x', hx, hfx⟩ := set_follow lim shared v pre (i + 1) _ t t' rest hf hns' hw
          have hlt : index.toNat < val.length := by omega
          have hnat : (index.toNat : Int) = index := by omega
          obtain ⟨hget, hlen'⟩ := getD_replace_one val index.toNat hlt x' .null
          rw [hnat] at hget hlen'
          have h1 : ¬ index < 0 := by omega
          have h2 : ¬ (val.length : Int) ≤ index := by omega
          refine ⟨.array (Tcl_ListObjReplace val index 1 [x']), ?_, ?_⟩
          · simp only [List.cons_append, JSON_Set.walk, hi, h1, h2, if_false, List.append_eq,
              follow_unshare _ _ t pre hf hns0, hx]
          · simp only [follow, hlen', hi, hout, if_false, hget]
            exact hfx
    | _ => simp [follow] at hf

/-- An error of the walk of `JSON_Set` from the value `node` that the steps
`pre` lead to is the error of the walk from the document. -/
theorem set_walk_fails (lim : list_limit) (shared : Nat → Bool) (v : Jval) :
    ∀ (pre : List Str) (i : Nat) (doc node : Jval) (step : Str) (rest : List Str)
      (e : TclError), follow doc pre = some node →
    (pre ≠ [] → node ≠ .null ∨ shared (i + pre.length) = false) →
    JSON_Set.walk lim shared v (i + pre.length) node (step :: rest) = .error e →
    JSON_Set.walk lim shared v i doc (pre ++ step :: rest) = .error e
  | [], i, doc, node, step, rest, e, hf, _, h => by
    simp only [follow_nil, Option.some.injEq] at hf
    subst hf
    simpa using h
  | s :: pre, i, doc, node, step, rest, e, hf, hns, h => by
    have hlen : i + (s :: pre).length = i + 1 + pre.length := by
      simp only [List.length_cons]; omega
    rw [hlen] at h hns
    have hns' : pre ≠ [] → node ≠ .null ∨ shared (i + 1 + pre.length) = false :=
      fun _ => hns (by simp)
    have hns0 : pre = [] → node ≠ .null ∨ shared (i + 1) = false := by
      intro hp
      subst hp
      simpa using hns (by simp)
    cases doc with
    | object val =>
      simp only [follow] at hf
      cases hg : Tcl_DictObjGet val s with
      | none => simp [hg] at hf
      | some x =>
        simp only [hg] at hf
        simp only [List.cons_append, JSON_Set.walk, hg, List.append_eq,
          follow_unshare _ x node pre hf hns0,
          set_walk_fails lim shared v pre (i + 1) x node step rest e hf hns' h]
    | array val =>
      simp only [follow] at hf
      cases hi : array_index true val.length s with
      | error e => simp [hi] at hf
      | ok index =>
        simp only [hi] at hf
        by_cases hout : index < 0 ∨ (val.length : Int) ≤ index
        · simp [hout] at hf
        · simp only [hout, if_false] at hf
          have h1 : ¬ index < 0 := by omega
          have h2 : ¬ (val.length : Int) ≤ index := by omega
          simp only [List.cons_append, JSON_Set.walk, hi, h1, h2, if_false, List.append_eq,
            follow_unshare _ _ node pre hf hns0,
            set_walk_fails lim shared v pre (i + 1) _ node step rest e hf hns' h]
    | _ => simp [follow] at hf

theorem Tcl_DictObjPut_new {α : Type} (d : List (Str × α)) (k : Str) (x : α)
    (h : Tcl_DictObjGet d k = none) : Tcl_DictObjPut d k x = d ++ [(k, x)] := by
  induction d with
  | nil => rfl
  | cons p d ih =>
    obtain ⟨k', v'⟩ := p
    by_cases hk : k' = k
    · simp [Tcl_DictObjGet, hk] at h
    · simp only [Tcl_DictObjGet, hk, if_false] at h
      simp [Tcl_DictObjPut, hk, ih h]

theorem object_at_first (doc : Jval) (pre : List Str) (val : List (Str × Jval))
    (h : object_at doc pre = some val) : doc ≠ .null := by
  intro hn
  subst hn
  cases pre <;> simp [object_at] at h

theorem set_object_at (lim : list_limit) (shared : Nat → Bool) (v : Jval) :
    ∀ (pre : List Str) (i : Nat) (doc : Jval) (val val' : List (Str × Jval))
      (rest : List Str), object_at doc pre = some val →
    JSON_Set.walk lim shared v (i + pre.length) (.object val) rest = .ok (.object val') →
    ∃ doc', JSON_Set.walk lim shared v i doc (pre ++ rest) = .ok doc' ∧
      object_at doc' pre = some val'
  | [], i, doc, val, val', rest, hf, hw => by
    cases doc <;> simp [object_at] at hf
    subst hf
    exact ⟨.object val', by simpa using hw, rfl⟩
  | step :: pre, i, doc, val, val', rest, hf, hw => by
    have hlen : i + (step :: pre).length = i + 1 + pre.length := by
      simp only [List.length_cons]; omega
    rw [hlen] at hw
    cases doc with
    | object d =>
      simp only [object_at] at hf
      cases hg : Tcl_DictObjGet d step with
      | none => simp [hg] at hf
      | some x =>
        simp only [hg] at hf
        obtain ⟨x', hx, hfx⟩ := set_object_at lim shared v pre (i + 1) x val val' rest hf hw
        refine ⟨.object (Tcl_DictObjPut d step x'), ?_, ?_⟩
        · simp only [List.cons_append, JSON_Set.walk, hg, List.append_eq,
            unshare_container _ x (Or.inl (object_at_first x pre val hf)), hx]
        · simp only [object_at, Tcl_DictObjGet_Put]
          exact hfx
    | _ => simp [object_at] at hf

theorem object_at_readable : ∀ (pre : List Str) (doc : Jval) (val : List (Str × Jval))
    (k : Str) (rest : List Str), object_at doc pre = some val → Tcl_DictObjGet val k = none →
    index_steps_readable doc (pre ++ k :: rest) = true
  | [], doc, val, k, rest, hf, hk => by
    cases doc <;> simp [object_at] at hf
    subst hf
    simp [index_steps_readable, hk]
  | step :: pre, doc, val, k, rest, hf, hk => by
    cases doc with
    | object d =>
      simp only [object_at] at hf
      cases hg : Tcl_DictObjGet d step with
      | none => simp [hg] at hf
      | some x =>
        simp only [hg] at hf
        simp only [List.cons_append, index_steps_readable, hg]
        exact object_at_readable pre x val k rest hf hk
    | _ => simp [object_at] at hf

/-- C22: in a document where the keys `pre` lead through objects to an object
that has no key `k`, `set` with the path `pre`, `k`, `rest` and the value `v`
succeeds, and in the result the object under `pre` is the old one with one
member added after the last: `k`, holding the nested objects
`rest_1 : (... (rest_m : v))`, which is `v` itself when `k` is the last step.
When the last step does not begin with `?` (so, when no step does), `get` with
the same path returns `v` from the result.  That holds whatever values of the
document have a second holder and whatever the limit of the length of a list
is. -/
theorem set_creates_keys (lim : list_limit) (shared : Nat → Bool) (doc : Jval)
    (pre : List Str) (val : List (Str × Jval)) (k : Str)
    (rest : List Str) (v : Jval) (hobj : object_at doc pre = some val)
    (hk : Tcl_DictObjGet val k = none) :
    ∃ doc', JSON_Set lim shared (some doc) (pre ++ k :: rest) v = .ok doc' ∧
      object_at doc' pre = some (val ++ [(k, nested_objects rest v)]) ∧
      (last_step_plain (pre ++ k :: rest) = true →
        json_get doc' (pre ++ k :: rest) = .ok (.jval v)) := by
  have hw : JSON_Set.walk lim shared v (0 + pre.length) (.object val) (k :: rest) =
      .ok (.object (val ++ [(k, nested_objects rest v)])) := by
    simp only [JSON_Set.walk, hk, Tcl_DictObjPut_new val k _ hk, create_nested]
  obtain ⟨doc', hset, hat⟩ := set_object_at lim shared v pre 0 doc val _ (k :: rest) hobj hw
  have hset' : JSON_Set lim shared (some doc) (pre ++ k :: rest) v = .ok doc' := by
    rw [JSON_Set_container lim shared (some doc) _ v
      (Or.inl (object_at_first doc pre val hobj))]
    exact hset
  refine ⟨doc', hset', hat, fun hlast => ?_⟩
  exact set_walk_get lim shared _ v _ 0 doc doc' hset hlast
    (object_at_readable pre doc val k rest hobj hk)

theorem set_creates_keys_witness :
    ∃ doc', JSON_Set tcl86_lists (fun _ => true) (some (.object [(['a'], .object [(['x'], .null)])]))
        ([['a']] ++ ['b'] :: [['c']]) (.bool true) = .ok doc' ∧
      object_at doc' [['a']] =
        some ([(['x'], .null)] ++ [(['b'], nested_objects [['c']] (.bool true))]) ∧
      (last_step_plain ([['a']] ++ ['b'] :: [['c']]) = true →
        json_get doc' ([['a']] ++ ['b'] :: [['c']]) = .ok (.jval (.bool true))) :=
  set_creates_keys tcl86_lists (fun _ => true) (.object [(['a'], .object [(['x'], .null)])])
    [['a']] [(['x'], .null)] ['b'] [['c']] (.bool true) rfl rfl

theorem follow_first (doc t : Jval) (pre : List Str) (h : follow doc pre = some t)
    (ht : t ≠ .null) : doc ≠ .null := by
  cases pre with
  | nil =>
    simp only [follow_nil, Option.some.injEq] at h
    subst h
    exact ht
  | cons s pre => exact follow_container doc s pre t h

/-- C23 (as amended): on an array of length `n` that the steps `pre` lead to,
`set` with a last step that names an index `m >= n` below the limit
`LIST_MAX` of the length of a Tcl list succeeds, and the array under `pre`
becomes the old elements, then `m - n` nulls, then the new value: its length
is `m + 1`, its first `n` elements are the old ones, the elements `n .. m-1`
are null and the element `m` is the new value.  With an index `m` that is not
below `LIST_MAX` the call fails with the error of Tcl for a list that is too
long.  Every integer from `n` up to the greatest C `long`, written in
decimal, is a step that names the index it writes. -/
theorem set_past_end (lim : list_limit) (shared : Nat → Bool) (doc : Jval) (pre : List Str)
    (val : List Jval) (step : Str) (m : Int)
    (v : Jval) (hf : follow doc pre = some (.array val))
    (hi : array_index true val.length step = .ok m) (hm : (val.length : Int) ≤ m) :
    (m < (lim.LIST_MAX : Int) →
      ∃ doc' arr, JSON_Set lim shared (some doc) (pre ++ [step]) v = .ok doc' ∧
        follow doc' pre = some (.array arr) ∧
        arr = val ++ List.replicate (m.toNat - val.length) .null ++ [v] ∧
        (arr.length : Int) = m + 1 ∧ arr.take val.length = val ∧
        (∀ i, val.length ≤ i → i < m.toNat → arr.get? i = some .null) ∧
        arr.get? m.toNat = some v) ∧
      ((lim.LIST_MAX : Int) ≤ m →
        JSON_Set lim shared (some doc) (pre ++ [step]) v = .error lim.too_long) ∧
      (m ≤ LONG_MAX → array_index true val.length (int_text m) = .ok m) := by
  have hn : ¬ m < 0 := by omega
  have htop : JSON_Set lim shared (some doc) (pre ++ [step]) v =
      JSON_Set.walk lim shared v 0 doc (pre ++ [step]) :=
    JSON_Set_container lim shared (some doc) _ v
      (Or.inl (follow_first doc _ pre hf (by simp)))
  refine ⟨fun hmax => ?_, fun hmax => ?_, fun hmax => ?_⟩
  · have hw : JSON_Set.walk lim shared v (0 + pre.length) (.array val) [step] =
        .ok (.array (val ++ List.replicate (m.toNat - val.length) .null ++ [v])) := by
      simp only [JSON_Set.walk, hi, hn, hm, hmax, if_true, if_false, JSON_Set.create]
    obtain ⟨doc', hset, hfol⟩ := set_follow lim shared v pre 0 doc _ _ [step] hf
      (fun _ => Or.inl (by simp)) hw
    have hlen : val.length ≤ m.toNat := by omega
    refine ⟨doc', _, by rw [htop]; exact hset, hfol, rfl, ?_, ?_, ?_, ?_⟩
    · simp only [List.length_append, List.length_replicate, List.length_singleton]
      omega
    · simp [List.take_append_of_le_length]
    · intro i h1 h2
      rw [List.append_assoc, List.get?_eq_getElem?, List.getElem?_append_right h1,
        List.getElem?_append_left (by simp; omega), List.getElem?_replicate,
        if_pos (by omega)]
    · rw [List.get?_eq_getElem?, List.getElem?_append_right (by simp; omega)]
      have e : m.toNat - (val ++ List.replicate (m.toNat - val.length) Jval.null).length = 0 := by
        simp
        omega
      rw [e]
      rfl
  · have hmax' : ¬ m < (lim.LIST_MAX : Int) := by omega
    have hw : JSON_Set.walk lim shared v (0 + pre.length) (.array val) [step] =
        .error lim.too_long := by
      simp only [JSON_Set.walk, hi, hn, hm, hmax', if_true, if_false]
    rw [htop]
    exact set_walk_fails lim shared v pre 0 doc _ step [] _ hf (fun _ => Or.inl (by simp)) hw
  · exact array_index_int_text _ _ m (by unfold LONG_MIN; omega) hmax

theorem set_past_end_witness :
    (∃ doc' arr, JSON_Set tcl86_lists (fun _ => true)
          (some (.object [(['a'], .array [.number ['7']])])) ([['a']] ++ [['3']])
          (.bool true) = .ok doc' ∧
        follow doc' [['a']] = some (.array arr) ∧
        arr = [.number ['7']] ++ List.replicate ((3 : Int).toNat - [Jval.number ['7']].length)
          .null ++ [.bool true] ∧
        (arr.length : Int) = 3 + 1 ∧ arr.take [Jval.number ['7']].length = [.number ['7']] ∧
        (∀ i, [Jval.number ['7']].length ≤ i → i < (3 : Int).toNat → arr.get? i = some .null) ∧
        arr.get? (3 : Int).toNat = some (.bool true)) ∧
      JSON_Set tcl86_lists (fun _ => true) (some (.object [(['a'], .array [.number ['7']])]))
          [['a'], ['3']] (.bool true) =
        .ok (.object [(['a'], .array [.number ['7'], .null, .null, .bool true])]) :=
  ⟨(set_past_end tcl86_lists (fun _ => true) (.object [(['a'], .array [.number ['7']])])
      [['a']] [.number ['7']] ['3'] 3 (.bool true) rfl (by decide) (by decide)).1 (by decide),
    by decide⟩

/-- C23, the claim as written fails: on the empty array the integer index
`2147483647`, the greatest C `int`, is not below the limit of the length of a
list, whatever that limit is, and `set` fails with the error of Tcl for a list
that is too long; no array of `2147483648` elements comes back. -/
theorem set_past_end_counterexample :
    array_index true 0 "2147483647".toList = .ok 2147483647 ∧
      JSON_Set tcl86_lists (fun _ => false) (some (.array [])) ["2147483647".toList]
          (.bool true) =
        .error ⟨"max length of a Tcl list (536870909 elements) exceeded".toList,
          ["TCL".toList, "MEMORY".toList]⟩ ∧
      ∀ (lim : list_limit) (shared : Nat → Bool),
        JSON_Set lim shared (some (.array [])) ["2147483647".toList] (.bool true) =
          .error lim.too_long := by
  have hi : array_index true 0 "2147483647".toList = .ok 2147483647 := by decide
  refine ⟨hi, by decide, fun lim shared => ?_⟩
  have hr := lim.int_range
  exact (set_past_end lim shared (.array []) [] [] "2147483647".toList 2147483647 (.bool true)
    rfl hi (by decide)).2.1 (by omega)

/-- C24 (as amended): on an array that the steps `pre` lead to and that is
shorter than the limit `LIST_MAX` of the length of a Tcl list, `set` with a
last step that names an index below zero succeeds and the array under `pre`
becomes the new value followed by all the old elements in their order; on an
array of `LIST_MAX` elements the call fails with the error of Tcl for a list
that is too long.  Steps that name an index below zero are every negative
integer of the range of a C `long` written in decimal, `end-k` with `k` at
least the length and at most `2^63`, except `end-9223372036854775808` on the
empty array (the sum of the two `long`s wraps around), and `end` on the empty
array. -/
theorem set_negative_prepends (lim : list_limit) (shared : Nat → Bool) (doc : Jval)
    (pre : List Str) (val : List Jval) (step : Str)
    (i : Int) (v : Jval) (hf : follow doc pre = some (.array val))
    (hi : array_index true val.length step = .ok i) (hneg : i < 0) :
    (val.length < lim.LIST_MAX →
      ∃ doc', JSON_Set lim shared (some doc) (pre ++ [step]) v = .ok doc' ∧
        follow doc' pre = some (.array (v :: val))) ∧
      (lim.LIST_MAX ≤ val.length →
        JSON_Set lim shared (some doc) (pre ++ [step]) v = .error lim.too_long) ∧
      (LONG_MIN ≤ i → array_index true val.length (int_text i) = .ok i) ∧
      (∀ k : Nat, val.length ≤ k → (k : Int) ≤ 2 ^ 63 → val.length < 2 ^ 31 →
        (val ≠ [] ∨ (k : Int) < 2 ^ 63) →
        array_index true val.length ('e' :: 'n' :: 'd' :: '-' :: int_string k) =
          .ok ((val.length : Int) - 1 - k)) ∧
      (val = [] → array_index true val.length ['e', 'n', 'd'] = .ok (-1)) := by
  have htop : JSON_Set lim shared (some doc) (pre ++ [step]) v =
      JSON_Set.walk lim shared v 0 doc (pre ++ [step]) :=
    JSON_Set_container lim shared (some doc) _ v
      (Or.inl (follow_first doc _ pre hf (by simp)))
  refine ⟨fun hlen => ?_, fun hlen => ?_, fun hlo => ?_, fun k _ hk hn h0 => ?_, ?_⟩
  · have hw : JSON_Set.walk lim shared v (0 + pre.length) (.array val) [step] =
        .ok (.array (v :: val)) := by
      simp [JSON_Set.walk, hi, hneg, hlen, JSON_Set.create, Tcl_ListObjReplace]
    obtain ⟨doc', hset, hfol⟩ := set_follow lim shared v pre 0 doc _ _ [step] hf
      (fun _ => Or.inl (by simp)) hw
    exact ⟨doc', by rw [htop]; exact hset, hfol⟩
  · have hlen' : ¬ val.length < lim.LIST_MAX := by omega
    have hw : JSON_Set.walk lim shared v (0 + pre.length) (.array val) [step] =
        .error lim.too_long := by
      simp only [JSON_Set.walk, hi, hneg, hlen', if_true, if_false]
    rw [htop]
    exact set_walk_fails lim shared v pre 0 doc _ step [] _ hf (fun _ => Or.inl (by simp)) hw
  · exact array_index_int_text _ _ i hlo (by unfold LONG_MAX; omega)
  · refine array_index_end_minus _ _ k hk ?_ ?_
    · have : (val.length : Int) < 2 ^ 31 := by exact_mod_cast hn
      omega
    · rcases h0 with h0 | h0
      · exact Or.inl (List.length_pos.mpr h0)
      · exact Or.inr h0
  · rintro rfl
    rw [array_index_end _ _ (by simp)]
    rfl

theorem set_negative_prepends_witness :
    (∃ doc', JSON_Set tcl86_lists (fun _ => true) (some (.array [.number ['1'], .number ['2']]))
          ([] ++ [['-', '1']]) (.bool true) = .ok doc' ∧
        follow doc' [] = some (.array [.bool true, .number ['1'], .number ['2']])) ∧
      JSON_Set tcl86_lists (fun _ => true) (some (.array [])) [['e', 'n', 'd']] (.bool true) =
        .ok (.array [.bool true]) :=
  ⟨(set_negative_prepends tcl86_lists (fun _ => true) (.array [.number ['1'], .number ['2']]) []
      [.number ['1'], .number ['2']] ['-', '1'] (-1) (.bool true) rfl (by decide)
      (by decide)).1 (by decide), by decide⟩

/-- C24, the claim as written fails: on the empty array the end-relative step
`end-9223372036854775808` falls below zero as an integer, but the sum of the
two `long`s `-1` and `-2^63` wraps around to the greatest `long`, which is no
index below zero: nothing is prepended, the call fails with the error of Tcl
for a list that is too long.  And on an array that has `LIST_MAX` elements the
step `-1` fails with that error, as the array cannot grow by one. -/
theorem set_negative_prepends_counterexample :
    array_index true 0 "end-9223372036854775808".toList = .ok 9223372036854775807 ∧
      JSON_Set tcl86_lists (fun _ => false) (some (.array []))
          ["end-9223372036854775808".toList] (.bool true) =
        .error ⟨"max length of a Tcl list (536870909 elements) exceeded".toList,
          ["TCL".toList, "MEMORY".toList]⟩ ∧
      JSON_Set tcl86_lists (fun _ => false) (some (.array (List.replicate 536870909 .null)))
          [['-', '1']] (.bool true) =
        .error ⟨"max length of a Tcl list (536870909 elements) exceeded".toList,
          ["TCL".toList, "MEMORY".toList]⟩ := by
  refine ⟨by decide, by decide, ?_⟩
  have hi : array_index true (List.replicate 536870909 Jval.null).length ['-', '1'] =
      .ok (-1) := array_index_int_text true _ (-1) (by decide) (by decide)
  exact (set_negative_prepends tcl86_lists (fun _ => false)
    (.array (List.replicate 536870909 .null)) [] (List.replicate 536870909 .null) ['-', '1']
    (-1) (.bool true) rfl hi (by decide)).2.1
    (by rw [List.length_replicate]; exact Nat.le_refl 536870909)


/-! ## What `unset` leaves in the variable -/

theorem Tcl_DictObjPut_same {α : Type} (d : List (Str × α)) (k : Str) (x : α)
    (h : Tcl_DictObjGet d k = some x) : Tcl_DictObjPut d k x = d := by
  induction d with
  | nil => simp [Tcl_DictObjGet] at h
  | cons p d ih =>
    obtain ⟨k', v'⟩ := p
    by_cases hk : k' = k
    · simp only [Tcl_DictObjGet, hk, if_true, Option.some.injEq] at h
      simp [Tcl_DictObjPut, hk, h]
    · simp only [Tcl_DictObjGet, hk, if_false] at h
      simp [Tcl_DictObjPut, hk, ih h]

theorem Tcl_ListObjReplace_same {α : Type} (l : List α) (i : Nat) (h : i < l.length) (d : α) :
    Tcl_ListObjReplace l (i : Int) 1 [l.getD i d] = l := by
  simp only [Tcl_ListObjReplace, Int.toNat_ofNat]
  rw [getD_eq_get l i h d]
  have := List.take_append_drop i l
  conv_rhs => rw [← this]
  rw [List.append_assoc]
  congr 1
  rw [List.drop_eq_getElem_cons h]
  rfl

theorem unset_var_walk : ∀ (path : List Str) (doc : Jval) (done : List Str), path ≠ [] →
    unset_path_var.walk doc path done =
      match unset_path.walk doc path done with
      | .error e => (doc, some e)
      | .ok doc' => (doc', none)
  | [], _, _, h => absurd rfl h
  | [step], doc, done, _ => by
    cases doc with
    | object val => simp [unset_path_var.walk, unset_path.walk]
    | array val =>
      simp only [unset_path_var.walk, unset_path.walk]
      cases array_index true val.length step with
      | error e => rfl
      | ok index =>
        simp only []
        split
        · rfl
        · split <;> rfl
    | _ => simp [unset_path_var.walk, unset_path.walk]
  | step :: s2 :: rest, doc, done, _ => by
    have ih := fun t => unset_var_walk (s2 :: rest) t (done ++ [step]) (by simp)
    cases doc with
    | object val =>
      simp only [unset_path_var.walk, unset_path.walk]
      cases hg : Tcl_DictObjGet val step with
      | none => simp [bad_path]
      | some target =>
        simp only [ih]
        cases unset_path.walk target (s2 :: rest) (done ++ [step]) with
        | error e => simp [Tcl_DictObjPut_same val step target hg]
        | ok t => simp
    | array val =>
      simp only [unset_path_var.walk, unset_path.walk]
      cases hi : array_index true val.length step with
      | error e => rfl
      | ok index =>
        simp only []
        by_cases h0 : index < 0
        · simp [h0, bad_path]
        · by_cases hl : (val.length : Int) ≤ index
          · simp [h0, hl, bad_path]
          · simp only [h0, hl, or_self, if_false, ih]
            have hlt : index.toNat < val.length := by omega
            have hnat : (index.toNat : Int) = index := by omega
            cases unset_path.walk (val.getD index.toNat .null) (s2 :: rest) (done ++ [step]) with
            | error e =>
              have := Tcl_ListObjReplace_same val index.toNat hlt Jval.null
              rw [hnat] at this
              simp only [this]
            | ok t => simp
    | _ => simp [unset_path_var.walk, unset_path.walk, atomic_index_error, THROW_ERROR]

theorem unset_path_var_eq (doc : Jval) (path : List Str) :
    unset_path_var doc path =
      match unset_path (some doc) path with
      | .error e => (doc, some e)
      | .ok doc' => (doc', none) := by
  by_cases h : path = []
  · subst h
    cases doc <;> rfl
  · rw [unset_path_var, unset_var_walk path doc [] h]
    simp [unset_path, h]


theorem unset_follow : ∀ (pre : List Str) (doc t : Jval) (below done : List Str),
    follow doc pre = some t → below ≠ [] →
    (∀ e, unset_path.walk t below (done ++ pre) = .error e →
      unset_path.walk doc (pre ++ below) done = .error e) ∧
    (∀ t', unset_path.walk t below (done ++ pre) = .ok t' →
      ∃ doc', unset_path.walk doc (pre ++ below) done = .ok doc' ∧ follow doc' pre = some t')
  | [], doc, t, below, done, hf, _ => by
    simp only [follow_nil, Option.some.injEq] at hf
    subst hf
    simp only [List.append_nil, List.nil_append]
    exact ⟨fun e h => h, fun t' h => ⟨t', h, follow_nil t'⟩⟩
  | step :: pre, doc, t, below, done, hf, hb => by
    have hne : pre ++ below ≠ [] := by simp [hb]
    cases hp : pre ++ below with
    | nil => exact absurd hp hne
    | cons s2 r =>
      cases doc with
      | object val =>
        simp only [follow] at hf
        cases hg : Tcl_DictObjGet val step with
        | none => simp [hg] at hf
        | some x =>
          simp only [hg] at hf
          have ih := unset_follow pre x t below (done ++ [step]) hf hb
          simp only [List.append_assoc, List.singleton_append, hp] at ih
          simp only [List.cons_append, hp, unset_path.walk, hg]
          constructor
          · intro e h
            rw [ih.1 e h]
          · intro t' h
            obtain ⟨x', hx, hfx⟩ := ih.2 t' h
            rw [hx]
            exact ⟨_, rfl, by simp only [follow, Tcl_DictObjGet_Put]; exact hfx⟩
      | array val =>
        simp only [follow] at hf
        cases hi : array_index true val.length step with
        | error e => simp [hi] at hf
        | ok index =>
          simp only [hi] at hf
          by_cases hout : index < 0 ∨ (val.length : Int) ≤ index
          · simp [hout] at hf
          · simp only [hout, if_false] at hf
            have ih := unset_follow pre _ t below (done ++ [step]) hf hb
            simp only [List.append_assoc, List.singleton_append, hp] at ih
            have h1 : ¬ index < 0 := by omega
            have h2 : ¬ (val.length : Int) ≤ index := by omega
            have hlt : index.toNat < val.length := by omega
            have hnat : (index.toNat : Int) = index := by omega
            simp only [List.cons_append, hp, unset_path.walk, hi, h1, h2, if_false]
            constructor
            · intro e h
              rw [ih.1 e h]
            · intro t' h
              obtain ⟨x', hx, hfx⟩ := ih.2 t' h
              rw [hx]
              obtain ⟨hget, hlen'⟩ := getD_replace_one val index.toNat hlt x' .null
              rw [hnat] at hget hlen'
              exact ⟨_, rfl, by simp only [follow, hlen', hi, hout, if_false, hget]; exact hfx⟩
      | _ => simp [follow] at hf


theorem unset_follow_same : ∀ (pre : List Str) (doc t : Jval) (below done : List Str),
    follow doc pre = some t → below ≠ [] →
    unset_path.walk t below (done ++ pre) = .ok t →
    unset_path.walk doc (pre ++ below) done = .ok doc
  | [], doc, t, below, done, hf, _, h => by
    simp only [follow_nil, Option.some.injEq] at hf
    subst hf
    simpa using h
  | step :: pre, doc, t, below, done, hf, hb, h => by
    have hne : pre ++ below ≠ [] := by simp [hb]
    cases hp : pre ++ below with
    | nil => exact absurd hp hne
    | cons s2 r =>
      cases doc with
      | object val =>
        simp only [follow] at hf
        cases hg : Tcl_DictObjGet val step with
        | none => simp [hg] at hf
        | some x =>
          simp only [hg] at hf
          have ih := unset_follow_same pre x t below (done ++ [step]) hf hb
          simp only [List.append_assoc, List.singleton_append, hp] at ih
          simp only [List.cons_append, hp, unset_path.walk, hg, ih h,
            Tcl_DictObjPut_same val step x hg]
      | array val =>
        simp only [follow] at hf
        cases hi : array_index true val.length step with
        | error e => simp [hi] at hf
        | ok index =>
          simp only [hi] at hf
          by_cases hout : index < 0 ∨ (val.length : Int) ≤ index
          · simp [hout] at hf
          · simp only [hout, if_false] at hf
            have ih := unset_follow_same pre _ t below (done ++ [step]) hf hb
            simp only [List.append_assoc, List.singleton_append, hp] at ih
            have h1 : ¬ index < 0 := by omega
            have h2 : ¬ (val.length : Int) ≤ index := by omega
            have hlt : index.toNat < val.length := by omega
            have hnat : (index.toNat : Int) = index := by omega
            have hsame := Tcl_ListObjReplace_same val index.toNat hlt Jval.null
            rw [hnat] at hsame
            simp only [List.cons_append, hp, unset_path.walk, hi, h1, h2, if_false, ih h, hsame]
      | _ => simp [follow] at hf

/-- C25: when the steps `pre` of a path lead to a node and the next step, which
is not the last one, names a key the node, an object, does not hold, or an
index outside an array, `unset` fails with the error `bad_path` of the steps
`pre` and that step (the first `pre.length + 1` steps of the path): its code is
`RL JSON BAD_PATH` followed by them.  The variable then holds the document as
it was: no key or element is created. -/
theorem unset_missing_intermediate (doc : Jval) (pre : List Str) (node : Jval) (step : Str)
    (rest : List Str) (hf : follow doc pre = some node) (hrest : rest ≠ [])
    (hmiss : (∃ val, node = .object val ∧ Tcl_DictObjGet val step = none) ∨
      (∃ val i, node = .array val ∧ array_index true val.length step = .ok i ∧
        (i < 0 ∨ (val.length : Int) ≤ i))) :
    unset_path (some doc) (pre ++ step :: rest) =
        .error ⟨"Path element \"".toList ++ list_string (pre ++ [step]) ++
            "\" doesn't exist".toList,
          ["RL".toList, "JSON".toList, "BAD_PATH".toList, list_string (pre ++ [step])]⟩ ∧
      pre ++ [step] = (pre ++ step :: rest).take (pre.length + 1) ∧
      (unset_path_var doc (pre ++ step :: rest)).1 = doc := by
  have hw : unset_path.walk node (step :: rest) ([] ++ pre) = bad_path (pre ++ [step]) := by
    cases rest with
    | nil => exact absurd rfl hrest
    | cons s2 r =>
      rcases hmiss with ⟨val, rfl, hk⟩ | ⟨val, i, rfl, hi, hout⟩
      · simp only [unset_path.walk, hk, List.nil_append]
      · simp only [unset_path.walk, hi, List.nil_append]
        rcases hout with h | h
        · simp [h]
        · by_cases h0 : i < 0
          · simp [h0]
          · simp [h0, h]
  have herr := (unset_follow pre doc node (step :: rest) [] hf (by simp)).1 _ hw
  have hun : unset_path (some doc) (pre ++ step :: rest) = bad_path (pre ++ [step]) := by
    simp only [unset_path]
    rw [if_neg (by simp)]
    exact herr
  refine ⟨hun, by rw [List.take_append_eq_append_take]; simp, ?_⟩
  rw [unset_path_var_eq, hun]
  rfl

theorem unset_missing_intermediate_witness :
    unset_path (some (.object [(['a'], .array [.null])])) [['a'], ['5'], ['b']] =
        .error ⟨"Path element \"a 5\" doesn't exist".toList,
          ["RL".toList, "JSON".toList, "BAD_PATH".toList, "a 5".toList]⟩ ∧
      (unset_path_var (.object [(['a'], .array [.null])]) [['a'], ['5'], ['b']]).1 =
        .object [(['a'], .array [.null])] :=
  have h := unset_missing_intermediate (.object [(['a'], .array [.null])]) [['a']]
    (.array [.null]) ['5'] [['b']] rfl (by decide)
    (Or.inr ⟨[.null], 5, rfl, by decide, Or.inr (by decide)⟩)
  ⟨h.1, h.2.2⟩

/-- C26: when the last step of `unset` names the index `i` of an array of
length `n` that the steps before lead to, the call succeeds; for `0 <= i < n`
the array is left without exactly the element `i`, the others in their order,
and for `i < 0` or `i >= n` the document is what it was. -/
theorem unset_array_element (doc : Jval) (pre : List Str) (val : List Jval) (step : Str)
    (i : Int) (hf : follow doc pre = some (.array val))
    (hi : array_index true val.length step = .ok i) :
    (0 ≤ i → i < (val.length : Int) →
        ∃ doc', unset_path (some doc) (pre ++ [step]) = .ok doc' ∧
          follow doc' pre = some (.array (val.take i.toNat ++ val.drop (i.toNat + 1))) ∧
          val.take i.toNat ++ val.drop (i.toNat + 1) = val.eraseIdx i.toNat) ∧
      (i < 0 ∨ (val.length : Int) ≤ i →
        unset_path (some doc) (pre ++ [step]) = .ok doc ∧
          unset_path_var doc (pre ++ [step]) = (doc, none)) := by
  have hun : unset_path (some doc) (pre ++ [step]) = unset_path.walk doc (pre ++ [step]) [] := by
    simp [unset_path]
  constructor
  · intro h0 hn
    have hw : unset_path.walk (.array val) [step] ([] ++ pre) =
        .ok (.array (val.take i.toNat ++ val.drop (i.toNat + 1))) := by
      have h1 : ¬ i < 0 := by omega
      have h2 : ¬ (val.length : Int) ≤ i := by omega
      simp [unset_path.walk, hi, h1, h2, Tcl_ListObjReplace]
    obtain ⟨doc', hd, hfol⟩ := (unset_follow pre doc _ [step] [] hf (by simp)).2 _ hw
    refine ⟨doc', by rw [hun, hd], hfol, ?_⟩
    rw [List.eraseIdx_eq_take_drop_succ]
  · intro hout
    have hw : unset_path.walk (.array val) [step] ([] ++ pre) = .ok (.array val) := by
      simp only [unset_path.walk, hi]
      rcases hout with h | h
      · simp [h]
      · by_cases h0 : i < 0
        · simp [h0]
        · simp [h0, h]
    have hd := unset_follow_same pre doc _ [step] [] hf (by simp) hw
    refine ⟨by rw [hun, hd], ?_⟩
    rw [unset_path_var_eq, hun, hd]

theorem unset_array_element_witness :
    (∃ doc', unset_path (some (.object [(['a'], .array [.number ['1'], .number ['2'],
          .number ['3']])])) ([['a']] ++ [['1']]) = .ok doc' ∧
        follow doc' [['a']] = some (.array ([Jval.number ['1'], .number ['2'],
          .number ['3']].take (1 : Int).toNat ++ [Jval.number ['1'], .number ['2'],
          .number ['3']].drop ((1 : Int).toNat + 1))) ∧
        [Jval.number ['1'], .number ['2'], .number ['3']].take (1 : Int).toNat ++
          [Jval.number ['1'], .number ['2'], .number ['3']].drop ((1 : Int).toNat + 1) =
          [Jval.number ['1'], .number ['2'], .number ['3']].eraseIdx (1 : Int).toNat) ∧
      unset_path (some (.array [.number ['1']])) ([] ++ [['7']]) = .ok (.array [.number ['1']]) ∧
      unset_path (some (.object [(['a'], .array [.number ['1'], .number ['2'],
        .number ['3']])])) [['a'], ['1']] =
        .ok (.object [(['a'], .array [.number ['1'], .number ['3']])]) :=
  ⟨(unset_array_element (.object [(['a'], .array [.number ['1'], .number ['2'],
      .number ['3']])]) [['a']] [.number ['1'], .number ['2'], .number ['3']] ['1'] 1 rfl
      (by decide)).1 (by decide) (by decide),
    ((unset_array_element (.array [.number ['1']]) [] [.number ['1']] ['7'] 7 rfl
      (by decide)).2 (Or.inr (by decide))).1, by decide⟩


/-! ## A document without placeholders -/

mutual
theorem code_of_no_placeholder (map : List ((Str × dyn_type) × Nat)) (used : Nat) :
    ∀ v : Jval, has_placeholder v = false → code_of map used v = ([], map, used)
  | .string _, _ => rfl
  | .number _, _ => rfl
  | .bool _, _ => rfl
  | .null, _ => rfl
  | .dyn _ _, h => by simp [has_placeholder] at h
  | .object val, h => by
    rw [has_placeholder] at h
    rw [code_of]
    exact code_of_members_no_placeholder map used val h
  | .array val, h => by
    rw [has_placeholder] at h
    rw [code_of]
    exact code_of_elems_no_placeholder map used 0 val h
theorem code_of_members_no_placeholder (map : List ((Str × dyn_type) × Nat)) (used : Nat) :
    ∀ val : List (Str × Jval), has_placeholder.members val = false →
      code_of.members map used val = ([], map, used)
  | [], _ => rfl
  | (k, v) :: rest, h => by
    simp only [has_placeholder.members, Bool.or_eq_false_iff] at h
    simp [code_of.members, code_of_no_placeholder map used v h.1,
      code_of_members_no_placeholder map used rest h.2]
theorem code_of_elems_no_placeholder (map : List ((Str × dyn_type) × Nat)) (used : Nat) :
    ∀ (i : Nat) (val : List Jval), has_placeholder.elems val = false →
      code_of.elems map used i val = ([], map, used)
  | _, [], _ => rfl
  | i, v :: rest, h => by
    simp only [has_placeholder.elems, Bool.or_eq_false_iff] at h
    simp [code_of.elems, code_of_no_placeholder map used v h.1,
      code_of_elems_no_placeholder map used (i + 1) rest h.2]
end

/-- C27 (as amended): for a document that holds no placeholder value and no
object key of a placeholder form (`~S:`, `~L:`, and also `~N:`, `~B:`, `~J:`,
`~T:`), the compilation gives the empty tape, the application of the empty
tape to a document returns that document, and so the compilation followed by
the application returns the document itself, for every source. -/
theorem no_placeholder_empty_tape (template : Jval) (fuel : Nat) (src : subst_source)
    (hnp : has_placeholder template = false) (hkp : keys_plain template = true) :
    build_template_actions template = .ok [] ∧
      apply_template_actions (fuel + 1) template [] src = .ok template ∧
      compile_and_apply (fuel + 1) template src = .ok template := by
  have hb : build_template_actions template = .ok [] := by
    have h := (template_actions_code template ⟨[], [], 0⟩ hkp).1
    rw [code_of_no_placeholder [] 0 template hnp] at h
    rw [build_template_actions, h]
    rfl
  refine ⟨hb, rfl, ?_⟩
  rw [compile_and_apply, hb]
  rfl

theorem no_placeholder_empty_tape_witness :
    build_template_actions (.object [(['a'], .array [.number ['1'], .string ['x']])]) = .ok [] ∧
      apply_template_actions 1 (.object [(['a'], .array [.number ['1'], .string ['x']])]) []
        ⟨some [], fun _ => none⟩ =
        .ok (.object [(['a'], .array [.number ['1'], .string ['x']])]) :=
  have h := no_placeholder_empty_tape (.object [(['a'], .array [.number ['1'], .string ['x']])])
    0 ⟨some [], fun _ => none⟩ (by decide) (by decide)
  ⟨h.1, h.2.1⟩

/-- C27, the claim as written fails: the document with the one member
`"~N:x": 1` holds no placeholder value, and its key has neither the prefix
`~S:` nor the prefix `~L:`, yet the compilation gives no tape: it fails. -/
theorem refused_key_no_tape_counterexample :
    has_placeholder (.object [("~N:x".toList, .number ['1'])]) = false ∧
      key_subst_of "~N:x".toList = .not_allowed ∧
      build_template_actions (.object [("~N:x".toList, .number ['1'])]) =
        .error ⟨"Only strings allowed as object keys".toList, []⟩ := by
  decide


/-! ## The stack levels of a tape -/

theorem level_after_append : ∀ (a b : List action) (l : Nat),
    level_after (a ++ b) l = (level_after a l).bind (level_after b)
  | [], b, l => rfl
  | (op, val) :: a, b, l => by
    simp only [List.cons_append, level_after]
    split
    · exact level_after_append a b _
    · split
      · split
        · split
          · exact level_after_append a b _
          · rfl
        · rfl
      · split
        · rfl
        · exact level_after_append a b _

theorem level_after_front (a b : List action) (l d : Nat)
    (h : level_after (a ++ b) l = some d) :
    ∃ e, level_after a l = some e ∧ level_after b e = some d := by
  rw [level_after_append] at h
  cases ha : level_after a l with
  | none => simp [ha] at h
  | some e => exact ⟨e, rfl, by simpa [ha] using h⟩

theorem max_level_ge : ∀ (c : List action) (l : Nat), l ≤ max_level c l
  | [], l => le_refl _
  | (op, val) :: c, l => by
    simp only [max_level]
    split
    · exact le_trans (Nat.le_succ l) (max_level_ge c (l + 1))
    · split
      · exact le_max_left _ _
      · exact max_level_ge c l

theorem max_level_append : ∀ (a b : List action) (l e : Nat), level_after a l = some e →
    max_level a l ≤ max_level (a ++ b) l ∧ max_level b e ≤ max_level (a ++ b) l
  | [], b, l, e, h => by
    simp only [level_after, Option.some.injEq] at h
    subst h
    exact ⟨max_level_ge b l, le_refl _⟩
  | (op, val) :: a, b, l, e, h => by
    simp only [List.cons_append, level_after, max_level] at h ⊢
    split
    · next hc =>
      simp only [hc, if_true] at h
      exact max_level_append a b _ e h
    · next hc =>
      simp only [hc, if_false] at h
      split
      · next hp =>
        simp only [hp, if_true] at h
        cases hv : val.toInt with
        | none => simp [hv] at h
        | some n =>
          simp only [hv] at h
          split at h
          · have := max_level_append a b _ e h
            simp only [Option.getD_some]
            constructor
            · exact max_le (le_max_left _ _) (le_trans this.1 (le_max_right _ _))
            · exact le_trans this.2 (le_max_right _ _)
          · simp at h
      · next hp =>
        simp only [hp, if_false] at h
        split at h
        · simp at h
        · exact max_level_append a b _ e h

theorem max_depth_max_level : ∀ (c : List action) (l m d : Nat), level_after c l = some d →
    l + 1 ≤ m → (max_depth c (l + 1, m)).2 = max m (max_level c l + 1)
  | [], l, m, d, _, hm => by
    simp only [max_depth, max_level]
    omega
  | (op, val) :: c, l, m, d, h, hm => by
    simp only [level_after] at h
    simp only [max_depth, max_level]
    split
    · next hc =>
      simp only [hc, if_true] at h
      have hge := max_level_ge c (l + 1)
      split
      · rw [max_depth_max_level c (l + 1) _ d h (le_refl _)]
        omega
      · rw [max_depth_max_level c (l + 1) _ d h (by omega)]
    · next hc =>
      simp only [hc, if_false] at h
      split
      · next hp =>
        simp only [hp, if_true] at h
        cases hv : val.toInt with
        | none => simp [hv] at h
        | some n =>
          simp only [hv] at h
          split at h
          · next hn =>
            simp only [Option.getD_some]
            have e : l + 1 - n = (l - n) + 1 := by omega
            rw [e, max_depth_max_level c (l - n) m d h (by omega)]
            have hge := max_level_ge c (l - n)
            omega
          · simp at h
      · next hp =>
        simp only [hp, if_false] at h
        split at h
        · simp at h
        · exact max_depth_max_level c l m d h hm


theorem emit_pop_cases (cx cx' : template_cx) (value : operand)
    (h : emit_action cx POP_CX value = .ok cx') :
    cx'.map = cx.map ∧ cx'.slots_used = cx.slots_used ∧
      ((∃ init c val, (c = CX_OBJ_KEY ∨ c = CX_ARR_IDX) ∧ cx.actions = init ++ [(c, val)] ∧
          cx'.actions = init) ∨
        (∃ init depthobj n, cx.actions = init ++ [(POP_CX, depthobj)] ∧
          depthobj.toInt = some n ∧ cx'.actions = init ++ [(POP_CX, .int (n + 1))]) ∨
        (prev_opcode cx ≠ CX_OBJ_KEY ∧ prev_opcode cx ≠ CX_ARR_IDX ∧ prev_opcode cx ≠ POP_CX ∧
          cx'.actions = cx.actions ++ [(POP_CX, value)])) := by
  unfold emit_action at h
  split at h
  · next hc =>
    simp only [Except.ok.injEq] at h
    subst h
    refine ⟨rfl, rfl, Or.inl ?_⟩
    cases hl : cx.actions.getLast? with
    | none => simp [prev_opcode, hl] at hc
    | some a =>
      obtain ⟨op, val⟩ := a
      obtain ⟨init, hinit⟩ := List.getLast?_eq_some_iff.mp hl
      refine ⟨init, op, val, by simpa [prev_opcode, hl] using hc, hinit, ?_⟩
      simp [hinit]
  · next hc =>
    split at h
    · next hp =>
      cases hl : cx.actions.getLast? with
      | none => simp [prev_opcode, hl] at hp
      | some a =>
        obtain ⟨op, depthobj⟩ := a
        obtain ⟨init, hinit⟩ := List.getLast?_eq_some_iff.mp hl
        have hop : op = POP_CX := by simpa [prev_opcode, hl] using hp
        subst hop
        simp only [hl] at h
        cases hd : depthobj.toInt with
        | none => simp [hd, THROW_ERROR] at h
        | some n =>
          simp only [hd, Except.ok.injEq] at h
          subst h
          refine ⟨rfl, rfl, Or.inr (Or.inl ⟨init, depthobj, n, hinit, hd, ?_⟩)⟩
          simp [hinit]
    · next hp =>
      simp only [Except.ok.injEq] at h
      subst h
      refine ⟨rfl, rfl, Or.inr (Or.inr ⟨?_, ?_, ?_, rfl⟩)⟩
      · intro hx; exact hc ⟨rfl, Or.inl hx⟩
      · intro hx; exact hc ⟨rfl, Or.inr hx⟩
      · intro hx; exact hp ⟨rfl, hx⟩

theorem level_after_single (op : action_opcode) (val : operand) (l : Nat)
    (h1 : op ≠ POP_CX) (h2 : op ≠ ALLOCATE_STACK) :
    level_after [(op, val)] l =
      some (if op = CX_OBJ_KEY ∨ op = CX_ARR_IDX then l + 1 else l) := by
  simp only [level_after, h1, h2, if_false]
  split <;> rfl

theorem emit_other_level (cx : template_cx) (op : action_opcode) (val : operand) (d : Nat)
    (h1 : op ≠ POP_CX) (h2 : op ≠ ALLOCATE_STACK)
    (hl : level_after cx.actions 0 = some d) :
    level_after (cx.actions ++ [(op, val)]) 0 =
      some (if op = CX_OBJ_KEY ∨ op = CX_ARR_IDX then d + 1 else d) := by
  rw [level_after_append, hl]
  exact level_after_single op val d h1 h2

theorem emit_pop_level (cx cx' : template_cx) (d : Nat)
    (h : emit_action cx POP_CX (.int 1) = .ok cx')
    (hl : level_after cx.actions 0 = some (d + 1)) :
    level_after cx'.actions 0 = some d := by
  obtain ⟨_, _, hc⟩ := emit_pop_cases cx cx' _ h
  rcases hc with ⟨init, c, val, hcx, hinit, hres⟩ | ⟨init, depthobj, n, hinit, hd, hres⟩ |
    ⟨_, _, _, hres⟩
  · rw [hinit] at hl
    obtain ⟨e, he, hlast⟩ := level_after_front _ _ _ _ hl
    simp only [level_after, hcx, if_true, Option.some.injEq] at hlast
    rw [hres, he]
    congr 1
    omega
  · rw [hinit] at hl
    obtain ⟨e, he, hlast⟩ := level_after_front _ _ _ _ hl
    simp only [level_after, reduceCtorEq, or_self, if_false, if_true, hd] at hlast
    split at hlast
    · next hn =>
      simp only [Option.some.injEq] at hlast
      rw [hres, level_after_append, he]
      simp only [Option.some_bind, level_after, reduceCtorEq, or_self, if_false, if_true,
        operand.toInt]
      rw [if_pos (by omega)]
      congr 1
      omega
    · simp at hlast
  · rw [hres, level_after_append, hl]
    simp [level_after, operand.toInt]

theorem emit_actions_level (cx : template_cx) (name : Str) (type : dyn_type) (slot d : Nat)
    (hl : level_after cx.actions 0 = some d) :
    level_after (cx.actions ++ slot_population name type slot) 0 = some d := by
  rw [level_after_append, hl]
  cases type <;> simp [slot_population, level_after]

theorem get_subst_slot_level (cx cx' : template_cx) (elem : Str) (type : dyn_type)
    (slot d : Nat) (h : get_subst_slot cx elem type = .ok (cx', slot))
    (hl : level_after cx.actions 0 = some d) (hm : cx.slots_used = 0 → cx.map = []) :
    level_after cx'.actions 0 = some d ∧ cx'.slots_used ≠ 0 ∧
      (cx'.slots_used = 0 → cx'.map = []) := by
  unfold get_subst_slot at h
  split at h
  · next s hs =>
    simp only [Except.ok.injEq, Prod.mk.injEq] at h
    obtain ⟨rfl, rfl⟩ := h
    have hne : cx.slots_used ≠ 0 := by
      intro h0
      rw [hm h0] at hs
      simp [map_get] at hs
    exact ⟨hl, hne, fun h0 => absurd h0 hne⟩
  · simp only [] at h
    rw [emit_actions_append _ _ (slot_population_no_pop elem type cx.slots_used)] at h
    simp only [Except.ok.injEq, Prod.mk.injEq] at h
    obtain ⟨rfl, rfl⟩ := h
    exact ⟨emit_actions_level cx elem type _ d hl, by simp, by simp⟩


theorem emit_other_levels (cx cx' : template_cx) (op : action_opcode) (val : operand) (d : Nat)
    (h1 : op ≠ POP_CX) (h2 : op ≠ ALLOCATE_STACK)
    (hk : cx.slots_used = 0 → op = CX_OBJ_KEY ∨ op = CX_ARR_IDX)
    (h : emit_action cx op val = .ok cx') (hinv : compile_levels cx d) :
    compile_levels cx' (if op = CX_OBJ_KEY ∨ op = CX_ARR_IDX then d + 1 else d) := by
  rw [emit_action_append cx op val h1] at h
  simp only [Except.ok.injEq] at h
  subst h
  refine ⟨emit_other_level cx op val d h1 h2 hinv.1, fun h0 => ⟨(hinv.2 h0).1, ?_⟩⟩
  intro a ha
  simp only [List.mem_append, List.mem_singleton] at ha
  rcases ha with ha | rfl
  · exact (hinv.2 h0).2 a ha
  · exact hk h0

theorem level_after_entries : ∀ (c : List action) (l : Nat),
    (∀ a ∈ c, a.1 = CX_OBJ_KEY ∨ a.1 = CX_ARR_IDX) → level_after c l = some (l + c.length)
  | [], l, _ => rfl
  | (op, val) :: c, l, h => by
    have hop := h (op, val) (List.mem_cons_self _ _)
    simp only at hop
    simp only [level_after, hop, if_true, List.length_cons]
    rw [level_after_entries c (l + 1) (fun a ha => h a (List.mem_cons_of_mem _ ha))]
    congr 1
    omega

theorem emit_pop_levels (cx cx' : template_cx) (d : Nat)
    (h : emit_action cx POP_CX (.int 1) = .ok cx') (hinv : compile_levels cx (d + 1)) :
    compile_levels cx' d := by
  refine ⟨emit_pop_level cx cx' d h hinv.1, ?_⟩
  obtain ⟨hmap, hused, hc⟩ := emit_pop_cases cx cx' _ h
  intro h0
  rw [hused] at h0
  obtain ⟨hm, hall⟩ := hinv.2 h0
  refine ⟨by rw [hmap, hm], ?_⟩
  rcases hc with ⟨init, c, val, hcx, hinit, hres⟩ | ⟨init, depthobj, n, hinit, hd, hres⟩ |
    ⟨hp1, hp2, _, hres⟩
  · intro a ha
    rw [hres] at ha
    exact hall a (by rw [hinit]; exact List.mem_append_left _ ha)
  · have := hall (POP_CX, depthobj) (by rw [hinit]; simp)
    simp at this
  · exfalso
    cases hl : cx.actions.getLast? with
    | none =>
      have hnil : cx.actions = [] := List.getLast?_eq_none_iff.mp hl
      have := hinv.1
      rw [hnil] at this
      simp [level_after] at this
    | some a =>
      have := hall a (List.mem_of_getLast?_eq_some hl)
      rcases this with h1 | h1
      · exact hp1 (by simp [prev_opcode, hl, h1])
      · exact hp2 (by simp [prev_opcode, hl, h1])

theorem get_subst_slot_levels (cx cx' : template_cx) (elem : Str) (type : dyn_type)
    (slot d : Nat) (h : get_subst_slot cx elem type = .ok (cx', slot))
    (hinv : compile_levels cx d) : compile_levels cx' d ∧ cx'.slots_used ≠ 0 := by
  obtain ⟨hl, hne, _⟩ := get_subst_slot_level cx cx' elem type slot d h hinv.1
    (fun h0 => (hinv.2 h0).1)
  exact ⟨⟨hl, fun h0 => absurd h0 hne⟩, hne⟩

mutual
theorem template_actions_levels : ∀ (v : Jval) (cx cx' : template_cx) (d : Nat),
    template_actions cx v = .ok cx' → compile_levels cx d → compile_levels cx' d
  | .string _, cx, cx', d, h, hinv => by
    simp only [template_actions, Except.ok.injEq] at h; subst h; exact hinv
  | .number _, cx, cx', d, h, hinv => by
    simp only [template_actions, Except.ok.injEq] at h; subst h; exact hinv
  | .bool _, cx, cx', d, h, hinv => by
    simp only [template_actions, Except.ok.injEq] at h; subst h; exact hinv
  | .null, cx, cx', d, h, hinv => by
    simp only [template_actions, Except.ok.injEq] at h; subst h; exact hinv
  | .dyn type val, cx, cx', d, h, hinv => by
    simp only [template_actions] at h
    cases hg : get_subst_slot cx val type with
    | error e => simp [hg] at h
    | ok r =>
      obtain ⟨cx1, slot⟩ := r
      simp only [hg] at h
      obtain ⟨hi1, hne⟩ := get_subst_slot_levels cx cx1 val type slot d hg hinv
      have := emit_other_levels cx1 cx' REPLACE_VAL (.int slot) d (by decide) (by decide)
        (fun h0 => absurd h0 hne) h hi1
      simpa using this
  | .object val, cx, cx', d, h, hinv => by
    rw [template_actions] at h
    exact template_members_levels val cx cx' d h hinv
  | .array val, cx, cx', d, h, hinv => by
    rw [template_actions] at h
    exact template_elems_levels val cx cx' 0 d h hinv
theorem template_members_levels : ∀ (val : List (Str × Jval)) (cx cx' : template_cx) (d : Nat),
    template_actions.members cx val = .ok cx' → compile_levels cx d → compile_levels cx' d
  | [], cx, cx', d, h, hinv => by
    simp only [template_actions.members, Except.ok.injEq] at h; subst h; exact hinv
  | (k, v) :: rest, cx, cx', d, h, hinv => by
    rw [template_actions.members] at h
    cases h1 : emit_action cx CX_OBJ_KEY (.text k) with
    | error e => simp [h1] at h
    | ok cx1 =>
      have hi1 := emit_other_levels cx cx1 CX_OBJ_KEY (.text k) d (by decide) (by decide)
        (fun _ => Or.inl rfl) h1 hinv
      simp only [true_or, if_true] at hi1
      simp only [h1] at h
      cases h2 : template_actions cx1 v with
      | error e => simp [h2] at h
      | ok cx2 =>
        have hi2 := template_actions_levels v cx1 cx2 (d + 1) h2 hi1
        simp only [h2] at h
        have hkey : ∀ cx4, (match key_subst_of k with
            | .not_allowed => THROW_ERROR ["Only strings allowed as object keys".toList]
            | .plain => .ok cx2
            | .subst stype name =>
              match get_subst_slot cx2 name stype with
              | .error e => .error e
              | .ok (cx3, slot) => emit_action cx3 REPLACE_KEY (.int slot)) = .ok cx4 →
            compile_levels cx4 (d + 1) := by
          intro cx4 hk
          cases hks : key_subst_of k with
          | not_allowed => simp [hks, THROW_ERROR] at hk
          | plain =>
            simp only [hks, Except.ok.injEq] at hk
            subst hk
            exact hi2
          | subst stype name =>
            simp only [hks] at hk
            cases hg : get_subst_slot cx2 name stype with
            | error e => simp [hg] at hk
            | ok r =>
              obtain ⟨cx3, slot⟩ := r
              simp only [hg] at hk
              obtain ⟨hi3, hne⟩ := get_subst_slot_levels cx2 cx3 name stype slot _ hg hi2
              have := emit_other_levels cx3 cx4 REPLACE_KEY (.int slot) _ (by decide)
                (by decide) (fun h0 => absurd h0 hne) hk hi3
              simpa using this
        split at h
        · simp at h
        · next cx4 hk =>
          have hi4 := hkey cx4 hk
          cases h5 : emit_action cx4 POP_CX (.int 1) with
          | error e => simp [h5] at h
          | ok cx5 =>
            simp only [h5] at h
            exact template_members_levels rest cx5 cx' d h (emit_pop_levels cx4 cx5 d h5 hi4)
theorem template_elems_levels : ∀ (val : List Jval) (cx cx' : template_cx) (i d : Nat),
    template_actions.elems cx i val = .ok cx' → compile_levels cx d → compile_levels cx' d
  | [], cx, cx', i, d, h, hinv => by
    simp only [template_actions.elems, Except.ok.injEq] at h; subst h; exact hinv
  | v :: rest, cx, cx', i, d, h, hinv => by
    rw [template_actions.elems] at h
    cases h1 : emit_action cx CX_ARR_IDX (.int i) with
    | error e => simp [h1] at h
    | ok cx1 =>
      have hi1 := emit_other_levels cx cx1 CX_ARR_IDX (.int i) d (by decide) (by decide)
        (fun _ => Or.inr rfl) h1 hinv
      simp only [or_true, if_true] at hi1
      simp only [h1] at h
      cases h2 : template_actions cx1 v with
      | error e => simp [h2] at h
      | ok cx2 =>
        have hi2 := template_actions_levels v cx1 cx2 (d + 1) h2 hi1
        simp only [h2] at h
        cases h3 : emit_action cx2 POP_CX (.int 1) with
        | error e => simp [h3] at h
        | ok cx3 =>
          simp only [h3] at h
          exact template_elems_levels rest cx3 cx' (i + 1) d h (emit_pop_levels cx2 cx3 d h3 hi2)
end


theorem apply_action_levels (N : Jval → Except TclError Jval) (T : Jval) (D : subst_source)
    (a : action) (st st' : apply_state) (l : Nat)
    (h : apply_action N T D st a = .ok st')
    (hl : level_after [a] st.stacklevel = some l) :
    st'.stacklevel = l ∧ st'.stacklevels = st.stacklevels := by
  obtain ⟨op, val⟩ := a
  cases op <;> simp only [apply_action, enter] at h <;> simp only [level_after] at hl <;>
    (try simp only [reduceCtorEq, or_self, or_false, or_true, false_or, if_false, if_true,
      Option.some.injEq] at hl) <;>
    (repeat' (split at h)) <;>
    (try (simp [crash, THROW_ERROR] at h; done)) <;>
    (try (simp only [Except.ok.injEq] at h; subst h; subst hl; simp))
  next idx hidx hlev _ frame hframe =>
    simp only [Except.ok.injEq] at h
    subst h
    simp only [hidx] at hl
    split at hl
    · simp only [Option.some.injEq] at hl
      exact ⟨hl, rfl⟩
    · simp at hl

theorem apply_loop_levels (N : Jval → Except TclError Jval) (T : Jval) (D : subst_source) :
    ∀ (c : List action) (st st' : apply_state) (l : Nat),
    apply_loop N T D c st = .ok st' → level_after c st.stacklevel = some l →
    st'.stacklevel = l ∧ st'.stacklevels = st.stacklevels
  | [], st, st', l, h, hl => by
    simp only [apply_loop, Except.ok.injEq] at h
    simp only [level_after, Option.some.injEq] at hl
    subst h
    exact ⟨hl, rfl⟩
  | a :: c, st, st', l, h, hl => by
    simp only [apply_loop] at h
    obtain ⟨e, he, hrest⟩ := level_after_front [a] c _ _ hl
    cases ha : apply_action N T D st a with
    | error e => simp [ha] at h
    | ok s1 =>
      simp only [ha] at h
      obtain ⟨h1, h2⟩ := apply_action_levels N T D a st s1 e ha he
      rw [← h1] at hrest
      obtain ⟨h3, h4⟩ := apply_loop_levels N T D c s1 st' l h hrest
      exact ⟨h3, by rw [h4, h2]⟩

theorem level_after_head_entry (a : action) (post : List action) (l e : Nat)
    (ha : a.1 = CX_OBJ_KEY ∨ a.1 = CX_ARR_IDX) (h : level_after (a :: post) l = some e) :
    l + 1 ≤ max_level (a :: post) l := by
  obtain ⟨op, val⟩ := a
  simp only at ha
  simp only [max_level, ha, if_true]
  exact max_level_ge post (l + 1)

theorem level_after_head_pop (a : action) (post : List action) (l e : Nat)
    (ha : a.1 = POP_CX) (h : level_after (a :: post) l = some e) :
    ∃ k, a.2.toInt = some k ∧ k ≤ l := by
  obtain ⟨op, val⟩ := a
  simp only at ha
  subst ha
  simp only [level_after, reduceCtorEq, or_self, if_false, if_true] at h
  cases hv : val.toInt with
  | none => simp [hv] at h
  | some k =>
    simp only [hv] at h
    split at h
    · next hk => exact ⟨k, rfl, hk⟩
    · simp at h

theorem build_tape_shape (template : Jval) (tape : List action)
    (h : build_template_actions template = .ok tape) :
    tape = [] ∨ ∃ S n body d,
      tape = (ALLOCATE_STACK, .int S) :: (ALLOCATE_SLOTS, .int n) :: body ∧
      S = max_level body 0 + 1 ∧ level_after body 0 = some d := by
  unfold build_template_actions at h
  cases hc : template_actions ⟨[], [], 0⟩ template with
  | error e => simp [hc] at h
  | ok cx =>
    simp only [hc] at h
    have hinv : compile_levels cx 0 :=
      template_actions_levels template ⟨[], [], 0⟩ cx 0 hc
        ⟨rfl, fun _ => ⟨rfl, fun a ha => by simp at ha⟩⟩
    by_cases h0 : cx.slots_used = 0
    · left
      obtain ⟨_, hall⟩ := hinv.2 h0
      have := level_after_entries cx.actions 0 hall
      rw [hinv.1] at this
      simp only [Option.some.injEq, zero_add] at this
      have hnil : cx.actions = [] := List.length_eq_zero.mp this.symm
      simp only [h0, ne_eq, not_true_eq_false, if_false, hnil, prev_opcode,
        List.getLast?_nil, reduceCtorEq, List.dropLast_nil, ite_self, Except.ok.injEq] at h
      exact h.symm
    · right
      simp only [ne_eq, h0, not_false_eq_true, if_true, Except.ok.injEq] at h
      have hpre : ∃ e, level_after
          (if prev_opcode cx = POP_CX then cx.actions.dropLast else cx.actions) 0 = some e := by
        split
        · have hd : cx.actions = cx.actions.dropLast ++ cx.actions.drop (cx.actions.length - 1) := by
            rw [List.dropLast_eq_take]
            exact (List.take_append_drop _ _).symm
          have := hinv.1
          rw [hd] at this
          obtain ⟨e, he, _⟩ := level_after_front _ _ _ _ this
          exact ⟨e, he⟩
        · exact ⟨0, hinv.1⟩
      obtain ⟨e, he⟩ := hpre
      refine ⟨_, _, _, e, h.symm, ?_, he⟩
      have : max_depth ((ALLOCATE_SLOTS, operand.int cx.slots_used) ::
          (if prev_opcode cx = POP_CX then cx.actions.dropLast else cx.actions)) (1, 1) =
          max_depth (if prev_opcode cx = POP_CX then cx.actions.dropLast else cx.actions)
            (0 + 1, 1) := by
        simp [max_depth]
      rw [this, max_depth_max_level _ 0 1 e he (le_refl _)]
      have := max_level_ge
        (if prev_opcode cx = POP_CX then cx.actions.dropLast else cx.actions) 0
      omega


theorem enter_not_overflow (st : apply_state) (value : operand)
    (child : Jval → Except TclError (Option Jval))
    (hno : ¬ st.stacklevels ≤ st.stacklevel + 1)
    (hchild : ∀ t e, child t = .error e →
      e ≠ ⟨"Template container stack overflowed".toList, ["CRASH".toList]⟩) :
    enter st value child ≠ crash "Template container stack overflowed".toList := by
  unfold enter
  split
  · simp [crash]
  · next target _ =>
    rw [if_neg hno]
    cases hc : child target with
    | error e =>
      simp only [crash, ne_eq, Except.error.injEq]
      exact hchild target e hc
    | ok t => simp [crash]

/-- C30: a tape that `build_template_actions` gives is empty, or it starts with
`ALLOCATE_STACK S` and `ALLOCATE_SLOTS n`, where `S` is one more than the
greatest stack level the instructions after them reach from level 0, and no
`POP_CX` of them takes more levels than there are.  So whenever
`apply_template_actions` has run a part of the tape and comes to an entry into
a container (`CX_OBJ_KEY`, `CX_ARR_IDX`), the stack has `S` levels and the
level after the entry is below `S`: the instruction does not end in the
failure `Template container stack overflowed`; and when it comes to a
`POP_CX`, the count is at most the level: the level does not fall below 0. -/
theorem stack_depth_sufficient (template : Jval) (tape : List action)
    (h : build_template_actions template = .ok tape) :
    tape = [] ∨ ∃ S n body d,
      tape = (ALLOCATE_STACK, .int S) :: (ALLOCATE_SLOTS, .int n) :: body ∧
      S = max_level body 0 + 1 ∧ level_after body 0 = some d ∧
      ∀ (N : Jval → Except TclError Jval) (T : Jval) (D : subst_source)
        (pre : List action) (a : action) (post : List action) (st : apply_state),
        tape = pre ++ a :: post →
        apply_loop N T D pre ⟨[], [], 0, 0, none, none, none, none⟩ = .ok st →
        (a.1 = CX_OBJ_KEY ∨ a.1 = CX_ARR_IDX →
          st.stacklevels = S ∧ st.stacklevel + 1 < S ∧
            apply_action N T D st a ≠ crash "Template container stack overflowed".toList) ∧
        (a.1 = POP_CX →
          (∃ k, a.2.toInt = some k ∧ k ≤ st.stacklevel) ∧
            apply_action N T D st a ≠ crash "container stack underflow".toList) := by
  rcases build_tape_shape template tape h with hnil | ⟨S, n, body, d, htape, hS, hd⟩
  · exact Or.inl hnil
  · right
    refine ⟨S, n, body, d, htape, hS, hd, ?_⟩
    intro N T D pre a post st hsplit hrun
    rw [htape] at hsplit
    have hbody : ∃ pre', pre = (ALLOCATE_STACK, .int S) :: (ALLOCATE_SLOTS, .int n) :: pre' ∧
        body = pre' ++ a :: post ∨
        a.1 = ALLOCATE_STACK ∨ a.1 = ALLOCATE_SLOTS := by
      cases pre with
      | nil =>
        simp only [List.nil_append, List.cons.injEq] at hsplit
        exact ⟨[], Or.inr (Or.inl (by rw [← hsplit.1]))⟩
      | cons x pre =>
        cases pre with
        | nil =>
          simp only [List.cons_append, List.nil_append, List.cons.injEq] at hsplit
          exact ⟨[], Or.inr (Or.inr (by rw [← hsplit.2.1]))⟩
        | cons y pre' =>
          simp only [List.cons_append, List.cons.injEq] at hsplit
          exact ⟨pre', Or.inl ⟨by rw [hsplit.1, hsplit.2.1], hsplit.2.2⟩⟩
    obtain ⟨pre', hp | hp | hp⟩ := hbody
    · obtain ⟨rfl, hb⟩ := hp
      have hS1 : ¬ S ≤ 0 := by omega
      simp only [apply_loop, apply_action, operand.toInt, hS1, if_false] at hrun
      rw [hb] at hd
      obtain ⟨l, hl, hrest⟩ := level_after_front pre' (a :: post) 0 d hd
      have hlev := apply_loop_levels N T D pre' _ st l hrun hl
      simp only at hlev
      obtain ⟨hst, hsts⟩ := hlev
      have hmax := (max_level_append pre' (a :: post) 0 l hl).2
      rw [← hb] at hmax
      constructor
      · intro ha
        have := level_after_head_entry a post l d ha hrest
        have hlt : st.stacklevel + 1 < S := by omega
        refine ⟨hsts, hlt, ?_⟩
        obtain ⟨op, val⟩ := a
        simp only at ha
        have hno : ¬ st.stacklevels ≤ st.stacklevel + 1 := by omega
        rcases ha with rfl | rfl
        · simp only [apply_action]
          refine enter_not_overflow st val _ hno ?_
          intro t e he
          cases t <;> simp [THROW_ERROR] at he <;> subst he <;> simp
        · simp only [apply_action]
          refine enter_not_overflow st val _ hno ?_
          intro t e he
          cases t with
          | array container =>
            simp only [] at he
            cases hv : val.toInt with
            | none =>
              simp only [hv, THROW_ERROR, Except.error.injEq] at he
              subst he
              simp
            | some idx => simp [hv] at he
          | _ =>
            simp only [crash, Except.error.injEq] at he
            subst he
            simp
      · intro ha
        obtain ⟨k, hk, hkl⟩ := level_after_head_pop a post l d ha hrest
        refine ⟨⟨k, hk, by omega⟩, ?_⟩
        obtain ⟨op, val⟩ := a
        simp only at ha hk
        subst ha
        have hno : ¬ st.stacklevel < k := by omega
        simp only [apply_action, hk, hno, if_false]
        split <;> simp [crash]
    · exact ⟨fun ha => by rcases ha with ha | ha <;> simp [hp] at ha,
        fun ha => by simp [hp] at ha⟩
    · exact ⟨fun ha => by rcases ha with ha | ha <;> simp [hp] at ha,
        fun ha => by simp [hp] at ha⟩

theorem stack_depth_sufficient_witness :
    build_template_actions (.object [(['a'], .array [.dyn DYN_STRING ['x']])]) =
        .ok [(ALLOCATE_STACK, .int 3), (ALLOCATE_SLOTS, .int 1), (CX_OBJ_KEY, .text ['a']),
          (CX_ARR_IDX, .int 0), (FETCH_VALUE, .text ['x']), (JVAL_STRING, .empty),
          (FILL_SLOT, .int 0), (REPLACE_VAL, .int 0)] ∧
      3 = max_level [(CX_OBJ_KEY, .text ['a']), (CX_ARR_IDX, .int 0),
          (FETCH_VALUE, .text ['x']), (JVAL_STRING, .empty), (FILL_SLOT, .int 0),
          (REPLACE_VAL, .int 0)] 0 + 1 := by
  have hb : build_template_actions (.object [(['a'], .array [.dyn DYN_STRING ['x']])]) =
      .ok [(ALLOCATE_STACK, .int 3), (ALLOCATE_SLOTS, .int 1), (CX_OBJ_KEY, .text ['a']),
        (CX_ARR_IDX, .int 0), (FETCH_VALUE, .text ['x']), (JVAL_STRING, .empty),
        (FILL_SLOT, .int 0), (REPLACE_VAL, .int 0)] := by rfl
  refine ⟨hb, ?_⟩
  rcases stack_depth_sufficient _ _ hb with h | ⟨S, n, body, d, ht, hS, _, _⟩
  · simp at h
  · simp only [List.cons.injEq, Prod.mk.injEq, operand.int.injEq, true_and] at ht
    obtain ⟨rfl, rfl, rfl⟩ := ht
    exact hS


/-! ## The slots of a tape -/

theorem map_get_none_iff : ∀ (map : List ((Str × dyn_type) × Nat)) (n : Str) (t : dyn_type),
    map_get map n t = none ↔ (n, t) ∉ map.map Prod.fst
  | [], n, t => by simp [map_get]
  | ((n', t'), slot) :: rest, n, t => by
    simp only [map_get, List.map_cons, List.mem_cons, not_or]
    by_cases h : n' = n ∧ t' = t
    · obtain ⟨rfl, rfl⟩ := h
      simp only [and_self, if_true, reduceCtorEq, not_true_eq_false, false_and]
    · simp only [h, if_false, map_get_none_iff rest n t]
      constructor
      · intro hr
        refine ⟨?_, hr⟩
        intro he
        simp only [Prod.mk.injEq] at he
        exact h ⟨he.1.symm, he.2.symm⟩
      · intro hr
        exact hr.2

theorem operands_of_append (op : action_opcode) (a b : List action) :
    operands_of op (a ++ b) = operands_of op a ++ operands_of op b := by
  simp [operands_of]

theorem operands_of_single (op : action_opcode) (x : action) :
    operands_of op [x] = if x.1 = op then [x.2] else [] := by
  unfold operands_of
  by_cases h : x.1 = op <;> simp [h]

theorem operands_of_population (elem : Str) (type : dyn_type) (slot : Nat) :
    operands_of FILL_SLOT (slot_population elem type slot) = [.int slot] ∧
      operands_of FETCH_VALUE (slot_population elem type slot) =
        if type ≠ DYN_LITERAL then [.text elem] else [] := by
  cases type <;> exact ⟨rfl, rfl⟩

theorem emit_operands (cx cx' : template_cx) (opcode : action_opcode) (value : operand)
    (op : action_opcode) (h : emit_action cx opcode value = .ok cx')
    (h1 : opcode ≠ op) (h2 : op ≠ POP_CX) (h3 : op ≠ CX_OBJ_KEY) (h4 : op ≠ CX_ARR_IDX) :
    cx'.map = cx.map ∧ cx'.slots_used = cx.slots_used ∧
      operands_of op cx'.actions = operands_of op cx.actions := by
  by_cases hp : opcode = POP_CX
  · subst hp
    obtain ⟨hm, hu, hc⟩ := emit_pop_cases cx cx' value h
    refine ⟨hm, hu, ?_⟩
    rcases hc with ⟨init, c, val, hcx, hinit, hres⟩ | ⟨init, depthobj, n, hinit, hd, hres⟩ |
      ⟨_, _, _, hres⟩
    · rw [hres, hinit, operands_of_append, operands_of_single]
      have : c ≠ op := by rcases hcx with rfl | rfl <;> [exact h3.symm; exact h4.symm]
      simp [this]
    · rw [hres, hinit, operands_of_append, operands_of_append, operands_of_single,
        operands_of_single]
      simp [h2.symm]
    · rw [hres, operands_of_append, operands_of_single]
      simp [h2.symm]
  · rw [emit_action_append cx opcode value hp] at h
    simp only [Except.ok.injEq] at h
    subst h
    refine ⟨rfl, rfl, ?_⟩
    rw [operands_of_append, operands_of_single]
    simp [h1]

theorem emit_slots (cx cx' : template_cx) (opcode : action_opcode) (value : operand)
    (h : emit_action cx opcode value = .ok cx')
    (h1 : opcode ≠ FILL_SLOT) (h2 : opcode ≠ FETCH_VALUE) (hinv : compile_slots cx) :
    compile_slots cx' ∧ cx'.map = cx.map := by
  obtain ⟨hm, hu, hf⟩ := emit_operands cx cx' opcode value FILL_SLOT h h1 (by decide)
    (by decide) (by decide)
  obtain ⟨_, _, hg⟩ := emit_operands cx cx' opcode value FETCH_VALUE h h2 (by decide)
    (by decide) (by decide)
  refine ⟨?_, hm⟩
  unfold compile_slots
  rw [hm, hu, hf, hg]
  exact hinv

theorem get_subst_slot_slots (cx cx' : template_cx) (elem : Str) (type : dyn_type) (slot : Nat)
    (h : get_subst_slot cx elem type = .ok (cx', slot)) (hinv : compile_slots cx) :
    compile_slots cx' ∧
      ∀ p, p ∈ cx'.map.map Prod.fst ↔ p ∈ cx.map.map Prod.fst ∨ p = (elem, type) := by
  unfold get_subst_slot at h
  split at h
  · next s hs =>
    simp only [Except.ok.injEq, Prod.mk.injEq] at h
    obtain ⟨rfl, rfl⟩ := h
    refine ⟨hinv, fun p => ⟨Or.inl, ?_⟩⟩
    rintro (hp | rfl)
    · exact hp
    · by_contra hn
      rw [(map_get_none_iff cx.map elem type).mpr hn] at hs
      simp at hs
  · next hs =>
    simp only [] at h
    rw [emit_actions_append _ _ (slot_population_no_pop elem type cx.slots_used)] at h
    simp only [Except.ok.injEq, Prod.mk.injEq] at h
    obtain ⟨rfl, rfl⟩ := h
    obtain ⟨hM, hN, hF, hG⟩ := hinv
    have hnew := (map_get_none_iff cx.map elem type).mp hs
    have hpop := operands_of_population elem type cx.slots_used
    refine ⟨⟨?_, ?_, ?_, ?_⟩, ?_⟩
    · simp only [List.map_append, List.map_cons, List.map_nil, hM, List.range_succ]
    · simp only [List.map_append, List.map_cons, List.map_nil]
      rw [List.nodup_append]
      refine ⟨hN, by simp, ?_⟩
      intro a ha hb
      simp only [List.mem_singleton] at hb
      subst hb
      exact hnew ha
    · simp only [operands_of_append, hF, hpop.1, List.range_succ, List.map_append,
        List.map_cons, List.map_nil]
    · simp only [operands_of_append, hG, hpop.2, List.map_append, List.map_cons, List.map_nil,
        List.filter_append]
      by_cases ht : type = DYN_LITERAL
      · simp [ht]
      · simp [ht]
    · intro p
      simp only [List.map_append, List.map_cons, List.map_nil, List.mem_append,
        List.mem_singleton]


mutual
theorem template_actions_slots : ∀ (v : Jval) (cx cx' : template_cx),
    template_actions cx v = .ok cx' → compile_slots cx →
    compile_slots cx' ∧
      ∀ p, p ∈ cx'.map.map Prod.fst ↔ p ∈ cx.map.map Prod.fst ∨ p ∈ placeholder_pairs v
  | .string _, cx, cx', h, hinv => by
    simp only [template_actions, Except.ok.injEq] at h; subst h
    exact ⟨hinv, fun p => by simp only [placeholder_pairs, List.not_mem_nil, or_false]⟩
  | .number _, cx, cx', h, hinv => by
    simp only [template_actions, Except.ok.injEq] at h; subst h
    exact ⟨hinv, fun p => by simp only [placeholder_pairs, List.not_mem_nil, or_false]⟩
  | .bool _, cx, cx', h, hinv => by
    simp only [template_actions, Except.ok.injEq] at h; subst h
    exact ⟨hinv, fun p => by simp only [placeholder_pairs, List.not_mem_nil, or_false]⟩
  | .null, cx, cx', h, hinv => by
    simp only [template_actions, Except.ok.injEq] at h; subst h
    exact ⟨hinv, fun p => by simp only [placeholder_pairs, List.not_mem_nil, or_false]⟩
  | .dyn type val, cx, cx', h, hinv => by
    simp only [template_actions] at h
    cases hg : get_subst_slot cx val type with
    | error e => simp [hg] at h
    | ok r =>
      obtain ⟨cx1, slot⟩ := r
      simp only [hg] at h
      obtain ⟨hi1, hm1⟩ := get_subst_slot_slots cx cx1 val type slot hg hinv
      obtain ⟨hi2, hm2⟩ := emit_slots cx1 cx' REPLACE_VAL (.int slot) h (by decide) (by decide) hi1
      refine ⟨hi2, fun p => ?_⟩
      rw [hm2, hm1 p]
      simp only [placeholder_pairs, List.mem_singleton]
  | .object val, cx, cx', h, hinv => by
    rw [template_actions] at h
    rw [placeholder_pairs]
    exact template_members_slots val cx cx' h hinv
  | .array val, cx, cx', h, hinv => by
    rw [template_actions] at h
    rw [placeholder_pairs]
    exact template_elems_slots val cx cx' 0 h hinv
theorem template_members_slots : ∀ (val : List (Str × Jval)) (cx cx' : template_cx),
    template_actions.members cx val = .ok cx' → compile_slots cx →
    compile_slots cx' ∧
      ∀ p, p ∈ cx'.map.map Prod.fst ↔
        p ∈ cx.map.map Prod.fst ∨ p ∈ placeholder_pairs.members val
  | [], cx, cx', h, hinv => by
    simp only [template_actions.members, Except.ok.injEq] at h; subst h
    exact ⟨hinv, fun p => by simp only [placeholder_pairs.members, List.not_mem_nil, or_false]⟩
  | (k, v) :: rest, cx, cx', h, hinv => by
    rw [template_actions.members] at h
    cases h1 : emit_action cx CX_OBJ_KEY (.text k) with
    | error e => simp [h1] at h
    | ok cx1 =>
      obtain ⟨hi1, hm1⟩ := emit_slots cx cx1 CX_OBJ_KEY (.text k) h1 (by decide) (by decide) hinv
      simp only [h1] at h
      cases h2 : template_actions cx1 v with
      | error e => simp [h2] at h
      | ok cx2 =>
        obtain ⟨hi2, hm2⟩ := template_actions_slots v cx1 cx2 h2 hi1
        simp only [h2] at h
        have hkey : ∀ cx4, (match key_subst_of k with
            | .not_allowed => THROW_ERROR ["Only strings allowed as object keys".toList]
            | .plain => .ok cx2
            | .subst stype name =>
              match get_subst_slot cx2 name stype with
              | .error e => .error e
              | .ok (cx3, slot) => emit_action cx3 REPLACE_KEY (.int slot)) = .ok cx4 →
            compile_slots cx4 ∧
              ∀ p, p ∈ cx4.map.map Prod.fst ↔ p ∈ cx2.map.map Prod.fst ∨ p ∈ key_pair k := by
          intro cx4 hk
          cases hks : key_subst_of k with
          | not_allowed => simp [hks, THROW_ERROR] at hk
          | plain =>
            simp only [hks, Except.ok.injEq] at hk
            subst hk
            exact ⟨hi2, fun p => by simp only [key_pair, hks, List.not_mem_nil, or_false]⟩
          | subst stype name =>
            simp only [hks] at hk
            cases hg : get_subst_slot cx2 name stype with
            | error e => simp [hg] at hk
            | ok r =>
              obtain ⟨cx3, slot⟩ := r
              simp only [hg] at hk
              obtain ⟨hi3, hm3⟩ := get_subst_slot_slots cx2 cx3 name stype slot hg hi2
              obtain ⟨hi4, hm4⟩ := emit_slots cx3 cx4 REPLACE_KEY (.int slot) hk (by decide)
                (by decide) hi3
              refine ⟨hi4, fun p => ?_⟩
              rw [hm4, hm3 p]
              simp only [key_pair, hks, List.mem_singleton]
        split at h
        · simp at h
        · next cx4 hk =>
          obtain ⟨hi4, hm4⟩ := hkey cx4 hk
          cases h5 : emit_action cx4 POP_CX (.int 1) with
          | error e => simp [h5] at h
          | ok cx5 =>
            simp only [h5] at h
            obtain ⟨hi5, hm5⟩ := emit_slots cx4 cx5 POP_CX (.int 1) h5 (by decide) (by decide) hi4
            obtain ⟨hi6, hm6⟩ := template_members_slots rest cx5 cx' h hi5
            refine ⟨hi6, fun p => ?_⟩
            rw [hm6 p, hm5, hm4 p, hm2 p, hm1]
            simp only [placeholder_pairs.members, List.mem_append]
            tauto
theorem template_elems_slots : ∀ (val : List Jval) (cx cx' : template_cx) (i : Nat),
    template_actions.elems cx i val = .ok cx' → compile_slots cx →
    compile_slots cx' ∧
      ∀ p, p ∈ cx'.map.map Prod.fst ↔
        p ∈ cx.map.map Prod.fst ∨ p ∈ placeholder_pairs.elems val
  | [], cx, cx', i, h, hinv => by
    simp only [template_actions.elems, Except.ok.injEq] at h; subst h
    exact ⟨hinv, fun p => by simp only [placeholder_pairs.elems, List.not_mem_nil, or_false]⟩
  | v :: rest, cx, cx', i, h, hinv => by
    rw [template_actions.elems] at h
    cases h1 : emit_action cx CX_ARR_IDX (.int i) with
    | error e => simp [h1] at h
    | ok cx1 =>
      obtain ⟨hi1, hm1⟩ := emit_slots cx cx1 CX_ARR_IDX (.int i) h1 (by decide) (by decide) hinv
      simp only [h1] at h
      cases h2 : template_actions cx1 v with
      | error e => simp [h2] at h
      | ok cx2 =>
        obtain ⟨hi2, hm2⟩ := template_actions_slots v cx1 cx2 h2 hi1
        simp only [h2] at h
        cases h3 : emit_action cx2 POP_CX (.int 1) with
        | error e => simp [h3] at h
        | ok cx3 =>
          simp only [h3] at h
          obtain ⟨hi3, hm3⟩ := emit_slots cx2 cx3 POP_CX (.int 1) h3 (by decide) (by decide) hi2
          obtain ⟨hi4, hm4⟩ := template_elems_slots rest cx3 cx' (i + 1) h hi3
          refine ⟨hi4, fun p => ?_⟩
          rw [hm4 p, hm3, hm2 p, hm1]
          simp only [placeholder_pairs.elems, List.mem_append]
          tauto
end


theorem operands_of_trimmed (op : action_opcode) (cx : template_cx) (hop : op ≠ POP_CX) :
    operands_of op (if prev_opcode cx = POP_CX then cx.actions.dropLast else cx.actions) =
      operands_of op cx.actions := by
  split
  · next hp =>
    cases hl : cx.actions.getLast? with
    | none => simp [prev_opcode, hl] at hp
    | some a =>
      obtain ⟨init, hinit⟩ := List.getLast?_eq_some_iff.mp hl
      have ha : a.1 = POP_CX := by simpa [prev_opcode, hl] using hp
      rw [hinit, List.dropLast_concat, operands_of_append, operands_of_single, ha]
      simp [hop.symm]
  · rfl

/-- C29: for a template that compiles, let `n` be the number of pairwise
different (name, kind) pairs of its placeholders, values and keys.  With
`n = 0` the tape is empty; otherwise the tape starts with `ALLOCATE_STACK` and
`ALLOCATE_SLOTS n`.  The `FILL_SLOT` instructions of the tape fill the slots
`0, 1, .., n-1`, each once and in this order, and the `FETCH_VALUE` instructions
of the tape are, up to their order, one for every different pair whose kind is
no literal, with the name of the pair, however often a pair occurs. -/
theorem slots_per_pair (template : Jval) (tape : List action)
    (h : build_template_actions template = .ok tape) :
    ((placeholder_pairs template).dedup.length = 0 → tape = []) ∧
      ((placeholder_pairs template).dedup.length ≠ 0 →
        ∃ S body, tape = (ALLOCATE_STACK, .int S) ::
          (ALLOCATE_SLOTS, .int (placeholder_pairs template).dedup.length) :: body) ∧
      operands_of FILL_SLOT tape =
        (List.range (placeholder_pairs template).dedup.length).map operand.int ∧
      (operands_of FETCH_VALUE tape).Perm
        (((placeholder_pairs template).dedup.filter
          (fun p => decide (p.2 ≠ DYN_LITERAL))).map (fun p => operand.text p.1)) := by
  unfold build_template_actions at h
  cases hc : template_actions ⟨[], [], 0⟩ template with
  | error e => simp [hc] at h
  | ok cx =>
    simp only [hc] at h
    have hlev : compile_levels cx 0 :=
      template_actions_levels template ⟨[], [], 0⟩ cx 0 hc
        ⟨rfl, fun _ => ⟨rfl, fun a ha => by simp at ha⟩⟩
    obtain ⟨⟨hM, hN, hF, hG⟩, hmem⟩ := template_actions_slots template ⟨[], [], 0⟩ cx hc
      ⟨rfl, List.nodup_nil, rfl, rfl⟩
    have hperm : (cx.map.map Prod.fst).Perm (placeholder_pairs template).dedup := by
      rw [List.perm_ext_iff_of_nodup hN (List.nodup_dedup _)]
      intro p
      rw [hmem p, List.mem_dedup]
      simp
    have hlen : cx.slots_used = (placeholder_pairs template).dedup.length := by
      rw [← hperm.length_eq, List.length_map]
      have := congrArg List.length hM
      simp only [List.length_map, List.length_range] at this
      exact this.symm
    have hfetch : (operands_of FETCH_VALUE cx.actions).Perm
        (((placeholder_pairs template).dedup.filter
          (fun p => decide (p.2 ≠ DYN_LITERAL))).map (fun p => operand.text p.1)) := by
      rw [hG]
      exact (hperm.filter _).map _
    by_cases h0 : cx.slots_used = 0
    · obtain ⟨_, hall⟩ := hlev.2 h0
      have := level_after_entries cx.actions 0 hall
      rw [hlev.1] at this
      simp only [Option.some.injEq, zero_add] at this
      have hnil : cx.actions = [] := List.length_eq_zero.mp this.symm
      simp only [h0, ne_eq, not_true_eq_false, if_false, hnil, prev_opcode,
        List.getLast?_nil, reduceCtorEq, List.dropLast_nil, ite_self, Except.ok.injEq] at h
      subst h
      rw [← hlen, h0]
      refine ⟨fun _ => rfl, fun hne => absurd rfl hne, rfl, ?_⟩
      rw [hnil] at hfetch
      exact hfetch
    · simp only [ne_eq, h0, not_false_eq_true, if_true, Except.ok.injEq] at h
      subst h
      rw [← hlen]
      refine ⟨fun hz => absurd hz h0, fun _ => ⟨_, _, rfl⟩, ?_, ?_⟩
      · rw [← hF, ← operands_of_trimmed FILL_SLOT cx (by decide)]
        rfl
      · have e : operands_of FETCH_VALUE ((ALLOCATE_STACK, operand.int
              (max_depth ((ALLOCATE_SLOTS, operand.int cx.slots_used) ::
                (if prev_opcode cx = POP_CX then cx.actions.dropLast else cx.actions))
                (1, 1)).2) ::
            (ALLOCATE_SLOTS, operand.int cx.slots_used) ::
              (if prev_opcode cx = POP_CX then cx.actions.dropLast else cx.actions)) =
            operands_of FETCH_VALUE cx.actions := by
          rw [← operands_of_trimmed FETCH_VALUE cx (by decide)]
          rfl
        rw [e]
        exact hfetch

theorem slots_per_pair_witness :
    build_template_actions (.array [.dyn DYN_STRING ['x'], .dyn DYN_STRING ['x'],
        .dyn DYN_LITERAL ['x']]) =
        .ok [(ALLOCATE_STACK, .int 2), (ALLOCATE_SLOTS, .int 2), (CX_ARR_IDX, .int 0),
          (FETCH_VALUE, .text ['x']), (JVAL_STRING, .empty), (FILL_SLOT, .int 0),
          (REPLACE_VAL, .int 0), (POP_CX, .int 1), (CX_ARR_IDX, .int 1), (REPLACE_VAL, .int 0),
          (POP_CX, .int 1), (CX_ARR_IDX, .int 2), (JVAL_LITERAL, .text ['x']),
          (FILL_SLOT, .int 1), (REPLACE_VAL, .int 1)] ∧
      operands_of FILL_SLOT [(ALLOCATE_STACK, .int 2), (ALLOCATE_SLOTS, .int 2),
          (CX_ARR_IDX, .int 0), (FETCH_VALUE, .text ['x']), (JVAL_STRING, .empty),
          (FILL_SLOT, .int 0), (REPLACE_VAL, .int 0), (POP_CX, .int 1), (CX_ARR_IDX, .int 1),
          (REPLACE_VAL, .int 0), (POP_CX, .int 1), (CX_ARR_IDX, .int 2),
          (JVAL_LITERAL, .text ['x']), (FILL_SLOT, .int 1), (REPLACE_VAL, .int 1)] =
        (List.range (placeholder_pairs (.array [.dyn DYN_STRING ['x'], .dyn DYN_STRING ['x'],
          .dyn DYN_LITERAL ['x']])).dedup.length).map operand.int :=
  have hb : build_template_actions (.array [.dyn DYN_STRING ['x'], .dyn DYN_STRING ['x'],
      .dyn DYN_LITERAL ['x']]) =
      .ok [(ALLOCATE_STACK, .int 2), (ALLOCATE_SLOTS, .int 2), (CX_ARR_IDX, .int 0),
        (FETCH_VALUE, .text ['x']), (JVAL_STRING, .empty), (FILL_SLOT, .int 0),
        (REPLACE_VAL, .int 0), (POP_CX, .int 1), (CX_ARR_IDX, .int 1), (REPLACE_VAL, .int 0),
        (POP_CX, .int 1), (CX_ARR_IDX, .int 2), (JVAL_LITERAL, .text ['x']),
        (FILL_SLOT, .int 1), (REPLACE_VAL, .int 1)] := by rfl
  ⟨hb, (slots_per_pair _ _ hb).2.2.1⟩

/-! ## The compiler emits `tape_code` -/

theorem key_code_snd (map : List ((Str × dyn_type) × Nat)) (used : Nat) (name : Str)
    (stype : dyn_type) :
    (key_code map used name stype).2 = (code_of map used (.dyn stype name)).2 := by
  unfold key_code code_of
  cases map_get map name stype <;> rfl

theorem key_code_last (map : List ((Str × dyn_type) × Nat)) (used : Nat) (name : Str)
    (stype : dyn_type) :
    ∃ c s, (key_code map used name stype).1 = c ++ [(REPLACE_KEY, operand.int s)] ∧
      (∀ a ∈ c, a.1 ≠ POP_CX ∧ a.1 ≠ CX_OBJ_KEY ∧ a.1 ≠ CX_ARR_IDX) := by
  unfold key_code
  cases map_get map name stype with
  | some slot => exact ⟨[], slot, rfl, by simp⟩
  | none =>
    refine ⟨slot_population name stype used, used, rfl, ?_⟩
    intro a ha
    cases stype <;> simp [slot_population] at ha <;> rcases ha with h | h | h | h <;>
      (try subst h) <;> simp_all

theorem get_subst_slot_key_code (cx : template_cx) (name : Str) (type : dyn_type) :
    (match get_subst_slot cx name type with
      | .error e => (.error e : Except TclError template_cx)
      | .ok (cx1, slot) => emit_action cx1 REPLACE_KEY (.int slot)) =
      .ok ⟨(key_code cx.map cx.slots_used name type).2.1,
        cx.actions ++ (key_code cx.map cx.slots_used name type).1,
        (key_code cx.map cx.slots_used name type).2.2⟩ := by
  unfold get_subst_slot key_code
  cases h : map_get cx.map name type with
  | some slot =>
    simp only [emit_action_append _ _ _ (show REPLACE_KEY ≠ POP_CX by decide)]
  | none =>
    simp only [emit_actions_append _ _ (slot_population_no_pop name type cx.slots_used),
      emit_action_append _ _ _ (show REPLACE_KEY ≠ POP_CX by decide)]
    simp

theorem emit_pop_after_key (m : List ((Str × dyn_type) × Nat)) (u : Nat) (acts : List action)
    (s : Nat) :
    emit_action ⟨m, acts ++ [(REPLACE_KEY, operand.int s)], u⟩ POP_CX (.int 1) =
      .ok ⟨m, acts ++ [(REPLACE_KEY, operand.int s)] ++ [(POP_CX, .int 1)], u⟩ := by
  have hp : prev_opcode ⟨m, acts ++ [(REPLACE_KEY, operand.int s)], u⟩ = REPLACE_KEY := by
    simp [prev_opcode]
  simp [emit_action, hp]

theorem keys_replaceable_head (dict : subst_source) (keys : List Str) (k : Str) (v : Jval)
    (rest : List (Str × Jval))
    (h : keys_replaceable.members dict keys ((k, v) :: rest) = true) :
    (∃ knew, new_key dict k = some knew ∧ (key_subst_of k = .plain ∨ knew ∉ keys)) ∧
      keys_replaceable dict v = true ∧ keys_replaceable.members dict keys rest = true := by
  simp only [keys_replaceable.members, Bool.and_eq_true] at h
  obtain ⟨⟨h1, h2⟩, h3⟩ := h
  refine ⟨?_, h2, h3⟩
  cases hk : new_key dict k with
  | none => simp [hk] at h1
  | some knew =>
    simp only [hk, decide_eq_true_eq] at h1
    exact ⟨knew, rfl, h1⟩

theorem new_key_allowed (dict : subst_source) (k knew : Str) (h : new_key dict k = some knew) :
    key_subst_of k ≠ .not_allowed := by
  intro hc
  simp [new_key, hc] at h

mutual
theorem template_actions_tape_code (dict : subst_source) :
    ∀ (v : Jval) (cx : template_cx), keys_replaceable dict v = true →
    template_actions cx v = .ok ⟨(tape_code cx.map cx.slots_used v).2.1,
      cx.actions ++ (tape_code cx.map cx.slots_used v).1, (tape_code cx.map cx.slots_used v).2.2⟩ ∧
    ends_well (tape_code cx.map cx.slots_used v).1
  | .string _, cx, _ => by simp [template_actions, tape_code, ends_well]
  | .number _, cx, _ => by simp [template_actions, tape_code, ends_well]
  | .bool _, cx, _ => by simp [template_actions, tape_code, ends_well]
  | .null, cx, _ => by simp [template_actions, tape_code, ends_well]
  | .dyn type name, cx, _ => by
    rw [tape_code]
    refine ⟨?_, (code_of_dyn_ends_well _ _ _ _).1⟩
    rw [template_actions]
    exact get_subst_slot_code cx name type
  | .object val, cx, h => by
    rw [template_actions, tape_code]
    simp only [keys_replaceable, Bool.and_eq_true] at h
    exact template_members_tape_code dict val (val.map Prod.fst) cx h.2
  | .array val, cx, h => by
    rw [template_actions, tape_code]
    exact template_elems_tape_code dict val cx 0 (by simpa [keys_replaceable] using h)
theorem template_members_tape_code (dict : subst_source) :
    ∀ (val : List (Str × Jval)) (keys : List Str) (cx : template_cx),
    keys_replaceable.members dict keys val = true →
    template_actions.members cx val = .ok ⟨(tape_code.members cx.map cx.slots_used val).2.1,
      cx.actions ++ (tape_code.members cx.map cx.slots_used val).1,
      (tape_code.members cx.map cx.slots_used val).2.2⟩ ∧
    ends_well (tape_code.members cx.map cx.slots_used val).1
  | [], keys, cx, _ => by simp [template_actions.members, tape_code.members, ends_well]
  | (k, v) :: rest, keys, cx, h => by
    obtain ⟨⟨knew, hnew, _⟩, hv, hrest⟩ := keys_replaceable_head dict keys k v rest h
    have hallow := new_key_allowed dict k knew hnew
    obtain ⟨hc, hw⟩ := template_actions_tape_code dict v
      ⟨cx.map, cx.actions ++ [(CX_OBJ_KEY, .text k)], cx.slots_used⟩ hv
    simp only at hc hw
    cases hks : key_subst_of k with
    | not_allowed => exact absurd hks hallow
    | plain =>
      obtain ⟨hr, hrw⟩ := template_members_tape_code dict rest keys
        ⟨(tape_code cx.map cx.slots_used v).2.1,
          cx.actions ++ (if (tape_code cx.map cx.slots_used v).1 = [] then []
            else (CX_OBJ_KEY, .text k) :: close_member (tape_code cx.map cx.slots_used v).1),
          (tape_code cx.map cx.slots_used v).2.2⟩ hrest
      simp only at hr hrw
      constructor
      · rw [template_actions.members,
          emit_action_append _ _ _ (show CX_OBJ_KEY ≠ POP_CX by decide)]
        simp only [hc, hks]
        rw [show cx.actions ++ [(CX_OBJ_KEY, operand.text k)] ++
            (tape_code cx.map cx.slots_used v).1 =
          cx.actions ++ (CX_OBJ_KEY, operand.text k) :: (tape_code cx.map cx.slots_used v).1
          by simp]
        rw [emit_pop_after _ _ _ _ _ (Or.inl rfl) hw]
        simp only [hr, tape_code.members, hks]
        simp
      · simp only [tape_code.members, hks]
        apply ends_well_append _ _ _ hrw
        split
        · simp [ends_well]
        · intro a ha
          rw [getLast?_cons_ne _ _ (close_member_ends_well _).2] at ha
          exact (close_member_ends_well _).1 a ha
    | subst stype name =>
      obtain ⟨kc0, s, hkc, _⟩ := key_code_last (tape_code cx.map cx.slots_used v).2.1
        (tape_code cx.map cx.slots_used v).2.2 name stype
      obtain ⟨hr, hrw⟩ := template_members_tape_code dict rest keys
        ⟨(key_code (tape_code cx.map cx.slots_used v).2.1
            (tape_code cx.map cx.slots_used v).2.2 name stype).2.1,
          cx.actions ++ ((CX_OBJ_KEY, .text k) :: ((tape_code cx.map cx.slots_used v).1 ++
            (key_code (tape_code cx.map cx.slots_used v).2.1
              (tape_code cx.map cx.slots_used v).2.2 name stype).1 ++ [(POP_CX, .int 1)])),
          (key_code (tape_code cx.map cx.slots_used v).2.1
            (tape_code cx.map cx.slots_used v).2.2 name stype).2.2⟩ hrest
      simp only at hr hrw
      constructor
      · rw [template_actions.members,
          emit_action_append _ _ _ (show CX_OBJ_KEY ≠ POP_CX by decide)]
        simp only [hc, hks]
        rw [get_subst_slot_key_code]
        simp only [hkc]
        rw [show cx.actions ++ [(CX_OBJ_KEY, operand.text k)] ++
            (tape_code cx.map cx.slots_used v).1 ++ (kc0 ++ [(REPLACE_KEY, operand.int s)]) =
          (cx.actions ++ [(CX_OBJ_KEY, operand.text k)] ++
            (tape_code cx.map cx.slots_used v).1 ++ kc0) ++ [(REPLACE_KEY, operand.int s)]
          by simp]
        rw [emit_pop_after_key]
        simp only [tape_code.members, hks]
        rw [show cx.actions ++ (CX_OBJ_KEY, operand.text k) ::
              ((tape_code cx.map cx.slots_used v).1 ++
                (key_code (tape_code cx.map cx.slots_used v).2.1
                  (tape_code cx.map cx.slots_used v).2.2 name stype).1 ++
                [(POP_CX, operand.int 1)]) =
            cx.actions ++ [(CX_OBJ_KEY, operand.text k)] ++
              (tape_code cx.map cx.slots_used v).1 ++ kc0 ++ [(REPLACE_KEY, operand.int s)] ++
              [(POP_CX, operand.int 1)] by rw [hkc]; simp] at hr
        rw [hr]
        simp [hkc]
      · simp only [tape_code.members, hks]
        intro a ha
        by_cases hne : (tape_code.members
            (key_code (tape_code cx.map cx.slots_used v).2.1
              (tape_code cx.map cx.slots_used v).2.2 name stype).2.1
            (key_code (tape_code cx.map cx.slots_used v).2.1
              (tape_code cx.map cx.slots_used v).2.2 name stype).2.2 rest).1 = []
        · rw [hne, List.append_nil] at ha
          right
          refine ⟨1, ?_⟩
          rw [show (CX_OBJ_KEY, operand.text k) :: ((tape_code cx.map cx.slots_used v).1 ++
              (key_code (tape_code cx.map cx.slots_used v).2.1
                (tape_code cx.map cx.slots_used v).2.2 name stype).1 ++ [(POP_CX, .int 1)]) =
            ((CX_OBJ_KEY, operand.text k) :: ((tape_code cx.map cx.slots_used v).1 ++
              (key_code (tape_code cx.map cx.slots_used v).2.1
                (tape_code cx.map cx.slots_used v).2.2 name stype).1)) ++ [(POP_CX, .int 1)]
            by simp] at ha
          rw [getLast?_snoc] at ha
          simp only [Option.some.injEq] at ha
          exact ha.symm
        · rw [List.getLast?_append_of_ne_nil _ hne] at ha
          exact hrw a ha
theorem template_elems_tape_code (dict : subst_source) :
    ∀ (val : List Jval) (cx : template_cx) (i : Nat),
    keys_replaceable.elems dict val = true →
    template_actions.elems cx i val = .ok ⟨(tape_code.elems cx.map cx.slots_used i val).2.1,
      cx.actions ++ (tape_code.elems cx.map cx.slots_used i val).1,
      (tape_code.elems cx.map cx.slots_used i val).2.2⟩ ∧
    ends_well (tape_code.elems cx.map cx.slots_used i val).1
  | [], cx, i, _ => by simp [template_actions.elems, tape_code.elems, ends_well]
  | v :: rest, cx, i, h => by
    simp only [keys_replaceable.elems, Bool.and_eq_true] at h
    obtain ⟨hv, hrest⟩ := h
    obtain ⟨hc, hw⟩ := template_actions_tape_code dict v
      ⟨cx.map, cx.actions ++ [(CX_ARR_IDX, .int i)], cx.slots_used⟩ hv
    simp only at hc hw
    obtain ⟨hr, hrw⟩ := template_elems_tape_code dict rest
      ⟨(tape_code cx.map cx.slots_used v).2.1,
        cx.actions ++ (if (tape_code cx.map cx.slots_used v).1 = [] then []
          else (CX_ARR_IDX, .int i) :: close_member (tape_code cx.map cx.slots_used v).1),
        (tape_code cx.map cx.slots_used v).2.2⟩ (i + 1) hrest
    simp only at hr hrw
    constructor
    · rw [template_actions.elems,
        emit_action_append _ _ _ (show CX_ARR_IDX ≠ POP_CX by decide)]
      simp only [hc]
      rw [show cx.actions ++ [(CX_ARR_IDX, operand.int i)] ++ (tape_code cx.map cx.slots_used v).1 =
        cx.actions ++ (CX_ARR_IDX, operand.int i) :: (tape_code cx.map cx.slots_used v).1 by simp]
      rw [emit_pop_after _ _ _ _ _ (Or.inr rfl) hw]
      simp only [hr, tape_code.elems]
      simp
    · simp only [tape_code.elems]
      apply ends_well_append _ _ _ hrw
      split
      · simp [ends_well]
      · intro a ha
        rw [getLast?_cons_ne _ _ (close_member_ends_well _).2] at ha
        exact (close_member_ends_well _).1 a ha
end

/-! ## Facts about `tape_code` -/

theorem key_code_facts (map : List ((Str × dyn_type) × Nat)) (used : Nat) (name : Str)
    (stype : dyn_type) (h : map_bound map used) :
    map_bound (key_code map used name stype).2.1 (key_code map used name stype).2.2 ∧
      used ≤ (key_code map used name stype).2.2 ∧
      (∀ n t i, map_get map n t = some i →
        map_get (key_code map used name stype).2.1 n t = some i) ∧
      ∃ i, map_get (key_code map used name stype).2.1 name stype = some i := by
  obtain ⟨h1, h2, h3, _, _⟩ := code_facts_dyn map used stype name h
  rw [key_code_snd]
  refine ⟨h1, h2, h3, ?_⟩
  unfold code_of
  cases hg : map_get map name stype with
  | some slot => exact ⟨slot, hg⟩
  | none =>
    refine ⟨used, ?_⟩
    simp only
    rw [map_get_append, hg]
    simp

theorem code_facts_key_step (map : List ((Str × dyn_type) × Nat)) (used : Nat)
    (r r' : List action × List ((Str × dyn_type) × Nat) × Nat) (e : action) (name : Str)
    (stype : dyn_type)
    (h1 : code_facts map used r)
    (h2 : code_facts (key_code r.2.1 r.2.2 name stype).2.1 (key_code r.2.1 r.2.2 name stype).2.2
      r') :
    code_facts map used
      (e :: (r.1 ++ (key_code r.2.1 r.2.2 name stype).1 ++ [(POP_CX, .int 1)]) ++ r'.1, r'.2) := by
  obtain ⟨a1, a2, a3, _, _⟩ := h1
  obtain ⟨k1, k2, k3, i, k4⟩ := key_code_facts r.2.1 r.2.2 name stype a1
  obtain ⟨b1, b2, b3, _, _⟩ := h2
  refine ⟨b1, le_trans a2 (le_trans k2 b2), fun n t i h => b3 _ _ _ (k3 _ _ _ (a3 _ _ _ h)),
    fun hc => by simp at hc, fun _ => ⟨name, stype, i, b3 _ _ _ k4⟩⟩

mutual
theorem tape_code_facts :
    ∀ (v : Jval) (map : List ((Str × dyn_type) × Nat)) (used : Nat), map_bound map used →
    code_facts map used (tape_code map used v)
  | .string _, map, used, h => by simp only [tape_code]; exact code_facts_nil map used h
  | .number _, map, used, h => by simp only [tape_code]; exact code_facts_nil map used h
  | .bool _, map, used, h => by simp only [tape_code]; exact code_facts_nil map used h
  | .null, map, used, h => by simp only [tape_code]; exact code_facts_nil map used h
  | .dyn type name, map, used, h => by rw [tape_code]; exact code_facts_dyn map used type name h
  | .object val, map, used, h => by
    rw [tape_code]; exact tape_code_members_facts val map used h
  | .array val, map, used, h => by
    rw [tape_code]; exact tape_code_elems_facts val map used 0 h
theorem tape_code_members_facts :
    ∀ (val : List (Str × Jval)) (map : List ((Str × dyn_type) × Nat)) (used : Nat),
    map_bound map used → code_facts map used (tape_code.members map used val)
  | [], map, used, h => by rw [tape_code.members]; exact code_facts_nil map used h
  | (k, v) :: rest, map, used, h => by
    rw [tape_code.members]
    have h1 := tape_code_facts v map used h
    cases hks : key_subst_of k with
    | subst stype name =>
      simp only
      have hk := key_code_facts (tape_code map used v).2.1 (tape_code map used v).2.2 name stype
        h1.1
      have h2 := tape_code_members_facts rest _ _ hk.1
      exact code_facts_key_step map used _ _ _ name stype h1 h2
    | plain =>
      simp only
      have h2 := tape_code_members_facts rest _ _ h1.1
      exact code_facts_step map used _ _ _ h1 h2
    | not_allowed =>
      simp only
      have h2 := tape_code_members_facts rest _ _ h1.1
      exact code_facts_step map used _ _ _ h1 h2
theorem tape_code_elems_facts :
    ∀ (val : List Jval) (map : List ((Str × dyn_type) × Nat)) (used : Nat) (i : Nat),
    map_bound map used → code_facts map used (tape_code.elems map used i val)
  | [], map, used, i, h => by rw [tape_code.elems]; exact code_facts_nil map used h
  | v :: rest, map, used, i, h => by
    rw [tape_code.elems]
    have h1 := tape_code_facts v map used h
    have h2 := tape_code_elems_facts rest _ _ (i + 1) h1.1
    exact code_facts_step map used _ _ _ h1 h2
end

theorem dict_get_of_mem {α : Type} (d : List (Str × α)) (k : Str) (v : α)
    (hnd : (d.map Prod.fst).Nodup) (h : (k, v) ∈ d) : Tcl_DictObjGet d k = some v := by
  induction d with
  | nil => simp at h
  | cons p d ih =>
    obtain ⟨k', v'⟩ := p
    simp only [List.map_cons, List.nodup_cons] at hnd
    simp only [List.mem_cons, Prod.mk.injEq] at h
    rcases h with ⟨rfl, rfl⟩ | h
    · simp [Tcl_DictObjGet]
    · have hne : k' ≠ k := by
        intro hc
        subst hc
        exact hnd.1 (List.mem_map.mpr ⟨(k', v), h, rfl⟩)
      simp only [Tcl_DictObjGet, hne, if_false]
      exact ih hnd.2 h

theorem place_member_same (dict : subst_source) (cur : List (Str × Jval)) (k : Str) (v : Jval)
    (hk : ∀ stype name, key_subst_of k ≠ .subst stype name)
    (hg : Tcl_DictObjGet cur k = some v) : place_member dict cur k v = cur := by
  unfold place_member
  cases hks : key_subst_of k with
  | subst stype name => exact absurd hks (hk stype name)
  | plain => exact Tcl_DictObjPut_same cur k v hg
  | not_allowed => exact Tcl_DictObjPut_same cur k v hg

theorem tape_code_members_nil_keys :
    ∀ (rest : List (Str × Jval)) (map : List ((Str × dyn_type) × Nat)) (used : Nat),
    (tape_code.members map used rest).1 = [] →
    ∀ p ∈ rest, ∀ stype name, key_subst_of p.1 ≠ .subst stype name
  | [], _, _, _ => by simp
  | (k, v) :: rest, map, used, h => by
    rw [tape_code.members] at h
    intro p hp stype name hc
    cases hks : key_subst_of k with
    | subst stype' name' => simp [hks] at h
    | plain =>
      simp only [hks, List.append_eq_nil] at h
      rcases List.mem_cons.mp hp with rfl | hp'
      · rw [hks] at hc; cases hc
      · exact tape_code_members_nil_keys rest _ _ h.2 p hp' stype name hc
    | not_allowed =>
      simp only [hks, List.append_eq_nil] at h
      rcases List.mem_cons.mp hp with rfl | hp'
      · rw [hks] at hc; cases hc
      · exact tape_code_members_nil_keys rest _ _ h.2 p hp' stype name hc

theorem place_members_same (dict : subst_source) :
    ∀ (rest cur : List (Str × Jval)),
    (∀ p ∈ rest, (∀ stype name, key_subst_of p.1 ≠ .subst stype name) ∧
      Tcl_DictObjGet cur p.1 = some p.2) →
    place_members dict cur rest = cur
  | [], cur, _ => rfl
  | (k, v) :: rest, cur, h => by
    rw [place_members, place_member_same dict cur k v (h (k, v) (List.mem_cons_self _ _)).1
      (h (k, v) (List.mem_cons_self _ _)).2]
    exact place_members_same dict rest cur (fun p hp => h p (List.mem_cons_of_mem _ hp))

theorem tape_code_members_head_nil (k : Str) (v : Jval) (rest : List (Str × Jval))
    (map : List ((Str × dyn_type) × Nat)) (used : Nat)
    (h : (tape_code.members map used ((k, v) :: rest)).1 = []) :
    (tape_code map used v).1 = [] ∧
      (tape_code.members (tape_code map used v).2.1 (tape_code map used v).2.2 rest).1 = [] := by
  rw [tape_code.members] at h
  cases hks : key_subst_of k with
  | subst stype' name' => simp [hks] at h
  | plain =>
    simp only [hks, List.append_eq_nil] at h
    refine ⟨?_, h.2⟩
    by_contra hne
    simp [hne] at h
  | not_allowed =>
    simp only [hks, List.append_eq_nil] at h
    refine ⟨?_, h.2⟩
    by_contra hne
    simp [hne] at h

mutual
theorem tape_nil_subst (nested : Jval → Except TclError Jval) (dict : subst_source) :
    ∀ (v : Jval) (map : List ((Str × dyn_type) × Nat)) (used : Nat), v.wf = true →
    (tape_code map used v).1 = [] → subst_with_keys nested dict v = .ok v
  | .string _, _, _, _, _ => by simp [subst_with_keys]
  | .number _, _, _, _, _ => by simp [subst_with_keys]
  | .bool _, _, _, _, _ => by simp [subst_with_keys]
  | .null, _, _, _, _ => by simp [subst_with_keys]
  | .dyn type name, map, used, _, h => by
    rw [tape_code] at h
    exact absurd h (code_of_dyn_ends_well map used type name).2
  | .object val, map, used, hwf, h => by
    rw [tape_code] at h
    simp only [Jval.wf, Bool.and_eq_true, decide_eq_true_eq] at hwf
    rw [subst_with_keys, tape_nil_subst_members nested dict val map used hwf.1 h]
    simp only
    rw [place_members_same dict val val (fun p hp =>
      ⟨tape_code_members_nil_keys val map used h p hp, dict_get_of_mem val p.1 p.2 hwf.2 hp⟩)]
  | .array val, map, used, hwf, h => by
    rw [tape_code] at h
    simp only [Jval.wf] at hwf
    rw [subst_with_keys, tape_nil_subst_elems nested dict val map used 0 hwf h]
theorem tape_nil_subst_members (nested : Jval → Except TclError Jval) (dict : subst_source) :
    ∀ (val : List (Str × Jval)) (map : List ((Str × dyn_type) × Nat)) (used : Nat),
    Jval.wf.wfMembers val = true → (tape_code.members map used val).1 = [] →
    subst_with_keys.members nested dict val = .ok val
  | [], _, _, _, _ => by simp [subst_with_keys.members]
  | (k, v) :: rest, map, used, hwf, h => by
    simp only [Jval.wf.wfMembers, Bool.and_eq_true] at hwf
    obtain ⟨hr, hrest⟩ := tape_code_members_head_nil k v rest map used h
    rw [subst_with_keys.members, tape_nil_subst nested dict v map used hwf.1 hr]
    simp only
    rw [tape_nil_subst_members nested dict rest _ _ hwf.2 hrest]
theorem tape_nil_subst_elems (nested : Jval → Except TclError Jval) (dict : subst_source) :
    ∀ (val : List Jval) (map : List ((Str × dyn_type) × Nat)) (used : Nat) (i : Nat),
    Jval.wf.wfElems val = true → (tape_code.elems map used i val).1 = [] →
    subst_with_keys.elems nested dict val = .ok val
  | [], _, _, _, _, _ => by simp [subst_with_keys.elems]
  | v :: rest, map, used, i, hwf, h => by
    simp only [Jval.wf.wfElems, Bool.and_eq_true] at hwf
    rw [tape_code.elems] at h
    simp only [List.append_eq_nil] at h
    have hr : (tape_code map used v).1 = [] := by
      by_contra hne
      simp [hne] at h
    rw [subst_with_keys.elems, tape_nil_subst nested dict v map used hwf.1 hr]
    simp only
    rw [tape_nil_subst_elems nested dict rest _ _ (i + 1) hwf.2 h.2]
end

/-! ## The run of the instructions of a placeholder key -/

theorem Tcl_DictObjRemove_Put {α : Type} (d : List (Str × α)) (k : Str) (x : α) :
    Tcl_DictObjRemove (Tcl_DictObjPut d k x) k = Tcl_DictObjRemove d k := by
  induction d with
  | nil => simp [Tcl_DictObjPut, Tcl_DictObjRemove]
  | cons p d ih =>
    obtain ⟨k', v'⟩ := p
    by_cases h : k' = k
    · simp [Tcl_DictObjPut, Tcl_DictObjRemove, h]
    · simp [Tcl_DictObjPut, Tcl_DictObjRemove, h, ih]

theorem key_code_run (N N2 : Jval → Except TclError Jval) (T : Jval) (D : subst_source)
    (hN : ∀ nm obj j, D.fetch nm = some obj → obj.jval = .ok j → N j = N2 j)
    (name : Str) (stype : dyn_type) (knew : Str) (map : List ((Str × dyn_type) × Nat))
    (used : Nat) (st : apply_state)
    (hinv : slots_inv N2 D map st.slots) (hb : map_bound map used)
    (hs : (key_code map used name stype).2.2 ≤ st.slots.length)
    (hkey : ∃ r, coerce_value string_jval N2 D stype name = .ok r ∧ key_text r = some knew) :
    ∃ (st' : apply_state) (slot : Nat) (r : Jval),
      (key_code map used name stype).1 =
        (key_code map used name stype).1.dropLast ++ [(REPLACE_KEY, .int slot)] ∧
      apply_loop N T D (key_code map used name stype).1.dropLast st = .ok st' ∧
      st'.containers = st.containers ∧ st'.stacklevel = st.stacklevel ∧
      st'.stacklevels = st.stacklevels ∧ st'.slots.length = st.slots.length ∧
      slots_inv N2 D (key_code map used name stype).2.1 st'.slots ∧
      st'.slots.getD slot none = some r ∧ key_text r = some knew := by
  obtain ⟨r, hc, hkt⟩ := hkey
  unfold key_code at hs ⊢
  cases hg : map_get map name stype with
  | some slot =>
    obtain ⟨r', hr', hslot⟩ := hinv name stype slot hg
    rw [hc] at hr'
    simp only [Except.ok.injEq] at hr'
    subst hr'
    exact ⟨st, slot, r, rfl, rfl, rfl, rfl, rfl, rfl, hinv, hslot, hkt⟩
  | none =>
    simp only [hg] at hs
    simp only [List.dropLast_concat]
    have hs' : used < st.slots.length := by omega
    have hpop := slot_population_run N N2 T D name stype used st hs' hN
    simp only [hc] at hpop
    obtain ⟨s1, hrun, hslots, hcont, hlev, hlevs, _⟩ := hpop
    have hget : s1.slots.getD used none = some r := by
      rw [hslots]; exact getD_set_eq _ _ _ _ hs'
    refine ⟨s1, used, r, rfl, hrun, hcont, hlev, hlevs, by simp [hslots], ?_, hget, hkt⟩
    intro n t i hi
    rw [map_get_append] at hi
    split at hi
    · next j hj =>
      simp only [Option.some.injEq] at hi
      subst hi
      obtain ⟨r', hr', hs''⟩ := hinv n t j hj
      refine ⟨r', hr', ?_⟩
      rw [hslots, getD_set_ne _ _ _ _ _ (by have := hb _ _ _ hj; omega)]
      exact hs''
    · split at hi
      · next hnt =>
        simp only [Option.some.injEq] at hi
        subst hi
        obtain ⟨rfl, rfl⟩ := hnt
        exact ⟨r, hc, hget⟩
      · cases hi

theorem replace_key_run (N : Jval → Except TclError Jval) (T : Jval) (D : subst_source)
    (st : apply_state) (level slot : Nat) (container : List (Str × Jval)) (k knew : Str)
    (r hold : Jval)
    (hl : st.stacklevel = level + 1) (hfr : frames_ok st.containers level)
    (htop : st.containers.getD (level + 1) none = some ⟨.object container, some (.text k)⟩)
    (hslot : st.slots.getD slot none = some r) (hkt : key_text r = some knew)
    (hhold : Tcl_DictObjGet container k = some hold) :
    ∃ w, replace (st.containers.set (level + 1)
          (some ⟨.object (Tcl_DictObjPut (Tcl_DictObjRemove container k) knew hold),
            some (.text k)⟩)) level
          (.object (Tcl_DictObjPut (Tcl_DictObjRemove container k) knew hold)) = .ok w ∧
      apply_action N T D st (REPLACE_KEY, .int slot) = .ok { st with containers := w } ∧
      w.getD (level + 1) none =
        some ⟨.object (Tcl_DictObjPut (Tcl_DictObjRemove container k) knew hold),
          some (.text k)⟩ ∧
      frames_ok w level ∧ w.length = st.containers.length := by
  have hlt := getD_some_lt _ _ _ htop
  have hfrw : frames_ok (st.containers.set (level + 1)
      (some ⟨.object (Tcl_DictObjPut (Tcl_DictObjRemove container k) knew hold),
        some (.text k)⟩)) level :=
    frames_ok_agree (agree_symm (agree_set_above level (level + 1) st.containers _ (by omega))) hfr
  obtain ⟨w, hw, hwok, hwlen, hwabove⟩ := replace_ok level _
    (.object (Tcl_DictObjPut (Tcl_DictObjRemove container k) knew hold)) hfrw
  refine ⟨w, hw, ?_, ?_, hwok, by simpa using hwlen⟩
  · simp only [apply_action, operand.toInt, hl, htop, hslot, Option.bind, hkt, operand.toStr,
      hhold, hw]
  · rw [hwabove (level + 1) (by omega)]
    exact getD_set_eq _ _ _ _ hlt

theorem key_member_step (N N2 : Jval → Except TclError Jval) (T : Jval) (D : subst_source)
    (hN : ∀ nm obj j, D.fetch nm = some obj → obj.jval = .ok j → N j = N2 j)
    (st s2 : apply_state) (level : Nat) (k knew name : Str) (stype : dyn_type)
    (cv : List action) (cur : List (Str × Jval)) (v v' : Jval)
    (map1 : List ((Str × dyn_type) × Nat)) (used1 : Nat)
    (hl : st.stacklevel = level) (hcap : st.stacklevels = st.containers.length)
    (hfr : frames_ok st.containers level) (hroom : level + 1 < st.containers.length)
    (ht : st.target = some (.object cur)) (hget : Tcl_DictObjGet cur k = some v)
    (hrun : apply_loop N T D cv { st with
        stacklevel := level + 1
        containers := st.containers.set (level + 1) (some ⟨.object cur, some (.text k)⟩)
        target := some v } = .ok s2)
    (hl2 : s2.stacklevel = level + 1)
    (hinv2 : slots_inv N2 D map1 s2.slots) (hb1 : map_bound map1 used1)
    (hs : (key_code map1 used1 name stype).2.2 ≤ s2.slots.length)
    (hkey : ∃ r, coerce_value string_jval N2 D stype name = .ok r ∧ key_text r = some knew)
    (hnil : cv = [] → v' = v)
    (hrep : cv ≠ [] → ∃ cs', replace (st.containers.set (level + 1)
        (some ⟨.object cur, some (.text k)⟩)) (level + 1) v' = .ok cs' ∧
      agree (level + 1) s2.containers cs') :
    ∃ s3 b2, apply_loop N T D ((CX_OBJ_KEY, .text k) ::
          (cv ++ (key_code map1 used1 name stype).1 ++ [(POP_CX, .int 1)])) st = .ok s3 ∧
      s3.target = some (.object (Tcl_DictObjPut (Tcl_DictObjRemove cur k) knew v')) ∧
      s3.stacklevel = level ∧ s3.stacklevels = s2.stacklevels ∧
      s3.containers.length = s2.containers.length ∧ s3.slots.length = s2.slots.length ∧
      slots_inv N2 D (key_code map1 used1 name stype).2.1 s3.slots ∧
      frames_ok s3.containers level ∧
      replace st.containers level
        (.object (Tcl_DictObjPut (Tcl_DictObjRemove cur k) knew v')) = .ok b2 ∧
      agree level s3.containers b2 := by
  have hcx1 : apply_action N T D st (CX_OBJ_KEY, .text k) = .ok { st with
      stacklevel := level + 1
      containers := st.containers.set (level + 1) (some ⟨.object cur, some (.text k)⟩)
      target := some v } := by
    simp only [apply_action, enter, ht, hl, operand.toStr, hget]
    rw [if_neg (by omega)]
  have hfo : frame_ok ⟨.object cur, some (.text k)⟩ := by simp [frame_ok]
  have hfr1 := enter_frames st.containers level ⟨.object cur, some (.text k)⟩ hfr hroom hfo
  have htop1 : (st.containers.set (level + 1) (some ⟨.object cur, some (.text k)⟩)).getD
      (level + 1) none = some ⟨.object cur, some (.text k)⟩ := getD_set_eq _ _ _ _ hroom
  have hag1 : agree level (st.containers.set (level + 1) (some ⟨.object cur, some (.text k)⟩))
      st.containers := agree_set_above _ _ _ _ (by omega)
  have hfacts : s2.containers.getD (level + 1) none =
        some ⟨.object (Tcl_DictObjPut cur k v'), some (.text k)⟩ ∧
      frames_ok s2.containers level ∧
      ∀ (cs : List (Option cx_stack)) (Y : Jval) (w : List (Option cx_stack)),
        agree level cs s2.containers → replace cs level Y = .ok w →
        ∃ b, replace st.containers level Y = .ok b ∧ agree level w b := by
    by_cases hcv : cv = []
    · subst hcv
      simp only [apply_loop, Except.ok.injEq] at hrun
      subst hrun
      rw [hnil rfl, Tcl_DictObjPut_same cur k v hget]
      refine ⟨htop1, frames_ok_agree (agree_symm hag1) hfr, ?_⟩
      intro cs Y w hcs hw
      exact replace_agree level cs st.containers Y (agree_trans hcs hag1)
        (frames_ok_agree (agree_symm (agree_trans hcs hag1)) hfr) w hw
    · obtain ⟨cs', hcs', hag⟩ := hrep hcv
      have hstore : store_elem (cx_stack.mk (.object cur) (some (.text k))).target (.text k) v' =
          .ok (.object (Tcl_DictObjPut cur k v')) := rfl
      have htop := replace_top _ (level + 1) v' ⟨.object cur, some (.text k)⟩ (.text k)
        (.object (Tcl_DictObjPut cur k v')) cs' hfr1 htop1 rfl hstore hcs'
      obtain ⟨b, hb, hagb⟩ := replace_succ_agree _ level v' ⟨.object cur, some (.text k)⟩
        (.text k) (.object (Tcl_DictObjPut cur k v')) cs' hfr1 htop1 rfl hstore hcs'
      have hfr1' : frames_ok (st.containers.set (level + 1)
          (some ⟨.object cur, some (.text k)⟩)) level := fun i hi => hfr1 i (by omega)
      obtain ⟨b2, hb2, hagb2⟩ := replace_agree level _ st.containers
        (.object (Tcl_DictObjPut cur k v')) hag1 hfr1' b hb
      have hag2 : agree level s2.containers b2 :=
        agree_trans (agree_mono hag (by omega)) (agree_trans hagb hagb2)
      obtain ⟨b2', hb2', hb2ok, _, _⟩ := replace_ok level st.containers
        (.object (Tcl_DictObjPut cur k v')) hfr
      rw [hb2] at hb2'
      simp only [Except.ok.injEq] at hb2'
      subst hb2'
      refine ⟨by rw [hag (level + 1) (le_refl _)]; exact htop,
        frames_ok_agree (agree_symm hag2) hb2ok, ?_⟩
      intro cs Y w hcs hw
      exact chain_frames st.containers cs w b2 w level _ Y hfr hb2 (agree_trans hcs hag2) hw
        (fun _ _ => rfl)
  obtain ⟨hC1, hC2, hC3⟩ := hfacts
  obtain ⟨s2', slot, r, hkc, hrunk, hck, hlk, hlvk, hslk, hinvk, hslot, hkt⟩ :=
    key_code_run N N2 T D hN name stype knew map1 used1 s2 hinv2 hb1 hs hkey
  obtain ⟨w, hw, hact, hwtop, hwok, hwlen⟩ := replace_key_run N T D s2' level slot
    (Tcl_DictObjPut cur k v') k knew r v' (by rw [hlk, hl2]) (by rw [hck]; exact hC2)
    (by rw [hck]; exact hC1) hslot hkt (Tcl_DictObjGet_Put cur k v')
  rw [Tcl_DictObjRemove_Put] at hw hwtop
  obtain ⟨b2, hb2, hagb2⟩ := hC3 _ _ w
    (by rw [hck]; exact agree_set_above _ _ _ _ (by omega)) hw
  refine ⟨{ s2' with
      containers := w
      stacklevel := level
      target := some (.object (Tcl_DictObjPut (Tcl_DictObjRemove cur k) knew v')) }, b2, ?_, rfl,
    rfl, hlvk, by simp only [hwlen, hck], hslk, hinvk, hwok, hb2, hagb2⟩
  simp only [apply_loop, hcx1]
  rw [hkc, show cv ++ ((key_code map1 used1 name stype).1.dropLast ++
        [(REPLACE_KEY, operand.int slot)]) ++ [(POP_CX, operand.int 1)] =
      cv ++ ((key_code map1 used1 name stype).1.dropLast ++
        [(REPLACE_KEY, operand.int slot), (POP_CX, operand.int 1)]) by simp,
    apply_loop_append, hrun]
  simp only
  rw [apply_loop_append, hrunk]
  simp only [apply_loop, hact]
  have h1 : ¬ level + 1 < 1 := by omega
  have h2 : level + 1 - 1 + 1 = level + 1 := by omega
  have h3 : level + 1 - 1 = level := by omega
  simp only [apply_action, operand.toInt, hlk, hl2, h1, if_false, h2, h3, hwtop]

theorem key_error_front (x : action) (cv kc cr : List action) :
    (x :: cv.dropLast) <+: ((x :: (cv ++ kc ++ [(POP_CX, operand.int 1)])) ++ cr).dropLast := by
  have e : (x :: (cv ++ kc ++ [(POP_CX, operand.int 1)])) ++ cr =
      (x :: cv) ++ (kc ++ [(POP_CX, operand.int 1)] ++ cr) := by simp
  rw [e, List.dropLast_append_of_ne_nil _ (by simp)]
  refine List.IsPrefix.trans ?_ (List.prefix_append _ _)
  exact (List.prefix_cons_inj x).mpr ( List.dropLast_prefix cv)

/-- One member with a placeholder key followed by the members after it: the
entry, the instructions of the value, the instructions of the key, the return,
then the rest. -/
theorem key_step_run {β : Type} (N N2 : Jval → Except TclError Jval) (T : Jval)
    (D : subst_source)
    (hN : ∀ nm obj j, D.fetch nm = some obj → obj.jval = .ok j → N j = N2 j)
    (st : apply_state) (level : Nat) (k knew name : Str) (stype : dyn_type)
    (cv cr : List action) (cur : List (Str × Jval)) (v : Jval)
    (dv : Except TclError Jval) (dr : Except TclError β) (Vfin : Jval → β → Jval)
    (map0 map1 map2 : List ((Str × dyn_type) × Nat)) (used1 used2 : Nat)
    (hpre : exec_pre st level ((CX_OBJ_KEY, .text k) ::
      (cv ++ (key_code map1 used1 name stype).1 ++ [(POP_CX, operand.int 1)]) ++ cr) used2)
    (hu : (key_code map1 used1 name stype).2.2 ≤ used2) (hb1 : map_bound map1 used1)
    (ht : st.target = some (.object cur)) (hinv : slots_inv N2 D map0 st.slots)
    (hget : Tcl_DictObjGet cur k = some v)
    (hkey : ∃ r, coerce_value string_jval N2 D stype name = .ok r ∧ key_text r = some knew)
    (hnilv : cv = [] → dv = .ok v ∧ map1 = map0)
    (hnilr : cr = [] → ∃ r0, dr = .ok r0 ∧
      ∀ x, Vfin x r0 = .object (Tcl_DictObjPut (Tcl_DictObjRemove cur k) knew x))
    (IHv : ∀ s1 : apply_state, s1.target = some v → exec_pre s1 (level + 1) cv used1 →
      slots_inv N2 D map0 s1.slots →
      on_result dv (fun err => apply_loop N T D cv.dropLast s1 = .error err)
        (fun v' => ∃ s2, apply_loop N T D cv s1 = .ok s2 ∧ exec_post s1 s2 (level + 1) ∧
          slots_inv N2 D map1 s2.slots ∧
          (cv ≠ [] → ∃ cs', replace s1.containers (level + 1) v' = .ok cs' ∧
            agree (level + 1) s2.containers cs')))
    (IHr : ∀ (x : Jval) (s3 : apply_state),
      s3.target = some (.object (Tcl_DictObjPut (Tcl_DictObjRemove cur k) knew x)) →
      exec_pre s3 level cr used2 →
      slots_inv N2 D (key_code map1 used1 name stype).2.1 s3.slots →
      on_result dr (fun err => apply_loop N T D cr.dropLast s3 = .error err)
        (fun r' => ∃ s4, apply_loop N T D cr s3 = .ok s4 ∧ exec_post s3 s4 level ∧
          slots_inv N2 D map2 s4.slots ∧
          (cr ≠ [] → (∃ cs'', replace s3.containers level (Vfin x r') = .ok cs'' ∧
            agree level s4.containers cs'') ∧ s4.target = some (Vfin x r')))) :
    on_result dv
      (fun err =>
        apply_loop N T D ((CX_OBJ_KEY, .text k) ::
          (cv ++ (key_code map1 used1 name stype).1 ++ [(POP_CX, operand.int 1)]) ++ cr).dropLast st =
          .error err)
      (fun v' => on_result dr
        (fun err =>
          apply_loop N T D ((CX_OBJ_KEY, .text k) ::
            (cv ++ (key_code map1 used1 name stype).1 ++ [(POP_CX, operand.int 1)]) ++ cr).dropLast st =
            .error err)
        (fun r' => ∃ st',
          apply_loop N T D ((CX_OBJ_KEY, .text k) ::
            (cv ++ (key_code map1 used1 name stype).1 ++ [(POP_CX, operand.int 1)]) ++ cr) st =
            .ok st' ∧
          exec_post st st' level ∧ slots_inv N2 D map2 st'.slots ∧
          (∃ cf, replace st.containers level (Vfin v' r') = .ok cf ∧
            agree level st'.containers cf) ∧ st'.target = some (Vfin v' r'))) := by
  obtain ⟨hl, hcap, hfr, hdepth, hused⟩ := hpre
  obtain ⟨_, hu1, _, _⟩ := key_code_facts map1 used1 name stype hb1
  have hd1 : max_depth ((CX_OBJ_KEY, operand.text k) ::
        (cv ++ (key_code map1 used1 name stype).1 ++ [(POP_CX, operand.int 1)]) ++ cr)
        (level + 1, level + 1) =
      max_depth (cv ++ ((key_code map1 used1 name stype).1 ++ [(POP_CX, operand.int 1)] ++ cr))
        (level + 2, level + 2) := by
    simp [max_depth]
  have hcapv : (max_depth cv (level + 2, level + 2)).2 ≤ st.stacklevels := by
    rw [hd1, max_depth_append] at hdepth
    have h2 := max_depth_ge ((key_code map1 used1 name stype).1 ++ [(POP_CX, operand.int 1)] ++ cr)
      (max_depth cv (level + 2, level + 2)).1 (max_depth cv (level + 2, level + 2)).2
    exact le_trans h2 hdepth
  have hge := max_depth_ge cv (level + 2) (level + 2)
  have hroom : level + 1 < st.containers.length := by omega
  have hfo : frame_ok ⟨.object cur, some (.text k)⟩ := by simp [frame_ok]
  have hfr1 := enter_frames st.containers level ⟨.object cur, some (.text k)⟩ hfr hroom hfo
  have hcx1 : apply_action N T D st (CX_OBJ_KEY, .text k) = .ok { st with
      stacklevel := level + 1
      containers := st.containers.set (level + 1) (some ⟨.object cur, some (.text k)⟩)
      target := some v } := by
    simp only [apply_action, enter, ht, hl, operand.toStr, hget]
    rw [if_neg (by omega)]
  have h := IHv { st with
      stacklevel := level + 1
      containers := st.containers.set (level + 1) (some ⟨.object cur, some (.text k)⟩)
      target := some v } rfl ⟨rfl, by simp [hcap], hfr1, hcapv, by show used1 ≤ st.slots.length; omega⟩ hinv
  cases dv with
  | error err =>
    simp only [on_result] at h ⊢
    refine apply_loop_error_front N T D ((CX_OBJ_KEY, .text k) :: cv.dropLast) _ st err ?_
      (key_error_front _ cv _ cr)
    simp only [apply_loop, hcx1]
    exact h
  | ok v' =>
    simp only [on_result] at h ⊢
    obtain ⟨s2, hrun2, hpost2, hinv2, hrep2⟩ := h
    obtain ⟨p1, p2, p3, p4⟩ := hpost2
    simp only [List.length_set] at p2 p3 p4
    obtain ⟨s3, b2, hrun3, ht3, hl3, hlv3, hc3, hsl3, hinv3, hfr3, hb2, hag3⟩ :=
      key_member_step N N2 T D hN st s2 level k knew name stype cv cur v v' map1 used1 hl hcap
        hfr hroom ht hget hrun2 p1 hinv2 hb1 (by rw [p4]; omega) hkey
        (fun hc => by
          have := (hnilv hc).1
          simp only [Except.ok.injEq] at this
          exact this)
        hrep2
    have hlev := apply_loop_level N T D _ st s3 (level + 1) hrun3
    rw [hl, hl3] at hlev
    have hd3 : (max_depth cr (level + 1, level + 1)).2 ≤ s3.stacklevels := by
      rw [max_depth_append] at hdepth
      have hm := max_depth_ge ((CX_OBJ_KEY, operand.text k) ::
        (cv ++ (key_code map1 used1 name stype).1 ++ [(POP_CX, operand.int 1)])) (level + 1) (level + 1)
      have hpair : max_depth ((CX_OBJ_KEY, operand.text k) ::
            (cv ++ (key_code map1 used1 name stype).1 ++ [(POP_CX, operand.int 1)]))
            (level + 1, level + 1) =
          (level + 1, (max_depth ((CX_OBJ_KEY, operand.text k) ::
            (cv ++ (key_code map1 used1 name stype).1 ++ [(POP_CX, operand.int 1)]))
            (level + 1, level + 1)).2) :=
        Prod.ext hlev rfl
      rw [hpair] at hdepth
      have := (max_depth_mono cr (level + 1) (level + 1) _ hm).1
      rw [hlv3, p2]
      omega
    have h4 := IHr v' s3 ht3
      ⟨hl3, by rw [hlv3, p2, hc3, p3]; exact hcap, hfr3, hd3, by rw [hsl3, p4]; exact hused⟩
      hinv3
    cases dr with
    | error err =>
      simp only [on_result] at h4 ⊢
      have hcr : cr ≠ [] := by
        intro hc
        obtain ⟨r0, hr0, _⟩ := hnilr hc
        cases hr0
      rw [List.dropLast_append_of_ne_nil _ hcr, apply_loop_append, hrun3]
      exact h4
    | ok r' =>
      simp only [on_result] at h4 ⊢
      obtain ⟨s4, hrun4, ⟨q1, q2, q3, q4⟩, hinv4, hc4⟩ := h4
      refine ⟨s4, ?_, ⟨q1, by rw [q2, hlv3, p2], by rw [q3, hc3, p3], by rw [q4, hsl3, p4]⟩,
        hinv4, ?_⟩
      · rw [apply_loop_append, hrun3]
        exact hrun4
      · refine member_combine N T D st s3 s4 level cr b2 _ (Vfin v' r') hfr ht3 hb2
          hag3 hrun4 ?_ hc4
        intro hc
        obtain ⟨r0, hr0, hV⟩ := hnilr hc
        simp only [Except.ok.injEq] at hr0
        subst hr0
        exact hV v'

/-! ## The run of the instructions of a value with placeholder keys -/

theorem Tcl_DictObjGet_Put_ne {α : Type} (d : List (Str × α)) (k k' : Str) (v : α)
    (h : k' ≠ k) : Tcl_DictObjGet (Tcl_DictObjPut d k v) k' = Tcl_DictObjGet d k' := by
  induction d with
  | nil => simp [Tcl_DictObjPut, Tcl_DictObjGet, Ne.symm h]
  | cons p d ih =>
    obtain ⟨k2, v2⟩ := p
    by_cases h2 : k2 = k
    · subst h2
      simp [Tcl_DictObjPut, Tcl_DictObjGet, Ne.symm h]
    · by_cases h3 : k2 = k'
      · subst h3
        simp [Tcl_DictObjPut, Tcl_DictObjGet, h]
      · simp [Tcl_DictObjPut, Tcl_DictObjGet, h2, h3, ih]

theorem Tcl_DictObjGet_Remove_ne {α : Type} (d : List (Str × α)) (k k' : Str)
    (h : k' ≠ k) : Tcl_DictObjGet (Tcl_DictObjRemove d k) k' = Tcl_DictObjGet d k' := by
  induction d with
  | nil => simp [Tcl_DictObjRemove, Tcl_DictObjGet]
  | cons p d ih =>
    obtain ⟨k2, v2⟩ := p
    by_cases h2 : k2 = k
    · subst h2
      simp [Tcl_DictObjRemove, Tcl_DictObjGet, Ne.symm h, ih]
    · by_cases h3 : k2 = k'
      · subst h3
        simp [Tcl_DictObjRemove, Tcl_DictObjGet, h]
      · simp [Tcl_DictObjRemove, Tcl_DictObjGet, h2, h3, ih]

theorem key_subst_of_type (k name : Str) (stype : dyn_type)
    (h : key_subst_of k = .subst stype name) : stype = DYN_STRING ∨ stype = DYN_LITERAL := by
  unfold key_subst_of at h
  split at h
  · split at h
    · simp only [key_subst.subst.injEq] at h; exact Or.inl h.1.symm
    · split at h
      · simp only [key_subst.subst.injEq] at h; exact Or.inr h.1.symm
      · split at h <;> cases h
  · cases h

theorem new_key_coerce (N : Jval → Except TclError Jval) (D : subst_source) (k knew name : Str)
    (stype : dyn_type) (hks : key_subst_of k = .subst stype name)
    (h : new_key D k = some knew) :
    ∃ r, coerce_value string_jval N D stype name = .ok r ∧ key_text r = some knew := by
  simp only [new_key, hks] at h
  rcases key_subst_of_type k name stype hks with rfl | rfl
  · simp only [coerce_value] at h ⊢
    cases hf : D.fetch name with
    | none => simp [hf, key_text] at h
    | some obj =>
      simp only [hf] at h
      exact ⟨_, rfl, h⟩
  · simp only [coerce_value] at h ⊢
    exact ⟨_, rfl, h⟩

theorem rest_get_after_put (cur rest : List (Str × Jval)) (k : Str) (x : Jval)
    (hk : k ∉ rest.map Prod.fst) (h : ∀ p ∈ rest, Tcl_DictObjGet cur p.1 = some p.2) :
    ∀ p ∈ rest, Tcl_DictObjGet (Tcl_DictObjPut cur k x) p.1 = some p.2 := by
  intro p hp
  have hne : p.1 ≠ k := by
    intro hc
    exact hk (List.mem_map.mpr ⟨p, hp, hc⟩)
  rw [Tcl_DictObjGet_Put_ne _ _ _ _ hne]
  exact h p hp

theorem rest_get_after_rename (cur rest : List (Str × Jval)) (k knew : Str) (x : Jval)
    (hk : k ∉ rest.map Prod.fst) (hn : knew ∉ rest.map Prod.fst)
    (h : ∀ p ∈ rest, Tcl_DictObjGet cur p.1 = some p.2) :
    ∀ p ∈ rest, Tcl_DictObjGet (Tcl_DictObjPut (Tcl_DictObjRemove cur k) knew x) p.1 =
      some p.2 := by
  intro p hp
  have hne : p.1 ≠ k := by
    intro hc
    exact hk (List.mem_map.mpr ⟨p, hp, hc⟩)
  have hne2 : p.1 ≠ knew := by
    intro hc
    exact hn (List.mem_map.mpr ⟨p, hp, hc⟩)
  rw [Tcl_DictObjGet_Put_ne _ _ _ _ hne2, Tcl_DictObjGet_Remove_ne _ _ _ hne]
  exact h p hp

theorem place_member_plain (dict : subst_source) (cur : List (Str × Jval)) (k : Str) (x : Jval)
    (hk : ∀ stype name, key_subst_of k ≠ .subst stype name) :
    place_member dict cur k x = Tcl_DictObjPut cur k x := by
  unfold place_member
  cases hks : key_subst_of k with
  | subst stype name => exact absurd hks (hk stype name)
  | plain => rfl
  | not_allowed => rfl

theorem place_member_subst (dict : subst_source) (cur : List (Str × Jval)) (k knew name : Str)
    (stype : dyn_type) (x : Jval) (hks : key_subst_of k = .subst stype name)
    (hn : new_key dict k = some knew) :
    place_member dict cur k x = Tcl_DictObjPut (Tcl_DictObjRemove cur k) knew x := by
  unfold place_member
  simp only [hks, hn, Option.getD_some]

mutual
/-- The instructions of a value with placeholder keys, run in a state whose
target is that value, do what the substitution with keys does to it. -/
theorem value_run_keys (N N2 : Jval → Except TclError Jval) (T : Jval) (D : subst_source)
    (hN : ∀ nm obj j, D.fetch nm = some obj → obj.jval = .ok j → N j = N2 j) :
    ∀ (v : Jval) (map : List ((Str × dyn_type) × Nat)) (used : Nat) (st : apply_state)
      (level : Nat),
    v.wf = true → keys_replaceable D v = true → st.target = some v →
    exec_pre st level (tape_code map used v).1 (tape_code map used v).2.2 →
    slots_inv N2 D map st.slots → map_bound map used →
    match subst_with_keys N2 D v with
    | .error e => apply_loop N T D (tape_code map used v).1.dropLast st = .error e
    | .ok v' => ∃ st', apply_loop N T D (tape_code map used v).1 st = .ok st' ∧
        exec_post st st' level ∧ slots_inv N2 D (tape_code map used v).2.1 st'.slots ∧
        ((tape_code map used v).1 ≠ [] → ∃ cs', replace st.containers level v' = .ok cs' ∧
          agree level st'.containers cs')
  | .string _, map, used, st, level, _, _, _, hpre, hinv, _ => by
    simp only [tape_code, subst_with_keys]
    exact ⟨st, rfl, ⟨hpre.1, rfl, rfl, rfl⟩, hinv, fun h => absurd rfl h⟩
  | .number _, map, used, st, level, _, _, _, hpre, hinv, _ => by
    simp only [tape_code, subst_with_keys]
    exact ⟨st, rfl, ⟨hpre.1, rfl, rfl, rfl⟩, hinv, fun h => absurd rfl h⟩
  | .bool _, map, used, st, level, _, _, _, hpre, hinv, _ => by
    simp only [tape_code, subst_with_keys]
    exact ⟨st, rfl, ⟨hpre.1, rfl, rfl, rfl⟩, hinv, fun h => absurd rfl h⟩
  | .null, map, used, st, level, _, _, _, hpre, hinv, _ => by
    simp only [tape_code, subst_with_keys]
    exact ⟨st, rfl, ⟨hpre.1, rfl, rfl, rfl⟩, hinv, fun h => absurd rfl h⟩
  | .dyn type name, map, used, st, level, _, _, _, hpre, hinv, hb => by
    rw [tape_code] at hpre ⊢
    have h := dyn_run N N2 T D hN type name map used st level hpre hinv hb
    simp only [subst_with_keys]
    cases hc : coerce_value string_jval N2 D type name with
    | error e => simp only [hc] at h ⊢; exact h
    | ok r =>
      simp only [hc] at h ⊢
      obtain ⟨st', h1, h2, h3, h4⟩ := h
      exact ⟨st', h1, h2, h3, fun _ => h4⟩
  | .object val, map, used, st, level, hwf, hkp, ht, hpre, hinv, hb => by
    simp only [Jval.wf, Bool.and_eq_true, decide_eq_true_eq] at hwf
    simp only [keys_replaceable, Bool.and_eq_true] at hkp
    have h := members_run_keys N N2 T D hN val val (val.map Prod.fst) map used st level hwf.1
      hkp.2 hwf.2 (fun p hp => List.mem_map.mpr ⟨p, hp, rfl⟩)
      (fun p hp => dict_get_of_mem val p.1 p.2 hwf.2 hp) ht
      (by rw [tape_code] at hpre; exact hpre) hinv hb
    simp only [subst_with_keys]
    rw [tape_code]
    cases hm : subst_with_keys.members N2 D val with
    | error e => simp only [hm] at h ⊢; exact h
    | ok r =>
      simp only [hm] at h ⊢
      obtain ⟨st', h1, h2, h3, h4⟩ := h
      exact ⟨st', h1, h2, h3, fun hne => (h4 hne).1⟩
  | .array val, map, used, st, level, hwf, hkp, ht, hpre, hinv, hb => by
    simp only [Jval.wf] at hwf
    simp only [keys_replaceable] at hkp
    have h := elems_run_keys N N2 T D hN val [] map used 0 st level hwf hkp rfl
      (by simpa using ht) (by rw [tape_code] at hpre; exact hpre) hinv hb
    simp only [subst_with_keys]
    rw [tape_code]
    cases hm : subst_with_keys.elems N2 D val with
    | error e => simp only [hm] at h ⊢; exact h
    | ok r =>
      simp only [hm, List.nil_append] at h ⊢
      obtain ⟨st', h1, h2, h3, h4⟩ := h
      exact ⟨st', h1, h2, h3, fun hne => (h4 hne).1⟩
/-- The instructions of the members `rest` of an object, run when the members
before them have been stored and the object is `cur`. -/
theorem members_run_keys (N N2 : Jval → Except TclError Jval) (T : Jval) (D : subst_source)
    (hN : ∀ nm obj j, D.fetch nm = some obj → obj.jval = .ok j → N j = N2 j) :
    ∀ (rest cur : List (Str × Jval)) (keys : List Str) (map : List ((Str × dyn_type) × Nat))
      (used : Nat) (st : apply_state) (level : Nat),
    Jval.wf.wfMembers rest = true → keys_replaceable.members D keys rest = true →
    (rest.map Prod.fst).Nodup → (∀ p ∈ rest, p.1 ∈ keys) →
    (∀ p ∈ rest, Tcl_DictObjGet cur p.1 = some p.2) → st.target = some (.object cur) →
    exec_pre st level (tape_code.members map used rest).1 (tape_code.members map used rest).2.2 →
    slots_inv N2 D map st.slots → map_bound map used →
    match subst_with_keys.members N2 D rest with
    | .error e => apply_loop N T D (tape_code.members map used rest).1.dropLast st = .error e
    | .ok rest' => ∃ st', apply_loop N T D (tape_code.members map used rest).1 st = .ok st' ∧
        exec_post st st' level ∧ slots_inv N2 D (tape_code.members map used rest).2.1 st'.slots ∧
        ((tape_code.members map used rest).1 ≠ [] →
          (∃ cf, replace st.containers level (.object (place_members D cur rest')) = .ok cf ∧
            agree level st'.containers cf) ∧
          st'.target = some (.object (place_members D cur rest')))
  | [], cur, keys, map, used, st, level, _, _, _, _, _, _, hpre, hinv, _ => by
    simp only [tape_code.members, subst_with_keys.members]
    exact ⟨st, rfl, ⟨hpre.1, rfl, rfl, rfl⟩, hinv, fun h => absurd rfl h⟩
  | (k, v) :: rest2, cur, keys, map, used, st, level, hwf, hkp, hnd, hsub, hcur, ht, hpre, hinv,
      hb => by
    simp only [Jval.wf.wfMembers, Bool.and_eq_true] at hwf
    obtain ⟨⟨knew, hnew, hknew⟩, hkv, hkrest⟩ := keys_replaceable_head D keys k v rest2 hkp
    simp only [List.map_cons, List.nodup_cons] at hnd
    have hgetk : Tcl_DictObjGet cur k = some v := hcur (k, v) (List.mem_cons_self _ _)
    have hsub2 : ∀ p ∈ rest2, p.1 ∈ keys := fun p hp => hsub p (List.mem_cons_of_mem _ hp)
    have hcur2 : ∀ p ∈ rest2, Tcl_DictObjGet cur p.1 = some p.2 :=
      fun p hp => hcur p (List.mem_cons_of_mem _ hp)
    have hf1 := tape_code_facts v map used hb
    cases hks : key_subst_of k with
    | subst stype name =>
      have hkn : knew ∉ rest2.map Prod.fst := by
        rcases hknew with h | h
        · rw [hks] at h; cases h
        · intro hc
          obtain ⟨p, hp, hpk⟩ := List.mem_map.mp hc
          exact h (hpk ▸ hsub2 p hp)
      have hkf := key_code_facts (tape_code map used v).2.1 (tape_code map used v).2.2 name
        stype hf1.1
      have hf2 := tape_code_members_facts rest2 _ _ hkf.1
      rw [tape_code.members] at hpre ⊢
      simp only [hks] at hpre ⊢
      have h := key_step_run N N2 T D hN st level k knew name stype
        (tape_code map used v).1
        (tape_code.members
          (key_code (tape_code map used v).2.1 (tape_code map used v).2.2 name stype).2.1
          (key_code (tape_code map used v).2.1 (tape_code map used v).2.2 name stype).2.2
          rest2).1
        cur v (subst_with_keys N2 D v) (subst_with_keys.members N2 D rest2)
        (fun x r' => .object (place_members D
          (Tcl_DictObjPut (Tcl_DictObjRemove cur k) knew x) r'))
        map (tape_code map used v).2.1
        (tape_code.members
          (key_code (tape_code map used v).2.1 (tape_code map used v).2.2 name stype).2.1
          (key_code (tape_code map used v).2.1 (tape_code map used v).2.2 name stype).2.2
          rest2).2.1
        (tape_code map used v).2.2
        (tape_code.members
          (key_code (tape_code map used v).2.1 (tape_code map used v).2.2 name stype).2.1
          (key_code (tape_code map used v).2.1 (tape_code map used v).2.2 name stype).2.2
          rest2).2.2
        hpre hf2.2.1 hf1.1 ht hinv hgetk (new_key_coerce N2 D k knew name stype hks hnew)
        (fun hc => ⟨tape_nil_subst N2 D v map used hwf.1 hc, by rw [hf1.2.2.2.1 hc]⟩)
        (fun hc => ⟨rest2, tape_nil_subst_members N2 D rest2 _ _ hwf.2 hc, fun x => by
          simp only
          rw [place_members_same D rest2 _ (fun p hp =>
            ⟨tape_code_members_nil_keys rest2 _ _ hc p hp,
              rest_get_after_rename cur rest2 k knew x hnd.1 hkn hcur2 p hp⟩)]⟩)
        (fun s1 h1 h2 h3 => by
          have := value_run_keys N N2 T D hN v map used s1 (level + 1) hwf.1 hkv h1 h2 h3 hb
          refine on_result_intro _ _ _ ⟨fun e hd => ?_, fun r hd => ?_⟩ <;>
            (rw [hd] at this; exact this))
        (fun x s3 h1 h2 h3 => by
          have := members_run_keys N N2 T D hN rest2
            (Tcl_DictObjPut (Tcl_DictObjRemove cur k) knew x) keys _ _ s3 level hwf.2 hkrest
            hnd.2 hsub2 (rest_get_after_rename cur rest2 k knew x hnd.1 hkn hcur2) h1 h2 h3 hkf.1
          refine on_result_intro _ _ _ ⟨fun e hd => ?_, fun r hd => ?_⟩ <;>
            (rw [hd] at this; exact this))
      simp only [subst_with_keys.members]
      simp only [on_result] at h
      cases hv : subst_with_keys N2 D v with
      | error e => simp only [hv] at h ⊢; exact h
      | ok v' =>
        simp only [hv] at h ⊢
        cases hr : subst_with_keys.members N2 D rest2 with
        | error e => simp only [hr] at h ⊢; exact h
        | ok r' =>
          simp only [hr] at h ⊢
          obtain ⟨st', h1, h2, h3, h4⟩ := h
          refine ⟨st', h1, h2, h3, fun _ => ?_⟩
          rw [place_members, place_member_subst D cur k knew name stype v' hks hnew]
          exact h4
    | plain =>
      have hplain : ∀ stype name, key_subst_of k ≠ .subst stype name := by
        intro stype name hc
        rw [hks] at hc; cases hc
      have hf2 := tape_code_members_facts rest2 _ _ hf1.1
      rw [tape_code.members] at hpre ⊢
      simp only [hks] at hpre ⊢
      have h := step_run N N2 T D st level (CX_OBJ_KEY, .text k) (.text k)
        (fun target =>
          match target with
          | .object container => .ok (Tcl_DictObjGet container (operand.toStr (.text k)))
          | _ => THROW_ERROR ["missing value to go with key".toList])
        (tape_code map used v).1
        (tape_code.members (tape_code map used v).2.1 (tape_code map used v).2.2 rest2).1
        (.object cur) v
        (subst_with_keys N2 D v)
        (subst_with_keys.members N2 D rest2)
        (fun x => .object (Tcl_DictObjPut cur k x))
        (fun x r' => .object (place_members D (Tcl_DictObjPut cur k x) r'))
        map (tape_code map used v).2.1
        (tape_code.members (tape_code map used v).2.1 (tape_code map used v).2.2 rest2).2.1
        (tape_code map used v).2.2
        (tape_code.members (tape_code map used v).2.1 (tape_code map used v).2.2 rest2).2.2
        hpre hf2.2.1 ht hinv (fun s => rfl)
        (by simp only [operand.toStr]; rw [hgetk])
        (Or.inl rfl) trivial
        (fun x => rfl)
        (by simp only; rw [Tcl_DictObjPut_same cur k v hgetk])
        (fun hc => ⟨tape_nil_subst N2 D v map used hwf.1 hc, by rw [hf1.2.2.2.1 hc]⟩)
        (fun hc => ⟨rest2, tape_nil_subst_members N2 D rest2 _ _ hwf.2 hc, fun x => by
          simp only
          rw [place_members_same D rest2 _ (fun p hp =>
            ⟨tape_code_members_nil_keys rest2 _ _ hc p hp,
              rest_get_after_put cur rest2 k x hnd.1 hcur2 p hp⟩)]⟩)
        (fun s1 h1 h2 h3 => by
          have := value_run_keys N N2 T D hN v map used s1 (level + 1) hwf.1 hkv h1 h2 h3 hb
          refine on_result_intro _ _ _ ⟨fun e hd => ?_, fun r hd => ?_⟩ <;>
            (rw [hd] at this; exact this))
        (fun x s3 h1 h2 h3 => by
          have := members_run_keys N N2 T D hN rest2 (Tcl_DictObjPut cur k x) keys _ _ s3 level
            hwf.2 hkrest hnd.2 hsub2 (rest_get_after_put cur rest2 k x hnd.1 hcur2) h1 h2 h3
            hf1.1
          refine on_result_intro _ _ _ ⟨fun e hd => ?_, fun r hd => ?_⟩ <;>
            (rw [hd] at this; exact this))
      simp only [subst_with_keys.members]
      simp only [on_result] at h
      cases hv : subst_with_keys N2 D v with
      | error e => simp only [hv] at h ⊢; exact h
      | ok v' =>
        simp only [hv] at h ⊢
        cases hr : subst_with_keys.members N2 D rest2 with
        | error e => simp only [hr] at h ⊢; exact h
        | ok r' =>
          simp only [hr] at h ⊢
          rw [place_members, place_member_plain D cur k v' hplain]
          exact h
    | not_allowed => exact absurd hks (new_key_allowed D k knew hnew)
/-- The instructions of the elements `rest` of an array, run when the elements
`done'` before them have been substituted. -/
theorem elems_run_keys (N N2 : Jval → Except TclError Jval) (T : Jval) (D : subst_source)
    (hN : ∀ nm obj j, D.fetch nm = some obj → obj.jval = .ok j → N j = N2 j) :
    ∀ (rest done' : List Jval) (map : List ((Str × dyn_type) × Nat)) (used : Nat) (i : Nat)
      (st : apply_state) (level : Nat),
    Jval.wf.wfElems rest = true → keys_replaceable.elems D rest = true → i = done'.length →
    st.target = some (.array (done' ++ rest)) →
    exec_pre st level (tape_code.elems map used i rest).1 (tape_code.elems map used i rest).2.2 →
    slots_inv N2 D map st.slots → map_bound map used →
    match subst_with_keys.elems N2 D rest with
    | .error e => apply_loop N T D (tape_code.elems map used i rest).1.dropLast st = .error e
    | .ok rest' => ∃ st', apply_loop N T D (tape_code.elems map used i rest).1 st = .ok st' ∧
        exec_post st st' level ∧ slots_inv N2 D (tape_code.elems map used i rest).2.1 st'.slots ∧
        ((tape_code.elems map used i rest).1 ≠ [] →
          (∃ cf, replace st.containers level (.array (done' ++ rest')) = .ok cf ∧
            agree level st'.containers cf) ∧ st'.target = some (.array (done' ++ rest')))
  | [], done', map, used, i, st, level, _, _, _, _, hpre, hinv, _ => by
    simp only [tape_code.elems, subst_with_keys.elems]
    exact ⟨st, rfl, ⟨hpre.1, rfl, rfl, rfl⟩, hinv, fun h => absurd rfl h⟩
  | v :: rest2, done', map, used, i, st, level, hwf, hkp, hi, ht, hpre, hinv, hb => by
    simp only [Jval.wf.wfElems, Bool.and_eq_true] at hwf
    simp only [keys_replaceable.elems, Bool.and_eq_true] at hkp
    subst hi
    have hf1 := tape_code_facts v map used hb
    have hf2 := tape_code_elems_facts rest2 _ _ (done'.length + 1) hf1.1
    rw [tape_code.elems] at hpre ⊢
    have h := step_run N N2 T D st level (CX_ARR_IDX, .int done'.length) (.int done'.length)
      (fun target =>
        match target with
        | .array container =>
          match (operand.int done'.length).toInt with
          | none => THROW_ERROR ["expected integer but got \"".toList,
              (operand.int done'.length).toStr, "\"".toList]
          | some idx => .ok (container.get? idx)
        | _ => crash "index in a value that is no list".toList)
      (tape_code map used v).1
      (tape_code.elems (tape_code map used v).2.1 (tape_code map used v).2.2
        (done'.length + 1) rest2).1
      (.array (done' ++ v :: rest2)) v
      (subst_with_keys N2 D v)
      (subst_with_keys.elems N2 D rest2)
      (fun x => .array (done' ++ x :: rest2))
      (fun x r' => .array (done' ++ x :: r'))
      map (tape_code map used v).2.1
      (tape_code.elems (tape_code map used v).2.1 (tape_code map used v).2.2
        (done'.length + 1) rest2).2.1
      (tape_code map used v).2.2
      (tape_code.elems (tape_code map used v).2.1 (tape_code map used v).2.2
        (done'.length + 1) rest2).2.2
      hpre hf2.2.1 ht hinv (fun s => rfl)
      (by simp only [operand.toInt]; rw [list_get_mid done' v rest2])
      (Or.inr rfl) (by simp [frame_ok])
      (fun x => by
        simp only [store_elem, operand.toInt]
        rw [list_replace_mid done' v x rest2])
      rfl
      (fun hc => ⟨tape_nil_subst N2 D v map used hwf.1 hc, by rw [hf1.2.2.2.1 hc]⟩)
      (fun hc => ⟨rest2, tape_nil_subst_elems N2 D rest2 _ _ _ hwf.2 hc, fun _ => rfl⟩)
      (fun s1 h1 h2 h3 => by
        have := value_run_keys N N2 T D hN v map used s1 (level + 1) hwf.1 hkp.1 h1 h2 h3 hb
        refine on_result_intro _ _ _ ⟨fun e hd => ?_, fun r hd => ?_⟩ <;>
          (rw [hd] at this; exact this))
      (fun x s3 h1 h2 h3 => by
        have := elems_run_keys N N2 T D hN rest2 (done' ++ [x]) _ _ (done'.length + 1) s3 level
          hwf.2 hkp.2 (by simp) (by simpa using h1) h2 h3 hf1.1
        simp only [List.append_assoc, List.singleton_append] at this
        refine on_result_intro _ _ _ ⟨fun e hd => ?_, fun r hd => ?_⟩ <;>
          (rw [hd] at this; exact this))
    simp only [subst_with_keys.elems]
    simp only [on_result] at h
    cases hv : subst_with_keys N2 D v with
    | error e => simp only [hv] at h ⊢; exact h
    | ok v' =>
      simp only [hv] at h ⊢
      cases hr : subst_with_keys.elems N2 D rest2 with
      | error e => simp only [hr] at h ⊢; exact h
      | ok r' => simp only [hr] at h ⊢; exact h
end

/-- The tape `build_template_actions` compiles for a template with placeholder
keys, applied to the template, gives what the substitution with keys gives. -/
theorem apply_actions_keys (N N2 : Jval → Except TclError Jval) (D : subst_source)
    (hN : ∀ nm obj j, D.fetch nm = some obj → obj.jval = .ok j → N j = N2 j)
    (v : Jval) (hwf : v.wf = true) (hkp : keys_replaceable D v = true) :
    ∃ actions, build_template_actions v = .ok actions ∧
      apply_actions_with N v actions D = subst_with_keys N2 D v := by
  obtain ⟨hcode, hew⟩ := template_actions_tape_code D v ⟨[], [], 0⟩ hkp
  have hb0 : map_bound [] 0 := by
    intro n t s h
    simp [map_get] at h
  have hinv0 : ∀ slots, slots_inv N2 D [] slots := by
    intro slots n t s h
    simp [map_get] at h
  have hf := tape_code_facts v [] 0 hb0
  simp only [List.nil_append] at hcode hew hf
  unfold build_template_actions
  rw [hcode]
  simp only [prev_opcode]
  by_cases hc : (tape_code [] 0 v).1 = []
  · have h2 := hf.2.2.2.1 hc
    have hu : (tape_code [] 0 v).2.2 = 0 := by rw [h2]
    simp only [hc, hu, List.getLast?_nil, ne_eq, not_true_eq_false, if_false, reduceCtorEq,
      List.dropLast_nil]
    refine ⟨[], rfl, ?_⟩
    rw [tape_nil_subst N2 D v [] 0 hwf hc]
    simp [apply_actions_with]
  · obtain ⟨n, t, i, hi⟩ := hf.2.2.2.2 hc
    have hu : (tape_code [] 0 v).2.2 ≠ 0 := by
      have := hf.1 n t i hi
      omega
    simp only [ne_eq, hu, not_false_eq_true, if_true]
    refine ⟨_, rfl, ?_⟩
    apply tape_run N D v (tape_code [] 0 v).1
    · rcases List.eq_nil_or_concat (tape_code [] 0 v).1 with h | ⟨c0, a, h⟩
      · exact absurd h hc
      · simp only [List.concat_eq_append] at h
        have hl : (tape_code [] 0 v).1.getLast? = some a := by rw [h]; exact getLast?_snoc c0 a
        rcases hew a hl with hr | ⟨m, hm⟩
        · left
          simp only [hl, hr, reduceCtorEq, if_false]
        · right
          subst hm
          refine ⟨m, ?_⟩
          simp only [hl, if_true]
          rw [h, List.dropLast_concat]
    · intro st ht hpre _
      have := value_run_keys N N2 v D hN v [] 0 st 0 hwf hkp ht hpre (hinv0 _) hb0
      refine on_result_intro _ _ _ ⟨fun e hd => ?_, fun r hd => ?_⟩
      · rw [hd] at this; exact this
      · rw [hd] at this
        obtain ⟨st', h1, _, _, h4⟩ := this
        exact ⟨st', h1, h4 hc⟩

theorem compile_and_apply_keys (fuel : Nat) (template : Jval) (dict : subst_source)
    (hwf : template.wf = true) (hkp : keys_replaceable dict template = true) :
    compile_and_apply (fuel + 1) template dict =
      subst_with_keys (fun j => compile_and_apply fuel j dict) dict template := by
  obtain ⟨actions, hb, hrun⟩ := apply_actions_keys
    (fun j => compile_and_apply fuel j dict) (fun j => compile_and_apply fuel j dict) dict
    (fun _ _ _ _ _ => rfl) template hwf hkp
  rw [← hrun]
  simp only [compile_and_apply, hb, apply_template_actions]

/-! ## Where the members end up -/

theorem wfMembers_mem : ∀ (val : List (Str × Jval)), Jval.wf.wfMembers val = true →
    ∀ p ∈ val, p.2.wf = true
  | [], _, p, hp => by simp at hp
  | (k, v) :: rest, h, p, hp => by
    simp only [Jval.wf.wfMembers, Bool.and_eq_true] at h
    rcases List.mem_cons.mp hp with rfl | hp'
    · exact h.1
    · exact wfMembers_mem rest h.2 p hp'

theorem keys_replaceable_mem (dict : subst_source) (keys : List Str) :
    ∀ (val : List (Str × Jval)), keys_replaceable.members dict keys val = true →
    ∀ p ∈ val, (∃ knew, new_key dict p.1 = some knew ∧
      (key_subst_of p.1 = .plain ∨ knew ∉ keys)) ∧ keys_replaceable dict p.2 = true
  | [], _, p, hp => by simp at hp
  | (k, v) :: rest, h, p, hp => by
    obtain ⟨h1, h2, h3⟩ := keys_replaceable_head dict keys k v rest h
    rcases List.mem_cons.mp hp with rfl | hp'
    · exact ⟨h1, h2⟩
    · exact keys_replaceable_mem dict keys rest h3 p hp'

theorem new_key_plain (dict : subst_source) (k : Str) (h : key_subst_of k = .plain) :
    new_key dict k = some k := by
  simp [new_key, h]

theorem place_member_get_new (dict : subst_source) (cur : List (Str × Jval)) (k knew : Str)
    (x : Jval) (h : new_key dict k = some knew) :
    Tcl_DictObjGet (place_member dict cur k x) knew = some x := by
  unfold place_member
  cases hks : key_subst_of k with
  | subst stype name =>
    simp only [h, Option.getD_some]
    exact Tcl_DictObjGet_Put _ _ _
  | plain =>
    rw [new_key_plain dict k hks] at h
    simp only [Option.some.injEq] at h
    subst h
    exact Tcl_DictObjGet_Put _ _ _
  | not_allowed => simp [new_key, hks] at h

theorem place_member_get_other (dict : subst_source) (cur : List (Str × Jval)) (k knew x : Str)
    (y : Jval) (h : new_key dict k = some knew) (h1 : x ≠ knew) (h2 : x ≠ k) :
    Tcl_DictObjGet (place_member dict cur k y) x = Tcl_DictObjGet cur x := by
  unfold place_member
  cases hks : key_subst_of k with
  | subst stype name =>
    simp only [h, Option.getD_some]
    rw [Tcl_DictObjGet_Put_ne _ _ _ _ h1, Tcl_DictObjGet_Remove_ne _ _ _ h2]
  | plain => exact Tcl_DictObjGet_Put_ne _ _ _ _ h2
  | not_allowed => exact Tcl_DictObjGet_Put_ne _ _ _ _ h2

theorem place_members_get_other (dict : subst_source) :
    ∀ (rest cur : List (Str × Jval)) (x : Str),
    (∀ p ∈ rest, ∃ knew, new_key dict p.1 = some knew ∧ x ≠ knew ∧ x ≠ p.1) →
    Tcl_DictObjGet (place_members dict cur rest) x = Tcl_DictObjGet cur x
  | [], _, _, _ => rfl
  | (k, y) :: rest, cur, x, h => by
    obtain ⟨knew, hn, h1, h2⟩ := h (k, y) (List.mem_cons_self _ _)
    rw [place_members, place_members_get_other dict rest _ x
      (fun p hp => h p (List.mem_cons_of_mem _ hp))]
    exact place_member_get_other dict cur k knew x y hn h1 h2

theorem place_members_append (dict : subst_source) :
    ∀ (a b cur : List (Str × Jval)),
    place_members dict cur (a ++ b) = place_members dict (place_members dict cur a) b
  | [], _, _ => rfl
  | (k, y) :: a, b, cur => by
    simp only [List.cons_append, place_members]
    exact place_members_append dict a b _

theorem subst_members_append (N : Jval → Except TclError Jval) (D : subst_source) :
    ∀ (a b r : List (Str × Jval)), subst_with_keys.members N D (a ++ b) = .ok r →
    ∃ a' b', r = a' ++ b' ∧ subst_with_keys.members N D a = .ok a' ∧
      subst_with_keys.members N D b = .ok b'
  | [], b, r, h => ⟨[], r, rfl, rfl, h⟩
  | (k, v) :: a, b, r, h => by
    simp only [List.cons_append, subst_with_keys.members, List.append_eq] at h ⊢
    cases hv : subst_with_keys N D v with
    | error e => simp [hv] at h
    | ok v' =>
      simp only [hv] at h ⊢
      cases hr : subst_with_keys.members N D (a ++ b) with
      | error e => simp [hr] at h
      | ok r' =>
        simp only [hr, Except.ok.injEq] at h
        obtain ⟨a', b', rfl, ha, hb⟩ := subst_members_append N D a b r' hr
        subst h
        exact ⟨(k, v') :: a', b', rfl, by simp [ha], hb⟩

theorem subst_members_keys (N : Jval → Except TclError Jval) (D : subst_source) :
    ∀ (val r : List (Str × Jval)), subst_with_keys.members N D val = .ok r →
    r.map Prod.fst = val.map Prod.fst
  | [], r, h => by
    simp only [subst_with_keys.members, Except.ok.injEq] at h
    subst h; rfl
  | (k, v) :: rest, r, h => by
    simp only [subst_with_keys.members] at h
    cases hv : subst_with_keys N D v with
    | error e => simp [hv] at h
    | ok v' =>
      simp only [hv] at h
      cases hr : subst_with_keys.members N D rest with
      | error e => simp [hr] at h
      | ok r' =>
        simp only [hr, Except.ok.injEq] at h
        subst h
        simp [subst_members_keys N D rest r' hr]

theorem subst_members_ok (N : Jval → Except TclError Jval) (D : subst_source) :
    ∀ (val : List (Str × Jval)), (∀ p ∈ val, ∃ r, subst_with_keys N D p.2 = .ok r) →
    ∃ val', subst_with_keys.members N D val = .ok val'
  | [], _ => ⟨[], rfl⟩
  | (k, v) :: rest, h => by
    obtain ⟨r, hr⟩ := h (k, v) (List.mem_cons_self _ _)
    obtain ⟨rest', hrest⟩ := subst_members_ok N D rest
      (fun p hp => h p (List.mem_cons_of_mem _ hp))
    exact ⟨(k, r) :: rest', by simp [subst_with_keys.members, hr, hrest]⟩

/-- Where a member of an object is after the substitution with keys: under
its new key, with its substituted value; and nothing is left under a
placeholder key. -/
theorem place_result (N : Jval → Except TclError Jval) (D : subst_source)
    (val val' : List (Str × Jval)) (k0 : Str) (v0 : Jval)
    (hnd : (val.map Prod.fst).Nodup)
    (hnew : (val.map fun p => new_key D p.1).Nodup)
    (hkeys : keys_replaceable.members D (val.map Prod.fst) val = true)
    (hsub : subst_with_keys.members N D val = .ok val') (hmem : (k0, v0) ∈ val) :
    ∃ knew v0', new_key D k0 = some knew ∧ subst_with_keys N D v0 = .ok v0' ∧
      Tcl_DictObjGet (place_members D val val') knew = some v0' ∧
      (∀ stype name, key_subst_of k0 = .subst stype name →
        Tcl_DictObjGet (place_members D val val') k0 = none) := by
  have hall := keys_replaceable_mem D (val.map Prod.fst) val hkeys
  obtain ⟨⟨knew, hk0, hk0'⟩, _⟩ := hall (k0, v0) hmem
  obtain ⟨a, b, rfl⟩ := List.append_of_mem hmem
  obtain ⟨a', r2, rfl, ha', hr2⟩ := subst_members_append N D a ((k0, v0) :: b) val' hsub
  simp only [subst_with_keys.members] at hr2
  cases hv : subst_with_keys N D v0 with
  | error e => simp [hv] at hr2
  | ok v0' =>
    simp only [hv] at hr2
    cases hb : subst_with_keys.members N D b with
    | error e => simp [hb] at hr2
    | ok b' =>
      simp only [hb, Except.ok.injEq] at hr2
      subst hr2
      have hbk : b'.map Prod.fst = b.map Prod.fst := subst_members_keys N D b b' hb
      have hbmem : ∀ p ∈ b', ∃ q ∈ b, q.1 = p.1 := by
        intro p hp
        have : p.1 ∈ b.map Prod.fst := by
          rw [← hbk]; exact List.mem_map.mpr ⟨p, hp, rfl⟩
        obtain ⟨q, hq, hqp⟩ := List.mem_map.mp this
        exact ⟨q, hq, hqp⟩
      simp only [List.map_append, List.map_cons] at hnd hnew
      have hnd2 := (List.nodup_append.mp hnd).2.1
      have hnew2 := (List.nodup_append.mp hnew).2.1
      simp only [List.nodup_cons] at hnd2 hnew2
      have hk0mem : k0 ∈ (a ++ (k0, v0) :: b).map Prod.fst :=
        List.mem_map.mpr ⟨(k0, v0), hmem, rfl⟩
      have hother : ∀ p ∈ b', ∃ kn, new_key D p.1 = some kn ∧ kn ≠ knew ∧ p.1 ≠ k0 ∧
          (key_subst_of p.1 = .plain ∨ kn ∉ (a ++ (k0, v0) :: b).map Prod.fst) ∧
          p.1 ∈ (a ++ (k0, v0) :: b).map Prod.fst := by
        intro p hp
        obtain ⟨q, hq, hqp⟩ := hbmem p hp
        have hqm : q ∈ a ++ (k0, v0) :: b :=
          List.mem_append_right _ (List.mem_cons_of_mem _ hq)
        obtain ⟨⟨kn, hkn, hkn'⟩, _⟩ := hall q hqm
        rw [hqp] at hkn hkn'
        refine ⟨kn, hkn, ?_, ?_, hkn', ?_⟩
        · intro hc
          subst hc
          apply hnew2.1
          rw [hk0, ← hkn, ← hqp]
          exact List.mem_map.mpr ⟨q, hq, rfl⟩
        · intro hc
          apply hnd2.1
          rw [← hc, ← hqp]
          exact List.mem_map.mpr ⟨q, hq, rfl⟩
        · rw [← hqp]
          exact List.mem_map.mpr ⟨q, hqm, rfl⟩
      refine ⟨knew, v0', hk0, rfl, ?_, ?_⟩
      · rw [place_members_append, place_members]
        rw [place_members_get_other D b' _ knew (fun p hp => by
          obtain ⟨kn, h1, h2, h3, h4, h5⟩ := hother p hp
          refine ⟨kn, h1, Ne.symm h2, ?_⟩
          intro hc
          rcases hk0' with hpl | hnot
          · rw [new_key_plain D k0 hpl] at hk0
            simp only [Option.some.injEq] at hk0
            exact h3 (hc ▸ hk0).symm
          · exact hnot (hc ▸ h5))]
        exact place_member_get_new D _ k0 knew v0' hk0
      · intro stype name hks
        have hne : knew ≠ k0 := by
          rcases hk0' with hpl | hnot
          · rw [hks] at hpl; cases hpl
          · intro hc
            exact hnot (hc ▸ hk0mem)
        rw [place_members_append, place_members]
        rw [place_members_get_other D b' _ k0 (fun p hp => by
          obtain ⟨kn, h1, h2, h3, h4, h5⟩ := hother p hp
          refine ⟨kn, h1, ?_, Ne.symm h3⟩
          intro hc
          rcases h4 with hpl | hnot
          · rw [new_key_plain D p.1 hpl] at h1
            simp only [Option.some.injEq] at h1
            exact h3 (h1.trans hc.symm)
          · exact hnot (hc ▸ hk0mem))]
        rw [place_member_subst D _ k0 knew name stype v0' hks hk0,
          Tcl_DictObjGet_Put_ne _ _ _ _ (Ne.symm hne)]
        exact Tcl_DictObjGet_Remove _ _

/-! ## A placeholder key is replaced -/

theorem new_key_string (src : subst_source) (name k : Str) (obj : Tcl_Obj)
    (hsrc : src.fetch name = some obj) (hplain : string_jval obj.bytes = .string k) :
    new_key src ('~' :: 'S' :: ':' :: name) = some k := by
  simp [new_key, key_subst_of, coerce_value, hsrc, hplain, key_text]

theorem subst_members_mem_ok (N : Jval → Except TclError Jval) (D : subst_source) :
    ∀ (val val' : List (Str × Jval)), subst_with_keys.members N D val = .ok val' →
    ∀ p ∈ val, ∃ r, subst_with_keys N D p.2 = .ok r
  | [], _, _, p, hp => by simp at hp
  | (k, v) :: rest, val', h, p, hp => by
    simp only [subst_with_keys.members] at h
    cases hv : subst_with_keys N D v with
    | error e => simp [hv] at h
    | ok v' =>
      simp only [hv] at h
      cases hr : subst_with_keys.members N D rest with
      | error e => simp [hr] at h
      | ok r' =>
        rcases List.mem_cons.mp hp with rfl | hp'
        · exact ⟨v', hv⟩
        · exact subst_members_mem_ok N D rest r' hr p hp'

/-- C28 (as amended): take a template object whose keys are pairwise different
and, like those of every object below it, ordinary keys or keys `~S:name`,
`~L:name` whose replacement exists (the text the source has for the name, the
name itself for `~L:`), is no key of the object and differs from the new key of
every other member.  The application succeeds exactly when it succeeds on the
value of every member on its own; and then, for a member with the key
`~S:name`, where the source maps the name to the plain string `k`, the result
has no member under `~S:name` and has under `k` the value of that member as
applied, and every other member is found under its new key (its own key when
that is ordinary) with its value as applied. -/
theorem key_replaced (fuel : Nat) (src : subst_source) (val : List (Str × Jval))
    (name k : Str) (v : Jval) (obj : Tcl_Obj)
    (hwf : (Jval.object val).wf = true) (hkeys : keys_replaceable src (.object val) = true)
    (hmem : ('~' :: 'S' :: ':' :: name, v) ∈ val)
    (hsrc : src.fetch name = some obj) (hplain : string_jval obj.bytes = .string k) :
    ((∃ doc, compile_and_apply (fuel + 1) (.object val) src = .ok doc) ↔
        ∀ p ∈ val, ∃ r, compile_and_apply (fuel + 1) p.2 src = .ok r) ∧
      ∀ doc, compile_and_apply (fuel + 1) (.object val) src = .ok doc →
        ∃ res v', doc = .object res ∧
          compile_and_apply (fuel + 1) v src = .ok v' ∧
          Tcl_DictObjGet res ('~' :: 'S' :: ':' :: name) = none ∧
          Tcl_DictObjGet res k = some v' ∧
          ∀ k2 v2, (k2, v2) ∈ val → k2 ≠ '~' :: 'S' :: ':' :: name →
            ∃ k2' v2', new_key src k2 = some k2' ∧ (key_subst_of k2 = .plain → k2' = k2) ∧
              compile_and_apply (fuel + 1) v2 src = .ok v2' ∧
              Tcl_DictObjGet res k2' = some v2' := by
  have hG := compile_and_apply_keys fuel (.object val) src hwf hkeys
  simp only [Jval.wf, Bool.and_eq_true, decide_eq_true_eq] at hwf
  simp only [keys_replaceable, Bool.and_eq_true, decide_eq_true_eq] at hkeys
  obtain ⟨hwfm, hnd⟩ := hwf
  obtain ⟨hnew, hkm⟩ := hkeys
  have hval : ∀ p ∈ val, compile_and_apply (fuel + 1) p.2 src =
      subst_with_keys (fun j => compile_and_apply fuel j src) src p.2 := fun p hp =>
    compile_and_apply_keys fuel p.2 src (wfMembers_mem val hwfm p hp)
      (keys_replaceable_mem src _ val hkm p hp).2
  have hdoc : ∀ doc, compile_and_apply (fuel + 1) (.object val) src = .ok doc →
      ∃ val', subst_with_keys.members (fun j => compile_and_apply fuel j src) src val =
        .ok val' ∧ doc = .object (place_members src val val') := by
    intro doc hd
    rw [hG] at hd
    simp only [subst_with_keys] at hd
    cases hm : subst_with_keys.members (fun j => compile_and_apply fuel j src) src val with
    | error e => simp [hm] at hd
    | ok val' =>
      simp only [hm, Except.ok.injEq] at hd
      exact ⟨val', rfl, hd.symm⟩
  refine ⟨⟨?_, ?_⟩, ?_⟩
  · rintro ⟨doc, hd⟩ p hp
    obtain ⟨val', hval', _⟩ := hdoc doc hd
    obtain ⟨r, hr⟩ := subst_members_mem_ok _ src val val' hval' p hp
    exact ⟨r, by rw [hval p hp]; exact hr⟩
  · intro hvals
    obtain ⟨val', hval'⟩ := subst_members_ok (fun j => compile_and_apply fuel j src) src val
      (fun p hp => by
        obtain ⟨r, hr⟩ := hvals p hp
        exact ⟨r, by rw [← hval p hp]; exact hr⟩)
    refine ⟨.object (place_members src val val'), ?_⟩
    rw [hG]
    simp only [subst_with_keys, hval']
  · intro doc hd
    obtain ⟨val', hval', rfl⟩ := hdoc doc hd
    obtain ⟨knew, v', hk, hv, hget, hgone⟩ := place_result
      (fun j => compile_and_apply fuel j src) src val val' _ v hnd hnew hkm hval' hmem
    rw [new_key_string src name k obj hsrc hplain] at hk
    simp only [Option.some.injEq] at hk
    subst hk
    refine ⟨place_members src val val', v', rfl, by rw [hval _ hmem]; exact hv,
      hgone DYN_STRING name (by simp [key_subst_of]), hget, ?_⟩
    intro k2 v2 hmem2 _
    obtain ⟨k2', v2', hk2, hv2, hget2, _⟩ := place_result
      (fun j => compile_and_apply fuel j src) src val val' k2 v2 hnd hnew hkm hval' hmem2
    refine ⟨k2', v2', hk2, ?_, by rw [hval _ hmem2]; exact hv2, hget2⟩
    intro hpl
    rw [new_key_plain src k2 hpl] at hk2
    simp only [Option.some.injEq] at hk2
    exact hk2.symm

theorem build_key_and_value :
    build_template_actions
        (.object [(['p'], .number ['2']), ("~S:a".toList, .dyn DYN_STRING ['c'])]) =
      .ok [(ALLOCATE_STACK, .int 2), (ALLOCATE_SLOTS, .int 2),
        (CX_OBJ_KEY, .text "~S:a".toList), (FETCH_VALUE, .text ['c']), (JVAL_STRING, .empty),
        (FILL_SLOT, .int 0), (REPLACE_VAL, .int 0), (FETCH_VALUE, .text ['a']),
        (JVAL_STRING, .empty), (FILL_SLOT, .int 1), (REPLACE_KEY, .int 1)] := by
  rfl

theorem apply_key_and_value_tape :
    apply_template_actions 1
        (.object [(['p'], .number ['2']), ("~S:a".toList, .dyn DYN_STRING ['c'])])
        [(ALLOCATE_STACK, .int 2), (ALLOCATE_SLOTS, .int 2),
          (CX_OBJ_KEY, .text "~S:a".toList), (FETCH_VALUE, .text ['c']), (JVAL_STRING, .empty),
          (FILL_SLOT, .int 0), (REPLACE_VAL, .int 0), (FETCH_VALUE, .text ['a']),
          (JVAL_STRING, .empty), (FILL_SLOT, .int 1), (REPLACE_KEY, .int 1)]
        ⟨some [(['a'], ⟨['x'], .error ⟨[], []⟩, none, none⟩),
          (['c'], ⟨['y'], .error ⟨[], []⟩, none, none⟩)], fun _ => none⟩ =
      .ok (.object [(['p'], .number ['2']), (['x'], .string ['y'])]) := by
  rfl

theorem apply_key_and_value :
    compile_and_apply 1
        (.object [(['p'], .number ['2']), ("~S:a".toList, .dyn DYN_STRING ['c'])])
        ⟨some [(['a'], ⟨['x'], .error ⟨[], []⟩, none, none⟩),
          (['c'], ⟨['y'], .error ⟨[], []⟩, none, none⟩)], fun _ => none⟩ =
      .ok (.object [(['p'], .number ['2']), (['x'], .string ['y'])]) := by
  rw [compile_and_apply, build_key_and_value]
  exact apply_key_and_value_tape

theorem key_replaced_witness :
    compile_and_apply 1
        (.object [(['p'], .number ['2']), ("~S:a".toList, .dyn DYN_STRING ['c'])])
        ⟨some [(['a'], ⟨['x'], .error ⟨[], []⟩, none, none⟩),
          (['c'], ⟨['y'], .error ⟨[], []⟩, none, none⟩)], fun _ => none⟩ =
        .ok (.object [(['p'], .number ['2']), (['x'], .string ['y'])]) ∧
    ∃ res v', Jval.object [(['p'], .number ['2']), (['x'], .string ['y'])] = .object res ∧
      compile_and_apply 1 (.dyn DYN_STRING ['c'])
          ⟨some [(['a'], ⟨['x'], .error ⟨[], []⟩, none, none⟩),
            (['c'], ⟨['y'], .error ⟨[], []⟩, none, none⟩)], fun _ => none⟩ = .ok v' ∧
      Tcl_DictObjGet res ('~' :: 'S' :: ':' :: ['a']) = none ∧
      Tcl_DictObjGet res ['x'] = some v' ∧
      ∀ k2 v2, (k2, v2) ∈ [(['p'], Jval.number ['2']), ("~S:a".toList, .dyn DYN_STRING ['c'])] →
        k2 ≠ '~' :: 'S' :: ':' :: ['a'] →
        ∃ k2' v2', new_key ⟨some [(['a'], ⟨['x'], .error ⟨[], []⟩, none, none⟩),
            (['c'], ⟨['y'], .error ⟨[], []⟩, none, none⟩)], fun _ => none⟩ k2 = some k2' ∧
          (key_subst_of k2 = .plain → k2' = k2) ∧
          compile_and_apply 1 v2
            ⟨some [(['a'], ⟨['x'], .error ⟨[], []⟩, none, none⟩),
              (['c'], ⟨['y'], .error ⟨[], []⟩, none, none⟩)], fun _ => none⟩ = .ok v2' ∧
          Tcl_DictObjGet res k2' = some v2' :=
  ⟨apply_key_and_value, (key_replaced 0
    ⟨some [(['a'], ⟨['x'], .error ⟨[], []⟩, none, none⟩),
      (['c'], ⟨['y'], .error ⟨[], []⟩, none, none⟩)], fun _ => none⟩
    [(['p'], .number ['2']), ("~S:a".toList, .dyn DYN_STRING ['c'])] ['a'] ['x']
    (.dyn DYN_STRING ['c']) ⟨['x'], .error ⟨[], []⟩, none, none⟩ (by decide) (by decide)
    (List.mem_cons_of_mem _ (List.mem_cons_self _ _)) rfl rfl).2 _ apply_key_and_value⟩

theorem build_two_keys :
    build_template_actions
        (.object [("~S:a".toList, .number ['1']), ("~S:b".toList, .number ['2'])]) =
      .ok [(ALLOCATE_STACK, .int 2), (ALLOCATE_SLOTS, .int 2),
        (CX_OBJ_KEY, .text "~S:a".toList), (FETCH_VALUE, .text ['a']), (JVAL_STRING, .empty),
        (FILL_SLOT, .int 0), (REPLACE_KEY, .int 0), (POP_CX, .int 1),
        (CX_OBJ_KEY, .text "~S:b".toList), (FETCH_VALUE, .text ['b']), (JVAL_STRING, .empty),
        (FILL_SLOT, .int 1), (REPLACE_KEY, .int 1)] := by
  rfl

theorem apply_two_keys_tape :
    apply_template_actions 1
        (.object [("~S:a".toList, .number ['1']), ("~S:b".toList, .number ['2'])])
        [(ALLOCATE_STACK, .int 2), (ALLOCATE_SLOTS, .int 2),
          (CX_OBJ_KEY, .text "~S:a".toList), (FETCH_VALUE, .text ['a']), (JVAL_STRING, .empty),
          (FILL_SLOT, .int 0), (REPLACE_KEY, .int 0), (POP_CX, .int 1),
          (CX_OBJ_KEY, .text "~S:b".toList), (FETCH_VALUE, .text ['b']), (JVAL_STRING, .empty),
          (FILL_SLOT, .int 1), (REPLACE_KEY, .int 1)]
        ⟨some [(['a'], ⟨['x'], .error ⟨[], []⟩, none, none⟩),
          (['b'], ⟨['x'], .error ⟨[], []⟩, none, none⟩)], fun _ => none⟩ =
      .ok (.object [(['x'], .number ['2'])]) := by
  rfl

/-- C28, the claim as written fails: in the template `{"~S:a":1,"~S:b":2}` the
member `~S:a` holds 1, the source maps `a` to the plain string `x`, and `x` is no
key of the object; yet the applied document is `{"x":2}`: the member under `x`
does not hold 1, because the source maps `b` to `x` as well and the second
replacement overwrites the first. -/
theorem key_collision_counterexample :
    Tcl_DictObjGet [("~S:a".toList, Jval.number ['1']), ("~S:b".toList, .number ['2'])]
        "~S:a".toList = some (.number ['1']) ∧
      ((subst_source.mk (some [(['a'], ⟨['x'], .error ⟨[], []⟩, none, none⟩),
        (['b'], ⟨['x'], .error ⟨[], []⟩, none, none⟩)]) fun _ => none).fetch ['a']).map
        (fun o => string_jval o.bytes) = some (.string ['x']) ∧
      Tcl_DictObjGet [("~S:a".toList, Jval.number ['1']), ("~S:b".toList, .number ['2'])]
        ['x'] = none ∧
      compile_and_apply 1
        (.object [("~S:a".toList, .number ['1']), ("~S:b".toList, .number ['2'])])
        ⟨some [(['a'], ⟨['x'], .error ⟨[], []⟩, none, none⟩),
          (['b'], ⟨['x'], .error ⟨[], []⟩, none, none⟩)], fun _ => none⟩ =
        .ok (.object [(['x'], .number ['2'])]) ∧
      Tcl_DictObjGet [(['x'], Jval.number ['2'])] ['x'] ≠ some (.number ['1']) := by
  refine ⟨by decide, by decide, by decide, ?_, by decide⟩
  rw [compile_and_apply, build_two_keys]
  exact apply_two_keys_tape

/-! ## Invariants of the compilation -/

mutual
/-- A property of the compilation context that the entries into containers, the
returns and the instructions of a placeholder keep is kept by
`template_actions`. -/
theorem template_actions_preserves (P : template_cx → Prop)
    (hmove : ∀ cx op v cx', P cx → (op = CX_OBJ_KEY ∨ op = CX_ARR_IDX ∨ op = POP_CX) →
      emit_action cx op v = .ok cx' → P cx')
    (hrep : ∀ cx elem type cx1 slot op cx2, P cx → get_subst_slot cx elem type = .ok (cx1, slot) →
      (op = REPLACE_VAL ∨ op = REPLACE_KEY) → emit_action cx1 op (.int slot) = .ok cx2 → P cx2) :
    ∀ (v : Jval) (cx cx' : template_cx), P cx → template_actions cx v = .ok cx' → P cx'
  | .string _, cx, cx', h, hc => by
    simp only [template_actions, Except.ok.injEq] at hc; subst hc; exact h
  | .number _, cx, cx', h, hc => by
    simp only [template_actions, Except.ok.injEq] at hc; subst hc; exact h
  | .bool _, cx, cx', h, hc => by
    simp only [template_actions, Except.ok.injEq] at hc; subst hc; exact h
  | .null, cx, cx', h, hc => by
    simp only [template_actions, Except.ok.injEq] at hc; subst hc; exact h
  | .dyn type val, cx, cx', h, hc => by
    simp only [template_actions] at hc
    cases hg : get_subst_slot cx val type with
    | error e => simp [hg] at hc
    | ok r =>
      obtain ⟨cx1, slot⟩ := r
      simp only [hg] at hc
      exact hrep cx val type cx1 slot REPLACE_VAL cx' h hg (Or.inl rfl) hc
  | .object val, cx, cx', h, hc => by
    rw [template_actions] at hc
    exact template_members_preserves P hmove hrep val cx cx' h hc
  | .array val, cx, cx', h, hc => by
    rw [template_actions] at hc
    exact template_elems_preserves P hmove hrep val cx cx' 0 h hc
theorem template_members_preserves (P : template_cx → Prop)
    (hmove : ∀ cx op v cx', P cx → (op = CX_OBJ_KEY ∨ op = CX_ARR_IDX ∨ op = POP_CX) →
      emit_action cx op v = .ok cx' → P cx')
    (hrep : ∀ cx elem type cx1 slot op cx2, P cx → get_subst_slot cx elem type = .ok (cx1, slot) →
      (op = REPLACE_VAL ∨ op = REPLACE_KEY) → emit_action cx1 op (.int slot) = .ok cx2 → P cx2) :
    ∀ (val : List (Str × Jval)) (cx cx' : template_cx), P cx →
      template_actions.members cx val = .ok cx' → P cx'
  | [], cx, cx', h, hc => by
    simp only [template_actions.members, Except.ok.injEq] at hc; subst hc; exact h
  | (k, v) :: rest, cx, cx', h, hc => by
    rw [template_actions.members] at hc
    cases h1 : emit_action cx CX_OBJ_KEY (.text k) with
    | error e => simp [h1] at hc
    | ok cx1 =>
      simp only [h1] at hc
      have p1 := hmove cx _ _ cx1 h (Or.inl rfl) h1
      cases h2 : template_actions cx1 v with
      | error e => simp [h2] at hc
      | ok cx2 =>
        simp only [h2] at hc
        have p2 := template_actions_preserves P hmove hrep v cx1 cx2 p1 h2
        have tail : ∀ cx4, P cx4 →
            (match emit_action cx4 POP_CX (.int 1) with
              | .error e => (.error e : Except TclError template_cx)
              | .ok cx5 => template_actions.members cx5 rest) = .ok cx' → P cx' := by
          intro cx4 p4 h4
          cases h5 : emit_action cx4 POP_CX (.int 1) with
          | error e => simp [h5] at h4
          | ok cx5 =>
            simp only [h5] at h4
            have p5 := hmove cx4 _ _ cx5 p4 (Or.inr (Or.inr rfl)) h5
            exact template_members_preserves P hmove hrep rest cx5 cx' p5 h4
        cases hk : key_subst_of k with
        | not_allowed => simp [hk, THROW_ERROR] at hc
        | plain =>
          simp only [hk] at hc
          exact tail cx2 p2 hc
        | subst stype name =>
          simp only [hk] at hc
          cases hg : get_subst_slot cx2 name stype with
          | error e => simp [hg] at hc
          | ok r =>
            obtain ⟨cx3, slot⟩ := r
            simp only [hg] at hc
            cases h4 : emit_action cx3 REPLACE_KEY (.int slot) with
            | error e => simp [h4] at hc
            | ok cx4 =>
              simp only [h4] at hc
              exact tail cx4 (hrep cx2 name stype cx3 slot REPLACE_KEY cx4 p2 hg (Or.inr rfl) h4) hc
theorem template_elems_preserves (P : template_cx → Prop)
    (hmove : ∀ cx op v cx', P cx → (op = CX_OBJ_KEY ∨ op = CX_ARR_IDX ∨ op = POP_CX) →
      emit_action cx op v = .ok cx' → P cx')
    (hrep : ∀ cx elem type cx1 slot op cx2, P cx → get_subst_slot cx elem type = .ok (cx1, slot) →
      (op = REPLACE_VAL ∨ op = REPLACE_KEY) → emit_action cx1 op (.int slot) = .ok cx2 → P cx2) :
    ∀ (val : List Jval) (cx cx' : template_cx) (i : Nat), P cx →
      template_actions.elems cx i val = .ok cx' → P cx'
  | [], cx, cx', i, h, hc => by
    simp only [template_actions.elems, Except.ok.injEq] at hc; subst hc; exact h
  | v :: rest, cx, cx', i, h, hc => by
    rw [template_actions.elems] at hc
    cases h1 : emit_action cx CX_ARR_IDX (.int i) with
    | error e => simp [h1] at hc
    | ok cx1 =>
      simp only [h1] at hc
      have p1 := hmove cx _ _ cx1 h (Or.inr (Or.inl rfl)) h1
      cases h2 : template_actions cx1 v with
      | error e => simp [h2] at hc
      | ok cx2 =>
        simp only [h2] at hc
        have p2 := template_actions_preserves P hmove hrep v cx1 cx2 p1 h2
        cases h5 : emit_action cx2 POP_CX (.int 1) with
        | error e => simp [h5] at hc
        | ok cx3 =>
          simp only [h5] at hc
          have p5 := hmove cx2 _ _ cx3 p2 (Or.inr (Or.inr rfl)) h5
          exact template_elems_preserves P hmove hrep rest cx3 cx' (i + 1) p5 hc
end
theorem pops_folded_snoc (init : List action) (a b : action) (h : pops_folded (init ++ [a]))
    (hab : b.1 = POP_CX → a.1 ≠ POP_CX ∧ a.1 ≠ CX_OBJ_KEY ∧ a.1 ≠ CX_ARR_IDX) :
    pops_folded (init ++ [a] ++ [b]) := by
  unfold pops_folded at h ⊢
  rw [List.chain'_append]
  refine ⟨h, List.chain'_singleton _, ?_⟩
  intro x hx y hy
  have hx' : (init ++ [a]).getLast? = some a := by simp
  rw [Option.mem_def, hx'] at hx
  simp only [Option.some.injEq] at hx
  simp only [List.head?_cons, Option.mem_def, Option.some.injEq] at hy
  subst hx; subst hy
  exact hab

theorem pops_folded_last (init : List action) (a b : action) (h : pops_folded (init ++ [a]))
    (hab : a.1 = b.1) : pops_folded (init ++ [b]) := by
  unfold pops_folded at h ⊢
  rw [List.chain'_append] at h ⊢
  refine ⟨h.1, List.chain'_singleton _, ?_⟩
  intro x hx y hy
  simp only [List.head?_cons, Option.mem_def, Option.some.injEq] at hy
  subst hy
  rw [← hab]
  exact h.2.2 x hx a (by simp)

theorem emit_action_folded (cx cx' : template_cx) (op : action_opcode) (v : operand)
    (h : pops_folded cx.actions) (he : emit_action cx op v = .ok cx') :
    pops_folded cx'.actions := by
  rcases List.eq_nil_or_concat cx.actions with hnil | ⟨init, a, ha⟩
  · have hp : prev_opcode cx = NOP := by simp [prev_opcode, hnil]
    simp only [emit_action, hp, hnil] at he
    simp at he
    subst he
    exact List.chain'_singleton _
  · simp only [List.concat_eq_append] at ha
    have hl : cx.actions.getLast? = some a := by rw [ha]; simp
    have hp : prev_opcode cx = a.1 := by simp [prev_opcode, hl]
    rw [ha] at h
    unfold emit_action at he
    rw [hp] at he
    split at he
    · simp only [Except.ok.injEq] at he
      subst he
      simp only [ha, List.dropLast_concat]
      unfold pops_folded at h ⊢
      exact (List.chain'_append.mp h).1
    · split at he
      · next hpop =>
        simp only [hl] at he
        cases hd : a.2.toInt with
        | none => simp [hd, THROW_ERROR] at he
        | some depth =>
          simp only [hd, Except.ok.injEq] at he
          subst he
          simp only [ha, List.dropLast_concat]
          exact pops_folded_last init a _ h hpop.2
      · next h1 h2 =>
        simp only [Except.ok.injEq] at he
        subst he
        simp only [ha]
        apply pops_folded_snoc init a _ h
        intro hop
        simp only at hop
        refine ⟨fun hc => h2 ⟨hop, hc⟩, fun hc => h1 ⟨hop, Or.inl hc⟩,
          fun hc => h1 ⟨hop, Or.inr hc⟩⟩

theorem emit_actions_folded : ∀ (l : List action) (cx cx' : template_cx),
    pops_folded cx.actions → emit_actions cx l = .ok cx' → pops_folded cx'.actions
  | [], cx, cx', h, he => by
    simp only [emit_actions, Except.ok.injEq] at he; subst he; exact h
  | a :: rest, cx, cx', h, he => by
    rw [emit_actions] at he
    cases h1 : emit_action cx a.1 a.2 with
    | error e => simp [h1] at he
    | ok cx1 =>
      simp only [h1] at he
      exact emit_actions_folded rest cx1 cx' (emit_action_folded cx cx1 _ _ h h1) he

theorem get_subst_slot_folded (cx cx' : template_cx) (elem : Str) (type : dyn_type) (slot : Nat)
    (h : pops_folded cx.actions) (hg : get_subst_slot cx elem type = .ok (cx', slot)) :
    pops_folded cx'.actions := by
  unfold get_subst_slot at hg
  split at hg
  · simp only [Except.ok.injEq, Prod.mk.injEq] at hg
    rw [← hg.1]; exact h
  · simp only at hg
    split at hg
    · cases hg
    · next cx2 h2 =>
      simp only [Except.ok.injEq, Prod.mk.injEq] at hg
      rw [← hg.1]
      exact emit_actions_folded _ _ cx2 (by exact h) h2

theorem template_actions_folded (v : Jval) (cx cx' : template_cx)
    (h : pops_folded cx.actions) (hc : template_actions cx v = .ok cx') :
    pops_folded cx'.actions :=
  template_actions_preserves (fun c => pops_folded c.actions)
    (fun cx op v cx' h _ he => emit_action_folded cx cx' op v h he)
    (fun cx elem type cx1 slot op cx2 h hg _ he =>
      emit_action_folded cx1 cx2 op _ (get_subst_slot_folded cx cx1 elem type slot h hg) he)
    v cx cx' h hc
theorem pops_folded_pair (acts pre post : List action) (a b : action) (h : pops_folded acts)
    (hs : acts = pre ++ a :: b :: post) :
    b.1 = POP_CX → a.1 ≠ POP_CX ∧ a.1 ≠ CX_OBJ_KEY ∧ a.1 ≠ CX_ARR_IDX := by
  unfold pops_folded at h
  rw [hs] at h
  exact (List.chain'_cons.mp (List.chain'_append.mp h).2.1).1

theorem trimmed_folded (cx : template_cx) (h : pops_folded cx.actions) :
    pops_folded (if prev_opcode cx = POP_CX then cx.actions.dropLast else cx.actions) ∧
      ∀ a, (if prev_opcode cx = POP_CX then cx.actions.dropLast else cx.actions).getLast? =
        some a → a.1 ≠ POP_CX := by
  rcases List.eq_nil_or_concat cx.actions with hnil | ⟨init, a, ha⟩
  · have hp : prev_opcode cx = NOP := by simp [prev_opcode, hnil]
    simp [hp, hnil, pops_folded]
  · simp only [List.concat_eq_append] at ha
    have hl : cx.actions.getLast? = some a := by rw [ha]; simp
    have hp : prev_opcode cx = a.1 := by simp [prev_opcode, hl]
    rw [hp]
    split
    · next hpop =>
      rw [ha, List.dropLast_concat]
      rw [ha] at h
      refine ⟨(List.chain'_append.mp h).1, ?_⟩
      intro x hx
      obtain ⟨init', hi⟩ := List.getLast?_eq_some_iff.mp hx
      rw [hi] at h
      exact (pops_folded_pair _ init' [] x a h (by simp) hpop).1
    · next hpop =>
      refine ⟨h, ?_⟩
      intro x hx
      rw [hl] at hx
      simp only [Option.some.injEq] at hx
      subst hx
      exact hpop

/-- C31: in a tape that `build_template_actions` returns, no `POP_CX` comes
right after a `POP_CX`, a `CX_OBJ_KEY` or a `CX_ARR_IDX`, and the last
instruction is no `POP_CX`.  This is what `emit_action` does for a `POP_CX`:
right after a `POP_CX` with the count `n` it leaves that instruction with the
count `n + 1` and adds nothing, and right after an entry into a container it
removes the entry and adds nothing. -/
theorem tape_pops_folded (template : Jval) (tape : List action)
    (h : build_template_actions template = .ok tape) :
    (∀ pre a b post, tape = pre ++ a :: b :: post → b.1 = POP_CX →
        a.1 ≠ POP_CX ∧ a.1 ≠ CX_OBJ_KEY ∧ a.1 ≠ CX_ARR_IDX) ∧
      (∀ a, tape.getLast? = some a → a.1 ≠ POP_CX) ∧
      (∀ (cx : template_cx) (acts : List action) (n : Nat) (v : operand),
        cx.actions = acts ++ [(POP_CX, .int n)] →
        emit_action cx POP_CX v = .ok { cx with actions := acts ++ [(POP_CX, .int (n + 1))] }) ∧
      (∀ (cx : template_cx) (acts : List action) (e : action) (v : operand),
        cx.actions = acts ++ [e] → e.1 = CX_OBJ_KEY ∨ e.1 = CX_ARR_IDX →
        emit_action cx POP_CX v = .ok { cx with actions := acts }) := by
  refine ⟨?_, ?_, ?_, ?_⟩
  · unfold build_template_actions at h
    cases hc : template_actions ⟨[], [], 0⟩ template with
    | error e => simp [hc] at h
    | ok cx =>
      simp only [hc] at h
      have hf := template_actions_folded template ⟨[], [], 0⟩ cx List.chain'_nil hc
      obtain ⟨ht, _⟩ := trimmed_folded cx hf
      intro pre a b post hs
      split at h
      · simp only [Except.ok.injEq] at h
        subst h
        have hall : pops_folded ((ALLOCATE_STACK, operand.int
            (max_depth ((ALLOCATE_SLOTS, operand.int cx.slots_used) ::
              (if prev_opcode cx = POP_CX then cx.actions.dropLast else cx.actions))
              (1, 1)).2) :: (ALLOCATE_SLOTS, operand.int cx.slots_used) ::
            (if prev_opcode cx = POP_CX then cx.actions.dropLast else cx.actions)) := by
          unfold pops_folded at ht ⊢
          refine List.Chain'.cons' (List.Chain'.cons' ht ?_) ?_
          · intro y _ hy
            exact ⟨by simp, by simp, by simp⟩
          · intro y hy hpop
            simp only [List.head?_cons, Option.mem_def, Option.some.injEq] at hy
            subst hy
            cases hpop
        exact pops_folded_pair _ pre post a b hall hs
      · simp only [Except.ok.injEq] at h
        subst h
        exact pops_folded_pair _ pre post a b ht hs
  · unfold build_template_actions at h
    cases hc : template_actions ⟨[], [], 0⟩ template with
    | error e => simp [hc] at h
    | ok cx =>
      simp only [hc] at h
      have hf := template_actions_folded template ⟨[], [], 0⟩ cx List.chain'_nil hc
      obtain ⟨_, hlast⟩ := trimmed_folded cx hf
      intro a ha
      split at h
      · simp only [Except.ok.injEq] at h
        subst h
        by_cases hn : (if prev_opcode cx = POP_CX then cx.actions.dropLast else cx.actions) = []
        · rw [hn] at ha
          simp only [List.getLast?_cons_cons, List.getLast?_singleton, Option.some.injEq] at ha
          subst ha
          simp
        · rw [List.getLast?_cons_cons, getLast?_cons_ne _ _ hn] at ha
          exact hlast a ha
      · simp only [Except.ok.injEq] at h
        subst h
        exact hlast a ha
  · intro cx acts n v hc
    have hl : cx.actions.getLast? = some (POP_CX, operand.int n) := by rw [hc]; simp
    have hp : prev_opcode cx = POP_CX := by simp [prev_opcode, hl]
    simp [emit_action, hp, hl, operand.toInt, hc]
  · intro cx acts e v hc he
    have hl : cx.actions.getLast? = some e := by rw [hc]; simp
    have hp : prev_opcode cx = e.1 := by simp [prev_opcode, hl]
    simp [emit_action, hp, he, hc]

theorem tape_pops_folded_witness :
    build_template_actions
        (.array [.array [.dyn DYN_STRING ['x']], .array [], .dyn DYN_STRING ['x']]) =
      .ok [(ALLOCATE_STACK, .int 3), (ALLOCATE_SLOTS, .int 1), (CX_ARR_IDX, .int 0),
        (CX_ARR_IDX, .int 0), (FETCH_VALUE, .text ['x']), (JVAL_STRING, .empty),
        (FILL_SLOT, .int 0), (REPLACE_VAL, .int 0), (POP_CX, .int 2), (CX_ARR_IDX, .int 2),
        (REPLACE_VAL, .int 0)] ∧
      ∀ a, [(ALLOCATE_STACK, operand.int 3), (ALLOCATE_SLOTS, .int 1), (CX_ARR_IDX, .int 0),
        (CX_ARR_IDX, .int 0), (FETCH_VALUE, .text ['x']), (JVAL_STRING, .empty),
        (FILL_SLOT, .int 0), (REPLACE_VAL, .int 0), (POP_CX, .int 2), (CX_ARR_IDX, .int 2),
        (REPLACE_VAL, .int 0)].getLast? = some a → a.1 ≠ POP_CX :=
  have hb : build_template_actions
      (.array [.array [.dyn DYN_STRING ['x']], .array [], .dyn DYN_STRING ['x']]) =
      .ok [(ALLOCATE_STACK, .int 3), (ALLOCATE_SLOTS, .int 1), (CX_ARR_IDX, .int 0),
        (CX_ARR_IDX, .int 0), (FETCH_VALUE, .text ['x']), (JVAL_STRING, .empty),
        (FILL_SLOT, .int 0), (REPLACE_VAL, .int 0), (POP_CX, .int 2), (CX_ARR_IDX, .int 2),
        (REPLACE_VAL, .int 0)] := by decide!
  ⟨hb, (tape_pops_folded _ _ hb).2.1⟩

/-! ## The slots of a tape -/

theorem slot_use_ok_mono (n n' : Nat) (pre pre' : List action) (a : action) (hn : n ≤ n')
    (hp : ∀ x ∈ pre, x ∈ pre') (hl : pre.getLast? = pre'.getLast?)
    (h : slot_use_ok n pre a) : slot_use_ok n' pre' a := by
  obtain ⟨h1, h2, h3⟩ := h
  refine ⟨fun ha => ?_, fun ha => ?_, h3⟩
  · obtain ⟨i, e, hi, hm⟩ := h1 ha
    exact ⟨i, e, by omega, hp _ hm⟩
  · obtain ⟨i, e, hi, y, hy, hj⟩ := h2 ha
    exact ⟨i, e, by omega, y, by rw [← hl]; exact hy, hj⟩

theorem slots_wired_mono (n n' : Nat) (acts : List action) (hn : n ≤ n')
    (h : slots_wired n acts) : slots_wired n' acts :=
  fun pre a post hs => slot_use_ok_mono n n' pre pre a hn (fun _ hx => hx) rfl (h pre a post hs)

theorem slots_wired_front (n : Nat) (acts tail : List action)
    (h : slots_wired n (acts ++ tail)) : slots_wired n acts := by
  intro pre a post hs
  exact h pre a (post ++ tail) (by rw [hs]; simp)

theorem slots_wired_snoc (n : Nat) (acts : List action) (x : action)
    (h : slots_wired n acts) (hx : slot_use_ok n acts x) : slots_wired n (acts ++ [x]) := by
  intro pre a post hs
  rcases List.eq_nil_or_concat post with rfl | ⟨post', y, rfl⟩
  · have := List.append_inj' hs (by simp)
    obtain ⟨h1, h2⟩ := this
    simp only [List.cons.injEq, and_true] at h2
    subst h1; subst h2
    exact hx
  · simp only [List.concat_eq_append] at hs
    have e : pre ++ a :: (post' ++ [y]) = (pre ++ a :: post') ++ [y] := by simp
    rw [e] at hs
    have := List.append_inj' hs (by simp)
    exact h pre a post' this.1

theorem slots_wired_append (n : Nat) : ∀ (l acts : List action),
    slots_wired n acts → (∀ pre a post, l = pre ++ a :: post → slot_use_ok n (acts ++ pre) a) →
    slots_wired n (acts ++ l)
  | [], acts, h, _ => by simpa using h
  | x :: l, acts, h, hl => by
    have h1 := slots_wired_snoc n acts x h (by simpa using hl [] x l rfl)
    have h2 := slots_wired_append n l (acts ++ [x]) h1 (fun pre a post hs => by
      have := hl (x :: pre) a post (by rw [hs]; simp)
      simpa using this)
    simpa using h2

theorem emit_move_wired (cx cx' : template_cx) (op : action_opcode) (v : operand)
    (h : compile_wired cx) (hop : op = CX_OBJ_KEY ∨ op = CX_ARR_IDX ∨ op = POP_CX)
    (he : emit_action cx op v = .ok cx') : compile_wired cx' := by
  obtain ⟨hw, hm⟩ := h
  have hok : ∀ pre, slot_use_ok cx.slots_used pre (op, v) := by
    intro pre
    refine ⟨fun ha => ?_, fun ha => ?_, ?_, ?_⟩ <;> rcases hop with rfl | rfl | rfl <;>
      simp at *
  have happ : ∀ c : template_cx, c = { cx with actions := cx.actions ++ [(op, v)] } →
      compile_wired c := by
    intro c hc
    subst hc
    exact ⟨slots_wired_snoc _ _ _ hw (hok _), fun name type i hi =>
      ⟨(hm name type i hi).1, List.mem_append_left _ (hm name type i hi).2⟩⟩
  rcases List.eq_nil_or_concat cx.actions with hnil | ⟨init, a, ha⟩
  · have hp : prev_opcode cx = NOP := by simp [prev_opcode, hnil]
    simp only [emit_action, hp] at he
    simp at he
    exact happ cx' he.symm
  · simp only [List.concat_eq_append] at ha
    have hl : cx.actions.getLast? = some a := by rw [ha]; simp
    have hp : prev_opcode cx = a.1 := by simp [prev_opcode, hl]
    have hkeep : ∀ i, a.1 = CX_OBJ_KEY ∨ a.1 = CX_ARR_IDX ∨ a.1 = POP_CX →
        (FILL_SLOT, operand.int i) ∈ cx.actions → (FILL_SLOT, operand.int i) ∈ init := by
      intro i ha1 hi
      rw [ha] at hi
      rcases List.mem_append.mp hi with h1 | h1
      · exact h1
      · simp only [List.mem_singleton] at h1
        rw [← h1] at ha1
        simp at ha1
    unfold emit_action at he
    rw [hp] at he
    split at he
    · next hc =>
      simp only [Except.ok.injEq] at he
      subst he
      simp only [ha, List.dropLast_concat]
      rw [ha] at hw
      exact ⟨slots_wired_front _ _ _ hw, fun name type i hi =>
        ⟨(hm name type i hi).1, hkeep i (by tauto) (hm name type i hi).2⟩⟩
    · split at he
      · next hc =>
        simp only [hl] at he
        cases hd : a.2.toInt with
        | none => simp [hd, THROW_ERROR] at he
        | some depth =>
          simp only [hd, Except.ok.injEq] at he
          subst he
          simp only [ha, List.dropLast_concat]
          rw [ha] at hw
          refine ⟨slots_wired_snoc _ _ _ (slots_wired_front _ _ _ hw) ?_, fun name type i hi =>
            ⟨(hm name type i hi).1,
              List.mem_append_left _ (hkeep i (by tauto) (hm name type i hi).2)⟩⟩
          refine ⟨fun ha => ?_, fun ha => ?_, ?_, ?_⟩ <;> simp at *
      · simp only [Except.ok.injEq] at he
        exact happ cx' he.symm

theorem slot_population_wired (n : Nat) (elem : Str) (type : dyn_type) (slot : Nat)
    (acts : List action) (hs : slot < n) :
    ∀ pre a post, slot_population elem type slot = pre ++ a :: post →
      slot_use_ok n (acts ++ pre) a := by
  intro pre a post hs'
  have hcases : (a.1 ≠ REPLACE_VAL ∧ a.1 ≠ REPLACE_KEY ∧ a.1 ≠ ALLOCATE_SLOTS ∧
      a.1 ≠ ALLOCATE_STACK) ∧
      (a.1 = FILL_SLOT → a.2 = .int slot ∧ ∃ y, pre.getLast? = some y ∧ is_jval y.1) := by
    cases type <;> simp only [slot_population] at hs' <;>
      (rcases pre with _ | ⟨p1, _ | ⟨p2, _ | ⟨p3, _ | ⟨p4, pre⟩⟩⟩⟩ <;>
        simp only [List.nil_append, List.cons_append, List.cons.injEq, List.nil_eq,
          List.append_eq_nil, reduceCtorEq, and_false, false_and] at hs' <;>
        (try (obtain ⟨rfl, hs'⟩ := hs')) <;> (try (obtain ⟨rfl, hs'⟩ := hs')) <;>
        (try (obtain ⟨rfl, hs'⟩ := hs')) <;> (try (obtain ⟨rfl, hs'⟩ := hs')) <;>
        (try (obtain ⟨rfl, hs'⟩ := hs')) <;> simp [is_jval])
  obtain ⟨⟨c1, c2, c3, c4⟩, c5⟩ := hcases
  refine ⟨fun ha => ?_, fun ha => ?_, c3, c4⟩
  · rcases ha with ha | ha
    · exact absurd ha c1
    · exact absurd ha c2
  · obtain ⟨e, y, hy, hj⟩ := c5 ha
    refine ⟨slot, e, hs, y, ?_, hj⟩
    obtain ⟨pre0, rfl⟩ := List.getLast?_eq_some_iff.mp hy
    simp [← List.append_assoc]

theorem slot_population_fills (elem : Str) (type : dyn_type) (slot : Nat) :
    (FILL_SLOT, operand.int slot) ∈ slot_population elem type slot := by
  cases type <;> simp [slot_population]

theorem get_subst_slot_wired (cx cx1 cx2 : template_cx) (elem : Str) (type : dyn_type)
    (slot : Nat) (op : action_opcode) (h : compile_wired cx)
    (hg : get_subst_slot cx elem type = .ok (cx1, slot))
    (hop : op = REPLACE_VAL ∨ op = REPLACE_KEY)
    (he : emit_action cx1 op (.int slot) = .ok cx2) : compile_wired cx2 := by
  obtain ⟨hw, hm⟩ := h
  have hne : op ≠ POP_CX := by rcases hop with rfl | rfl <;> decide
  rw [emit_action_append _ _ _ hne] at he
  simp only [Except.ok.injEq] at he
  subst he
  have hfin : ∀ (c : template_cx), slots_wired c.slots_used c.actions →
      (∀ name type i, map_get c.map name type = some i →
        i < c.slots_used ∧ (FILL_SLOT, operand.int i) ∈ c.actions) →
      slot < c.slots_used → (FILL_SLOT, operand.int slot) ∈ c.actions →
      compile_wired { c with actions := c.actions ++ [(op, .int slot)] } := by
    intro c cw cm cs cf
    refine ⟨slots_wired_snoc _ _ _ cw ?_, fun name type i hi =>
      ⟨(cm name type i hi).1, List.mem_append_left _ (cm name type i hi).2⟩⟩
    refine ⟨fun _ => ⟨slot, rfl, cs, cf⟩, fun ha => ?_, ?_, ?_⟩ <;>
      rcases hop with rfl | rfl <;> simp at *
  unfold get_subst_slot at hg
  split at hg
  · next s hs =>
    simp only [Except.ok.injEq, Prod.mk.injEq] at hg
    obtain ⟨rfl, rfl⟩ := hg
    exact hfin cx hw hm (hm _ _ _ hs).1 (hm _ _ _ hs).2
  · next hnone =>
    simp only at hg
    rw [emit_actions_append _ _ (slot_population_no_pop elem type cx.slots_used)] at hg
    simp only [Except.ok.injEq, Prod.mk.injEq] at hg
    obtain ⟨rfl, rfl⟩ := hg
    apply hfin
    · exact slots_wired_append _ _ _ (slots_wired_mono _ _ _ (Nat.le_succ _) hw)
        (slot_population_wired _ elem type cx.slots_used cx.actions (Nat.lt_succ_self _))
    · intro name t i hi
      simp only at hi ⊢
      rw [map_get_append] at hi
      split at hi
      · next j hj =>
        simp only [Option.some.injEq] at hi
        subst hi
        exact ⟨Nat.lt_succ_of_lt (hm _ _ _ hj).1, List.mem_append_left _ (hm _ _ _ hj).2⟩
      · split at hi
        · simp only [Option.some.injEq] at hi
          subst hi
          exact ⟨Nat.lt_succ_self _, List.mem_append_right _ (slot_population_fills _ _ _)⟩
        · cases hi
    · exact Nat.lt_succ_self _
    · exact List.mem_append_right _ (slot_population_fills _ _ _)

theorem template_actions_wired (v : Jval) (cx cx' : template_cx) (h : compile_wired cx)
    (hc : template_actions cx v = .ok cx') : compile_wired cx' :=
  template_actions_preserves compile_wired
    (fun cx op v cx' h hop he => emit_move_wired cx cx' op v h hop he)
    (fun cx elem type cx1 slot op cx2 h hg hop he =>
      get_subst_slot_wired cx cx1 cx2 elem type slot op h hg hop he)
    v cx cx' h hc
theorem apply_action_slots (N : Jval → Except TclError Jval) (T : Jval) (D : subst_source)
    (a : action) (st st' : apply_state) (h : apply_action N T D st a = .ok st') :
    (a.1 ≠ ALLOCATE_SLOTS → a.1 ≠ FILL_SLOT → st'.slots = st.slots) ∧
      (a.1 = FILL_SLOT → ∃ i, a.2.toInt = some i ∧ i < st.slots.length ∧
        st'.slots = st.slots.set i st.jval) ∧
      (is_jval a.1 → ∃ j, st'.jval = some j) ∧
      (a.1 ≠ ALLOCATE_STACK → st'.stacklevels = st.stacklevels) := by
  obtain ⟨op, val⟩ := a
  cases op <;> simp only [apply_action, enter] at h <;>
    (repeat' (split at h)) <;>
    (try (simp [crash, THROW_ERROR] at h; done)) <;>
    (try (simp only [Except.ok.injEq] at h; subst h; simp [is_jval]))
  next i hi hlen =>
    exact ⟨i, hi, by omega, rfl⟩

theorem body_run_slots (N : Jval → Except TclError Jval) (T : Jval) (D : subst_source)
    (n : Nat) : ∀ (pre done : List action) (st st' : apply_state),
    slots_wired n (done ++ pre) → st.slots.length = n →
    (∀ i, (FILL_SLOT, operand.int i) ∈ done → ∃ r, st.slots.getD i none = some r) →
    (∀ y, done.getLast? = some y → is_jval y.1 → ∃ j, st.jval = some j) →
    apply_loop N T D pre st = .ok st' →
    st'.slots.length = n ∧
      (∀ i, (FILL_SLOT, operand.int i) ∈ done ++ pre → ∃ r, st'.slots.getD i none = some r) ∧
      st'.stacklevels = st.stacklevels
  | [], done, st, st', _, hlen, hfill, _, hrun => by
    simp only [apply_loop, Except.ok.injEq] at hrun
    subst hrun
    exact ⟨hlen, by simpa using hfill, rfl⟩
  | x :: pre, done, st, st', hw, hlen, hfill, hj, hrun => by
    simp only [apply_loop] at hrun
    cases h1 : apply_action N T D st x with
    | error e => simp [h1] at hrun
    | ok st1 =>
      simp only [h1] at hrun
      obtain ⟨u1, u2, u3⟩ := hw done x pre rfl
      obtain ⟨a1, a2, a3, a4⟩ := apply_action_slots N T D x st st1 h1
      have hjv : x.1 = FILL_SLOT → ∃ j, st.jval = some j := by
        intro hx
        obtain ⟨i, _, _, y, hy, hyj⟩ := u2 hx
        exact hj y hy hyj
      have hlen1 : st1.slots.length = n := by
        by_cases hx : x.1 = FILL_SLOT
        · obtain ⟨i, _, _, hs⟩ := a2 hx
          rw [hs, List.length_set, hlen]
        · rw [a1 u3.1 hx, hlen]
      have hfill1 : ∀ i, (FILL_SLOT, operand.int i) ∈ done ++ [x] →
          ∃ r, st1.slots.getD i none = some r := by
        intro i hi
        by_cases hx : x.1 = FILL_SLOT
        · obtain ⟨i', hi', hlt, hs⟩ := a2 hx
          obtain ⟨j, hjs⟩ := hjv hx
          rw [hs, hjs]
          by_cases hii : i' = i
          · subst hii
            exact ⟨j, getD_set_eq _ _ _ _ hlt⟩
          · rw [getD_set_ne _ _ _ _ _ hii]
            rcases List.mem_append.mp hi with hd | hd
            · exact hfill i hd
            · simp only [List.mem_singleton] at hd
              rw [← hd] at hi'
              simp only [operand.toInt, Option.some.injEq] at hi'
              exact absurd hi'.symm hii
        · rw [a1 u3.1 hx]
          rcases List.mem_append.mp hi with hd | hd
          · exact hfill i hd
          · simp only [List.mem_singleton] at hd
            rw [← hd] at hx
            exact absurd rfl hx
      have hj1 : ∀ y, (done ++ [x]).getLast? = some y → is_jval y.1 →
          ∃ j, st1.jval = some j := by
        intro y hy hyj
        have hy' : (done ++ [x]).getLast? = some x := by simp
        rw [hy'] at hy
        simp only [Option.some.injEq] at hy
        subst hy
        exact a3 hyj
      obtain ⟨r1, r2, r3⟩ := body_run_slots N T D n pre (done ++ [x]) st1 st'
        (by simpa using hw) hlen1 hfill1 hj1 hrun
      exact ⟨r1, by simpa using r2, by rw [r3, a4 u3.2]⟩
theorem build_tape_wired (template : Jval) (tape : List action)
    (h : build_template_actions template = .ok tape) :
    tape = [] ∨ ∃ S n body,
      tape = (ALLOCATE_STACK, .int S) :: (ALLOCATE_SLOTS, .int n) :: body ∧
      slots_wired n body := by
  unfold build_template_actions at h
  cases hc : template_actions ⟨[], [], 0⟩ template with
  | error e => simp [hc] at h
  | ok cx =>
    simp only [hc] at h
    have hw : compile_wired cx := template_actions_wired template ⟨[], [], 0⟩ cx
      ⟨fun pre a post hs => by simp at hs, fun name type i hi => by simp [map_get] at hi⟩ hc
    have hlev : compile_levels cx 0 :=
      template_actions_levels template ⟨[], [], 0⟩ cx 0 hc
        ⟨rfl, fun _ => ⟨rfl, fun a ha => by simp at ha⟩⟩
    by_cases h0 : cx.slots_used = 0
    · left
      obtain ⟨_, hall⟩ := hlev.2 h0
      have := level_after_entries cx.actions 0 hall
      rw [hlev.1] at this
      simp only [Option.some.injEq, zero_add] at this
      have hnil : cx.actions = [] := List.length_eq_zero.mp this.symm
      simp only [h0, ne_eq, not_true_eq_false, if_false, hnil, prev_opcode,
        List.getLast?_nil, reduceCtorEq, List.dropLast_nil, ite_self, Except.ok.injEq] at h
      exact h.symm
    · right
      simp only [ne_eq, h0, not_false_eq_true, if_true, Except.ok.injEq] at h
      refine ⟨_, cx.slots_used, _, h.symm, ?_⟩
      split
      · rcases List.eq_nil_or_concat cx.actions with hnil | ⟨init', a, ha⟩
        · rw [hnil]; exact fun pre a post hs => by simp at hs
        · simp only [List.concat_eq_append] at ha
          rw [ha, List.dropLast_concat]
          have := hw.1
          rw [ha] at this
          exact slots_wired_front _ _ _ this
      · exact hw.1

/-- C36: a tape that `build_template_actions` returns is empty or begins with
`ALLOCATE_STACK S` and `ALLOCATE_SLOTS n`, and among the instructions `body`
after these two there is no further allocation, every `FILL_SLOT`,
`REPLACE_VAL` and `REPLACE_KEY` names a slot `i < n`, and every `REPLACE_VAL i`
and `REPLACE_KEY i` has a `FILL_SLOT i` before it.  So in every run of the tape
up to an instruction, the stack has the size `S` and the slot array the length
`n`, a `FILL_SLOT` writes within the slot array, and the slot a `REPLACE_VAL` or
a `REPLACE_KEY` reads is within the array and holds a value. -/
theorem slots_filled_before_use (template : Jval) (tape : List action)
    (h : build_template_actions template = .ok tape) :
    tape = [] ∨ ∃ S n body,
      tape = (ALLOCATE_STACK, .int S) :: (ALLOCATE_SLOTS, .int n) :: body ∧
      (∀ pre a post, body = pre ++ a :: post →
        a.1 ≠ ALLOCATE_STACK ∧ a.1 ≠ ALLOCATE_SLOTS ∧
        (a.1 = REPLACE_VAL ∨ a.1 = REPLACE_KEY ∨ a.1 = FILL_SLOT →
          ∃ i, a.2 = .int i ∧ i < n) ∧
        (a.1 = REPLACE_VAL ∨ a.1 = REPLACE_KEY →
          ∃ i, a.2 = .int i ∧ (FILL_SLOT, operand.int i) ∈ pre)) ∧
      (∀ (N : Jval → Except TclError Jval) (T : Jval) (D : subst_source)
          (pre : List action) (a : action) (post : List action) (st : apply_state),
        body = pre ++ a :: post →
        apply_loop N T D ((ALLOCATE_STACK, .int S) :: (ALLOCATE_SLOTS, .int n) :: pre)
          ⟨[], [], 0, 0, none, none, none, none⟩ = .ok st →
        st.stacklevels = S ∧ st.slots.length = n ∧
        (a.1 = FILL_SLOT → ∃ i, a.2 = .int i ∧ i < st.slots.length) ∧
        (a.1 = REPLACE_VAL ∨ a.1 = REPLACE_KEY →
          ∃ i r, a.2 = .int i ∧ i < st.slots.length ∧ st.slots.getD i none = some r)) := by
  rcases build_tape_wired template tape h with hnil | ⟨S, n, body, ht, hw⟩
  · exact Or.inl hnil
  · right
    refine ⟨S, n, body, ht, ?_, ?_⟩
    · intro pre a post hs
      obtain ⟨h1, h2, h3, h4⟩ := hw pre a post hs
      refine ⟨h4, h3, ?_, ?_⟩
      · rintro (ha | ha | ha)
        · obtain ⟨i, e, hi, _⟩ := h1 (Or.inl ha)
          exact ⟨i, e, hi⟩
        · obtain ⟨i, e, hi, _⟩ := h1 (Or.inr ha)
          exact ⟨i, e, hi⟩
        · obtain ⟨i, e, hi, _⟩ := h2 ha
          exact ⟨i, e, hi⟩
      · intro ha
        obtain ⟨i, e, _, hm⟩ := h1 ha
        exact ⟨i, e, hm⟩
    · intro N T D pre a post st hs hrun
      simp only [apply_loop, apply_action, operand.toInt] at hrun
      by_cases hS : S ≤ 0
      · simp [hS, crash] at hrun
      · simp only [hS, if_false] at hrun
        rw [hs] at hw
        obtain ⟨r1, r2, r3⟩ := body_run_slots N T D n pre [] _ st
          (by simpa using slots_wired_front n pre (a :: post) hw) (by simp)
          (fun i hi => by simp at hi) (fun y hy => by simp at hy) hrun
        obtain ⟨h1, h2, _, _⟩ := hw pre a post rfl
        refine ⟨r3, r1, ?_, ?_⟩
        · intro ha
          obtain ⟨i, e, hi, _⟩ := h2 ha
          exact ⟨i, e, by omega⟩
        · intro ha
          obtain ⟨i, e, hi, hm⟩ := h1 ha
          obtain ⟨r, hr⟩ := r2 i (by simpa using hm)
          exact ⟨i, r, e, by omega, hr⟩

theorem slots_filled_before_use_witness :
    ∃ S n body,
      [(ALLOCATE_STACK, operand.int 3), (ALLOCATE_SLOTS, .int 1), (CX_ARR_IDX, .int 0),
        (CX_ARR_IDX, .int 0), (FETCH_VALUE, .text ['x']), (JVAL_STRING, .empty),
        (FILL_SLOT, .int 0), (REPLACE_VAL, .int 0), (POP_CX, .int 2), (CX_ARR_IDX, .int 2),
        (REPLACE_VAL, .int 0)] =
        (ALLOCATE_STACK, .int S) :: (ALLOCATE_SLOTS, .int n) :: body ∧
      ∀ pre a post, body = pre ++ a :: post →
        a.1 ≠ ALLOCATE_STACK ∧ a.1 ≠ ALLOCATE_SLOTS ∧
        (a.1 = REPLACE_VAL ∨ a.1 = REPLACE_KEY ∨ a.1 = FILL_SLOT → ∃ i, a.2 = .int i ∧ i < n) ∧
        (a.1 = REPLACE_VAL ∨ a.1 = REPLACE_KEY →
          ∃ i, a.2 = .int i ∧ (FILL_SLOT, operand.int i) ∈ pre) := by
  have hb : build_template_actions
      (.array [.array [.dyn DYN_STRING ['x']], .array [], .dyn DYN_STRING ['x']]) =
      .ok [(ALLOCATE_STACK, .int 3), (ALLOCATE_SLOTS, .int 1), (CX_ARR_IDX, .int 0),
        (CX_ARR_IDX, .int 0), (FETCH_VALUE, .text ['x']), (JVAL_STRING, .empty),
        (FILL_SLOT, .int 0), (REPLACE_VAL, .int 0), (POP_CX, .int 2), (CX_ARR_IDX, .int 2),
        (REPLACE_VAL, .int 0)] := by decide!
  rcases slots_filled_before_use _ _ hb with h | ⟨S, n, body, ht, h1, _⟩
  · cases h
  · exact ⟨S, n, body, ht, h1⟩

/-! ## The position of a renamed member -/

theorem Tcl_DictObjPut_present {α : Type} (d : List (Str × α)) (k : Str) (x old : α)
    (h : Tcl_DictObjGet d k = some old) :
    ∃ a b, d = a ++ (k, old) :: b ∧ Tcl_DictObjGet a k = none ∧
      Tcl_DictObjPut d k x = a ++ (k, x) :: b := by
  induction d with
  | nil => simp [Tcl_DictObjGet] at h
  | cons p d ih =>
    obtain ⟨k', v'⟩ := p
    by_cases hk : k' = k
    · subst hk
      simp only [Tcl_DictObjGet, if_true, Option.some.injEq] at h
      subst h
      exact ⟨[], d, rfl, rfl, by simp [Tcl_DictObjPut]⟩
    · simp only [Tcl_DictObjGet, hk, if_false] at h
      obtain ⟨a, b, h1, h2, h3⟩ := ih h
      refine ⟨(k', v') :: a, b, by rw [h1]; rfl, by simp [Tcl_DictObjGet, hk, h2], ?_⟩
      simp [Tcl_DictObjPut, hk, h3]

/-- C40: `REPLACE_KEY` leaves in the frame of the object the object without the
member under the old key and with the value of that member put under the new
key.  When the object has no other member under the new key, this is the other
members in their order followed by the renamed member, which is so the last
one; when another member has the new key, that member keeps its position and
takes the value, and the renamed member is gone.  So `{"~S:k":1,"b":2}` applied
with `k` mapped to `x` gives the object with the members `b`, `x` in this
order, serialized as `{"b":2,"x":1}`. -/
theorem key_renamed_last (N : Jval → Except TclError Jval) (T : Jval) (D : subst_source)
    (st : apply_state) (level slot : Nat) (container : List (Str × Jval)) (k tclval : Str)
    (r hold : Jval)
    (hl : st.stacklevel = level + 1) (hfr : frames_ok st.containers level)
    (htop : st.containers.getD (level + 1) none = some ⟨.object container, some (.text k)⟩)
    (hslot : st.slots.getD slot none = some r) (hkt : key_text r = some tclval)
    (hhold : Tcl_DictObjGet container k = some hold) :
    (∃ st' renamed, apply_action N T D st (REPLACE_KEY, .int slot) = .ok st' ∧
        st'.containers.getD (level + 1) none = some ⟨.object renamed, some (.text k)⟩ ∧
        renamed = Tcl_DictObjPut (Tcl_DictObjRemove container k) tclval hold ∧
        Tcl_DictObjGet (Tcl_DictObjRemove container k) k = none ∧
        (Tcl_DictObjGet (Tcl_DictObjRemove container k) tclval = none →
          renamed = Tcl_DictObjRemove container k ++ [(tclval, hold)] ∧
            renamed.getLast? = some (tclval, hold)) ∧
        (∀ old, Tcl_DictObjGet (Tcl_DictObjRemove container k) tclval = some old →
          ∃ a b, Tcl_DictObjRemove container k = a ++ (tclval, old) :: b ∧
            Tcl_DictObjGet a tclval = none ∧ renamed = a ++ (tclval, hold) :: b)) ∧
      compile_and_apply 1 (.object [("~S:k".toList, .number ['1']), (['b'], .number ['2'])])
          ⟨some [(['k'], ⟨['x'], .error ⟨[], []⟩, none, none⟩)], fun _ => none⟩ =
        .ok (.object [(['b'], .number ['2']), (['x'], .number ['1'])]) ∧
      serialize 0 ⟨some [], fun _ => none⟩ SERIALIZE_NORMAL
          (.object [(['b'], .number ['2']), (['x'], .number ['1'])]) =
        .ok "\x7b\"b\":2,\"x\":1\x7d".toList := by
  refine ⟨?_, by decide!, by decide!⟩
  obtain ⟨w, _, hact, hwtop, _, _⟩ := replace_key_run N T D st level slot container k tclval
    r hold hl hfr htop hslot hkt hhold
  refine ⟨_, _, hact, hwtop, rfl, Tcl_DictObjGet_Remove _ _, ?_, ?_⟩
  · intro hn
    rw [Tcl_DictObjPut_new _ _ _ hn]
    exact ⟨rfl, by simp⟩
  · intro old ho
    obtain ⟨a, b, h1, h2, h3⟩ := Tcl_DictObjPut_present _ tclval hold old ho
    exact ⟨a, b, h1, h2, h3⟩

theorem key_renamed_last_witness :
    ∃ st' renamed, apply_action (fun j => .ok j) .null ⟨some [], fun _ => none⟩
          ⟨[some (.string ['x'])],
            [some ⟨.object [("~S:k".toList, .number ['1']), (['b'], .number ['2'])], none⟩,
              some ⟨.object [("~S:k".toList, .number ['1']), (['b'], .number ['2'])],
                some (.text "~S:k".toList)⟩],
            1, 2, none, none, none, some (.number ['1'])⟩ (REPLACE_KEY, .int 0) = .ok st' ∧
        st'.containers.getD (0 + 1) none =
          some ⟨.object renamed, some (.text "~S:k".toList)⟩ ∧
        renamed = [(['b'], .number ['2']), (['x'], .number ['1'])] :=
  have h := (key_renamed_last (fun j => .ok j) .null ⟨some [], fun _ => none⟩
    ⟨[some (.string ['x'])],
      [some ⟨.object [("~S:k".toList, .number ['1']), (['b'], .number ['2'])], none⟩,
        some ⟨.object [("~S:k".toList, .number ['1']), (['b'], .number ['2'])],
          some (.text "~S:k".toList)⟩],
      1, 2, none, none, none, some (.number ['1'])⟩ 0 0
    [("~S:k".toList, .number ['1']), (['b'], .number ['2'])] "~S:k".toList ['x']
    (.string ['x']) (.number ['1']) rfl
    (fun i hi => by
      have : i = 0 := by omega
      subst this
      exact ⟨_, rfl, by simp [frame_ok]⟩)
    rfl rfl rfl rfl).1
  match h with
  | ⟨st', renamed, h1, h2, h3, _⟩ => ⟨st', renamed, h1, h2, h3.trans (by decide)⟩

theorem set_var_walk_ok (lim : list_limit) (shared : Nat → Bool) (v : Jval) :
    ∀ (path : List Str) (i : Nat) (doc d : Jval),
    JSON_Set.walk lim shared v i doc path = .ok d →
    JSON_Set_var.walk lim shared v i doc path = (d, none)
  | [], i, doc, d, h => by
    cases doc <;> simp only [JSON_Set.walk, Except.ok.injEq] at h <;> subst h <;>
      simp [JSON_Set_var.walk]
  | step :: rest, i, doc, d, h => by
    cases doc with
    | object val =>
      simp only [JSON_Set.walk] at h
      simp only [JSON_Set_var.walk]
      cases hg : Tcl_DictObjGet val step with
      | none =>
        simp only [hg, Except.ok.injEq] at h
        subst h
        rfl
      | some target =>
        simp only [hg] at h
        cases hu : unshare (shared (i + 1)) target with
        | error e => rw [hu] at h; cases h
        | ok t =>
          have := unshare_ok _ _ _ hu
          subst this
          simp only [hu] at h ⊢
          cases hw : JSON_Set.walk lim shared v (i + 1) t rest with
          | error e => rw [hw] at h; cases h
          | ok t' =>
            simp only [hw, Except.ok.injEq] at h
            subst h
            rw [set_var_walk_ok lim shared v rest (i + 1) t t' hw]
    | array val =>
      simp only [JSON_Set.walk] at h
      simp only [JSON_Set_var.walk]
      cases hi : array_index true val.length step with
      | error e => rw [hi] at h; cases h
      | ok index =>
        rw [hi] at h
        simp only at h ⊢
        by_cases h1 : index < 0
        · simp only [h1, if_true] at h ⊢
          by_cases hl : val.length < lim.LIST_MAX
          · simp only [hl, if_true, Except.ok.injEq] at h ⊢
            subst h
            rfl
          · simp only [hl, if_false] at h
            cases h
        · simp only [h1, if_false] at h ⊢
          by_cases h2 : (val.length : Int) ≤ index
          · simp only [h2, if_true] at h ⊢
            by_cases hl : index < (lim.LIST_MAX : Int)
            · simp only [hl, if_true, Except.ok.injEq] at h ⊢
              subst h
              rfl
            · simp only [hl, if_false] at h
              cases h
          · simp only [h2, if_false] at h ⊢
            cases hu : unshare (shared (i + 1)) (val.getD index.toNat .null) with
            | error e => rw [hu] at h; cases h
            | ok t =>
              have := unshare_ok _ _ _ hu
              subst this
              simp only [hu] at h ⊢
              cases hw : JSON_Set.walk lim shared v (i + 1) (val.getD index.toNat .null)
                  rest with
              | error e => rw [hw] at h; cases h
              | ok t' =>
                simp only [hw, Except.ok.injEq] at h
                subst h
                rw [set_var_walk_ok lim shared v rest (i + 1) _ t' hw]
    | string s => simp [JSON_Set.walk, atomic_index_error, THROW_ERROR] at h
    | number s => simp [JSON_Set.walk, atomic_index_error, THROW_ERROR] at h
    | bool b => simp [JSON_Set.walk, atomic_index_error, THROW_ERROR] at h
    | null => simp [JSON_Set.walk, atomic_index_error, THROW_ERROR] at h
    | dyn t s => simp [JSON_Set.walk, atomic_index_error, THROW_ERROR] at h

theorem JSON_Set_var_ok (lim : list_limit) (shared : Nat → Bool) (srcvar : Option Jval)
    (path : List Str) (v d : Jval) (h : JSON_Set lim shared srcvar path v = .ok d) :
    JSON_Set_var lim shared srcvar path v = (some d, none) := by
  have hw := JSON_Set_ok lim shared srcvar path v d h
  unfold JSON_Set at h
  unfold JSON_Set_var
  cases hu : unshare (shared 0) (srcvar.getD (.object [])) with
  | error e => simp only [hu] at h; cases h
  | ok src =>
    have := unshare_ok _ _ _ hu
    subst this
    simp only [set_var_walk_ok lim shared v path 0 _ d hw]

theorem resolve_object_step (pathc : Nat) (val : List (Str × Jval)) (b : Str)
    (q' : List Str) (hplain : q' ≠ [] ∨ b.head? ≠ some '?') :
    resolve_path pathc false (.object val) (b :: q') =
      match Tcl_DictObjGet val b with
      | none => THROW_ERROR ["Path element ".toList, int_string (pathc + 1), ": \"".toList, b,
          "\" not found".toList]
      | some t => resolve_path pathc false t q' := by
  rw [resolve_path_key_step pathc _ b q' hplain]
  simp only [resolve_step]
  cases Tcl_DictObjGet val b <;> rfl

theorem set_var_walk_object (lim : list_limit) (shared : Nat → Bool) (v : Jval) (i : Nat)
    (val : List (Str × Jval)) (a : Str) (p' : List Str) :
    ∃ x, (JSON_Set_var.walk lim shared v i (.object val) (a :: p')).1 =
      .object (Tcl_DictObjPut val a x) := by
  simp only [JSON_Set_var.walk]
  cases hg : Tcl_DictObjGet val a with
  | none => exact ⟨_, rfl⟩
  | some t =>
    simp only []
    cases unshare (shared (i + 1)) t with
    | error e => exact ⟨t, by rw [Tcl_DictObjPut_same val a t hg]⟩
    | ok t' => exact ⟨_, rfl⟩

theorem set_walk_diverge (lim : list_limit) (shared : Nat → Bool) (v : Jval) (i : Nat)
    (pathc : Nat) (n : Jval) (a b : Str) (p' q' : List Str)
    (hab : a ≠ b) (hn : key_path n (a :: p') = true)
    (hplain : q' ≠ [] ∨ b.head? ≠ some '?') :
    resolve_path pathc false (JSON_Set_var.walk lim shared v i n (a :: p')).1 (b :: q') =
      resolve_path pathc false n (b :: q') := by
  cases n with
  | object val =>
    obtain ⟨x, hx⟩ := set_var_walk_object lim shared v i val a p'
    rw [hx, resolve_object_step pathc _ b q' hplain, resolve_object_step pathc _ b q' hplain,
      Tcl_DictObjGet_Put_ne val a b x (Ne.symm hab)]
  | array val => simp [key_path] at hn
  | _ => rfl

theorem resolve_create_diverge (v : Jval) (pathc : Nat) (a b : Str) (p' q' : List Str)
    (hab : a ≠ b) (hplain : q' ≠ [] ∨ b.head? ≠ some '?') : ∀ c : List Str,
    ∃ e, resolve_path pathc false (JSON_Set.create v (c ++ a :: p')) (c ++ b :: q') = .error e
  | [] => by
    simp only [List.nil_append, JSON_Set.create]
    rw [resolve_object_step pathc _ b q' hplain]
    have hg : Tcl_DictObjGet (Tcl_DictObjPut [] a (JSON_Set.create v p')) b = none := by
      simp [Tcl_DictObjPut, Tcl_DictObjGet, hab]
    rw [hg]
    exact ⟨_, rfl⟩
  | s :: c => by
    simp only [List.cons_append, JSON_Set.create]
    rw [resolve_object_step pathc _ s (c ++ b :: q') (Or.inl (by simp)), Tcl_DictObjGet_Put]
    exact resolve_create_diverge v pathc a b p' q' hab hplain c

theorem set_walk_frame (lim : list_limit) (shared : Nat → Bool) (v : Jval) (pathc : Nat)
    (a b : Str) (p' q' : List Str)
    (hab : a ≠ b) (hplain : q' ≠ [] ∨ b.head? ≠ some '?') :
    ∀ (c : List Str) (i : Nat) (doc : Jval),
    key_path doc (c ++ a :: p') = true →
    resolve_path pathc false (JSON_Set_var.walk lim shared v i doc (c ++ a :: p')).1
          (c ++ b :: q') =
        resolve_path pathc false doc (c ++ b :: q') ∨
      ∃ e e', resolve_path pathc false doc (c ++ b :: q') = .error e ∧
        resolve_path pathc false (JSON_Set_var.walk lim shared v i doc (c ++ a :: p')).1
          (c ++ b :: q') = .error e'
  | [], i, doc, hk => Or.inl (set_walk_diverge lim shared v i pathc doc a b p' q' hab hk hplain)
  | s :: c, i, doc, hk => by
    cases doc with
    | object val =>
      simp only [List.cons_append, key_path] at hk
      simp only [List.cons_append, JSON_Set_var.walk]
      cases hg : Tcl_DictObjGet val s with
      | none =>
        right
        simp only []
        rw [resolve_object_step pathc _ s (c ++ b :: q') (Or.inl (by simp)),
          resolve_object_step pathc _ s (c ++ b :: q') (Or.inl (by simp)), hg,
          Tcl_DictObjGet_Put]
        obtain ⟨e', he'⟩ := resolve_create_diverge v pathc a b p' q' hab hplain c
        exact ⟨_, e', rfl, he'⟩
      | some t =>
        simp only [hg] at hk
        simp only []
        cases hu : unshare (shared (i + 1)) t with
        | error e => exact Or.inl rfl
        | ok t' =>
          have := unshare_ok _ _ _ hu
          subst this
          simp only []
          rw [resolve_object_step pathc _ s (c ++ b :: q') (Or.inl (by simp)),
            resolve_object_step pathc _ s (c ++ b :: q') (Or.inl (by simp)), hg,
            Tcl_DictObjGet_Put]
          exact set_walk_frame lim shared v pathc a b p' q' hab hplain c (i + 1) _ hk
    | array val => simp [key_path] at hk
    | _ => exact Or.inl rfl

theorem set_walk_inner (lim : list_limit) (shared : Nat → Bool) (v : Jval) :
    ∀ (pre : List Str) (i : Nat) (doc node : Jval) (below : List Str)
    (doc' : Jval), follow doc pre = some node →
    JSON_Set.walk lim shared v i doc (pre ++ below) = .ok doc' →
    ∃ t, JSON_Set.walk lim shared v (i + pre.length) node below = .ok t
  | [], i, doc, node, below, doc', hf, h => by
    simp only [follow_nil, Option.some.injEq] at hf
    subst hf
    exact ⟨doc', by simpa using h⟩
  | s :: pre, i, doc, node, below, doc', hf, h => by
    have hlen : i + (s :: pre).length = i + 1 + pre.length := by
      simp only [List.length_cons]; omega
    rw [hlen]
    cases doc with
    | object val =>
      simp only [follow] at hf
      cases hg : Tcl_DictObjGet val s with
      | none => simp [hg] at hf
      | some x =>
        simp only [hg] at hf
        simp only [List.cons_append, JSON_Set.walk, hg, List.append_eq] at h
        split at h
        · cases h
        · next x' hu =>
          have := unshare_ok _ _ _ hu
          subst this
          split at h
          · cases h
          · next t hw => exact set_walk_inner lim shared v pre (i + 1) _ node below t hf hw
    | array val =>
      simp only [follow] at hf
      cases hi : array_index true val.length s with
      | error e => simp [hi] at hf
      | ok index =>
        simp only [hi] at hf
        by_cases hout : index < 0 ∨ (val.length : Int) ≤ index
        · simp [hout] at hf
        · simp only [hout, if_false] at hf
          have h1 : ¬ index < 0 := by omega
          have h2 : ¬ (val.length : Int) ≤ index := by omega
          simp only [List.cons_append, JSON_Set.walk, hi, h1, h2, if_false, List.append_eq] at h
          split at h
          · cases h
          · next x' hu =>
            have := unshare_ok _ _ _ hu
            subst this
            split at h
            · cases h
            · next t hw => exact set_walk_inner lim shared v pre (i + 1) _ node below t hf hw
    | _ => simp [follow] at hf

theorem set_walk_object (lim : list_limit) (shared : Nat → Bool) (v : Jval) (i : Nat)
    (val : List (Str × Jval)) (step : Str) (rest : List Str)
    (t : Jval) (h : JSON_Set.walk lim shared v i (.object val) (step :: rest) = .ok t) :
    ∃ x, t = .object (Tcl_DictObjPut val step x) := by
  simp only [JSON_Set.walk] at h
  cases hg : Tcl_DictObjGet val step with
  | none =>
    simp only [hg, Except.ok.injEq] at h
    exact ⟨_, h.symm⟩
  | some target =>
    simp only [hg] at h
    split at h
    · cases h
    · split at h
      · cases h
      · simp only [Except.ok.injEq] at h
        exact ⟨_, h.symm⟩

theorem set_keeps_members (lim : list_limit) (shared : Nat → Bool) (v : Jval)
    (doc doc' : Jval) (pre : List Str) (step : Str)
    (rest : List Str) (val : List (Str × Jval)) (ho : object_at doc pre = some val)
    (h : JSON_Set.walk lim shared v 0 doc (pre ++ step :: rest) = .ok doc') :
    ∃ x, object_at doc' pre = some (Tcl_DictObjPut val step x) := by
  obtain ⟨t, ht⟩ := set_walk_inner lim shared v pre 0 doc (.object val) (step :: rest) doc'
    (object_at_follow pre doc val ho) h
  obtain ⟨x, hx⟩ := set_walk_object lim shared v _ val step rest t ht
  subst hx
  obtain ⟨d, hd, hd'⟩ := set_object_at lim shared v pre 0 doc val _ (step :: rest) ho ht
  rw [h] at hd
  cases hd
  exact ⟨x, hd'⟩
/-- C34 (as amended): `set` changes only the addressed location.  Let the paths
`p = c ++ a :: p'` and `q = c ++ b :: q'` part at the steps `a ≠ b`, let every
step of `p` that meets a container of the document meet an object, let the
step `b` of `q` not be a last step that begins with `?`, and let the call
return, with a result or with an error (it does not when the walk comes to a
null that has a second holder, where the process stops).  Then `get` of `q`
on the document the variable holds after `set` of `p` (which is the result of
`set` when it succeeds) gives what it gives on the document before, or fails
on both.  When `set` succeeds, the object found before the call under any
steps `pre` of `p` is found there afterwards with the next step `step` of `p`
put into it: a key that was absent is added after the last member, a key that
was present keeps its position, and the other members stay as they were, in
their order. -/
theorem set_frame (lim : list_limit) (shared : Nat → Bool) (doc : Jval) (c : List Str)
    (a b : Str) (p' q' : List Str) (v : Jval)
    (hab : a ≠ b) (hkey : key_path doc (c ++ a :: p') = true)
    (hplain : q' ≠ [] ∨ b.head? ≠ some '?')
    (hret : JSON_Set lim shared (some doc) (c ++ a :: p') v ≠ .error null_crash) :
    ∃ doc', (JSON_Set_var lim shared (some doc) (c ++ a :: p') v).1 = some doc' ∧
      (∀ d, JSON_Set lim shared (some doc) (c ++ a :: p') v = .ok d → d = doc') ∧
      (json_get doc' (c ++ b :: q') = json_get doc (c ++ b :: q') ∨
        ∃ e e', json_get doc (c ++ b :: q') = .error e ∧
          json_get doc' (c ++ b :: q') = .error e') ∧
      (∀ pre step rest val, c ++ a :: p' = pre ++ step :: rest →
        object_at doc pre = some val →
        JSON_Set lim shared (some doc) (c ++ a :: p') v = .ok doc' →
        ∃ x, object_at doc' pre = some (Tcl_DictObjPut val step x) ∧
          (Tcl_DictObjGet val step = none → Tcl_DictObjPut val step x = val ++ [(step, x)]) ∧
          (∀ old, Tcl_DictObjGet val step = some old →
            ∃ m n, val = m ++ (step, old) :: n ∧ Tcl_DictObjGet m step = none ∧
              Tcl_DictObjPut val step x = m ++ (step, x) :: n)) := by
  have htop : unshare (shared 0) doc = .ok doc := by
    cases hu : unshare (shared 0) doc with
    | ok t => rw [unshare_ok _ _ _ hu]
    | error e =>
      exfalso
      apply hret
      simp only [JSON_Set, Option.getD_some, hu, (unshare_error _ _ _ hu).2.2]
  have hvar : JSON_Set_var lim shared (some doc) (c ++ a :: p') v =
      (some (JSON_Set_var.walk lim shared v 0 doc (c ++ a :: p')).1,
        (JSON_Set_var.walk lim shared v 0 doc (c ++ a :: p')).2) := by
    simp only [JSON_Set_var, Option.getD_some, htop]
  refine ⟨(JSON_Set_var.walk lim shared v 0 doc (c ++ a :: p')).1, by rw [hvar], ?_, ?_, ?_⟩
  · intro d hd
    have hv := JSON_Set_var_ok lim shared (some doc) (c ++ a :: p') v d hd
    rw [hvar] at hv
    simp only [Prod.mk.injEq, Option.some.injEq] at hv
    exact hv.1.symm
  · exact set_walk_frame lim shared v _ a b p' q' hab hplain c 0 doc hkey
  · intro pre step rest val hp ho hset
    have hset' := JSON_Set_ok lim shared (some doc) (c ++ a :: p') v _ hset
    simp only [Option.getD_some] at hset'
    have hset2 : JSON_Set.walk lim shared v 0 doc (pre ++ step :: rest) =
        .ok (JSON_Set_var.walk lim shared v 0 doc (c ++ a :: p')).1 := by
      rw [← hp]
      exact hset'
    obtain ⟨x, hx⟩ := set_keeps_members lim shared v doc _ pre step rest val ho hset2
    exact ⟨x, hx, fun hn => Tcl_DictObjPut_new val step x hn,
      fun old hold => Tcl_DictObjPut_present val step x old hold⟩

theorem set_frame_witness :
    ∃ doc', (JSON_Set_var tcl86_lists (fun _ => true)
          (some (.object [(['a'], .object [(['x'], .number ['1']),
          (['y'], .number ['2'])]), (['b'], .bool true)])) [['a'], ['x']] .null).1 = some doc' ∧
      (json_get doc' [['a'], ['y']] =
          json_get (.object [(['a'], .object [(['x'], .number ['1']),
            (['y'], .number ['2'])]), (['b'], .bool true)]) [['a'], ['y']] ∨
        ∃ e e', json_get (.object [(['a'], .object [(['x'], .number ['1']),
            (['y'], .number ['2'])]), (['b'], .bool true)]) [['a'], ['y']] = .error e ∧
          json_get doc' [['a'], ['y']] = .error e') ∧
      (JSON_Set tcl86_lists (fun _ => true) (some (.object [(['a'], .object [(['x'], .number ['1']),
          (['y'], .number ['2'])]), (['b'], .bool true)])) [['a'], ['x']] .null = .ok doc' →
        ∃ x, object_at doc' [['a']] =
          some (Tcl_DictObjPut [(['x'], .number ['1']), (['y'], .number ['2'])] ['x'] x)) :=
  have h := set_frame tcl86_lists (fun _ => true) (.object [(['a'], .object [(['x'], .number ['1']),
    (['y'], .number ['2'])]), (['b'], .bool true)]) [['a']] ['x'] ['y'] [] [] .null
    (by decide) (by decide!) (Or.inr (by decide)) (by decide!)
  have ⟨doc', h1, _, h3, h4⟩ := h
  ⟨doc', h1, h3, fun hs =>
    have ⟨x, hx, _⟩ := h4 [['a']] ['x'] [] _ rfl (by decide!) hs
    ⟨x, hx⟩⟩

/-- C34, the claim as written fails, through the way `get` reads a last step
that begins with `?`.  On the empty object, `set` of the path `?x` adds the
member `?x`; the path `??x`, which parts from `?x` at the first step, is read
by `get` as the key `?x`: it fails on the document before and gives the new
value afterwards.  Likewise `set` of the path `a` changes what `get` of the
path `?size` gives, from 0 to 1.  And on the object with the member
`a : null`, when the null has a second holder, `set` of the path `a` gives no
document at all: the process stops in `dup_internal_rep`. -/
theorem set_frame_counterexample :
    ¬ ["?x".toList] <+: ["??x".toList] ∧ ¬ ["??x".toList] <+: ["?x".toList] ∧
    key_path (.object []) ["?x".toList] = true ∧
    key_path (.object []) ["??x".toList] = true ∧
    JSON_Set tcl86_lists (fun _ => false) (some (.object [])) ["?x".toList] (.number ['1']) =
      .ok (.object [("?x".toList, .number ['1'])]) ∧
    json_get (.object []) ["??x".toList] =
      .error ⟨"Path element 2: \"?x\" not found".toList, []⟩ ∧
    json_get (.object [("?x".toList, .number ['1'])]) ["??x".toList] =
      .ok (.jval (.number ['1'])) ∧
    JSON_Set tcl86_lists (fun _ => false) (some (.object [])) [['a']] (.number ['1']) =
      .ok (.object [(['a'], .number ['1'])]) ∧
    json_get (.object []) ["?size".toList] = .ok (.int 0) ∧
    json_get (.object [(['a'], .number ['1'])]) ["?size".toList] = .ok (.int 1) ∧
    key_path (.object [(['a'], .null)]) [['a']] = true ∧
    JSON_Set tcl86_lists (fun _ => true) (some (.object [(['a'], .null)])) [['a']]
      (.number ['1']) = .error null_crash := by
  decide!

theorem delete_blanks_literal : ∀ (s : Str) (escaped : Bool) (rest : Str),
    scan_quotes escaped s = some false →
    delete_blanks_outside_strings (some escaped) (s ++ '"' :: rest) =
      s ++ '"' :: delete_blanks_outside_strings none rest
  | [], escaped, rest, h => by
    simp only [scan_quotes, Option.some.injEq] at h
    subst h
    simp [delete_blanks_outside_strings]
  | c :: s, true, rest, h => by
    simp only [scan_quotes] at h
    simp [delete_blanks_outside_strings, delete_blanks_literal s false rest h]
  | c :: s, false, rest, h => by
    simp only [scan_quotes] at h
    by_cases hc : c = '"'
    · simp [hc] at h
    · simp only [hc, if_false] at h
      simp [delete_blanks_outside_strings, hc, delete_blanks_literal s _ rest h]

theorem delete_blanks_string (k : Str) (rest : Str) :
    delete_blanks_outside_strings none (append_json_string k ++ rest) =
      append_json_string k ++ delete_blanks_outside_strings none rest := by
  have h := delete_blanks_literal (k.flatMap escape_char) false rest (scan_quotes_escaped k)
  simp only [append_json_string, List.cons_append, List.append_assoc, List.singleton_append]
  rw [delete_blanks_outside_strings]
  simp [h]

theorem delete_blanks_dense : ∀ (s rest : Str),
    (s.all fun c => decide (c ≠ ' ' ∧ c ≠ '\n' ∧ c ≠ '"')) = true →
    delete_blanks_outside_strings none (s ++ rest) =
      s ++ delete_blanks_outside_strings none rest
  | [], rest, _ => rfl
  | c :: s, rest, h => by
    simp only [List.all_cons, Bool.and_eq_true, decide_eq_true_eq] at h
    simp [delete_blanks_outside_strings, h.1.1, h.1.2.1, h.1.2.2,
      delete_blanks_dense s rest h.2]

theorem delete_blanks_spaces : ∀ (s rest : Str), (∀ c ∈ s, c = ' ') →
    delete_blanks_outside_strings none (s ++ rest) = delete_blanks_outside_strings none rest
  | [], rest, _ => rfl
  | c :: s, rest, h => by
    have hc : c = ' ' := h c (by simp)
    simp [delete_blanks_outside_strings, hc,
      delete_blanks_spaces s rest (fun x hx => h x (by simp [hx]))]

theorem normal_members_false (val : List (Str × Jval)) :
    serialize_json_val_normal.members val false =
      if val.length ≠ 0 then ',' :: serialize_json_val_normal.members val true else [] := by
  cases val with
  | nil => simp [serialize_json_val_normal.members]
  | cons kv rest =>
    obtain ⟨k, v⟩ := kv
    simp [serialize_json_val_normal.members]

theorem normal_elems_false (val : List Jval) :
    serialize_json_val_normal.elems val false =
      if val.length ≠ 0 then ',' :: serialize_json_val_normal.elems val true else [] := by
  cases val with
  | nil => simp [serialize_json_val_normal.elems]
  | cons v rest => simp [serialize_json_val_normal.elems]

theorem delete_blanks_cons_dense (c : Char) (rest : Str)
    (h : c ≠ ' ' ∧ c ≠ '\n' ∧ c ≠ '"') :
    delete_blanks_outside_strings none (c :: rest) =
      c :: delete_blanks_outside_strings none rest := by
  simp [delete_blanks_outside_strings, h.1, h.2.1, h.2.2]

theorem delete_blanks_cons_blank (c : Char) (rest : Str) (h : c = ' ' ∨ c = '\n') :
    delete_blanks_outside_strings none (c :: rest) =
      delete_blanks_outside_strings none rest := by
  simp [delete_blanks_outside_strings, h]

theorem spaces_append (pad indent : Str) (hp : ∀ c ∈ pad, c = ' ') (hi : ∀ c ∈ indent, c = ' ') :
    ∀ c ∈ pad ++ indent, c = ' ' := by
  intro c hc
  rcases List.mem_append.mp hc with h | h
  · exact hp c h
  · exact hi c h

theorem key_pad_spaces (n max : Nat) :
    ∀ c ∈ (if n < max then List.replicate (max - n) ' ' else []), c = ' ' := by
  intro c hc
  split at hc
  · exact (List.mem_replicate.mp hc).2
  · simp at hc

mutual
theorem pretty_dense (indent : Str) (hi : ∀ c ∈ indent, c = ' ') : ∀ (v : Jval) (pad rest : Str),
    (∀ c ∈ pad, c = ' ') → numbers_dense v = true →
    delete_blanks_outside_strings none (json_pretty indent pad v ++ rest) =
      serialize_json_val_normal v ++ delete_blanks_outside_strings none rest
  | .object val, pad, rest, hp, hn => by
    simp only [json_pretty, serialize_json_val_normal]
    by_cases h0 : val.length = 0
    · have : val = [] := List.length_eq_zero.mp h0
      subst this
      simp [serialize_json_val_normal.members, delete_blanks_outside_strings]
    · simp only [h0, if_false, List.cons_append, List.append_assoc, List.nil_append]
      have hm := pretty_members_dense indent hi val (pad ++ indent)
        (if key_max val > 20 then 20 else key_max val)
        (pad ++ ('}' :: rest)) (spaces_append pad indent hp hi)
        (by simpa [numbers_dense] using hn)
      rw [delete_blanks_cons_dense '{' _ (by decide), delete_blanks_cons_blank '\n' _ (by simp),
        hm, delete_blanks_spaces pad _ hp, delete_blanks_cons_dense '}' _ (by decide)]
  | .array val, pad, rest, hp, hn => by
    simp only [json_pretty, serialize_json_val_normal]
    by_cases h0 : val.length = 0
    · have : val = [] := List.length_eq_zero.mp h0
      subst this
      simp [serialize_json_val_normal.elems, delete_blanks_outside_strings]
    · simp only [h0, if_false, List.cons_append, List.append_assoc, List.nil_append]
      have hm := pretty_elems_dense indent hi val (pad ++ indent)
        (pad ++ (']' :: rest)) (spaces_append pad indent hp hi)
        (by simpa [numbers_dense] using hn)
      rw [delete_blanks_cons_dense '[' _ (by decide), delete_blanks_cons_blank '\n' _ (by simp),
        hm, delete_blanks_spaces pad _ hp, delete_blanks_cons_dense ']' _ (by decide)]
  | .string val, pad, rest, _, _ => by
    simp only [json_pretty, serialize_json_val_normal]
    exact delete_blanks_string val rest
  | .number val, pad, rest, _, hn => by
    simp only [json_pretty, serialize_json_val_normal]
    exact delete_blanks_dense val rest (by simpa [numbers_dense] using hn)
  | .bool val, pad, rest, _, _ => by
    simp only [json_pretty, serialize_json_val_normal]
    cases val
    · exact delete_blanks_dense "false".toList rest (by decide)
    · exact delete_blanks_dense "true".toList rest (by decide)
  | .null, pad, rest, _, _ => by
    simp only [json_pretty, serialize_json_val_normal]
    exact delete_blanks_dense "null".toList rest (by decide)
  | .dyn type val, pad, rest, _, _ => by
    simp only [json_pretty, serialize_json_val_normal]
    exact delete_blanks_string _ rest
theorem pretty_members_dense (indent : Str) (hi : ∀ c ∈ indent, c = ' ') :
    ∀ (val : List (Str × Jval)) (next_pad : Str) (max : Nat) (rest : Str),
    (∀ c ∈ next_pad, c = ' ') → numbers_dense.members val = true →
    delete_blanks_outside_strings none (json_pretty.members indent next_pad max val ++ rest) =
      serialize_json_val_normal.members val true ++ delete_blanks_outside_strings none rest
  | [], next_pad, max, rest, _, _ => by
    simp [json_pretty.members, serialize_json_val_normal.members]
  | (k, v) :: more, next_pad, max, rest, hp, hn => by
    simp only [numbers_dense.members, Bool.and_eq_true] at hn
    have hv := pretty_dense indent hi v next_pad
    have hm := pretty_members_dense indent hi more next_pad max rest hp hn.2
    simp only [json_pretty.members, serialize_json_val_normal.members, List.append_assoc,
      if_true, List.nil_append, List.cons_append]
    rw [delete_blanks_spaces next_pad _ hp, delete_blanks_string,
      delete_blanks_cons_dense ':' _ (by decide), delete_blanks_cons_blank ' ' _ (by simp),
      delete_blanks_spaces _ _ (key_pad_spaces (byte_length k) max),
      hv _ hp hn.1, normal_members_false]
    by_cases h0 : more.length = 0
    · have : more = [] := List.length_eq_zero.mp h0
      subst this
      simp only [List.length_nil, ne_eq, not_true_eq_false, if_false, List.cons_append,
        List.nil_append]
      rw [delete_blanks_cons_blank '\n' _ (by simp), hm]
      simp [serialize_json_val_normal.members]
    · simp only [h0, ne_eq, not_false_eq_true, if_true, List.cons_append, List.nil_append]
      rw [delete_blanks_cons_dense ',' _ (by decide), delete_blanks_cons_blank '\n' _ (by simp),
        hm]
theorem pretty_elems_dense (indent : Str) (hi : ∀ c ∈ indent, c = ' ') :
    ∀ (val : List Jval) (next_pad : Str) (rest : Str),
    (∀ c ∈ next_pad, c = ' ') → numbers_dense.elems val = true →
    delete_blanks_outside_strings none (json_pretty.elems indent next_pad val ++ rest) =
      serialize_json_val_normal.elems val true ++ delete_blanks_outside_strings none rest
  | [], next_pad, rest, _, _ => by
    simp [json_pretty.elems, serialize_json_val_normal.elems]
  | v :: more, next_pad, rest, hp, hn => by
    simp only [numbers_dense.elems, Bool.and_eq_true] at hn
    have hv := pretty_dense indent hi v next_pad
    have hm := pretty_elems_dense indent hi more next_pad rest hp hn.2
    simp only [json_pretty.elems, serialize_json_val_normal.elems, List.append_assoc,
      if_true, List.nil_append, List.cons_append]
    rw [delete_blanks_spaces next_pad _ hp, hv _ hp hn.1, normal_elems_false]
    by_cases h0 : more.length = 0
    · have : more = [] := List.length_eq_zero.mp h0
      subst this
      simp only [List.length_nil, ne_eq, not_true_eq_false, if_false, List.cons_append,
        List.nil_append]
      rw [delete_blanks_cons_blank '\n' _ (by simp), hm]
      simp [serialize_json_val_normal.elems]
    · simp only [h0, ne_eq, not_false_eq_true, if_true, List.cons_append, List.nil_append]
      rw [delete_blanks_cons_dense ',' _ (by decide), delete_blanks_cons_blank '\n' _ (by simp),
        hm]
end
/-- C39 (as amended): for every value none of whose numbers holds a space, a
newline or a double quote in its text, every indent made only of spaces and
every accumulated indent made only of spaces (the command starts with the
empty one), deleting from the text `json_pretty` writes every space and
newline outside a string literal gives exactly the serialization of the value
in the normal mode.  The empty object is written `{}`, the empty array `[]`,
and a string, a number, a boolean, a null or a placeholder is written as in
the normal mode, whatever the indents. -/
theorem pretty_then_delete_blanks (v : Jval) (indent pad : Str) (fuel : Nat)
    (src : subst_source) (hi : ∀ c ∈ indent, c = ' ') (hp : ∀ c ∈ pad, c = ' ')
    (hn : numbers_dense v = true) :
    delete_blanks_outside_strings none (json_pretty indent pad v) =
        serialize_json_val_normal v ∧
      serialize fuel src SERIALIZE_NORMAL v = .ok (serialize_json_val_normal v) ∧
      (∀ i p : Str, json_pretty i p (.object []) = ['{', '}'] ∧
        json_pretty i p (.array []) = ['[', ']'] ∧
        ∀ w, is_atomic w = true → json_pretty i p w = serialize_json_val_normal w) := by
  refine ⟨?_, serialize_normal fuel src v, ?_⟩
  · have h := pretty_dense indent hi v pad [] hp hn
    simpa [delete_blanks_outside_strings] using h
  · intro i p
    refine ⟨rfl, rfl, ?_⟩
    intro w hw
    cases w with
    | object val => simp [is_atomic] at hw
    | array val => simp [is_atomic] at hw
    | _ => rfl

theorem pretty_then_delete_blanks_witness :
    json_pretty "  ".toList [] (.object [(['a'], .array [.number ['1'], .string "x y".toList]),
        ("bc".toList, .object [])]) =
      "\x7b\n  \"a\":  [\n    1,\n    \"x y\"\n  ],\n  \"bc\": \x7b\x7d\n\x7d".toList ∧
    delete_blanks_outside_strings none (json_pretty "  ".toList []
        (.object [(['a'], .array [.number ['1'], .string "x y".toList]),
          ("bc".toList, .object [])])) =
      "\x7b\"a\":[1,\"x y\"],\"bc\":\x7b\x7d\x7d".toList ∧
    serialize_json_val_normal (.object [(['a'], .array [.number ['1'], .string "x y".toList]),
        ("bc".toList, .object [])]) =
      "\x7b\"a\":[1,\"x y\"],\"bc\":\x7b\x7d\x7d".toList :=
  have h := pretty_then_delete_blanks
    (.object [(['a'], .array [.number ['1'], .string "x y".toList]), ("bc".toList, .object [])])
    "  ".toList [] 0 ⟨none, fun _ => none⟩ (by decide) (by simp) (by decide!)
  have hs : serialize_json_val_normal (.object [(['a'], .array [.number ['1'],
      .string "x y".toList]), ("bc".toList, .object [])]) =
      "\x7b\"a\":[1,\"x y\"],\"bc\":\x7b\x7d\x7d".toList := by decide!
  ⟨by decide!, h.1.trans hs, hs⟩

/-- C39, the claim as written fails on a number whose text holds a space.  The
template `["~N:x"]` applied with ` 1` for `x` (which `::tcl::mathop::+ 0`
accepts) gives an array whose number keeps the text ` 1`; it is written
`[ 1]` in the normal mode, and the pretty-printed text without its spaces and
newlines is `[1]`. -/
theorem pretty_number_counterexample :
    compile_and_apply 1 (.array [.dyn DYN_NUMBER ['x']])
        ⟨some [(['x'], ⟨" 1".toList, .ok (.number ['1']), some ['1'], none⟩)], fun _ => none⟩ =
      .ok (.array [.number " 1".toList]) ∧
    json_pretty "  ".toList [] (.array [.number " 1".toList]) = "[\n   1\n]".toList ∧
    delete_blanks_outside_strings none
        (json_pretty "  ".toList [] (.array [.number " 1".toList])) = "[1]".toList ∧
    serialize_json_val_normal (.array [.number " 1".toList]) = "[ 1]".toList ∧
    serialize 0 ⟨none, fun _ => none⟩ SERIALIZE_NORMAL (.array [.number " 1".toList]) =
      .ok "[ 1]".toList := by
  decide!

/-! ## The interning cache: the bitmap and the aging pass -/

theorem ffsll_loop_zero (x : Nat) : ∀ (fuel i : Nat), ffsll_polyfill.loop x fuel i = 0 →
    ∀ j, i ≤ j → j < i + fuel → x.testBit j = false
  | 0, i, _, j, h1, h2 => by omega
  | fuel + 1, i, h, j, h1, h2 => by
    simp only [ffsll_polyfill.loop] at h
    by_cases hb : x.testBit i = true
    · simp [hb] at h
    · simp only [hb, Bool.false_eq_true, if_false] at h
      by_cases hj : j = i
      · subst hj; simpa using hb
      · exact ffsll_loop_zero x fuel (i + 1) h j (by omega) (by omega)

theorem ffsll_loop_pos (x : Nat) : ∀ (fuel i : Nat), ffsll_polyfill.loop x fuel i ≠ 0 →
    i < ffsll_polyfill.loop x fuel i ∧ ffsll_polyfill.loop x fuel i ≤ i + fuel ∧
      x.testBit (ffsll_polyfill.loop x fuel i - 1) = true
  | 0, i, h => by simp [ffsll_polyfill.loop] at h
  | fuel + 1, i, h => by
    simp only [ffsll_polyfill.loop] at h ⊢
    by_cases hb : x.testBit i = true
    · simp [hb]
    · simp only [hb, Bool.false_eq_true, if_false] at h ⊢
      have := ffsll_loop_pos x fuel (i + 1) h
      exact ⟨by omega, by omega, this.2.2⟩

theorem first_free_go_some : ∀ (fm : List Nat) (i idx : Nat), first_free.go fm i = some idx →
    i * 64 ≤ idx ∧ idx < (i + fm.length) * 64 ∧
      (fm.getD (idx / 64 - i) 0).testBit (idx % 64) = true
  | [], i, idx, h => by simp [first_free.go] at h
  | w :: fm, i, idx, h => by
    simp only [first_free.go] at h
    by_cases hz : ffsll_polyfill w = 0
    · simp only [hz, if_true] at h
      have ih := first_free_go_some fm (i + 1) idx h
      have h1 : idx / 64 - i = (idx / 64 - (i + 1)) + 1 := by
        have : (i + 1) * 64 ≤ idx := ih.1
        have : i + 1 ≤ idx / 64 := by omega
        omega
      refine ⟨by omega, by simp only [List.length_cons]; omega, ?_⟩
      rw [h1, List.getD_cons_succ]
      exact ih.2.2
    · simp only [hz, if_false, Option.some.injEq] at h
      have hp := ffsll_loop_pos w 64 0 hz
      have hl : ffsll_polyfill w = ffsll_polyfill.loop w 64 0 := rfl
      rw [← hl] at hp
      subst h
      have h1 : (i * 64 + (ffsll_polyfill w - 1)) / 64 = i := by omega
      have h2 : (i * 64 + (ffsll_polyfill w - 1)) % 64 = ffsll_polyfill w - 1 := by omega
      refine ⟨by omega, by simp only [List.length_cons]; omega, ?_⟩
      rw [h1, h2]
      simpa using hp.2.2

theorem first_free_go_exists : ∀ (fm : List Nat) (i j b : Nat), j < fm.length → b < 64 →
    (fm.getD j 0).testBit b = true → ∃ idx, first_free.go fm i = some idx
  | [], i, j, b, hj, _, _ => by simp at hj
  | w :: fm, i, j, b, hj, hb, ht => by
    simp only [first_free.go]
    by_cases hz : ffsll_polyfill w = 0
    · simp only [hz, if_true]
      cases j with
      | zero =>
        have := ffsll_loop_zero w 64 0 hz b (by omega) (by omega)
        simp only [List.getD_cons_zero] at ht
        rw [this] at ht
        cases ht
      | succ j =>
        simp only [List.getD_cons_succ] at ht
        exact first_free_go_exists fm (i + 1) j b (by simpa using hj) hb ht
    · simp only [hz, if_false]
      exact ⟨_, rfl⟩

theorem first_free_some (fm : List Nat) (idx : Nat) (h : first_free fm = some idx) :
    idx < 64 * fm.length ∧ slot_free fm idx = true := by
  have := first_free_go_some fm 0 idx h
  exact ⟨by omega, by simpa [slot_free] using this.2.2⟩

theorem first_free_exists (fm : List Nat) (idx : Nat) (hlt : idx < 64 * fm.length)
    (h : slot_free fm idx = true) : ∃ i, first_free fm = some i :=
  first_free_go_exists fm 0 (idx / 64) (idx % 64) (by omega) (Nat.mod_lt _ (by decide)) h

theorem testBit_one (n : Nat) : Nat.testBit 1 n = decide (n = 0) := by
  cases n with
  | zero => rfl
  | succ n => simp [Nat.testBit_succ]

theorem testBit_clear (w b k : Nat) (hb : b < 64) (hk : k < 64) :
    (w &&& ((2 ^ 64 - 1) ^^^ (1 <<< b))).testBit k = (w.testBit k && decide (k ≠ b)) := by
  rw [Nat.testBit_and, Nat.testBit_xor, Nat.testBit_two_pow_sub_one, Nat.testBit_shiftLeft,
    testBit_one]
  by_cases h : k = b
  · subst h; simp [hk]
  · by_cases h2 : b ≤ k
    · have : k - b ≠ 0 := by omega
      simp [h, h2, hk, this]
    · simp [h, h2, hk]

theorem testBit_put (w b k : Nat) :
    (w ||| (1 <<< b)).testBit k = (w.testBit k || decide (k = b)) := by
  rw [Nat.testBit_or, Nat.testBit_shiftLeft, testBit_one]
  by_cases h : k = b
  · subst h; simp
  · by_cases h2 : b ≤ k
    · have : k - b ≠ 0 := by omega
      simp [h, h2, this]
    · simp [h, h2]

theorem getD_set_both {α : Type} (l : List α) (i j : Nat) (x d : α) :
    (l.set i x).getD j d = if i = j ∧ j < l.length then x else l.getD j d := by
  by_cases h : i = j
  · subst h
    by_cases hl : i < l.length
    · simp [hl, List.getD_eq_getElem?_getD, List.getElem?_set]
    · have hn : l[i]? = none := List.getElem?_eq_none (by omega)
      simp [hl, List.getD_eq_getElem?_getD, List.getElem?_set, hn]
  · simp [h, List.getD_eq_getElem?_getD, List.getElem?_set]

theorem slot_free_mark_used (fm : List Nat) (idx j : Nat) (h : idx < 64 * fm.length) :
    slot_free (mark_used fm idx) j = (slot_free fm j && decide (j ≠ idx)) := by
  simp only [slot_free, mark_used]
  have hb : idx - idx / 64 * 64 = idx % 64 := by omega
  rw [hb, getD_set_both]
  by_cases hq : idx / 64 = j / 64
  · have hl : j / 64 < fm.length := by omega
    rw [if_pos ⟨hq, hl⟩, testBit_clear _ _ _ (Nat.mod_lt _ (by decide)) (Nat.mod_lt _ (by decide)),
      hq]
    congr 1
    have : (j % 64 ≠ idx % 64) ↔ (j ≠ idx) := by omega
    simp only [this]
  · rw [if_neg (by tauto)]
    have : j ≠ idx := by intro hji; subst hji; exact hq rfl
    simp [this]

theorem slot_free_mark_free (fm : List Nat) (idx j : Nat) (h : idx < 64 * fm.length) :
    slot_free (mark_free fm idx) j = (slot_free fm j || decide (j = idx)) := by
  simp only [slot_free, mark_free]
  have hb : idx - idx / 64 * 64 = idx % 64 := by omega
  rw [hb, getD_set_both]
  by_cases hq : idx / 64 = j / 64
  · have hl : j / 64 < fm.length := by omega
    rw [if_pos ⟨hq, hl⟩, testBit_put, hq]
    congr 1
    have : (j % 64 = idx % 64) ↔ (j = idx) := by omega
    simp only [this]
  · rw [if_neg (by tauto)]
    have : j ≠ idx := by intro hji; subst hji; exact hq rfl
    simp [this]

theorem mark_used_length (fm : List Nat) (idx : Nat) : (mark_used fm idx).length = fm.length := by
  simp [mark_used]

theorem mark_free_length (fm : List Nat) (idx : Nat) : (mark_free fm idx).length = fm.length := by
  simp [mark_free]

theorem slot_free_init (words idx : Nat) (h : idx < 64 * words) :
    slot_free (List.replicate words (2 ^ 64 - 1)) idx = true := by
  simp only [slot_free]
  have hl : idx / 64 < (List.replicate words (2 ^ 64 - 1)).length := by
    simp only [List.length_replicate]; omega
  rw [getD_eq_get _ _ hl]
  simp only [List.get_eq_getElem, List.getElem_replicate, Nat.testBit_two_pow_sub_one]
  simpa using Nat.mod_lt idx (by decide : 64 > 0)
theorem Tcl_DictObjRemove_filter {α : Type} (d : List (Str × α)) (k : Str) :
    Tcl_DictObjRemove d k = d.filter (fun p => decide (p.1 ≠ k)) := by
  induction d with
  | nil => rfl
  | cons p d ih =>
    obtain ⟨k', v⟩ := p
    by_cases h : k' = k
    · simp [Tcl_DictObjRemove, h, ih]
    · simp [Tcl_DictObjRemove, h, ih]

theorem dict_get_mem {α : Type} (d : List (Str × α)) (k : Str) (x : α)
    (h : Tcl_DictObjGet d k = some x) : (k, x) ∈ d := by
  induction d with
  | nil => simp [Tcl_DictObjGet] at h
  | cons p d ih =>
    obtain ⟨k', v⟩ := p
    by_cases hk : k' = k
    · simp only [Tcl_DictObjGet, hk, if_true, Option.some.injEq] at h
      simp [hk, h]
    · simp only [Tcl_DictObjGet, hk, if_false] at h
      exact List.mem_cons_of_mem _ (ih h)

theorem dict_get_none {α : Type} (d : List (Str × α)) (k : Str) :
    Tcl_DictObjGet d k = none ↔ ∀ p ∈ d, p.1 ≠ k := by
  induction d with
  | nil => simp [Tcl_DictObjGet]
  | cons p d ih =>
    obtain ⟨k', v⟩ := p
    by_cases hk : k' = k
    · simp only [Tcl_DictObjGet, hk, if_true]
      constructor
      · intro h; cases h
      · intro h; exact absurd rfl (h (k, v) (List.mem_cons_self _ _))
    · simp only [Tcl_DictObjGet, hk, if_false, ih]
      constructor
      · intro h p hp
        rcases List.mem_cons.mp hp with h1 | h1
        · subst h1; exact hk
        · exact h p h1
      · intro h p hp
        exact h p (List.mem_cons_of_mem _ hp)

theorem dict_mem_get {α : Type} (d : List (Str × α)) (k : Str) (x : α)
    (hn : (d.map Prod.fst).Nodup) (h : (k, x) ∈ d) : Tcl_DictObjGet d k = some x := by
  induction d with
  | nil => simp at h
  | cons p d ih =>
    obtain ⟨k', v⟩ := p
    simp only [List.map_cons, List.nodup_cons, List.mem_map, not_exists, not_and] at hn
    rcases List.mem_cons.mp h with h1 | h1
    · cases h1
      simp [Tcl_DictObjGet]
    · have hk : k' ≠ k := fun e => hn.1 (k, x) h1 e.symm
      simp only [Tcl_DictObjGet, hk, if_false]
      exact ih hn.2 h1

theorem visit_spec (l : interp_cx) (t : Str × Nat) (h1 : t.2 < l.kc_entries.length)
    (h2 : t.2 < 64 * l.freemap.length) :
    (age_cache.visit l t).kc_count = l.kc_count ∧
      (age_cache.visit l t).freemap.length = l.freemap.length ∧
      (age_cache.visit l t).kc_entries.length = l.kc_entries.length ∧
      (age_cache.visit l t).kc =
        (if (slot l t.2).hits < 1 then l.kc.filter (fun p => decide (p.1 ≠ t.1)) else l.kc) ∧
      (∀ j, slot_free (age_cache.visit l t).freemap j =
        (slot_free l.freemap j || decide (j = t.2 ∧ (slot l t.2).hits < 1))) ∧
      (∀ j, j ≠ t.2 → slot (age_cache.visit l t) j = slot l j) ∧
      slot (age_cache.visit l t) t.2 =
        (if (slot l t.2).hits < 1 then { slot l t.2 with val := none }
          else { slot l t.2 with hits := (slot l t.2).hits >>> 1 }) := by
  by_cases hh : (slot l t.2).hits < 1
  · have hh' : (l.kc_entries.getD t.2 ⟨none, 0⟩).hits < 1 := hh
    simp only [age_cache.visit, hh', if_true, hh, mark_free_length, List.length_set,
      Tcl_DeleteHashEntry, Tcl_DictObjRemove_filter, true_and, and_true]
    refine ⟨?_, ?_, ?_⟩
    · intro j
      rw [slot_free_mark_free _ _ _ h2]
    · intro j hj
      simp only [slot, getD_set_both]
      rw [if_neg (by intro h; exact hj h.1.symm)]
    · simp [slot, getD_set_both, h1]
  · have hh' : ¬ (l.kc_entries.getD t.2 ⟨none, 0⟩).hits < 1 := hh
    simp only [age_cache.visit, hh', if_false, hh, List.length_set, true_and, and_false,
      decide_False, Bool.or_false, implies_true]
    refine ⟨?_, ?_⟩
    · intro j hj
      simp only [slot, getD_set_both]
      rw [if_neg (by intro h; exact hj h.1.symm)]
    · simp [slot, getD_set_both, h1]

theorem age_fold : ∀ (todo : List (Str × Nat)) (l : interp_cx),
    (todo.map Prod.snd).Nodup →
    (∀ t ∈ todo, t.2 < l.kc_entries.length ∧ t.2 < 64 * l.freemap.length) →
    (todo.foldl age_cache.visit l).kc_count = l.kc_count ∧
      (todo.foldl age_cache.visit l).freemap.length = l.freemap.length ∧
      (todo.foldl age_cache.visit l).kc_entries.length = l.kc_entries.length ∧
      (todo.foldl age_cache.visit l).kc.Sublist l.kc ∧
      (∀ p, p ∈ (todo.foldl age_cache.visit l).kc ↔
        p ∈ l.kc ∧ ∀ t ∈ todo, (slot l t.2).hits < 1 → p.1 ≠ t.1) ∧
      (∀ j, slot_free (todo.foldl age_cache.visit l).freemap j = true ↔
        slot_free l.freemap j = true ∨ ∃ t ∈ todo, t.2 = j ∧ (slot l j).hits < 1) ∧
      (∀ j, (∀ t ∈ todo, t.2 ≠ j) → slot (todo.foldl age_cache.visit l) j = slot l j) ∧
      (∀ t ∈ todo, slot (todo.foldl age_cache.visit l) t.2 =
        (if (slot l t.2).hits < 1 then { slot l t.2 with val := none }
          else { slot l t.2 with hits := (slot l t.2).hits >>> 1 }))
  | [], l, _, _ => by simp
  | t :: rest, l, hn, hb => by
    simp only [List.map_cons, List.nodup_cons, List.mem_map, not_exists, not_and] at hn
    obtain ⟨v1, v2, v3, v4, v5, v6, v7⟩ :=
      visit_spec l t (hb t (List.mem_cons_self _ _)).1 (hb t (List.mem_cons_self _ _)).2
    have hne : ∀ r ∈ rest, r.2 ≠ t.2 := fun r hr e => hn.1 r hr e
    have hb1 : ∀ r ∈ rest, r.2 < (age_cache.visit l t).kc_entries.length ∧
        r.2 < 64 * (age_cache.visit l t).freemap.length := by
      intro r hr
      rw [v3, v2]
      exact hb r (List.mem_cons_of_mem _ hr)
    obtain ⟨f1, f2, f3, f4, f5, f6, f7, f8⟩ := age_fold rest (age_cache.visit l t) hn.2 hb1
    have hs : ∀ r ∈ rest, slot (age_cache.visit l t) r.2 = slot l r.2 :=
      fun r hr => v6 r.2 (hne r hr)
    simp only [List.foldl_cons]
    refine ⟨by rw [f1, v1], by rw [f2, v2], by rw [f3, v3], ?_, ?_, ?_, ?_, ?_⟩
    · refine f4.trans ?_
      rw [v4]
      split
      · exact List.filter_sublist _
      · exact List.Sublist.refl _
    · intro p
      rw [f5 p, v4]
      constructor
      · rintro ⟨hp, hr⟩
        have hp' : p ∈ l.kc ∧ ((slot l t.2).hits < 1 → p.1 ≠ t.1) := by
          split at hp
          · next hd =>
            simp only [List.mem_filter, decide_eq_true_eq] at hp
            exact ⟨hp.1, fun _ => hp.2⟩
          · next hd => exact ⟨hp, fun h => absurd h hd⟩
        refine ⟨hp'.1, ?_⟩
        intro x hx
        rcases List.mem_cons.mp hx with h | h
        · subst h; exact hp'.2
        · have := hr x h
          rwa [hs x h] at this
      · rintro ⟨hp, hr⟩
        constructor
        · split
          · next hd =>
            simp only [List.mem_filter, decide_eq_true_eq]
            exact ⟨hp, hr t (List.mem_cons_self _ _) hd⟩
          · exact hp
        · intro x hx
          rw [hs x hx]
          exact hr x (List.mem_cons_of_mem _ hx)
    · intro j
      rw [f6 j, v5 j]
      simp only [Bool.or_eq_true, decide_eq_true_eq]
      constructor
      · rintro (⟨h | ⟨h1, h2⟩⟩ | ⟨x, hx, h1, h2⟩)
        · exact Or.inl h
        · exact Or.inr ⟨t, List.mem_cons_self _ _, h1.symm, by rw [h1]; exact h2⟩
        · refine Or.inr ⟨x, List.mem_cons_of_mem _ hx, h1, ?_⟩
          rw [← h1, ← hs x hx, h1]
          exact h2
      · rintro (h | ⟨x, hx, h1, h2⟩)
        · exact Or.inl (Or.inl h)
        · rcases List.mem_cons.mp hx with h | h
          · subst h
            exact Or.inl (Or.inr ⟨h1.symm, by rw [h1]; exact h2⟩)
          · refine Or.inr ⟨x, h, h1, ?_⟩
            rw [← h1, hs x h, h1]
            exact h2
    · intro j hj
      rw [f7 j (fun r hr => hj r (List.mem_cons_of_mem _ hr)),
        v6 j (fun e => hj t (List.mem_cons_self _ _) e.symm)]
    · intro x hx
      rcases List.mem_cons.mp hx with h | h
      · subst h
        rw [f7 x.2 (fun r hr => hne r hr), v7]
      · rw [f8 x h, hs x h]
theorem age_cache_spec (KC_ENTRIES : Nat) (l : interp_cx) (h : cache_consistent KC_ENTRIES l) :
    (age_cache l).kc_count = 0 ∧
      (age_cache l).freemap.length = l.freemap.length ∧
      (age_cache l).kc_entries.length = l.kc_entries.length ∧
      (age_cache l).kc.Sublist l.kc ∧
      (∀ p, p ∈ (age_cache l).kc ↔ p ∈ l.kc ∧ 1 ≤ (slot l p.2).hits) ∧
      (∀ j, slot_free (age_cache l).freemap j = true ↔
        slot_free l.freemap j = true ∨ ∃ t ∈ l.kc, t.2 = j ∧ (slot l j).hits < 1) ∧
      (∀ j, (∀ t ∈ l.kc, t.2 ≠ j) → slot (age_cache l) j = slot l j) ∧
      (∀ t ∈ l.kc, slot (age_cache l) t.2 =
        (if (slot l t.2).hits < 1 then { slot l t.2 with val := none }
          else { slot l t.2 with hits := (slot l t.2).hits >>> 1 })) := by
  obtain ⟨c1, c2, c3, c4, c5, c6, c7, c8⟩ := h
  have hb : ∀ t ∈ l.kc, t.2 < l.kc_entries.length ∧ t.2 < 64 * l.freemap.length := by
    intro t ht
    have := c3 t ht
    omega
  obtain ⟨f1, f2, f3, f4, f5, f6, f7, f8⟩ := age_fold l.kc l c2 hb
  refine ⟨rfl, f2, f3, f4, ?_, f6, f7, f8⟩
  intro p
  have := f5 p
  simp only [age_cache]
  rw [this]
  constructor
  · rintro ⟨hp, hr⟩
    refine ⟨hp, ?_⟩
    by_contra hlt
    exact hr p hp (by omega) rfl
  · rintro ⟨hp, hr⟩
    refine ⟨hp, ?_⟩
    intro t ht hd e
    have : p = t := List.inj_on_of_nodup_map c1 hp ht e
    subst this
    omega

theorem age_cache_consistent (KC_ENTRIES : Nat) (l : interp_cx)
    (h : cache_consistent KC_ENTRIES l) : cache_consistent KC_ENTRIES (age_cache l) := by
  obtain ⟨a1, a2, a3, a4, a5, a6, a7, a8⟩ := age_cache_spec KC_ENTRIES l h
  obtain ⟨c1, c2, c3, c4, c5, c6, c7, c8⟩ := h
  refine ⟨(a4.map _).nodup c1, (a4.map _).nodup c2, fun he hhe => c3 he ((a5 he).mp hhe).1,
    by rw [a3, c4], by rw [a2]; exact c5, ?_, ?_, by rw [a1]; exact Nat.zero_le _⟩
  · intro idx hidx
    rw [a2] at hidx
    have hc := c6 idx hidx
    have ha := a6 idx
    simp only [List.mem_map] at hc ⊢
    constructor
    · intro hf
      have h1 : ¬ slot_free l.freemap idx = true := by
        intro e; rw [ha.mpr (Or.inl e)] at hf; cases hf
      have h2 : ¬ ∃ t ∈ l.kc, t.2 = idx ∧ (slot l idx).hits < 1 := by
        intro e; rw [ha.mpr (Or.inr e)] at hf; cases hf
      obtain ⟨p, hp, hpi⟩ := hc.mp (by simpa using h1)
      refine ⟨p, (a5 p).mpr ⟨hp, ?_⟩, hpi⟩
      by_contra hlt
      exact h2 ⟨p, hp, hpi, by rw [← hpi]; omega⟩
    · rintro ⟨p, hp, hpi⟩
      obtain ⟨hp1, hp2⟩ := (a5 p).mp hp
      by_contra hf
      have hf' : slot_free (age_cache l).freemap idx = true := by simpa using hf
      rcases ha.mp hf' with e | ⟨t, ht, hti, hd⟩
      · have := hc.mpr ⟨p, hp1, hpi⟩
        rw [this] at e; cases e
      · rw [← hpi] at hd; omega
  · intro he hhe
    obtain ⟨hp1, hp2⟩ := (a5 he).mp hhe
    rw [a8 he hp1, if_neg (by omega)]
    simp only [Nat.shiftRight_eq_div_pow]
    exact le_trans (Nat.div_le_self _ _) (c7 he hp1)

theorem age_cache_keys_stored (KC_ENTRIES : Nat) (l : interp_cx)
    (h : cache_consistent KC_ENTRIES l) (hk : cache_keys_stored l) :
    cache_keys_stored (age_cache l) := by
  obtain ⟨a1, a2, a3, a4, a5, a6, a7, a8⟩ := age_cache_spec KC_ENTRIES l h
  intro he hhe
  obtain ⟨hp1, hp2⟩ := (a5 he).mp hhe
  rw [a8 he hp1, if_neg (by omega)]
  exact hk he hp1
theorem dedup_cases (KC_ENTRIES STRING_DEDUP_MAX : Nat) (l : interp_cx) (bytes : Str)
    (length : Int) (r : dedup_result)
    (hr : new_stringobj_dedup KC_ENTRIES STRING_DEDUP_MAX l bytes length = some r) :
    (length = 0 ∧ r = ⟨some [], l, false⟩) ∨
    (length ≠ 0 ∧ dedup_length bytes length > STRING_DEDUP_MAX ∧
      r = ⟨some (bytes.take (dedup_length bytes length)), l, false⟩) ∨
    (length ≠ 0 ∧ dedup_length bytes length ≤ STRING_DEDUP_MAX ∧
      ∃ idx, Tcl_FindHashEntry l.kc (c_string (bytes.take (dedup_length bytes length))) =
          some idx ∧
        r = ⟨(slot l idx).val, hit l idx, false⟩) ∨
    (length ≠ 0 ∧ dedup_length bytes length ≤ STRING_DEDUP_MAX ∧
      Tcl_FindHashEntry l.kc (c_string (bytes.take (dedup_length bytes length))) = none ∧
      ∃ idx, first_free l.freemap = some idx ∧
        ((KC_ENTRIES ≤ idx ∧
            r = ⟨some (bytes.take (dedup_length bytes length)), age_cache l, true⟩) ∨
          (idx < KC_ENTRIES ∧ ¬ l.kc_count + 1 > KC_ENTRIES * 2 / 5 ∧
            r = ⟨some (bytes.take (dedup_length bytes length)),
              inserted l (c_string (bytes.take (dedup_length bytes length))) idx
                (bytes.take (dedup_length bytes length)) 0, false⟩) ∨
          (idx < KC_ENTRIES ∧ l.kc_count + 1 > KC_ENTRIES * 2 / 5 ∧
            r = ⟨some (bytes.take (dedup_length bytes length)),
              age_cache (inserted l (c_string (bytes.take (dedup_length bytes length))) idx
                (bytes.take (dedup_length bytes length)) 1), true⟩))) := by
  unfold new_stringobj_dedup at hr
  unfold dedup_length
  by_cases h0 : length = 0
  · simp only [h0, if_true, Option.some.injEq] at hr
    exact Or.inl ⟨h0, hr.symm⟩
  · right
    simp only [h0, if_false] at hr
    generalize (if length < 0 then (c_string bytes).length else length.toNat) = n at hr ⊢
    by_cases hm : n > STRING_DEDUP_MAX
    · simp only [hm, if_true, Option.some.injEq] at hr
      exact Or.inl ⟨h0, hm, hr.symm⟩
    · right
      simp only [hm, if_false] at hr
      cases hf : Tcl_FindHashEntry l.kc (c_string (bytes.take n)) with
      | some idx =>
        simp only [hf, Option.some.injEq] at hr
        exact Or.inl ⟨h0, by omega, idx, rfl, hr.symm⟩
      | none =>
        right
        simp only [hf] at hr
        cases hff : first_free l.freemap with
        | none => simp [hff] at hr
        | some idx =>
          simp only [hff] at hr
          refine ⟨h0, by omega, rfl, idx, rfl, ?_⟩
          by_cases hk : idx ≥ KC_ENTRIES
          · simp only [hk, if_true, Option.some.injEq] at hr
            exact Or.inl ⟨hk, hr.symm⟩
          · simp only [hk, if_false] at hr
            by_cases hc : l.kc_count + 1 > KC_ENTRIES * 2 / 5
            · simp only [hc, if_true, Option.some.injEq, List.set_set] at hr
              exact Or.inr (Or.inr ⟨by omega, hc, hr.symm⟩)
            · simp only [hc, if_false, Option.some.injEq] at hr
              exact Or.inr (Or.inl ⟨by omega, hc, hr.symm⟩)
theorem init_consistent (KC_ENTRIES words : Nat) (kc_entries : List kc_entry)
    (h1 : kc_entries.length = KC_ENTRIES) (h2 : KC_ENTRIES < 64 * words) :
    cache_consistent KC_ENTRIES (init_cache words kc_entries) ∧
      cache_keys_stored (init_cache words kc_entries) := by
  refine ⟨⟨by simp [init_cache], by simp [init_cache], by simp [init_cache], h1,
    by simpa [init_cache] using h2, ?_, by simp [init_cache], by simp [init_cache]⟩, ?_⟩
  · intro idx hidx
    simp only [init_cache, List.length_replicate] at hidx
    have := slot_free_init words idx hidx
    simp only [init_cache, List.map_nil, List.not_mem_nil, iff_false, Bool.not_eq_false]
    exact this
  · intro he hhe
    simp [init_cache] at hhe

theorem hit_consistent (KC_ENTRIES : Nat) (l : interp_cx) (idx : Nat)
    (h : cache_consistent KC_ENTRIES l) :
    cache_consistent KC_ENTRIES (hit l idx) ∧
      (cache_keys_stored l → cache_keys_stored (hit l idx)) := by
  obtain ⟨c1, c2, c3, c4, c5, c6, c7, c8⟩ := h
  have hs : ∀ j, (slot (hit l idx) j).val = (slot l j).val ∧
      (slot (hit l idx) j).hits ≤ max (slot l j).hits (if (slot l j).hits < 255 then
        (slot l j).hits + 1 else (slot l j).hits) := by
    intro j
    simp only [hit, slot, getD_set_both]
    by_cases hj : idx = j ∧ j < l.kc_entries.length
    · rw [if_pos hj, hj.1]
      exact ⟨rfl, le_max_right _ _⟩
    · rw [if_neg hj]
      exact ⟨rfl, le_max_left _ _⟩
  refine ⟨⟨c1, c2, c3, by simpa [hit] using c4, c5, c6, ?_, c8⟩, ?_⟩
  · intro he hhe
    have h1 := c7 he hhe
    have h2 := (hs he.2).2
    split at h2 <;> omega
  · intro hk he hhe
    rw [(hs he.2).1]
    exact hk he hhe

theorem inserted_consistent (KC_ENTRIES : Nat) (l : interp_cx) (keyname : Str) (idx : Nat)
    (out : Str) (hits : Nat) (h : cache_consistent KC_ENTRIES l)
    (hf : Tcl_FindHashEntry l.kc keyname = none) (hff : first_free l.freemap = some idx)
    (hlt : idx < KC_ENTRIES) (hh : hits ≤ 255) :
    cache_consistent KC_ENTRIES (inserted l keyname idx out hits) ∧
      (cache_keys_stored l → out = keyname →
        cache_keys_stored (inserted l keyname idx out hits)) := by
  obtain ⟨c1, c2, c3, c4, c5, c6, c7, c8⟩ := h
  obtain ⟨hi1, hi2⟩ := first_free_some l.freemap idx hff
  have hkey : ∀ p ∈ l.kc, p.1 ≠ keyname := (dict_get_none l.kc keyname).mp hf
  have hidx : idx ∉ l.kc.map Prod.snd := by
    intro hm
    have := (c6 idx hi1).mpr hm
    rw [this] at hi2; cases hi2
  have hidx' : ∀ p ∈ l.kc, p.2 ≠ idx := by
    intro p hp e
    exact hidx (List.mem_map.mpr ⟨p, hp, e⟩)
  have hs : ∀ j, slot (inserted l keyname idx out hits) j =
      if idx = j then ⟨some out, hits⟩ else slot l j := by
    intro j
    simp only [inserted, slot, getD_set_both]
    by_cases hj : idx = j
    · subst hj
      rw [if_pos ⟨rfl, by omega⟩, if_pos rfl]
    · rw [if_neg (fun e => hj e.1), if_neg hj]
  refine ⟨⟨?_, ?_, ?_, by simpa [inserted] using c4,
    by simpa [inserted, mark_used_length] using c5, ?_, ?_, ?_⟩, ?_⟩
  · simp only [inserted, List.map_append, List.map_cons, List.map_nil]
    rw [List.nodup_append]
    refine ⟨c1, by simp, ?_⟩
    intro a ha hb
    simp only [List.mem_singleton] at hb
    subst hb
    obtain ⟨p, hp, e⟩ := List.mem_map.mp ha
    exact hkey p hp e
  · simp only [inserted, List.map_append, List.map_cons, List.map_nil]
    rw [List.nodup_append]
    refine ⟨c2, by simp, ?_⟩
    intro a ha hb
    simp only [List.mem_singleton] at hb
    subst hb
    exact hidx ha
  · intro he hhe
    simp only [inserted, List.mem_append, List.mem_singleton] at hhe
    rcases hhe with h | h
    · exact c3 he h
    · subst h; exact hlt
  · intro j hj
    simp only [inserted, mark_used_length] at hj
    simp only [inserted, slot_free_mark_used l.freemap idx j hi1, List.map_append, List.map_cons,
      List.map_nil, List.mem_append, List.mem_singleton, Bool.and_eq_false_iff,
      decide_eq_false_iff_not, not_not]
    rw [c6 j hj]
  · intro he hhe
    rw [hs]
    simp only [inserted, List.mem_append, List.mem_singleton] at hhe
    rcases hhe with h | h
    · rw [if_neg (fun e => hidx' he h e.symm)]
      exact c7 he h
    · subst h
      simpa using hh
  · simp only [inserted, List.length_append, List.length_singleton]
    omega
  · intro hk ho he hhe
    rw [hs]
    simp only [inserted, List.mem_append, List.mem_singleton] at hhe
    rcases hhe with h | h
    · rw [if_neg (fun e => hidx' he h e.symm)]
      exact hk he h
    · subst h
      simp [ho]

theorem first_free_consistent (KC_ENTRIES : Nat) (l : interp_cx)
    (h : cache_consistent KC_ENTRIES l) : ∃ idx, first_free l.freemap = some idx := by
  obtain ⟨c1, c2, c3, c4, c5, c6, c7, c8⟩ := h
  apply first_free_exists l.freemap KC_ENTRIES c5
  cases hb : slot_free l.freemap KC_ENTRIES with
  | true => rfl
  | false =>
    obtain ⟨p, hp, e⟩ := List.mem_map.mp ((c6 KC_ENTRIES c5).mp hb)
    have := c3 p hp
    omega

theorem dedup_consistent (KC_ENTRIES STRING_DEDUP_MAX : Nat) (l : interp_cx) (bytes : Str)
    (length : Int) (r : dedup_result) (h : cache_consistent KC_ENTRIES l)
    (hr : new_stringobj_dedup KC_ENTRIES STRING_DEDUP_MAX l bytes length = some r) :
    cache_consistent KC_ENTRIES r.cx := by
  rcases dedup_cases _ _ _ _ _ _ hr with ⟨_, rfl⟩ | ⟨_, _, rfl⟩ | ⟨_, _, idx, hf, rfl⟩ |
    ⟨_, _, hf, idx, hff, ⟨hk, rfl⟩ | ⟨hk, hc, rfl⟩ | ⟨hk, hc, rfl⟩⟩
  · exact h
  · exact h
  · exact (hit_consistent KC_ENTRIES l idx h).1
  · exact age_cache_consistent KC_ENTRIES l h
  · exact (inserted_consistent KC_ENTRIES l _ idx _ 0 h hf hff hk (by omega)).1
  · exact age_cache_consistent KC_ENTRIES _
      (inserted_consistent KC_ENTRIES l _ idx _ 1 h hf hff hk (by omega)).1

theorem c_string_dense (s : Str) (h : ∀ c ∈ s, c ≠ Char.ofNat 0) : c_string s = s := by
  simp only [c_string]
  rw [List.takeWhile_eq_self_iff]
  intro c hc
  simpa using h c hc

theorem dedup_length_own (bytes : Str) :
    dedup_length bytes bytes.length = bytes.length := by
  simp [dedup_length]

theorem dedup_keys_stored (KC_ENTRIES STRING_DEDUP_MAX : Nat) (l : interp_cx) (bytes : Str)
    (length : Int) (r : dedup_result) (h : cache_consistent KC_ENTRIES l)
    (hk : cache_keys_stored l) (hz : ∀ c ∈ bytes, c ≠ Char.ofNat 0)
    (hr : new_stringobj_dedup KC_ENTRIES STRING_DEDUP_MAX l bytes length = some r) :
    cache_keys_stored r.cx := by
  have hkey : c_string (bytes.take (dedup_length bytes length)) =
      bytes.take (dedup_length bytes length) :=
    c_string_dense _ (fun c hc => hz c (List.mem_of_mem_take hc))
  rcases dedup_cases _ _ _ _ _ _ hr with ⟨_, rfl⟩ | ⟨_, _, rfl⟩ | ⟨_, _, idx, hf, rfl⟩ |
    ⟨_, _, hf, idx, hff, ⟨hk', rfl⟩ | ⟨hk', hc, rfl⟩ | ⟨hk', hc, rfl⟩⟩
  · exact hk
  · exact hk
  · exact (hit_consistent KC_ENTRIES l idx h).2 hk
  · exact age_cache_keys_stored KC_ENTRIES l h hk
  · exact (inserted_consistent KC_ENTRIES l _ idx _ 0 h hf hff hk' (by omega)).2 hk hkey.symm
  · have := inserted_consistent KC_ENTRIES l _ idx
      (bytes.take (dedup_length bytes length)) 1 h hf hff hk' (by omega)
    exact age_cache_keys_stored KC_ENTRIES _ this.1 (this.2 hk hkey.symm)

theorem dedup_total (KC_ENTRIES STRING_DEDUP_MAX : Nat) (l : interp_cx) (bytes : Str)
    (length : Int) (h : ∃ idx, first_free l.freemap = some idx) :
    ∃ r, new_stringobj_dedup KC_ENTRIES STRING_DEDUP_MAX l bytes length = some r := by
  obtain ⟨idx, hff⟩ := h
  unfold new_stringobj_dedup
  by_cases h0 : length = 0
  · exact ⟨_, by simp only [h0, if_true]; rfl⟩
  · simp only [h0, if_false]
    generalize (if length < 0 then (c_string bytes).length else length.toNat) = n
    by_cases hm : n > STRING_DEDUP_MAX
    · exact ⟨_, by simp only [hm, if_true]; rfl⟩
    · simp only [hm, if_false]
      cases hf : Tcl_FindHashEntry l.kc (c_string (bytes.take n)) with
      | some i => exact ⟨_, rfl⟩
      | none =>
        simp only [hff]
        by_cases hk : idx ≥ KC_ENTRIES
        · exact ⟨_, by simp only [hk, if_true]; rfl⟩
        · simp only [hk, if_false]
          by_cases hc : l.kc_count + 1 > KC_ENTRIES * 2 / 5
          · exact ⟨_, by simp only [hc, if_true]; rfl⟩
          · exact ⟨_, by simp only [hc, if_false]; rfl⟩

/-! ## The interning cache: reachable states and the claims about them -/

theorem reachable_consistent (KC_ENTRIES STRING_DEDUP_MAX words : Nat) (dense : Bool)
    (hw : KC_ENTRIES < 64 * words) (l : interp_cx)
    (hr : cache_reachable KC_ENTRIES STRING_DEDUP_MAX words dense l) :
    cache_consistent KC_ENTRIES l ∧ l.kc_count ≤ KC_ENTRIES * 2 / 5 ∧
      (dense = true → cache_keys_stored l) := by
  induction hr with
  | init kc_entries h =>
    exact ⟨(init_consistent KC_ENTRIES words kc_entries h hw).1, Nat.zero_le _,
      fun _ => (init_consistent KC_ENTRIES words kc_entries h hw).2⟩
  | call l bytes length r _ hz hcall ih =>
    refine ⟨dedup_consistent _ _ _ _ _ _ ih.1 hcall, ?_,
      fun hd => dedup_keys_stored _ _ _ _ _ _ ih.1 (ih.2.2 hd) (hz hd) hcall⟩
    rcases dedup_cases _ _ _ _ _ _ hcall with ⟨_, rfl⟩ | ⟨_, _, rfl⟩ | ⟨_, _, idx, hf, rfl⟩ |
      ⟨_, _, hf, idx, hff, ⟨hk, rfl⟩ | ⟨hk, hc, rfl⟩ | ⟨hk, hc, rfl⟩⟩
    · exact ih.2.1
    · exact ih.2.1
    · exact ih.2.1
    · exact Nat.zero_le _
    · simp only [inserted]; omega
    · exact Nat.zero_le _
  | age l _ ih =>
    exact ⟨age_cache_consistent _ _ ih.1, Nat.zero_le _,
      fun hd => age_cache_keys_stored _ _ ih.1 (ih.2.2 hd)⟩

theorem find_mem (KC_ENTRIES : Nat) (l : interp_cx) (h : cache_consistent KC_ENTRIES l)
    (key : Str) (idx : Nat) :
    Tcl_FindHashEntry l.kc key = some idx ↔ (key, idx) ∈ l.kc :=
  ⟨dict_get_mem l.kc key idx, dict_mem_get l.kc key idx h.1⟩

theorem reachable_words (KC_ENTRIES STRING_DEDUP_MAX words : Nat) (dense : Bool)
    (hw : KC_ENTRIES < 64 * words) (l : interp_cx)
    (hr : cache_reachable KC_ENTRIES STRING_DEDUP_MAX words dense l) :
    l.freemap.length = words := by
  induction hr with
  | init kc_entries h => simp [init_cache]
  | call l bytes length r hl hz hcall ih =>
    have hc := (reachable_consistent _ _ _ _ hw l hl).1
    rcases dedup_cases _ _ _ _ _ _ hcall with ⟨_, rfl⟩ | ⟨_, _, rfl⟩ | ⟨_, _, idx, hf, rfl⟩ |
      ⟨_, _, hf, idx, hff, ⟨hk, rfl⟩ | ⟨hk, hcnt, rfl⟩ | ⟨hk, hcnt, rfl⟩⟩
    · exact ih
    · exact ih
    · exact ih
    · exact (age_cache_spec _ _ hc).2.1.trans ih
    · simpa [inserted, mark_used_length] using ih
    · have h1 := (inserted_consistent KC_ENTRIES l
        (c_string (bytes.take (dedup_length bytes length))) idx
        (bytes.take (dedup_length bytes length)) 1 hc hf hff hk (by omega)).1
      refine (age_cache_spec _ _ h1).2.1.trans ?_
      simpa [inserted, mark_used_length] using ih
  | age l hl ih =>
    exact (age_cache_spec _ _ (reachable_consistent _ _ _ _ hw l hl).1).2.1.trans ih
/-- C32 (as amended): in every state of the cache reached from the initial
one, an aging pass deletes exactly the entries whose hit counter is zero
before the pass: the hash table holds afterwards the entries whose counter
was at least one, each in its slot with its string and with the counter
halved (so an entry whose counter was one remains, with the counter zero),
and for every entry whose counter was zero the key is no longer in the table,
the bit of its slot in the bitmap is set and the slot holds no string.  The
pass resets `kc_count` to zero. -/
theorem aging_pass (KC_ENTRIES STRING_DEDUP_MAX words : Nat) (dense : Bool) (l : interp_cx)
    (hw : KC_ENTRIES < 64 * words)
    (hr : cache_reachable KC_ENTRIES STRING_DEDUP_MAX words dense l) :
    (age_cache l).kc_count = 0 ∧
      (∀ key idx, Tcl_FindHashEntry (age_cache l).kc key = some idx ↔
        Tcl_FindHashEntry l.kc key = some idx ∧ 1 ≤ (slot l idx).hits) ∧
      (∀ key idx, Tcl_FindHashEntry l.kc key = some idx → 1 ≤ (slot l idx).hits →
        slot (age_cache l) idx = ⟨(slot l idx).val, (slot l idx).hits / 2⟩ ∧
          slot_free (age_cache l).freemap idx = false) ∧
      (∀ key idx, Tcl_FindHashEntry l.kc key = some idx → (slot l idx).hits = 0 →
        Tcl_FindHashEntry (age_cache l).kc key = none ∧
          slot_free (age_cache l).freemap idx = true ∧
          slot (age_cache l) idx = ⟨none, 0⟩) := by
  have hc := (reachable_consistent _ _ _ _ hw l hr).1
  have hc' := age_cache_consistent _ _ hc
  obtain ⟨a1, a2, a3, a4, a5, a6, a7, a8⟩ := age_cache_spec KC_ENTRIES l hc
  have hfind : ∀ key idx, Tcl_FindHashEntry (age_cache l).kc key = some idx ↔
      Tcl_FindHashEntry l.kc key = some idx ∧ 1 ≤ (slot l idx).hits := by
    intro key idx
    rw [find_mem _ _ hc', find_mem _ _ hc, a5]
  refine ⟨a1, hfind, ?_, ?_⟩
  · intro key idx hf hh
    have hm := (find_mem _ _ hc key idx).mp hf
    have h8 := a8 (key, idx) hm
    simp only [] at h8
    rw [if_neg (by omega)] at h8
    refine ⟨by rw [h8, Nat.shiftRight_eq_div_pow], ?_⟩
    have hlt : idx < 64 * (age_cache l).freemap.length := by
      have := hc.2.2.1 (key, idx) hm
      have := hc.2.2.2.2.1
      rw [a2]
      simp only [] at *
      omega
    exact (hc'.2.2.2.2.2.1 idx hlt).mpr
      (List.mem_map.mpr ⟨(key, idx), (find_mem _ _ hc' key idx).mp ((hfind key idx).mpr ⟨hf, hh⟩),
        rfl⟩)
  · intro key idx hf hh
    have hm := (find_mem _ _ hc key idx).mp hf
    have h8 := a8 (key, idx) hm
    simp only [] at h8
    rw [if_pos (by omega)] at h8
    refine ⟨?_, (a6 idx).mpr (Or.inr ⟨(key, idx), hm, rfl, by omega⟩), ?_⟩
    · cases hx : Tcl_FindHashEntry (age_cache l).kc key with
      | none => rfl
      | some i =>
        have h1 := ((hfind key i).mp hx)
        have : i = idx := by
          have := h1.1
          rw [hf] at this
          exact (Option.some.inj this).symm
        subst this
        omega
    · rw [h8]
      cases hs : slot l idx with
      | mk v hits =>
        rw [hs] at hh
        simp only [] at hh
        subst hh
        rfl
theorem aging_pass_witness :
    Tcl_FindHashEntry
        (age_cache ⟨[(['a'], 0), (['b'], 1)], 2, [2 ^ 64 - 4],
          [⟨some ['a'], 3⟩, ⟨some ['b'], 0⟩, ⟨none, 0⟩, ⟨none, 0⟩, ⟨none, 0⟩]⟩).kc ['a'] =
        some 0 ∧
      slot (age_cache ⟨[(['a'], 0), (['b'], 1)], 2, [2 ^ 64 - 4],
          [⟨some ['a'], 3⟩, ⟨some ['b'], 0⟩, ⟨none, 0⟩, ⟨none, 0⟩, ⟨none, 0⟩]⟩) 0 =
        ⟨some ['a'], 1⟩ ∧
      Tcl_FindHashEntry
        (age_cache ⟨[(['a'], 0), (['b'], 1)], 2, [2 ^ 64 - 4],
          [⟨some ['a'], 3⟩, ⟨some ['b'], 0⟩, ⟨none, 0⟩, ⟨none, 0⟩, ⟨none, 0⟩]⟩).kc ['b'] =
        none ∧
      slot_free (age_cache ⟨[(['a'], 0), (['b'], 1)], 2, [2 ^ 64 - 4],
          [⟨some ['a'], 3⟩, ⟨some ['b'], 0⟩, ⟨none, 0⟩, ⟨none, 0⟩, ⟨none, 0⟩]⟩).freemap 1 =
        true :=
  have h0 : cache_reachable 5 16 1 false (init_cache 1 (List.replicate 5 ⟨none, 0⟩)) :=
    cache_reachable.init _ rfl
  have h1 := cache_reachable.call _ ['a'] 1
    ⟨some ['a'], ⟨[(['a'], 0)], 1, [2 ^ 64 - 2],
      [⟨some ['a'], 0⟩, ⟨none, 0⟩, ⟨none, 0⟩, ⟨none, 0⟩, ⟨none, 0⟩]⟩, false⟩ h0
    (fun h => by cases h) (by decide!)
  have h2 := cache_reachable.call _ ['a'] 1
    ⟨some ['a'], ⟨[(['a'], 0)], 1, [2 ^ 64 - 2],
      [⟨some ['a'], 1⟩, ⟨none, 0⟩, ⟨none, 0⟩, ⟨none, 0⟩, ⟨none, 0⟩]⟩, false⟩ h1
    (fun h => by cases h) (by decide!)
  have h3 := cache_reachable.call _ ['a'] 1
    ⟨some ['a'], ⟨[(['a'], 0)], 1, [2 ^ 64 - 2],
      [⟨some ['a'], 2⟩, ⟨none, 0⟩, ⟨none, 0⟩, ⟨none, 0⟩, ⟨none, 0⟩]⟩, false⟩ h2
    (fun h => by cases h) (by decide!)
  have h4 := cache_reachable.call _ ['a'] 1
    ⟨some ['a'], ⟨[(['a'], 0)], 1, [2 ^ 64 - 2],
      [⟨some ['a'], 3⟩, ⟨none, 0⟩, ⟨none, 0⟩, ⟨none, 0⟩, ⟨none, 0⟩]⟩, false⟩ h3
    (fun h => by cases h) (by decide!)
  have h5 := cache_reachable.call _ ['b'] 1
    ⟨some ['b'], ⟨[(['a'], 0), (['b'], 1)], 2, [2 ^ 64 - 4],
      [⟨some ['a'], 3⟩, ⟨some ['b'], 0⟩, ⟨none, 0⟩, ⟨none, 0⟩, ⟨none, 0⟩]⟩, false⟩ h4
    (fun h => by cases h) (by decide!)
  have h := aging_pass 5 16 1 false _ (by decide) h5
  ⟨(h.2.1 ['a'] 0).mpr ⟨by decide!, by decide!⟩,
    (h.2.2.1 ['a'] 0 (by decide!) (by decide!)).1,
    (h.2.2.2 ['b'] 1 (by decide!) (by decide!)).1,
    (h.2.2.2 ['b'] 1 (by decide!) (by decide!)).2.1⟩

/-- C32, the claim as written fails: `age_cache` tests the counter before it
halves it.  After the string `a` is interned twice its entry has the hit
counter 1; the aging pass leaves the entry in the cache, in its slot, with
the hit counter zero, and the slot is not freed. -/
theorem aging_keeps_zero_counterexample :
    (intern_all 384 16 (init_cache 7 (List.replicate 384 ⟨none, 0⟩)) [['a'], ['a']]).map
        (fun l => (Tcl_FindHashEntry l.kc ['a'], slot l 0)) =
      some (some 0, ⟨some ['a'], 1⟩) ∧
    (intern_all 384 16 (init_cache 7 (List.replicate 384 ⟨none, 0⟩)) [['a'], ['a']]).map
        (fun l => (Tcl_FindHashEntry (age_cache l).kc ['a'], slot (age_cache l) 0,
          slot_free (age_cache l).freemap 0)) =
      some (some 0, ⟨some ['a'], 0⟩, false) := by
  decide!
/-- C33 (as amended): in every state of the cache reached from the initial
one, a call of `new_stringobj_dedup` that inserts a new string (a length that
is not zero and at most `STRING_DEDUP_MAX`, a key that is not in the table, a
free slot below `KC_ENTRIES`) runs an aging pass exactly when `kc_count`, the
number of insertions since the last pass, exceeds `KC_ENTRIES/2.5` with the
new one counted in.  `kc_count` never exceeds `KC_ENTRIES/2.5` between calls
and never the number of entries, so a pass that runs finds more than 40% of
the slots occupied; a pass resets `kc_count`, and an insertion without a pass
adds one to it and one entry to the table. -/
theorem aging_trigger (KC_ENTRIES STRING_DEDUP_MAX words : Nat) (dense : Bool) (l : interp_cx)
    (bytes : Str) (length : Int) (idx : Nat) (hw : KC_ENTRIES < 64 * words)
    (hr : cache_reachable KC_ENTRIES STRING_DEDUP_MAX words dense l)
    (h0 : length ≠ 0) (hmax : dedup_length bytes length ≤ STRING_DEDUP_MAX)
    (hnew : Tcl_FindHashEntry l.kc (c_string (bytes.take (dedup_length bytes length))) = none)
    (hfree : first_free l.freemap = some idx) (hidx : idx < KC_ENTRIES) :
    ∃ r, new_stringobj_dedup KC_ENTRIES STRING_DEDUP_MAX l bytes length = some r ∧
      (r.aged = true ↔ l.kc_count + 1 > KC_ENTRIES * 2 / 5) ∧
      l.kc_count ≤ KC_ENTRIES * 2 / 5 ∧ l.kc_count ≤ l.kc.length ∧
      (r.aged = true → l.kc.length + 1 > KC_ENTRIES * 2 / 5 ∧ r.cx.kc_count = 0) ∧
      (r.aged = false →
        r.cx.kc_count = l.kc_count + 1 ∧ r.cx.kc.length = l.kc.length + 1) := by
  obtain ⟨hc, hcount, _⟩ := reachable_consistent _ _ _ _ hw l hr
  obtain ⟨r, hcall⟩ := dedup_total KC_ENTRIES STRING_DEDUP_MAX l bytes length ⟨idx, hfree⟩
  have hlen := hc.2.2.2.2.2.2.2
  refine ⟨r, hcall, ?_⟩
  rcases dedup_cases _ _ _ _ _ _ hcall with ⟨h, _⟩ | ⟨_, h, _⟩ | ⟨_, _, i, hf, _⟩ |
    ⟨_, _, hf, i, hff, ⟨hk, rfl⟩ | ⟨hk, hcnt, rfl⟩ | ⟨hk, hcnt, rfl⟩⟩
  · exact absurd h h0
  · omega
  · rw [hnew] at hf; cases hf
  · rw [hfree] at hff
    cases hff
    omega
  · refine ⟨by simp only [Bool.false_eq_true, false_iff]; exact hcnt, hcount, hlen,
      (fun h => by cases h), fun _ => ⟨rfl, by simp [inserted]⟩⟩
  · refine ⟨by simp only [true_iff]; exact hcnt, hcount, hlen,
      fun _ => ⟨by omega, rfl⟩, (fun h => by cases h)⟩

theorem aging_trigger_witness :
    ∃ r, new_stringobj_dedup 5 16 ⟨[(['a'], 0), (['b'], 1)], 2, [2 ^ 64 - 4],
          [⟨some ['a'], 3⟩, ⟨some ['b'], 0⟩, ⟨none, 0⟩, ⟨none, 0⟩, ⟨none, 0⟩]⟩ ['c'] 1 = some r ∧
      r.aged = true ∧ r.cx.kc_count = 0 :=
  have h0 : cache_reachable 5 16 1 false (init_cache 1 (List.replicate 5 ⟨none, 0⟩)) :=
    cache_reachable.init _ rfl
  have h1 := cache_reachable.call _ ['a'] 1
    ⟨some ['a'], ⟨[(['a'], 0)], 1, [2 ^ 64 - 2],
      [⟨some ['a'], 0⟩, ⟨none, 0⟩, ⟨none, 0⟩, ⟨none, 0⟩, ⟨none, 0⟩]⟩, false⟩ h0
    (fun h => by cases h) (by decide!)
  have h2 := cache_reachable.call _ ['a'] 1
    ⟨some ['a'], ⟨[(['a'], 0)], 1, [2 ^ 64 - 2],
      [⟨some ['a'], 1⟩, ⟨none, 0⟩, ⟨none, 0⟩, ⟨none, 0⟩, ⟨none, 0⟩]⟩, false⟩ h1
    (fun h => by cases h) (by decide!)
  have h3 := cache_reachable.call _ ['a'] 1
    ⟨some ['a'], ⟨[(['a'], 0)], 1, [2 ^ 64 - 2],
      [⟨some ['a'], 2⟩, ⟨none, 0⟩, ⟨none, 0⟩, ⟨none, 0⟩, ⟨none, 0⟩]⟩, false⟩ h2
    (fun h => by cases h) (by decide!)
  have h4 := cache_reachable.call _ ['a'] 1
    ⟨some ['a'], ⟨[(['a'], 0)], 1, [2 ^ 64 - 2],
      [⟨some ['a'], 3⟩, ⟨none, 0⟩, ⟨none, 0⟩, ⟨none, 0⟩, ⟨none, 0⟩]⟩, false⟩ h3
    (fun h => by cases h) (by decide!)
  have h5 := cache_reachable.call _ ['b'] 1
    ⟨some ['b'], ⟨[(['a'], 0), (['b'], 1)], 2, [2 ^ 64 - 4],
      [⟨some ['a'], 3⟩, ⟨some ['b'], 0⟩, ⟨none, 0⟩, ⟨none, 0⟩, ⟨none, 0⟩]⟩, false⟩ h4
    (fun h => by cases h) (by decide!)
  have ⟨r, hr, ha, _, _, hb, _⟩ := aging_trigger 5 16 1 false _ ['c'] 1 2 (by decide) h5
    (by decide) (by decide!) (by decide!) (by decide!) (by decide)
  ⟨r, hr, ha.mpr (by decide), (hb (ha.mpr (by decide))).2⟩

/-- C33, the claim as written fails: `kc_count` counts the insertions since
the last aging pass, not the occupied slots.  With `KC_ENTRIES = 384`
(`KC_ENTRIES/2.5` is 153): 153 strings are interned twice each, the 154th
insertion runs an aging pass, which evicts nothing (every counter was 1) and
resets `kc_count`; the cache then holds 154 entries.  The insertion of one
more new string leaves 155 slots occupied, more than 40% of 384, and runs no
aging pass.  The same happens with `KC_ENTRIES = 5` after `a a b b c`, on the
insertion of `d`: 4 of 5 slots are occupied and no pass runs. -/
theorem aging_not_triggered_counterexample :
    ((intern_all 384 16 (init_cache 7 (List.replicate 384 ⟨none, 0⟩))
        ((List.range 153).flatMap (fun i => [two_letters i, two_letters i]) ++
          [two_letters 153])).bind
      (fun l => (new_stringobj_dedup 384 16 l (two_letters 154) 2).map
        (fun r => (l.kc.length, l.kc_count,
          Tcl_FindHashEntry l.kc (two_letters 154), r.aged, r.cx.kc.length)))) =
      some (154, 0, none, false, 155) ∧
    384 * 2 / 5 = 153 ∧
    ((intern_all 5 16 (init_cache 1 (List.replicate 5 ⟨none, 0⟩))
        [['a'], ['a'], ['b'], ['b'], ['c']]).bind
      (fun l => (new_stringobj_dedup 5 16 l ['d'] 1).map
        (fun r => (l.kc.length, l.kc_count,
          Tcl_FindHashEntry l.kc ['d'], r.aged, r.cx.kc.length)))) =
      some (3, 0, none, false, 4) ∧
    5 * 2 / 5 = 2 := by
  refine ⟨?_, by decide, by decide!, by decide⟩
  decide!
/-- C37 (as amended): interning is transparent on byte strings without a zero
byte.  In every state of the cache reached from the initial one by calls on
byte strings without a zero byte, `new_stringobj_dedup` called on such a
byte string `b` with its length returns a string, and the string is `b`:
whether the key is found in the table, a new entry is inserted, with or
without an aging pass, the table is full, or the cache is bypassed for the
empty string and for a string longer than `STRING_DEDUP_MAX`.  The state
after the call is again such a state. -/
theorem interning_transparent (KC_ENTRIES STRING_DEDUP_MAX words : Nat) (l : interp_cx)
    (b : Str) (hw : KC_ENTRIES < 64 * words)
    (hr : cache_reachable KC_ENTRIES STRING_DEDUP_MAX words true l)
    (hb : ∀ c ∈ b, c ≠ Char.ofNat 0) :
    ∃ r, new_stringobj_dedup KC_ENTRIES STRING_DEDUP_MAX l b b.length = some r ∧
      r.out = some b ∧ cache_reachable KC_ENTRIES STRING_DEDUP_MAX words true r.cx := by
  obtain ⟨hc, _, hk⟩ := reachable_consistent _ _ _ _ hw l hr
  obtain ⟨r, hcall⟩ := dedup_total KC_ENTRIES STRING_DEDUP_MAX l b b.length
    (first_free_consistent _ _ hc)
  refine ⟨r, hcall, ?_, cache_reachable.call l b b.length r hr (fun _ => hb) hcall⟩
  have htake : b.take (dedup_length b b.length) = b := by
    rw [dedup_length_own, List.take_length]
  have hkey : c_string (b.take (dedup_length b b.length)) = b := by
    rw [htake, c_string_dense b hb]
  rcases dedup_cases _ _ _ _ _ _ hcall with ⟨h, rfl⟩ | ⟨_, _, rfl⟩ | ⟨_, _, idx, hf, rfl⟩ |
    ⟨_, _, hf, idx, hff, ⟨_, rfl⟩ | ⟨_, _, rfl⟩ | ⟨_, _, rfl⟩⟩
  · have : b = [] := by
      have : b.length = 0 := by exact_mod_cast h
      exact List.length_eq_zero.mp this
    simp [this]
  · simp [htake]
  · rw [hkey] at hf
    have := hk rfl (b, idx) ((find_mem _ _ hc b idx).mp hf)
    simpa using this
  · simp [htake]
  · simp [htake]
  · simp [htake]

theorem interning_transparent_witness :
    ∃ r, new_stringobj_dedup 5 16 ⟨[(['a'], 0)], 1, [2 ^ 64 - 2],
          [⟨some ['a'], 0⟩, ⟨none, 0⟩, ⟨none, 0⟩, ⟨none, 0⟩, ⟨none, 0⟩]⟩ ['a'] 1 = some r ∧
      r.out = some ['a'] :=
  have h0 : cache_reachable 5 16 1 true (init_cache 1 (List.replicate 5 ⟨none, 0⟩)) :=
    cache_reachable.init _ rfl
  have h1 := cache_reachable.call _ ['a'] 1
    ⟨some ['a'], ⟨[(['a'], 0)], 1, [2 ^ 64 - 2],
      [⟨some ['a'], 0⟩, ⟨none, 0⟩, ⟨none, 0⟩, ⟨none, 0⟩, ⟨none, 0⟩]⟩, false⟩ h0
    (fun _ => by decide) (by decide!)
  have ⟨r, hr, ho, _⟩ := interning_transparent 5 16 1 _ ['a'] (by decide) h1 (by decide)
  ⟨r, hr, ho⟩

/-- C37, the claim as written fails on a state reached by a call on a byte
string with a zero byte.  The key of the hash table is a C string: the call
on the three bytes `a`, zero, `b` stores them under the key `a`, and a later
call on the one byte `a`, which holds no zero byte, finds that entry and
returns the three bytes. -/
theorem interning_zero_byte_counterexample :
    (new_stringobj_dedup 384 16 (init_cache 7 (List.replicate 384 ⟨none, 0⟩))
        ['a', Char.ofNat 0, 'b'] 3).map (fun r => (r.out, r.cx.kc)) =
      some (some ['a', Char.ofNat 0, 'b'], [(['a'], 0)]) ∧
    ((new_stringobj_dedup 384 16 (init_cache 7 (List.replicate 384 ⟨none, 0⟩))
        ['a', Char.ofNat 0, 'b'] 3).bind
      (fun r => (new_stringobj_dedup 384 16 r.cx ['a'] 1).map (fun r' => r'.out))) =
      some (some ['a', Char.ofNat 0, 'b']) ∧
    ['a', Char.ofNat 0, 'b'] ≠ ['a'] := by
  decide!

/-- C38 (as amended): the consistency of the cache holds in every state
reached from the initial one, in which every slot is free, by calls of
`new_stringobj_dedup` and `age_cache`: a bit of the bitmap is clear exactly
when some entry of the hash table maps to its slot; different keys map to
different slots, all below `KC_ENTRIES`; and the hit counter of the slot of
every entry is at most 255.  When the calls are made on byte strings without
a zero byte, the slot of every entry stores the key of the entry. -/
theorem cache_invariant (KC_ENTRIES STRING_DEDUP_MAX words : Nat) (dense : Bool)
    (l : interp_cx) (hw : KC_ENTRIES < 64 * words)
    (hr : cache_reachable KC_ENTRIES STRING_DEDUP_MAX words dense l) :
    (∀ idx, idx < 64 * words →
        (slot_free l.freemap idx = false ↔ ∃ key, Tcl_FindHashEntry l.kc key = some idx)) ∧
      (∀ k1 k2 idx, Tcl_FindHashEntry l.kc k1 = some idx →
        Tcl_FindHashEntry l.kc k2 = some idx → k1 = k2) ∧
      (∀ key idx, Tcl_FindHashEntry l.kc key = some idx → idx < KC_ENTRIES) ∧
      (∀ key idx, Tcl_FindHashEntry l.kc key = some idx → (slot l idx).hits ≤ 255) ∧
      (dense = true →
        ∀ key idx, Tcl_FindHashEntry l.kc key = some idx → (slot l idx).val = some key) ∧
      l.freemap.length = words ∧ l.kc_entries.length = KC_ENTRIES := by
  obtain ⟨hc, _, hk⟩ := reachable_consistent _ _ _ _ hw l hr
  have hwords := reachable_words _ _ _ _ hw l hr
  obtain ⟨c1, c2, c3, c4, c5, c6, c7, c8⟩ := hc
  refine ⟨?_, ?_, ?_, ?_, ?_, hwords, c4⟩
  · intro idx hidx
    rw [c6 idx (by rw [hwords]; exact hidx)]
    simp only [List.mem_map]
    constructor
    · rintro ⟨p, hp, e⟩
      exact ⟨p.1, dict_mem_get l.kc p.1 idx c1 (by rw [← e]; exact hp)⟩
    · rintro ⟨key, hf⟩
      exact ⟨(key, idx), dict_get_mem l.kc key idx hf, rfl⟩
  · intro k1 k2 idx h1 h2
    have := List.inj_on_of_nodup_map c2 (dict_get_mem _ _ _ h1) (dict_get_mem _ _ _ h2) rfl
    exact (Prod.mk.inj this).1
  · intro key idx hf
    exact c3 _ (dict_get_mem _ _ _ hf)
  · intro key idx hf
    exact c7 _ (dict_get_mem _ _ _ hf)
  · intro hd key idx hf
    exact hk hd _ (dict_get_mem _ _ _ hf)
theorem cache_invariant_witness :
    slot_free [2 ^ 64 - 2] 0 = false ∧
      (slot ⟨[(['a'], 0)], 1, [2 ^ 64 - 2],
        [⟨some ['a'], 0⟩, ⟨none, 0⟩, ⟨none, 0⟩, ⟨none, 0⟩, ⟨none, 0⟩]⟩ 0).val = some ['a'] ∧
      (slot ⟨[(['a'], 0)], 1, [2 ^ 64 - 2],
        [⟨some ['a'], 0⟩, ⟨none, 0⟩, ⟨none, 0⟩, ⟨none, 0⟩, ⟨none, 0⟩]⟩ 0).hits ≤ 255 ∧
      ¬ ∃ key, Tcl_FindHashEntry [(['a'], 0)] key = some 1 :=
  have h0 : cache_reachable 5 16 1 true (init_cache 1 (List.replicate 5 ⟨none, 0⟩)) :=
    cache_reachable.init _ rfl
  have h1 := cache_reachable.call _ ['a'] 1
    ⟨some ['a'], ⟨[(['a'], 0)], 1, [2 ^ 64 - 2],
      [⟨some ['a'], 0⟩, ⟨none, 0⟩, ⟨none, 0⟩, ⟨none, 0⟩, ⟨none, 0⟩]⟩, false⟩ h0
    (fun _ => by decide) (by decide!)
  have h := cache_invariant 5 16 1 true _ (by decide) h1
  ⟨(h.1 0 (by decide)).mpr ⟨['a'], by decide!⟩, h.2.2.2.2.1 rfl ['a'] 0 (by decide!),
    h.2.2.2.1 ['a'] 0 (by decide!),
    fun hex => by
      have := (h.1 1 (by decide)).mpr hex
      revert this
      decide!⟩

/-- C38, the claim as written fails on a byte string with a zero byte: the
key of the hash table is the C string at the bytes, the slot stores the bytes
in their full length.  After the call on the three bytes `a`, zero, `b` from
the initial state the entry with the key `a` maps to the slot 0, and the slot
stores the three bytes, not the key. -/
theorem slot_differs_from_key_counterexample :
    (new_stringobj_dedup 384 16 (init_cache 7 (List.replicate 384 ⟨none, 0⟩))
        ['a', Char.ofNat 0, 'b'] 3).map
      (fun r => (Tcl_FindHashEntry r.cx.kc ['a'], (slot r.cx 0).val)) =
      some (some 0, some ['a', Char.ofNat 0, 'b']) ∧
    some ['a', Char.ofNat 0, 'b'] ≠ some ['a'] := by
  decide!

/-! ## The answers of `exists` -/

theorem resolve_path_exists_descend (pathc : Nat) : ∀ (pre : List Str) (doc node : Jval)
    (step : Str) (rest : List Str), descend doc pre = some node →
    resolve_path pathc true doc (pre ++ step :: rest) = .ok (.boolean false) ∨
      resolve_path pathc true doc (pre ++ step :: rest) =
        resolve_path pathc true node (step :: rest)
  | [], doc, node, step, rest, h => by
    simp only [descend, Option.some.injEq] at h
    subst h
    exact Or.inr rfl
  | s :: pre, doc, node, step, rest, h => by
    simp only [descend] at h
    cases hs : resolve_step 0 false doc s with
    | error e => simp [hs] at h
    | ok r =>
      cases r with
      | inr b => simp [hs] at h
      | inl x =>
        simp only [hs] at h
        have hx := resolve_step_get_pathc 0 pathc doc s x hs
        rw [List.cons_append, resolve_path_inner pathc true doc s (pre ++ step :: rest) (by simp)]
        rcases resolve_step_get_exists pathc doc s x hx with h1 | ⟨_, h1⟩
        · simp only [h1]
          exact resolve_path_exists_descend pathc pre x node step rest h
        · simp [h1]

theorem resolve_path_key_exists (pathc : Nat) (target : Jval) (step key : Str)
    (rest : List Str)
    (hkey : ((rest ≠ [] ∨ step.head? ≠ some '?') ∧ key = step) ∨
      (rest = [] ∧ ∃ tail, step = '?' :: '?' :: tail ∧ key = '?' :: tail)) :
    resolve_path pathc true target (step :: rest) =
      match resolve_step pathc true target key with
      | .error e => .error e
      | .ok (.inr b) => .ok (.boolean b)
      | .ok (.inl t) => resolve_path pathc true t rest := by
  rcases hkey with ⟨h, rfl⟩ | ⟨rfl, tail, rfl, rfl⟩
  · cases rest with
    | cons s2 rest => exact resolve_path_inner pathc true target key (s2 :: rest) (by simp)
    | nil =>
      have h' : key.head? ≠ some '?' := by simpa using h
      unfold resolve_path
      split
      · simp at h'
      · simp at h'
      · rfl
  · exact resolve_path_escaped pathc true target tail

theorem resolve_step_exists_false (pathc : Nat) (node : Jval) (key : Str)
    (h : (∃ val, node = .object val ∧ Tcl_DictObjGet val key = none) ∨
      (∃ val i, node = .array val ∧ array_index false val.length key = .ok i ∧
        (i < 0 ∨ (val.length : Int) ≤ i)) ∨
      is_atomic node = true) :
    resolve_step pathc true node key = .ok (.inr false) := by
  rcases h with ⟨val, rfl, hg⟩ | ⟨val, i, rfl, hi, hout⟩ | ha
  · simp only [resolve_step, hg, if_true]
  · simp only [resolve_step, hi, hout, if_true]
  · cases node with
    | object val => simp [is_atomic] at ha
    | array val => simp [is_atomic] at ha
    | _ => rfl

theorem apply_modifier_exists_false (step : Str) (node : Jval) (m : modifiers)
    (h : (m = MODIFIER_LENGTH ∧ (node.type = JSON_OBJECT ∨ node.type = JSON_NUMBER ∨
        node.type = JSON_BOOL ∨ node.type = JSON_NULL)) ∨
      (m = MODIFIER_SIZE ∧ node.type ≠ JSON_OBJECT) ∨
      (m = MODIFIER_KEYS ∧ node.type ≠ JSON_OBJECT)) :
    apply_modifier true step node m = .ok (.boolean false) := by
  rcases h with ⟨rfl, ht⟩ | ⟨rfl, ht⟩ | ⟨rfl, ht⟩
  · cases node with
    | dyn t s => cases t <;> simp [Jval.type, dyn_type.toType] at ht
    | _ => first | rfl | simp [Jval.type] at ht
  · cases node with
    | object val => simp [Jval.type] at ht
    | _ => rfl
  · cases node with
    | object val => simp [Jval.type] at ht
    | _ => rfl

theorem resolve_path_modifier (pathc : Nat) (ex : Bool) (target : Jval) (step : Str)
    (h1 : step.head? = some '?') (h2 : step.tail.head? ≠ some '?') :
    resolve_path pathc ex target [step] =
      match get_modifier step with
      | .error e => .error e
      | .ok modifier => apply_modifier ex step target modifier := by
  cases step with
  | nil => simp at h1
  | cons c tl =>
    simp only [List.head?_cons, Option.some.injEq] at h1
    subst h1
    unfold resolve_path
    split
    · next tail heq =>
      simp only [List.cons.injEq, true_and] at heq
      subst heq
      simp at h2
    · next tail _ heq =>
      simp only [List.cons.injEq, true_and] at heq
      subst heq
      rfl
    · next _ h => exact absurd rfl (h tl)

/-- C8 (as amended): `exists` answers with a boolean on every document and
every path, except that it fails with the index-syntax error when a step on an
array is no index and with the unknown-modifier error when the last step
begins with one `?` and is no modifier.  The answer is false when the steps
before a step lead to an object that has no member under the step, to an
array in which the step is an index out of range, or to a string, a number, a
boolean, a null or a placeholder (the step being read as a key or an index: it
is not the last one, or does not begin with `?`, or is the last one and
begins with `??`, in which case it is read without the first `?`), and when
the last step is a modifier that the node does not support: `?length` on an
object, a number, a boolean or a null, `?size` or `?keys` on anything but an
object. -/
theorem exists_boolean_or_syntax (doc : Jval) (path : List Str) :
    ((∃ b, json_exists doc path = .ok (.boolean b)) ∨
      (∃ step, json_exists doc path = .error (index_error false step)) ∨
      (∃ step, json_exists doc path = .error (bad_modifier_error step))) ∧
    (∀ pre step key rest node, path = pre ++ step :: rest → descend doc pre = some node →
      (((rest ≠ [] ∨ step.head? ≠ some '?') ∧ key = step) ∨
        (rest = [] ∧ ∃ tail, step = '?' :: '?' :: tail ∧ key = '?' :: tail)) →
      ((∃ val, node = .object val ∧ Tcl_DictObjGet val key = none) ∨
        (∃ val i, node = .array val ∧ array_index false val.length key = .ok i ∧
          (i < 0 ∨ (val.length : Int) ≤ i)) ∨
        is_atomic node = true) →
      json_exists doc path = .ok (.boolean false)) ∧
    (∀ pre step node m, path = pre ++ [step] → descend doc pre = some node →
      step.head? = some '?' → step.tail.head? ≠ some '?' → get_modifier step = .ok m →
      ((m = MODIFIER_LENGTH ∧ (node.type = JSON_OBJECT ∨ node.type = JSON_NUMBER ∨
          node.type = JSON_BOOL ∨ node.type = JSON_NULL)) ∨
        (m = MODIFIER_SIZE ∧ node.type ≠ JSON_OBJECT) ∨
        (m = MODIFIER_KEYS ∧ node.type ≠ JSON_OBJECT)) →
      json_exists doc path = .ok (.boolean false)) := by
  refine ⟨?_, ?_, ?_⟩
  · unfold json_exists
    split
    · exact Or.inl ⟨_, rfl⟩
    · exact resolve_path_exists_cases _ path doc
  · intro pre step key rest node hp hd hkey hcase
    subst hp
    simp only [json_exists, List.append_eq_nil, List.cons_ne_nil, and_false, if_false]
    rcases resolve_path_exists_descend _ pre doc node step rest hd with h | h
    · exact h
    · rw [h, resolve_path_key_exists _ node step key rest hkey,
        resolve_step_exists_false _ node key hcase]
  · intro pre step node m hp hd h1 h2 hm hcase
    subst hp
    simp only [json_exists, List.append_eq_nil, List.cons_ne_nil, and_false, if_false]
    rcases resolve_path_exists_descend _ pre doc node step [] hd with h | h
    · exact h
    · rw [h, resolve_path_modifier _ true node step h1 h2, hm]
      exact apply_modifier_exists_false step node m hcase

theorem exists_boolean_or_syntax_witness :
    json_exists (.object [(['a'], .array [.number ['1']]), (['s'], .string ['x'])])
        [['a'], ['5']] = .ok (.boolean false) ∧
      json_exists (.object [(['a'], .array [.number ['1']]), (['s'], .string ['x'])])
        [['b'], ['c']] = .ok (.boolean false) ∧
      json_exists (.object [(['a'], .array [.number ['1']]), (['s'], .string ['x'])])
        [['s'], ['k']] = .ok (.boolean false) ∧
      json_exists (.object [(['a'], .array [.number ['1']]), (['s'], .string ['x'])])
        [['a'], "?size".toList] = .ok (.boolean false) ∧
      json_exists (.object [(['a'], .array [.number ['1']]), (['s'], .string ['x'])])
        ["??q".toList] = .ok (.boolean false) :=
  ⟨( exists_boolean_or_syntax _ [['a'], ['5']]).2.1 [['a']] ['5'] ['5'] [] (.array [.number ['1']])
      rfl (by decide) (Or.inl ⟨Or.inr (by decide), rfl⟩)
      (Or.inr (Or.inl ⟨_, 5, rfl, by decide, Or.inr (by decide)⟩)),
    ( exists_boolean_or_syntax _ [['b'], ['c']]).2.1 [] ['b'] ['b'] [['c']] _
      rfl rfl (Or.inl ⟨Or.inl (by decide), rfl⟩) (Or.inl ⟨_, rfl, by decide⟩),
    ( exists_boolean_or_syntax _ [['s'], ['k']]).2.1 [['s']] ['k'] ['k'] [] (.string ['x'])
      rfl (by decide) (Or.inl ⟨Or.inr (by decide), rfl⟩) (Or.inr (Or.inr rfl)),
    ( exists_boolean_or_syntax _ [['a'], "?size".toList]).2.2 [['a']] "?size".toList
      (.array [.number ['1']]) MODIFIER_SIZE rfl (by decide) (by decide) (by decide) (by decide)
      (Or.inr (Or.inl ⟨rfl, by decide⟩)),
    ( exists_boolean_or_syntax _ ["??q".toList]).2.1 [] "??q".toList "?q".toList [] _
      rfl rfl (Or.inr ⟨rfl, ['q'], rfl, rfl⟩) (Or.inl ⟨_, rfl, by decide⟩)⟩

end RlJson
